import Mathlib

/-!
# Propagation-based local search over bit-vector DAGs

A shallow embedding of the local-search driver of
`subprojects/bitwuzla-libs/src/ls/ls.cpp` (class `LocalSearch`), together
with the parts of the node interface (`ls/bitvector_node.h`) the driver
calls.  Stateful code is written as explicit state passing over the record
`LocalSearch`; `assert` is an abort (`Err.assertion`); loops whose
termination is not structural carry a fuel argument (`Err.fuel`).
-/

namespace bzla
namespace ls

/-! ## Results of fallible code -/

/-- Ways a call can fail to return: a failed `assert` (or an out-of-range
container access), or an exhausted iteration budget of the model. -/
inductive Err where
  | assertion
  | fuel
deriving DecidableEq, Repr

deriving instance DecidableEq for Except

/-- Unsigned 64-bit wrap-around of the `uint64_t` counters. -/
def u64 (n : Nat) : Nat := n % 2 ^ 64

/-! ## Bit-vector values and domains -/

/-- Modelled from the spec: the `BitVector` value type (`bv/bitvector.h` is
not among the sources): a bit-width and an unsigned value.  The null value
`VALUE()` is the vector of width 0. -/
structure BitVector where
  size : Nat
  val : Nat
deriving DecidableEq, Repr

namespace BitVector

/-- The null bit-vector `BitVector()`. -/
def null : BitVector := ⟨0, 0⟩

def is_null (b : BitVector) : Bool := b.size == 0

/-- A width-1 vector holding 1. -/
def is_true (b : BitVector) : Bool := b.size == 1 && b.val == 1

/-- A width-1 vector holding 0. -/
def is_false (b : BitVector) : Bool := b.size == 1 && b.val == 0

/-- The value is in range for its width. -/
def wf (b : BitVector) : Prop := b.val < 2 ^ b.size

instance (b : BitVector) : Decidable b.wf := by
  unfold wf; exact inferInstance

def mk_true : BitVector := ⟨1, 1⟩

def mk_false : BitVector := ⟨1, 0⟩

def of_bool (c : Bool) : BitVector := if c then mk_true else mk_false

/-- Signed (two's complement) reading of the value. -/
def to_int (b : BitVector) : Int :=
  if b.val < 2 ^ (b.size - 1) then (b.val : Int) else (b.val : Int) - (2 ^ b.size : Nat)

def bvadd (a b : BitVector) : BitVector := ⟨a.size, (a.val + b.val) % 2 ^ a.size⟩

def bvmul (a b : BitVector) : BitVector := ⟨a.size, (a.val * b.val) % 2 ^ a.size⟩

def bvand (a b : BitVector) : BitVector := ⟨a.size, (a.val &&& b.val) % 2 ^ a.size⟩

def bvxor (a b : BitVector) : BitVector := ⟨a.size, (a.val ^^^ b.val) % 2 ^ a.size⟩

def bvnot (a : BitVector) : BitVector := ⟨a.size, 2 ^ a.size - 1 - a.val % 2 ^ a.size⟩

def bveq (a b : BitVector) : BitVector := of_bool (a.val == b.val)

def bvult (a b : BitVector) : BitVector := of_bool (a.val < b.val)

def bvslt (a b : BitVector) : BitVector := of_bool (a.to_int < b.to_int)

/-- Shift left; a shift by the width or more yields zero. -/
def bvshl (a b : BitVector) : BitVector :=
  if b.val ≥ a.size then ⟨a.size, 0⟩ else ⟨a.size, (a.val * 2 ^ b.val) % 2 ^ a.size⟩

/-- Logical shift right; a shift by the width or more yields zero. -/
def bvshr (a b : BitVector) : BitVector :=
  if b.val ≥ a.size then ⟨a.size, 0⟩ else ⟨a.size, a.val / 2 ^ b.val⟩

/-- Arithmetic shift right; a shift by the width or more yields the sign fill. -/
def bvashr (a b : BitVector) : BitVector :=
  if a.val < 2 ^ (a.size - 1) then bvshr a b
  else bvnot (bvshr (bvnot a) b)

/-- Unsigned division; division by zero yields all ones. -/
def bvudiv (a b : BitVector) : BitVector :=
  if b.val = 0 then ⟨a.size, 2 ^ a.size - 1⟩ else ⟨a.size, a.val / b.val⟩

/-- Unsigned remainder; remainder by zero yields the dividend. -/
def bvurem (a b : BitVector) : BitVector :=
  if b.val = 0 then a else ⟨a.size, a.val % b.val⟩

def bvconcat (a b : BitVector) : BitVector := ⟨a.size + b.size, a.val * 2 ^ b.size + b.val⟩

/-- Bits `hi` down to `lo`. -/
def bvextract (a : BitVector) (hi lo : Nat) : BitVector :=
  ⟨hi - lo + 1, (a.val / 2 ^ lo) % 2 ^ (hi - lo + 1)⟩

/-- Sign extension by `n` bits. -/
def bvsext (a : BitVector) (n : Nat) : BitVector :=
  if a.val < 2 ^ (a.size - 1) then ⟨a.size + n, a.val⟩
  else ⟨a.size + n, a.val + (2 ^ n - 1) * 2 ^ a.size⟩

def bvite (c a b : BitVector) : BitVector := if c.is_true then a else b

end BitVector

/-- Modelled from the spec: the constant-bit domain `BitVectorDomain`
(`bitvector_domain.h` is not among the sources), a pair `(lo, hi)`. -/
structure BitVectorDomain where
  lo : BitVector
  hi : BitVector
deriving DecidableEq, Repr

namespace BitVectorDomain

def is_fixed (d : BitVectorDomain) : Bool := d.lo == d.hi

end BitVectorDomain

/-! ## Nodes -/

/-- The enum `BitVectorNode::Kind` of `ls/bitvector_node.h`; `CONST` is the
kind of the base class, that is of inputs. -/
inductive Kind where
  | ADD | AND | ASHR | CONCAT | CONST | EXTRACT | EQ | ITE | MUL | NOT
  | SEXT | SHL | SHR | SLT | UDIV | ULT | UREM | XOR
deriving DecidableEq, Repr

/-- The fields of `BitVectorNode` the driver reads or writes.  Children are
held by id (the source holds pointers to nodes of the same table); the
bounds and the cached inverse and consistent values live in the scratch
state of `NodeOps`. -/
structure BitVectorNode where
  d_id : Nat
  d_kind : Kind
  d_children : List Nat
  d_indices : List Nat
  d_assignment : BitVector
  d_domain : BitVectorDomain
  d_is_const : Bool
  d_all_const : Bool
deriving DecidableEq, Repr

namespace BitVectorNode

def arity (n : BitVectorNode) : Nat := n.d_children.length

/-- An inequality node is a ULT or an SLT node (`ls.h`, `is_ineq_node`). -/
def is_inequality (n : BitVectorNode) : Bool := n.d_kind == Kind.ULT || n.d_kind == Kind.SLT

def is_not (n : BitVectorNode) : Bool := n.d_kind == Kind.NOT

/-- The method `BitVectorNode::set_assignment`. -/
def set_assignment (n : BitVectorNode) (a : BitVector) : BitVectorNode :=
  { n with d_assignment := a }

end BitVectorNode

/-- The enum `LocalSearch::Result`. -/
inductive Result where
  | SAT
  | UNSAT
  | UNKNOWN
deriving DecidableEq, Repr

/-- The counters of `d_statistics` the driver maintains. -/
structure Statistics where
  d_nprops : Nat
  d_nupdates : Nat
  d_nmoves : Nat
  d_nprops_inv : Nat
  d_nprops_cons : Nat
  d_nconf : Nat
deriving DecidableEq, Repr

/-- The fields of `d_options` read by the driver. -/
structure Options where
  use_ineq_bounds : Bool
  prob_pick_inv_value : Nat
deriving DecidableEq, Repr

/-- The struct `LocalSearchMove`: the result of one propagation path; `d_input = none`
is the null pointer of the conflict case. -/
structure LocalSearchMove where
  d_nprops : Nat
  d_nupdates : Nat
  d_input : Option Nat
  d_assignment : BitVector
deriving DecidableEq, Repr

/-- The state of a `LocalSearch` engine.  `σ` is the state the driver never
inspects: the random number generator together with the per-node bounds and
cached values.  Unordered sets are lists of keys, the unordered map of
parents is an association list. -/
structure LocalSearch (σ : Type) where
  d_rng : σ
  d_nodes : List BitVectorNode
  d_roots : List Nat
  d_roots_ineq : List (Nat × Bool)
  d_roots_unsat : List Nat
  d_parents : List (Nat × List Nat)
  d_max_nprops : Nat
  d_max_nupdates : Nat
  d_statistics : Statistics
  d_options : Options
deriving DecidableEq, Repr

/-- The virtual methods of `BitVectorNode` and the generator `RNG`, whose
definitions are not among the sources.  The driver is parametric in them.
Every method but `evaluate` may read the node table and may change the
scratch state `σ` only. -/
structure NodeOps (σ : Type) where
  /-- The value `evaluate()` stores, from the kind, the indices and the
  current assignments of the children. -/
  evaluate : Kind → List Nat → List BitVector → BitVector
  select_path : σ → List BitVectorNode → BitVectorNode → BitVector → Nat × σ
  is_invertible : σ → List BitVectorNode → BitVectorNode → BitVector → Nat → Bool × σ
  is_consistent : σ → List BitVectorNode → BitVectorNode → BitVector → Nat → Bool × σ
  inverse_value : σ → List BitVectorNode → BitVectorNode → BitVector → Nat → BitVector × σ
  consistent_value : σ → List BitVectorNode → BitVectorNode → BitVector → Nat → BitVector × σ
  compute_bounds : σ → List BitVectorNode → BitVectorNode → σ
  pick_with_prob : σ → Nat → Bool × σ
  pick_from_set : σ → List Nat → Nat × σ

/-! ## The driver: node table and accessors -/

section Driver

variable {σ : Type}

/-- The lookup of `get_node` on a node table: the id is in range and the node stored there
carries that id. -/
def get_node_of (nodes : List BitVectorNode) (id : Nat) : Except Err BitVectorNode :=
  match nodes[id]? with
  | none => .error .assertion
  | some nd => if nd.d_id = id then .ok nd else .error .assertion

/-- The method `LocalSearch::get_node`. -/
def get_node (s : LocalSearch σ) (id : Nat) : Except Err BitVectorNode :=
  get_node_of s.d_nodes id

/-- The current assignment of the node with the given id, as read through a
child pointer. -/
def assignment_of (nodes : List BitVectorNode) (id : Nat) : BitVector :=
  match nodes[id]? with
  | none => BitVector.null
  | some nd => nd.d_assignment

/-- The current assignments of the children of a node, in order. -/
def child_assignments (nodes : List BitVectorNode) (nd : BitVectorNode) : List BitVector :=
  nd.d_children.map (assignment_of nodes)

/-- The value `evaluate()` computes for a node in the current table. -/
def eval_node (ops : NodeOps σ) (nodes : List BitVectorNode) (nd : BitVectorNode) : BitVector :=
  ops.evaluate nd.d_kind nd.d_indices (child_assignments nodes nd)

/-- The call `cur->evaluate()`: a no-op for the base class (kind `CONST`), otherwise
the assignment is recomputed from the children. -/
def evaluate (ops : NodeOps σ) (nodes : List BitVectorNode) (cur : BitVectorNode) :
    List BitVectorNode :=
  if cur.d_kind = Kind.CONST then nodes
  else nodes.set cur.d_id (cur.set_assignment (eval_node ops nodes cur))

/-- The method `LocalSearch::get_assignment`. -/
def get_assignment (s : LocalSearch σ) (id : Nat) : Except Err BitVector :=
  if s.d_nodes.length ≤ id then .error .assertion
  else
    match get_node s id with
    | .ok nd => .ok nd.d_assignment
    | .error e => .error e

/-- The method `LocalSearch::set_assignment`: the assignment of the node is overwritten;
nothing else is touched. -/
def set_assignment (s : LocalSearch σ) (id : Nat) (assignment : BitVector) :
    Except Err (LocalSearch σ) :=
  if s.d_nodes.length ≤ id then .error .assertion
  else
    match get_node s id with
    | .ok nd => .ok { s with d_nodes := s.d_nodes.set id (nd.set_assignment assignment) }
    | .error e => .error e

/-- The method `LocalSearch::is_leaf_node`. -/
def is_leaf_node (nd : BitVectorNode) : Bool := nd.arity == 0

/-- The method `LocalSearch::is_root_node`: the node has an entry in the parents map and
that entry is empty. -/
def is_root_node (s : LocalSearch σ) (nd : BitVectorNode) : Except Err Bool :=
  match s.d_parents.lookup nd.d_id with
  | none => .error .assertion
  | some ps => .ok ps.isEmpty

/-- The method `LocalSearch::is_ineq_root`. -/
def is_ineq_root (s : LocalSearch σ) (nd : BitVectorNode) : Bool :=
  (s.d_roots_ineq.lookup nd.d_id).isSome

/-- The method `LocalSearch::all_roots_sat` (`ls.h`). -/
def all_roots_sat (s : LocalSearch σ) : Bool := s.d_roots_unsat.isEmpty

/-- The method `LocalSearch::get_num_roots_unsat` (`ls.h`), a `uint32_t`. -/
def get_num_roots_unsat (s : LocalSearch σ) : Nat := s.d_roots_unsat.length % 2 ^ 32

/-- The method `LocalSearch::update_unsat_roots`. -/
def update_unsat_roots (s : LocalSearch σ) (root : BitVectorNode) : Except Err (LocalSearch σ) :=
  match is_root_node s root with
  | .error e => .error e
  | .ok false => .error .assertion
  | .ok true =>
    let id := root.d_id
    if id ∈ s.d_roots_unsat then
      if root.d_assignment.is_true then
        .ok { s with d_roots_unsat := s.d_roots_unsat.filter (fun x => x != id) }
      else .ok s
    else if root.d_assignment.is_false then
      .ok { s with d_roots_unsat := s.d_roots_unsat ++ [id] }
    else .ok s

/-- Insertion into the unordered map `d_roots_ineq`: an existing key keeps
its value. -/
def roots_ineq_insert (m : List (Nat × Bool)) (k : Nat) (b : Bool) : List (Nat × Bool) :=
  if (m.lookup k).isSome then m else m ++ [(k, b)]

/-- The two conditional insertions into `d_roots_ineq` of `register_root`:
the root itself when it is an inequality, and the child of a NOT root when
that child is an inequality. -/
def register_ineq (s : LocalSearch σ) (id : Nat) (root : BitVectorNode) :
    Except Err (LocalSearch σ) :=
  let s2 := if root.is_inequality
    then { s with d_roots_ineq := roots_ineq_insert s.d_roots_ineq id true }
    else s
  if !root.is_not then .ok s2
  else
    match root.d_children with
    | [] => .error .assertion
    | c :: _ =>
      match get_node s2 c with
      | .error e => .error e
      | .ok child =>
        .ok (if child.is_inequality
          then { s2 with d_roots_ineq := roots_ineq_insert s2.d_roots_ineq c false }
          else s2)

/-- The method `LocalSearch::register_root`. -/
def register_root (s : LocalSearch σ) (id : Nat) : Except Err (LocalSearch σ) :=
  if s.d_nodes.length ≤ id then .error .assertion
  else
    match get_node s id with
    | .error e => .error e
    | .ok root =>
      match register_ineq { s with d_roots := s.d_roots ++ [id] } id root with
      | .error e => .error e
      | .ok s3 => update_unsat_roots s3 root

/-! ## Cone of influence -/

/-- The debug check of `update_cone`: every id in the unsat-root set is a
node whose assignment is false. -/
def check_unsat_false (s : LocalSearch σ) : Bool :=
  s.d_roots_unsat.all (fun id =>
    match get_node s id with
    | .ok nd => nd.d_assignment.is_false
    | .error _ => false)

/-- Pushing `get_node(p)` for every parent `p` onto the stack `to_visit`
(the head of the list is the back of the vector). -/
def push_parents (nodes : List BitVectorNode) (ps : List Nat) (to_visit : List Nat) :
    Except Err (List Nat) :=
  if ps.all (fun p => match get_node_of nodes p with | .ok _ => true | .error _ => false)
  then .ok (ps.reverse ++ to_visit)
  else .error .assertion

/-- The `while (!to_visit.empty())` loop of `update_cone`; returns the vector
`cone` in the order the nodes were first visited. -/
def cone_loop (parents : List (Nat × List Nat)) (nodes : List BitVectorNode) :
    Nat → List Nat → List Nat → List Nat → Except Err (List Nat)
  | _, [], _, cone => .ok cone
  | 0, _ :: _, _, _ => .error .fuel
  | fuel + 1, cur :: rest, visited, cone =>
    if cur ∈ visited then cone_loop parents nodes fuel rest visited cone
    else
      match parents.lookup cur with
      | none => .error .assertion
      | some ps =>
        match push_parents nodes ps rest with
        | .error e => .error e
        | .ok to_visit => cone_loop parents nodes fuel to_visit (cur :: visited) (cone ++ [cur])

/-- A number of iterations the loop of `update_cone` cannot exceed: the
initial stack plus one push for every edge of the parents map. -/
def cone_fuel (parents : List (Nat × List Nat)) (ps : List Nat) : Nat :=
  ps.length + (parents.map (fun e => e.2.length)).sum

/-- The `for (uint64_t id : cone)` loop of `update_cone`. -/
def update_cone_eval (ops : NodeOps σ) :
    List Nat → LocalSearch σ → Nat → Except Err (Nat × LocalSearch σ)
  | [], s, nupdates => .ok (nupdates, s)
  | id :: rest, s, nupdates =>
    match get_node s id with
    | .error e => .error e
    | .ok cur =>
      let s1 := { s with d_nodes := evaluate ops s.d_nodes cur }
      match get_node s1 id with
      | .error e => .error e
      | .ok cur1 =>
        match is_root_node s1 cur1 with
        | .error e => .error e
        | .ok false => update_cone_eval ops rest s1 (u64 (nupdates + 1))
        | .ok true =>
          match update_unsat_roots s1 cur1 with
          | .error e => .error e
          | .ok s2 => update_cone_eval ops rest s2 (u64 (nupdates + 1))

/-- The method `LocalSearch::update_cone`, for the node with id `id`. -/
def update_cone (ops : NodeOps σ) (s : LocalSearch σ) (id : Nat) (assignment : BitVector) :
    Except Err (Nat × LocalSearch σ) :=
  match get_node s id with
  | .error e => .error e
  | .ok node =>
    if !is_leaf_node node then .error .assertion
    else if !check_unsat_false s then .error .assertion
    else if node.d_assignment = assignment then .ok (0, s)
    else
      let s1 := { s with d_nodes := s.d_nodes.set id (node.set_assignment assignment) }
      match s1.d_parents.lookup id with
      | none => .error .assertion
      | some ps =>
        match push_parents s1.d_nodes ps [] with
        | .error e => .error e
        | .ok to_visit =>
          match cone_loop s1.d_parents s1.d_nodes (cone_fuel s1.d_parents ps) to_visit [] [] with
          | .error e => .error e
          | .ok cone =>
            match get_node s1 id with
            | .error e => .error e
            | .ok node1 =>
              match is_root_node s1 node1 with
              | .error e => .error e
              | .ok r =>
                match (if r then update_unsat_roots s1 node1 else .ok s1) with
                | .error e => .error e
                | .ok s2 =>
                  match update_cone_eval ops (cone.insertionSort (fun a b => a ≤ b)) s2 1 with
                  | .error e => .error e
                  | .ok (nupdates, s3) =>
                    if check_unsat_false s3 then .ok (nupdates, s3) else .error .assertion

/-! ## Moves -/

/-- The conflict result of `select_move`: no input, the null value. -/
def conflict_move (nprops : Nat) : LocalSearchMove := ⟨nprops, 0, none, BitVector.null⟩

/-- The step `if (d_options.use_ineq_bounds) compute_bounds(cur)`: the
scratch state afterwards. -/
def bounds_step (ops : NodeOps σ) (s : LocalSearch σ) (cur : BitVectorNode) : σ :=
  if s.d_options.use_ineq_bounds then ops.compute_bounds s.d_rng s.d_nodes cur else s.d_rng

/-- The condition `d_rng->pick_with_prob(prob_pick_inv_value) &&
cur->is_invertible(t, pos_x)`; the second operand is evaluated only when
the first is true. -/
def pick_inverse (ops : NodeOps σ) (s : LocalSearch σ) (cur : BitVectorNode) (t : BitVector)
    (pos_x : Nat) (g : σ) : Bool × σ :=
  let pick := ops.pick_with_prob g s.d_options.prob_pick_inv_value
  if pick.1 then ops.is_invertible pick.2 s.d_nodes cur t pos_x else (false, pick.2)

/-- One pass through the body of the loop of `select_move` at an operator
node that is not constant: bounds, path selection, value selection.  The
result is the operand position and the new target, or `none` on a
conflict. -/
def select_value (ops : NodeOps σ) (s : LocalSearch σ) (cur : BitVectorNode) (t : BitVector) :
    Except Err (Option (Nat × BitVector) × LocalSearch σ) :=
  if cur.d_domain.is_fixed then .error .assertion
  else
    let sel := ops.select_path (bounds_step ops s cur) s.d_nodes cur t
    let pos_x := sel.1
    if cur.arity ≤ pos_x then .error .assertion
    else
      let inv := pick_inverse ops s cur t pos_x sel.2
      if inv.1 then
        let v := ops.inverse_value inv.2 s.d_nodes cur t pos_x
        .ok (some (pos_x, v.1), { s with
          d_rng := v.2
          d_statistics := { s.d_statistics with
            d_nprops_inv := u64 (s.d_statistics.d_nprops_inv + 1) } })
      else
        let cons := ops.is_consistent inv.2 s.d_nodes cur t pos_x
        if cons.1 then
          let v := ops.consistent_value cons.2 s.d_nodes cur t pos_x
          .ok (some (pos_x, v.1), { s with
            d_rng := v.2
            d_statistics := { s.d_statistics with
              d_nprops_cons := u64 (s.d_statistics.d_nprops_cons + 1) } })
        else
          .ok (none, { s with
            d_rng := cons.2
            d_statistics := { s.d_statistics with
              d_nconf := u64 (s.d_statistics.d_nconf + 1) } })

/-- The `for (;;)` loop of `LocalSearch::select_move`, started at `cur`
with target `t` and `nprops` propagations done. -/
def select_move_loop (ops : NodeOps σ) :
    Nat → LocalSearch σ → BitVectorNode → BitVector → Nat →
    Except Err (LocalSearchMove × LocalSearch σ)
  | 0, _, _, _, _ => .error .fuel
  | fuel + 1, s, cur, t, nprops =>
    if cur.arity = 0 then .ok (⟨nprops, 0, some cur.d_id, t⟩, s)
    else if cur.d_is_const || cur.d_all_const then .ok (conflict_move nprops, s)
    else
      match select_value ops s cur t with
      | .error e => .error e
      | .ok (none, s1) => .ok (conflict_move nprops, s1)
      | .ok (some (pos_x, t1), s1) =>
        match get_node_of s.d_nodes (cur.d_children.getD pos_x 0) with
        | .error e => .error e
        | .ok child => select_move_loop ops fuel s1 child t1 (u64 (nprops + 1))

/-- The method `LocalSearch::select_move`. -/
def select_move (ops : NodeOps σ) (fuel : Nat) (s : LocalSearch σ) (root : BitVectorNode)
    (t_root : BitVector) : Except Err (LocalSearchMove × LocalSearch σ) :=
  select_move_loop ops fuel s root t_root 0

/-- The end of `LocalSearch::move`, after the `do … while` loop has left
with an input and a value for it. -/
def move_finish (ops : NodeOps σ) (s : LocalSearch σ) (input : Nat) (assignment : BitVector) :
    Except Err (Result × LocalSearch σ) :=
  if assignment.is_null then .error .assertion
  else
    let s1 := { s with
      d_statistics := { s.d_statistics with d_nmoves := u64 (s.d_statistics.d_nmoves + 1) } }
    match update_cone ops s1 input assignment with
    | .error e => .error e
    | .ok (n, s2) =>
      let s3 := { s2 with
        d_statistics := { s2.d_statistics with
          d_nupdates := u64 (s2.d_statistics.d_nupdates + n) } }
      if s3.d_roots_unsat.isEmpty then .ok (Result.SAT, s3) else .ok (Result.UNKNOWN, s3)

/-- The body of the `do … while` loop of `LocalSearch::move` after the two
budget tests: a root is picked; `retry` is the next iteration of the loop. -/
def move_pick (ops : NodeOps σ) (retry : LocalSearch σ → Except Err (Result × LocalSearch σ))
    (fuel : Nat) (s : LocalSearch σ) : Except Err (Result × LocalSearch σ) :=
  let pick := ops.pick_from_set s.d_rng s.d_roots_unsat
  let s0 := { s with d_rng := pick.2 }
  match get_node s0 pick.1 with
  | .error e => .error e
  | .ok root =>
    if root.d_is_const && root.d_domain.lo.is_false then .ok (Result.UNSAT, s0)
    else
      match select_move ops fuel s0 root BitVector.mk_true with
      | .error e => .error e
      | .ok (m, s1) =>
        let s2 := { s1 with
          d_statistics := { s1.d_statistics with
            d_nprops := u64 (s1.d_statistics.d_nprops + m.d_nprops)
            d_nupdates := u64 (s1.d_statistics.d_nupdates + m.d_nupdates) } }
        match m.d_input with
        | none => retry s2
        | some input => move_finish ops s2 input m.d_assignment

/-- The `do … while (m.d_input == nullptr)` loop of `LocalSearch::move`
together with what follows it. -/
def move_loop (ops : NodeOps σ) : Nat → LocalSearch σ → Except Err (Result × LocalSearch σ)
  | 0, _ => .error .fuel
  | fuel + 1, s =>
    if s.d_max_nprops > 0 ∧ s.d_statistics.d_nprops ≥ s.d_max_nprops then
      .ok (Result.UNKNOWN, s)
    else if s.d_max_nupdates > 0 ∧ s.d_statistics.d_nupdates ≥ s.d_max_nupdates then
      .ok (Result.UNKNOWN, s)
    else move_pick ops (move_loop ops fuel) (fuel + 1) s

/-- The method `LocalSearch::move`. -/
def move (ops : NodeOps σ) (fuel : Nat) (s : LocalSearch σ) :
    Except Err (Result × LocalSearch σ) :=
  if s.d_roots_unsat.isEmpty then .ok (Result.SAT, s) else move_loop ops fuel s

end Driver

/-! ## An instance of the node interface -/

/-- Modelled from the spec: `evaluate()` of every operator kind (§4.1, §4.4;
the definitions in `bitvector_node.cpp` are not among the sources). -/
def eval_kind (k : Kind) (indices : List Nat) (args : List BitVector) : BitVector :=
  let a := args.getD 0 BitVector.null
  let b := args.getD 1 BitVector.null
  let c := args.getD 2 BitVector.null
  match k with
  | .ADD => a.bvadd b
  | .AND => a.bvand b
  | .ASHR => a.bvashr b
  | .CONCAT => a.bvconcat b
  | .CONST => a
  | .EXTRACT => a.bvextract (indices.getD 0 0) (indices.getD 1 0)
  | .EQ => a.bveq b
  | .ITE => BitVector.bvite a b c
  | .MUL => a.bvmul b
  | .NOT => a.bvnot
  | .SEXT => a.bvsext (indices.getD 0 0)
  | .SHL => a.bvshl b
  | .SHR => a.bvshr b
  | .SLT => a.bvslt b
  | .UDIV => a.bvudiv b
  | .ULT => a.bvult b
  | .UREM => a.bvurem b
  | .XOR => a.bvxor b

/-- Modelled from the spec: the membership test mfb of §3, `lo | v = v` and
`v | hi = hi`. -/
def match_fixed_bits (d : BitVectorDomain) (v : BitVector) : Bool :=
  (d.lo.val ||| v.val) == v.val && (v.val ||| d.hi.val) == d.hi.val

/-- Modelled from the spec: the domain of the child at position `pos` of a
node. -/
def child_domain (nodes : List BitVectorNode) (cur : BitVectorNode) (pos : Nat) :
    BitVectorDomain :=
  match nodes[cur.d_children.getD pos 0]? with
  | none => ⟨BitVector.null, BitVector.null⟩
  | some nd => nd.d_domain

/-- Modelled from the spec: a deterministic instance of the node interface
for concrete runs.  Evaluation is `eval_kind`.  Values are offered for NOT
nodes only, where §4.4 gives mfb(x, ~t) for both conditions and ~t is the
one candidate; for every other kind no value is offered (the conflict
case).  The path goes to operand 0.  The generator is a counter: a pick from
a set takes the element at the counter modulo the size. -/
def sample_ops : NodeOps Nat where
  evaluate := eval_kind
  select_path := fun g _ _ _ => (0, g)
  is_invertible := fun g nodes cur t pos =>
    (cur.d_kind == Kind.NOT && match_fixed_bits (child_domain nodes cur pos) t.bvnot, g)
  is_consistent := fun g nodes cur t pos =>
    (cur.d_kind == Kind.NOT && match_fixed_bits (child_domain nodes cur pos) t.bvnot, g)
  inverse_value := fun g _ _ t _ => (t.bvnot, g)
  consistent_value := fun g _ _ t _ => (t.bvnot, g)
  compute_bounds := fun g _ _ => g
  pick_with_prob := fun g p => (decide (g % 1000 < p), g + 1)
  pick_from_set := fun g l => (l.getD (g % l.length) 0, g + 1)


/-! ## Well-formedness of the node graph and the invariants -/

section Invariants

variable {σ : Type}

/-- The node stored at index `i` carries the id `i`. -/
def IdsOK (nodes : List BitVectorNode) : Prop :=
  ∀ (i : Nat) (nd : BitVectorNode), nodes[i]? = some nd → nd.d_id = i

/-- Every child has a smaller id than its parent. -/
def ChildrenBelow (nodes : List BitVectorNode) : Prop :=
  ∀ nd ∈ nodes, ∀ c ∈ nd.d_children, c < nd.d_id

/-- The parents map is the exact inverse of the children relation: every
node has an entry, and `p` is in the entry of `c` exactly when `p` is the id
of a node with child `c`. -/
def ParentsInverse (parents : List (Nat × List Nat)) (nodes : List BitVectorNode) : Prop :=
  (∀ nd ∈ nodes, ∃ ps, parents.lookup nd.d_id = some ps) ∧
  (∀ c ps, parents.lookup c = some ps →
    ∀ p, p ∈ ps ↔ ∃ nd ∈ nodes, nd.d_id = p ∧ c ∈ nd.d_children)

/-- P1: the assignment of every non-input node is the evaluation of its kind
on the current assignments of its children. -/
def P1 (ops : NodeOps σ) (nodes : List BitVectorNode) : Prop :=
  ∀ nd ∈ nodes, nd.d_kind ≠ Kind.CONST → nd.d_assignment = eval_node ops nodes nd

end Invariants


/-- The number of pushes the loop of `update_cone` can still make: the
lengths of the entries of the parents map whose key is not yet visited. -/
def unvisited_weight (parents : List (Nat × List Nat)) (visited : List Nat) : Nat :=
  ((parents.filter (fun e => decide (e.1 ∉ visited))).map (fun e => e.2.length)).sum


/-- The table `nodes2` has the shape of `nodes`: the same length and,
position by position, the same id, kind, children and indices. -/
def SameShape (nodes nodes2 : List BitVectorNode) : Prop :=
  nodes2.length = nodes.length ∧
  ∀ (i : Nat) (m2 : BitVectorNode), nodes2[i]? = some m2 →
    ∃ m, nodes[i]? = some m ∧ m2.d_id = m.d_id ∧ m2.d_children = m.d_children ∧
      m2.d_kind = m.d_kind ∧ m2.d_indices = m.d_indices

/-- The set `A` of ids is closed under the parents of its members, read off
the children lists. -/
def ClosedUnder (nodes : List BitVectorNode) (A : List Nat) : Prop :=
  ∀ m ∈ nodes, ∀ x ∈ m.d_children, x ∈ A → m.d_id ∈ A


/-- The bookkeeping `if (is_root_node(cur)) update_unsat_roots(cur)` that
`update_cone` does for the node with the given id once its assignment is
set. -/
def refresh_root {σ : Type} (s : LocalSearch σ) (id : Nat) : Except Err (LocalSearch σ) :=
  match get_node s id with
  | .error e => .error e
  | .ok cur =>
    match is_root_node s cur with
    | .error e => .error e
    | .ok false => .ok s
    | .ok true => update_unsat_roots s cur


/-- What a propagation path leaves alone: everything but the scratch state
and the counters of propagations, updates and conflicts. -/
def MoveFrame {σ : Type} (s s1 : LocalSearch σ) : Prop :=
  s1.d_nodes = s.d_nodes ∧ s1.d_roots = s.d_roots ∧ s1.d_roots_ineq = s.d_roots_ineq ∧
  s1.d_roots_unsat = s.d_roots_unsat ∧ s1.d_parents = s.d_parents ∧
  s1.d_max_nprops = s.d_max_nprops ∧ s1.d_max_nupdates = s.d_max_nupdates ∧
  s1.d_options = s.d_options ∧ s1.d_statistics.d_nmoves = s.d_statistics.d_nmoves


/-- What a cone update leaves alone: everything but the node table and the
unsat-root set. -/
def ConeFrame {σ : Type} (s s1 : LocalSearch σ) : Prop :=
  s1.d_rng = s.d_rng ∧ s1.d_roots = s.d_roots ∧ s1.d_roots_ineq = s.d_roots_ineq ∧
  s1.d_parents = s.d_parents ∧ s1.d_max_nprops = s.d_max_nprops ∧
  s1.d_max_nupdates = s.d_max_nupdates ∧ s1.d_options = s.d_options ∧
  s1.d_statistics = s.d_statistics


section RootInvariants

variable {σ : Type}

/-- Every registered root is a node without parents. -/
def RootsParentless (s : LocalSearch σ) : Prop :=
  ∀ r ∈ s.d_roots, s.d_parents.lookup r = some []

/-- Every registered root whose assignment is false is in the unsat-root
set. -/
def FalseRootsUnsat (s : LocalSearch σ) : Prop :=
  ∀ r ∈ s.d_roots, ∀ nd, get_node s r = .ok nd → nd.d_assignment.is_false = true →
    r ∈ s.d_roots_unsat

/-- Every id in the unsat-root set is a registered root. -/
def UnsatRegistered (s : LocalSearch σ) : Prop :=
  ∀ id ∈ s.d_roots_unsat, id ∈ s.d_roots

/-- Every node without parents is a registered root. -/
def ParentlessRegistered (s : LocalSearch σ) : Prop :=
  ∀ id, s.d_parents.lookup id = some [] → id ∈ s.d_roots

/-- P3: the unsat-root set is exactly the set of ids of registered roots
whose assignment is false. -/
def P3 (s : LocalSearch σ) : Prop :=
  ∀ id, id ∈ s.d_roots_unsat ↔
    (id ∈ s.d_roots ∧ ∃ nd, get_node s id = .ok nd ∧ nd.d_assignment.is_false = true)

/-- Two states with the same node table, roots, unsat-root set and parents
map. -/
def SameCore (s s1 : LocalSearch σ) : Prop :=
  s1.d_nodes = s.d_nodes ∧ s1.d_roots = s.d_roots ∧ s1.d_roots_unsat = s.d_roots_unsat ∧
  s1.d_parents = s.d_parents

end RootInvariants


section Steps

variable {σ : Type}

/-- Every node without children is an input (kind `CONST`). -/
def LeavesAreInputs (nodes : List BitVectorNode) : Prop :=
  ∀ nd ∈ nodes, nd.d_children = [] → nd.d_kind = Kind.CONST

/-- A well-formed graph: dense ids, children below their parents, the
parents map the exact inverse of the children relation, operators have
operands. -/
def GraphWF (s : LocalSearch σ) : Prop :=
  IdsOK s.d_nodes ∧ ChildrenBelow s.d_nodes ∧ ParentsInverse s.d_parents s.d_nodes ∧
  LeavesAreInputs s.d_nodes

/-- One public call that returns, where `set_assignment` is only used on a
node that is not a registered root. -/
inductive PublicStep (ops : NodeOps σ) : LocalSearch σ → LocalSearch σ → Prop where
  | register_root (s s2 : LocalSearch σ) (id : Nat) :
      register_root s id = .ok s2 → PublicStep ops s s2
  | move (s s2 : LocalSearch σ) (fuel : Nat) (r : Result) :
      move ops fuel s = .ok (r, s2) → PublicStep ops s s2
  | set_assignment (s s2 : LocalSearch σ) (id : Nat) (v : BitVector) :
      id ∉ s.d_roots → set_assignment s id v = .ok s2 → PublicStep ops s s2

/-- A returning `register_root(id)`, or a returning `move()` in a state
where every node without parents is a registered root. -/
inductive RootStep (ops : NodeOps σ) : LocalSearch σ → LocalSearch σ → Prop where
  | register_root (s s2 : LocalSearch σ) (id : Nat) :
      register_root s id = .ok s2 → RootStep ops s s2
  | move (s s2 : LocalSearch σ) (fuel : Nat) (r : Result) :
      ParentlessRegistered s → move ops fuel s = .ok (r, s2) → RootStep ops s s2

/-- A returning `move()`, a returning `register_root(id)`, or a returning
`set_assignment(id, v)` on an input that has no parents. -/
inductive EvalStep (ops : NodeOps σ) : LocalSearch σ → LocalSearch σ → Prop where
  | move (s s2 : LocalSearch σ) (fuel : Nat) (r : Result) :
      move ops fuel s = .ok (r, s2) → EvalStep ops s s2
  | register_root (s s2 : LocalSearch σ) (id : Nat) :
      register_root s id = .ok s2 → EvalStep ops s s2
  | set_assignment (s s2 : LocalSearch σ) (id : Nat) (v : BitVector) (nd : BitVectorNode) :
      get_node s id = .ok nd → nd.d_kind = Kind.CONST → s.d_parents.lookup id = some [] →
      set_assignment s id v = .ok s2 → EvalStep ops s s2

end Steps


/-! ## Small engines for concrete runs -/

/-- The width-1 domain without a fixed bit. -/
def dom_x1 : BitVectorDomain := ⟨⟨1, 0⟩, ⟨1, 1⟩⟩

/-- A width-1 input with the given id and value. -/
def input1 (id v : Nat) : BitVectorNode :=
  ⟨id, Kind.CONST, [], [], ⟨1, v⟩, dom_x1, false, false⟩

/-- A width-1 operator node. -/
def op1 (id : Nat) (k : Kind) (children : List Nat) (v : Nat) : BitVectorNode :=
  ⟨id, k, children, [], ⟨1, v⟩, dom_x1, false, false⟩

/-- A width-1 constant false: the domain is fixed to 0. -/
def const_false1 (id : Nat) : BitVectorNode :=
  ⟨id, Kind.CONST, [], [], ⟨1, 0⟩, ⟨⟨1, 0⟩, ⟨1, 0⟩⟩, true, true⟩

/-- An engine over the given graph with unlimited budgets, zeroed counters
and the given root sets. -/
def engine (nodes : List BitVectorNode) (parents : List (Nat × List Nat)) (rng : Nat)
    (roots unsat : List Nat) : LocalSearch Nat :=
  { d_rng := rng, d_nodes := nodes, d_roots := roots, d_roots_ineq := [],
    d_roots_unsat := unsat, d_parents := parents, d_max_nprops := 0, d_max_nupdates := 0,
    d_statistics := ⟨0, 0, 0, 0, 0, 0⟩, d_options := ⟨false, 990⟩ }

/-- One input `x`. -/
def leaf_nodes (v : Nat) : List BitVectorNode := [input1 0 v]

def leaf_parents : List (Nat × List Nat) := [(0, [])]

/-- The graph `x`, `r = NOT x`, `y = x AND x` with `x = vx`. -/
def fork_nodes (vx vr vy : Nat) : List BitVectorNode :=
  [input1 0 vx, op1 1 Kind.NOT [0] vr, op1 2 Kind.AND [0, 0] vy]

def fork_parents : List (Nat × List Nat) := [(0, [1, 2]), (1, []), (2, [])]

/-- The graph `x`, `r = NOT x`. -/
def not_nodes (vx vr : Nat) : List BitVectorNode := [input1 0 vx, op1 1 Kind.NOT [0] vr]

def not_parents : List (Nat × List Nat) := [(0, [1]), (1, [])]

/-- The graph of a constant false `c` and an input `x`. -/
def pair_nodes (vx : Nat) : List BitVectorNode := [const_false1 0, input1 1 vx]

def pair_parents : List (Nat × List Nat) := [(0, []), (1, [])]


/-! ## Further accessors of the driver -/

section Accessors

variable {σ : Type}

/-- The strict ancestors of `n`: the ids reachable from `n` through the
parents map in one step or more. -/
inductive Ancestor (parents : List (Nat × List Nat)) (n : Nat) : Nat → Prop where
  | parent (ps : List Nat) (p : Nat) :
      parents.lookup n = some ps → p ∈ ps → Ancestor parents n p
  | step (x : Nat) (ps : List Nat) (p : Nat) :
      Ancestor parents n x → parents.lookup x = some ps → p ∈ ps → Ancestor parents n p

/-- A call of the public interface. -/
inductive ApiCall where
  | set_assignment (id : Nat) (v : BitVector)
  | register_root (id : Nat)
  | move
deriving DecidableEq, Repr

/-- A transcript of public calls run on an engine: the results of the
`move()` calls in order, and the final state. -/
def run_calls (ops : NodeOps σ) (fuel : Nat) :
    List ApiCall → LocalSearch σ → Except Err (List Result × LocalSearch σ)
  | [], s => .ok ([], s)
  | ApiCall.set_assignment id v :: rest, s =>
    match set_assignment s id v with
    | .error e => .error e
    | .ok s1 => run_calls ops fuel rest s1
  | ApiCall.register_root id :: rest, s =>
    match register_root s id with
    | .error e => .error e
    | .ok s1 => run_calls ops fuel rest s1
  | ApiCall.move :: rest, s =>
    match move ops fuel s with
    | .error e => .error e
    | .ok (r, s1) =>
      match run_calls ops fuel rest s1 with
      | .error e => .error e
      | .ok (rs, s2) => .ok (r :: rs, s2)

end Accessors


/-- A width-2 input with the given id and value, no bit fixed. -/
def input2 (id v : Nat) : BitVectorNode :=
  ⟨id, Kind.CONST, [], [], ⟨2, v⟩, ⟨⟨2, 0⟩, ⟨2, 3⟩⟩, false, false⟩


/-! ## An instance of the node interface with EQ and NOT -/

/-- Modelled from the spec: the position of the first operand that is not a
constant, 0 when there is none (path selection goes to an operand that is
not constant). -/
def first_non_const (nodes : List BitVectorNode) (cur : BitVectorNode) : Nat :=
  (cur.d_children.findIdx? (fun c =>
    match nodes[c]? with
    | some nd => !nd.d_is_const
    | none => false)).getD 0

/-- Modelled from the spec: the current value `s` of the operand other than
the one at `pos` of a binary node. -/
def sibling_value (nodes : List BitVectorNode) (cur : BitVectorNode) (pos : Nat) : BitVector :=
  assignment_of nodes (cur.d_children.getD (1 - pos) 0)

/-- Modelled from the spec: the invertibility condition of `bitvector_node.h`
for NOT, mfb(x, ~t), and for EQ, mfb(x, s) for t = 1 and
`x_hi != x_lo || x_hi != s` for t = 0; no other kind is covered. -/
def eq_not_invertible (nodes : List BitVectorNode) (cur : BitVectorNode) (t : BitVector)
    (pos : Nat) : Bool :=
  let x := child_domain nodes cur pos
  let sv := sibling_value nodes cur pos
  match cur.d_kind with
  | Kind.NOT => match_fixed_bits x t.bvnot
  | Kind.EQ => if t.is_true then match_fixed_bits x sv else (x.hi != x.lo || x.hi != sv)
  | _ => false

/-- Modelled from the spec: the consistency condition of `bitvector_node.h`
for NOT (the invertibility condition) and for EQ (true). -/
def eq_not_consistent (nodes : List BitVectorNode) (cur : BitVectorNode) (t : BitVector)
    (pos : Nat) : Bool :=
  match cur.d_kind with
  | Kind.NOT => match_fixed_bits (child_domain nodes cur pos) t.bvnot
  | Kind.EQ => true
  | _ => false

/-- Modelled from the spec: an inverse value for NOT, `~t`, and for EQ: `s`
for t = 1, and for t = 0 an end of the domain that differs from `s`. -/
def eq_not_inverse (nodes : List BitVectorNode) (cur : BitVectorNode) (t : BitVector)
    (pos : Nat) : BitVector :=
  let x := child_domain nodes cur pos
  let sv := sibling_value nodes cur pos
  match cur.d_kind with
  | Kind.NOT => t.bvnot
  | Kind.EQ => if t.is_true then sv else if x.lo != sv then x.lo else x.hi
  | _ => BitVector.null

/-- Modelled from the spec: a deterministic instance of the node interface
that offers values for NOT and EQ nodes by the conditions documented in
`bitvector_node.h`; for EQ the consistent value is the lower end of the
domain.  The path goes to the first operand that is not constant.  The
generator is the counter of `sample_ops`. -/
def eq_not_ops : NodeOps Nat where
  evaluate := eval_kind
  select_path := fun g nodes cur _ => (first_non_const nodes cur, g)
  is_invertible := fun g nodes cur t pos => (eq_not_invertible nodes cur t pos, g)
  is_consistent := fun g nodes cur t pos => (eq_not_consistent nodes cur t pos, g)
  inverse_value := fun g nodes cur t pos => (eq_not_inverse nodes cur t pos, g)
  consistent_value := fun g nodes cur t pos =>
    (match cur.d_kind with
     | Kind.NOT => t.bvnot
     | _ => (child_domain nodes cur pos).lo, g)
  compute_bounds := fun g _ _ => g
  pick_with_prob := fun g p => (decide (g % 1000 < p), g + 1)
  pick_from_set := fun g l => (l.getD (g % l.length) 0, g + 1)

/-- The graph `x` (width 2, domain `1x`, value `10`), `a = NOT x`, the
constant `k = 11`, `r = (a = k)` and a width-1 input `y`. -/
def chain_nodes (vy : Nat) : List BitVectorNode :=
  [⟨0, Kind.CONST, [], [], ⟨2, 2⟩, ⟨⟨2, 2⟩, ⟨2, 3⟩⟩, false, false⟩,
   ⟨1, Kind.NOT, [0], [], ⟨2, 1⟩, ⟨⟨2, 0⟩, ⟨2, 3⟩⟩, false, false⟩,
   ⟨2, Kind.CONST, [], [], ⟨2, 3⟩, ⟨⟨2, 3⟩, ⟨2, 3⟩⟩, true, true⟩,
   ⟨3, Kind.EQ, [1, 2], [], ⟨1, 0⟩, dom_x1, false, false⟩,
   input1 4 vy]

def chain_parents : List (Nat × List Nat) := [(0, [1]), (1, [3]), (2, [3]), (3, []), (4, [])]

/-- An engine as `engine`, with the given counters. -/
def engine_stats (nodes : List BitVectorNode) (parents : List (Nat × List Nat)) (rng : Nat)
    (roots unsat : List Nat) (stats : Statistics) : LocalSearch Nat :=
  { engine nodes parents rng roots unsat with d_statistics := stats }


/-- The graph `x`, `a = NOT x`, `b = NOT x`, `r = a AND b`: the node `r` is
reached from `x` along two paths. -/
def diamond_nodes (vx va vb vr : Nat) : List BitVectorNode :=
  [input1 0 vx, op1 1 Kind.NOT [0] va, op1 2 Kind.NOT [0] vb, op1 3 Kind.AND [1, 2] vr]

def diamond_parents : List (Nat × List Nat) := [(0, [1, 2]), (1, [3]), (2, [3]), (3, [])]


/-- Modelled from the spec: subtraction modulo 2^w of the `BitVector` value
type (`bv/bitvector.h` is not among the sources). -/
def BitVector.bvsub (a b : BitVector) : BitVector :=
  ⟨a.size, (a.val + (2 ^ a.size - b.val % 2 ^ a.size)) % 2 ^ a.size⟩

/-- Modelled from the spec: validity of a domain (§3), `~lo | hi` is the
all-ones vector. -/
def BitVectorDomain.is_valid (d : BitVectorDomain) : Bool :=
  (d.lo.bvnot.val ||| d.hi.val) == 2 ^ d.lo.size - 1

/-- Modelled from the spec: the invertibility condition of ADD for `x` at
either position, `mfb(x, t - s)` (§4.4 and the comment on
`BitVectorAdd::is_invertible` in `ls/bitvector_node.h`; the definition in
`bitvector_node.cpp` is not among the sources). -/
def add_is_invertible (x : BitVectorDomain) (s t : BitVector) : Bool :=
  match_fixed_bits x (t.bvsub s)

/-- Modelled from the spec: the invertibility condition of AND for `x` at
either position, `(t & s) = t` and `((s & x_hi) & m) = (t & m)` with
`m = ~(x_lo ^ x_hi)` (§4.4 and the comment on `BitVectorAnd::is_invertible`
in `ls/bitvector_node.h`; the definition in `bitvector_node.cpp` is not
among the sources). -/
def and_is_invertible (x : BitVectorDomain) (s t : BitVector) : Bool :=
  let m := (x.lo.bvxor x.hi).bvnot
  (t.bvand s == t) && ((s.bvand x.hi).bvand m == t.bvand m)


/-! ## Invertibility conditions of the operator nodes -/

/-- Modelled from the spec: the all-ones value of width `w` (`bv/bitvector.h`
is not among the sources). -/
def BitVector.ones (w : Nat) : BitVector := ⟨w, 2 ^ w - 1⟩

/-- Modelled from the spec: the zero value of width `w`. -/
def BitVector.zero (w : Nat) : BitVector := ⟨w, 0⟩

/-- Modelled from the spec: bit `i` of a value. -/
def BitVector.bit (a : BitVector) (i : Nat) : Bool := a.val.testBit i

/-- Modelled from the spec: bit `i` of the domain is fixed to 1 (§3,
`lo[i] = hi[i] = 1`). -/
def BitVectorDomain.is_fixed_bit_true (d : BitVectorDomain) (i : Nat) : Bool :=
  d.lo.bit i && d.hi.bit i

/-- Modelled from the spec: bit `i` of the domain is fixed to 0 (§3,
`lo[i] = hi[i] = 0`). -/
def BitVectorDomain.is_fixed_bit_false (d : BitVectorDomain) (i : Nat) : Bool :=
  !d.lo.bit i && !d.hi.bit i

/-- Modelled from the spec: the invertibility condition of EQ for `x` at
either position, `t = 1 => mfb(x, s)` and `t = 0 => x_hi != x_lo || x_hi != s`
(§4.4 and the comment on `BitVectorEq::is_invertible` in
`ls/bitvector_node.h`; the definition in `bitvector_node.cpp` is not among
the sources). -/
def eq_is_invertible (x : BitVectorDomain) (s t : BitVector) : Bool :=
  (!t.is_true || match_fixed_bits x s) && (!t.is_false || (x.hi != x.lo || x.hi != s))

/-- Modelled from the spec: the invertibility condition of ULT with constant
bits (§4.4 and the comment on `BitVectorUlt::is_invertible` in
`ls/bitvector_node.h`): at position 0 (`x < s`),
`t = 1 => (s != 0 && x_lo < s)` and `t = 0 => x_hi >= s`; at position 1
(`s < x`), `t = 1 => (s != ones && x_hi > s)` and `t = 0 => x_lo <= s`. -/
def ult_is_invertible (x : BitVectorDomain) (s t : BitVector) (pos_x : Nat) : Bool :=
  if pos_x = 0 then
    (!t.is_true || (s != BitVector.zero s.size && decide (x.lo.val < s.val))) &&
      (!t.is_false || decide (x.hi.val ≥ s.val))
  else
    (!t.is_true || (s != BitVector.ones s.size && decide (x.hi.val > s.val))) &&
      (!t.is_false || decide (x.lo.val ≤ s.val))

/-- Modelled from the spec: the invertibility condition of ITE with constant
bits (§4.4 and the comment on `BitVectorIte::is_invertible` in
`ls/bitvector_node.h`).  At position 0 `x` is the condition and `s0`, `s1`
are the values of the two branches; at positions 1 and 2 `x` is a branch
and `s0` is the value of the condition. -/
def ite_is_invertible (x : BitVectorDomain) (s0 s1 t : BitVector) (pos_x : Nat) : Bool :=
  if pos_x = 0 then
    (!x.is_fixed && (s0 == t || s1 == t)) || (x.is_fixed && x.lo.is_true && s0 == t) ||
      (x.is_fixed && x.lo.is_false && s1 == t)
  else if pos_x = 1 then s0.is_true && match_fixed_bits x t
  else s0.is_false && match_fixed_bits x t

/-- Modelled from the spec: the invertibility condition of CONCAT with
constant bits (§4.4 and the comment on `BitVectorConcat::is_invertible` in
`ls/bitvector_node.h`): at position 0 (`x o s`), `s = t[|s|-1:0]` and
`mfb(x, t[w-1:|s|])`; at position 1 (`s o x`), `s = t[w-1:w-|s|]` and
`mfb(x, t[|x|-1:0])`. -/
def concat_is_invertible (x : BitVectorDomain) (s t : BitVector) (pos_x : Nat) : Bool :=
  if pos_x = 0 then
    s == t.bvextract (s.size - 1) 0 && match_fixed_bits x (t.bvextract (t.size - 1) s.size)
  else
    s == t.bvextract (t.size - 1) (t.size - s.size) &&
      match_fixed_bits x (t.bvextract (x.lo.size - 1) 0)


/-- Modelled from the spec: two's complement negation modulo 2^w of the
`BitVector` value type (`bv/bitvector.h` is not among the sources). -/
def BitVector.bvneg (a : BitVector) : BitVector :=
  ⟨a.size, (2 ^ a.size - a.val % 2 ^ a.size) % 2 ^ a.size⟩

/-- Modelled from the spec: bitwise or of the `BitVector` value type. -/
def BitVector.bvor (a b : BitVector) : BitVector := ⟨a.size, (a.val ||| b.val) % 2 ^ a.size⟩

/-- Modelled from the spec: the invertibility condition of UDIV without
constant bits (§4.4 and the comment on `BitVectorUdiv::is_invertible` in
`ls/bitvector_node.h`): at position 0 (`x / s`), `(s * t) / s = t`; at
position 1 (`s / x`), `s / (s / t) = t`. -/
def udiv_is_invertible_wo (s t : BitVector) (pos_x : Nat) : Bool :=
  if pos_x = 0 then (s.bvmul t).bvudiv s == t else s.bvudiv (s.bvudiv t) == t

/-- Modelled from the spec: the invertibility condition of UREM without
constant bits (§4.4 and the comment on `BitVectorUrem::is_invertible` in
`ls/bitvector_node.h`): at position 0 (`x mod s`), `~(-s) >= t`; at
position 1 (`s mod x`), `((t + t - s) & s) >= t`. -/
def urem_is_invertible_wo (s t : BitVector) (pos_x : Nat) : Bool :=
  if pos_x = 0 then decide (s.bvneg.bvnot.val ≥ t.val)
  else decide ((((t.bvadd t).bvsub s).bvand s).val ≥ t.val)

/-- Modelled from the spec: the invertibility condition of MUL without
constant bits (§4.4 and the comment on `BitVectorMul::is_invertible` in
`ls/bitvector_node.h`), `((-s | s) & t) = t`. -/
def mul_is_invertible_wo (s t : BitVector) : Bool :=
  (s.bvneg.bvor s).bvand t == t


/-- Counting the trailing zero bits of `v`, looking at `fuel` bits. -/
def ctz_aux : Nat → Nat → Nat
  | 0, _ => 0
  | fuel + 1, v => if v % 2 = 1 then 0 else ctz_aux fuel (v / 2) + 1

/-- Modelled from the spec: `count_trailing_zeros` of the `BitVector` value
type (`bv/bitvector.h` is not among the sources); the width for zero. -/
def BitVector.ctz (a : BitVector) : Nat := ctz_aux a.size a.val

/-- Modelled from the spec: the modular inverse of §4.1, defined for odd
values, `v^-1 mod 2^w`; computed as the power `v^(2^(w-1) - 1)`. -/
def BitVector.bvmodinv (a : BitVector) : BitVector :=
  ⟨a.size, a.val ^ (2 ^ (a.size - 1) - 1) % 2 ^ a.size⟩

/-- Modelled from the spec: the least significant bit is set. -/
def BitVector.is_odd (a : BitVector) : Bool := a.val % 2 == 1

/-- Modelled from the spec: the domain `x << s`, both bounds shifted. -/
def BitVectorDomain.bvshl (d : BitVectorDomain) (s : BitVector) : BitVectorDomain :=
  ⟨d.lo.bvshl s, d.hi.bvshl s⟩

/-- Modelled from the spec: the invertibility condition of MUL with constant
bits for `x` at either position (§4.4 and the comment on
`BitVectorMul::is_invertible` in `ls/bitvector_node.h`): `IC_wo` and
(`s = 0` or (`odd(s) => mfb(x, t * s^-1)` and
`!odd(s) => mfb(x << c, y << c)`)) with `c = ctz(s)` and
`y = (t >> c) * (s >> c)^-1`. -/
def mul_is_invertible (x : BitVectorDomain) (s t : BitVector) : Bool :=
  let c : BitVector := ⟨s.size, s.ctz⟩
  let y := (t.bvshr c).bvmul (s.bvshr c).bvmodinv
  mul_is_invertible_wo s t &&
    (s == BitVector.zero s.size ||
      ((!s.is_odd || match_fixed_bits x (t.bvmul s.bvmodinv)) &&
       (s.is_odd || match_fixed_bits (x.bvshl c) (y.bvshl c))))

/-- Modelled from the spec: the invertibility condition of SHL with constant
bits (§4.4 and the comment on `BitVectorShl::is_invertible` in
`ls/bitvector_node.h`).  At position 0 (`x << s`): `(t >> s) << s = t` and
`mfb(x << s, t)`.  At position 1 (`s << x`): `ctz(s) <= ctz(t)` and
(`t = 0` or `s << (ctz(t) - ctz(s)) = t`) and
(`t = 0 => (x_hi >= ctz(t) - ctz(s) || s = 0)`) and
(`t != 0 => mfb(x, ctz(t) - ctz(s))`). -/
def shl_is_invertible (x : BitVectorDomain) (s t : BitVector) (pos_x : Nat) : Bool :=
  if pos_x = 0 then (t.bvshr s).bvshl s == t && match_fixed_bits (x.bvshl s) t
  else
    let d : BitVector := ⟨s.size, t.ctz - s.ctz⟩
    decide (s.ctz ≤ t.ctz) &&
      (t == BitVector.zero t.size || s.bvshl d == t) &&
      (!(t == BitVector.zero t.size) ||
        (decide (x.hi.val ≥ d.val) || s == BitVector.zero s.size)) &&
      (t == BitVector.zero t.size || match_fixed_bits x d)

/-- Modelled from the spec: the smallest signed value of width `w`. -/
def BitVector.min_signed (w : Nat) : BitVector := ⟨w, 2 ^ (w - 1)⟩

/-- Modelled from the spec: the largest signed value of width `w`. -/
def BitVector.max_signed (w : Nat) : BitVector := ⟨w, 2 ^ (w - 1) - 1⟩

/-- Signed less-than on values. -/
def BitVector.slt (a b : BitVector) : Bool := decide (a.to_int < b.to_int)

/-- Signed greater-or-equal on values. -/
def BitVector.sge (a b : BitVector) : Bool := decide (b.to_int ≤ a.to_int)

/-- Modelled from the spec: the invertibility condition of SLT with constant
bits (§4.4 and the comment on `BitVectorSlt::is_invertible` in
`ls/bitvector_node.h`), for `x` of width `bw`; `MSB(x) = b` reads: the most
significant bit of the domain is fixed to `b`. -/
def slt_is_invertible (x : BitVectorDomain) (s t : BitVector) (pos_x : Nat) : Bool :=
  let bw := x.lo.size
  let msb0 := x.is_fixed_bit_false (bw - 1)
  let msb1 := x.is_fixed_bit_true (bw - 1)
  let lo1 := BitVector.mk_true.bvconcat (x.lo.bvextract (bw - 2) 0)
  let hi0 := BitVector.mk_false.bvconcat (x.hi.bvextract (bw - 2) 0)
  if pos_x = 0 then
    (!t.is_true || (s != BitVector.min_signed bw &&
      ((msb0 && x.lo.slt s) || (!msb0 && lo1.slt s)))) &&
    (!t.is_false || ((msb1 && x.hi.sge s) || (!msb1 && hi0.sge s)))
  else
    (!t.is_true || (s != BitVector.max_signed bw &&
      ((msb1 && s.slt x.hi) || (!msb1 && s.slt hi0)))) &&
    (!t.is_false || ((msb0 && s.sge x.lo) || (!msb0 && s.sge lo1)))


/-- Bitwise inclusion on the low `n` bits: every bit of `lo` among them is
a bit of `y`, and every bit of `y` among them is a bit of `hi`. -/
def LowIncl (n lo y hi : Nat) : Prop :=
  ∀ k, k < n → (lo.testBit k = true → y.testBit k = true) ∧
    (y.testBit k = true → hi.testBit k = true)


/-- The unsigned value of the signed minimum of a domain `(lo, hi)` of width
`n + 1`: `lo` when the most significant bit is fixed to 0, else
`1 o lo[n-1:0]`. -/
def signed_min_val (n lo hi : Nat) : Nat :=
  if lo < 2 ^ n ∧ hi < 2 ^ n then lo else 2 ^ n + lo % 2 ^ n

/-- The unsigned value of the signed maximum of a domain `(lo, hi)` of width
`n + 1`: `hi` when the most significant bit is fixed to 1, else
`0 o hi[n-1:0]`. -/
def signed_max_val (n lo hi : Nat) : Nat :=
  if 2 ^ n ≤ lo ∧ 2 ^ n ≤ hi then hi else hi % 2 ^ n


/-! ## Consistency conditions of the operator nodes -/

/-- Modelled from the spec: the consistency condition of AND with constant
bits, `t & x_hi = t` (§4.4 and the comment on
`BitVectorAnd::is_consistent` in `ls/bitvector_node.h`; the definition in
`bitvector_node.cpp` is not among the sources). -/
def and_is_consistent (x : BitVectorDomain) (t : BitVector) : Bool :=
  t.bvand x.hi == t

/-- Modelled from the spec: the consistency condition of ULT with constant
bits (§4.4 and the comment on `BitVectorUlt::is_consistent` in
`ls/bitvector_node.h`): at position 0, `t = false || x_lo != ones`; at
position 1, `t = false || x_hi != 0`. -/
def ult_is_consistent (x : BitVectorDomain) (t : BitVector) (pos_x : Nat) : Bool :=
  if pos_x = 0 then t.is_false || x.lo != BitVector.ones x.lo.size
  else t.is_false || x.hi != BitVector.zero x.hi.size

/-- Modelled from the spec: the consistency condition of CONCAT with
constant bits, `mfb(x, tx)` (§4.4 and the comment on
`BitVectorConcat::is_consistent` in `ls/bitvector_node.h`): at position 0,
`tx = t[bw(t)-1 : bw(t)-bw(x)]`; at position 1, `tx = t[bw(x)-1 : 0]`. -/
def concat_is_consistent (x : BitVectorDomain) (t : BitVector) (pos_x : Nat) : Bool :=
  if pos_x = 0 then
    match_fixed_bits x (t.bvextract (t.size - 1) (t.size - x.lo.size))
  else match_fixed_bits x (t.bvextract (x.lo.size - 1) 0)

/-- Modelled from the spec: the consistency condition of SHL with constant
bits (§4.4 and the comment on `BitVectorShl::is_consistent` in
`ls/bitvector_node.h`): at position 0, some `y <= ctz(t)` has
`mfb(x << y, t)`; at position 1, `t = 0` or some `y <= ctz(t)` has
`mfb(x, y)`. -/
def shl_is_consistent (x : BitVectorDomain) (t : BitVector) (pos_x : Nat) : Bool :=
  if pos_x = 0 then
    (List.range (t.ctz + 1)).any (fun y => match_fixed_bits (x.bvshl ⟨t.size, y⟩) t)
  else
    t == BitVector.zero t.size ||
      (List.range (t.ctz + 1)).any (fun y => match_fixed_bits x ⟨t.size, y⟩)

/-! ## Domains of `bzlabvprop.h` -/

/-- The struct `BzlaBvDomain` of `bzlabvprop.h`. -/
structure BzlaBvDomain where
  lo : BitVector
  hi : BitVector
deriving DecidableEq, Repr

/-- Modelled from the spec: `bzla_bvprop_is_valid`, declared in
`bzlabvprop.h` with the comment `~lo | hi == ones` (the definition in
`bzlabvprop.c` is not among the sources). -/
def bzla_bvprop_is_valid (d : BzlaBvDomain) : Bool :=
  d.lo.bvnot.bvor d.hi == BitVector.ones d.lo.size

/-- Modelled from the spec: `bzla_bvprop_is_fixed`, declared in
`bzlabvprop.h` with the comment `lo == hi`. -/
def bzla_bvprop_is_fixed (d : BzlaBvDomain) : Bool := d.lo == d.hi

/-- Modelled from the spec: membership of a value in a domain (§3),
`lo | v = v` and `v | hi = hi`. -/
def bzla_bvprop_contains (d : BzlaBvDomain) (v : BitVector) : Bool :=
  d.lo.bvor v == v && v.bvor d.hi == d.hi


/-! ## The keys of the inequality-root map -/

/-- The nodes `register_root` enters in `d_roots_ineq`: the id `k` is the id
of an inequality node that is a registered root, or the first child of a
registered root that is a NOT node. -/
def IneqKey (nodes : List BitVectorNode) (roots : List Nat) (k : Nat) : Prop :=
  ∃ nd, get_node_of nodes k = .ok nd ∧ nd.is_inequality = true ∧
    (k ∈ roots ∨ ∃ r ∈ roots, ∃ root, get_node_of nodes r = .ok root ∧
      root.is_not = true ∧ root.d_children.head? = some k)

/-- The keys of `d_roots_ineq` are exactly the nodes of `IneqKey`. -/
def IneqExact {σ : Type} (s : LocalSearch σ) : Prop :=
  ∀ k, (s.d_roots_ineq.lookup k).isSome = true ↔ IneqKey s.d_nodes s.d_roots k

/-- The graph `x`, `y`, `c = x < y`, `r = NOT c` over width-2 inputs
`x = 1`, `y = 2`. -/
def ineq_nodes : List BitVectorNode :=
  [input2 0 1, input2 1 2, op1 2 Kind.ULT [0, 1] 1, op1 3 Kind.NOT [2] 0]

def ineq_parents : List (Nat × List Nat) := [(0, [2]), (1, [2]), (2, [3]), (3, [])]


/-! ## Counting the conflict steps of a run -/

section ConflictCount

variable {σ : Type}

/-- The condition under which the loop body of `select_move` takes its last
branch: the test `pick_with_prob(...) && is_invertible(t, pos_x)` fails and
`is_consistent(t, pos_x)` fails. -/
def no_value (ops : NodeOps σ) (s : LocalSearch σ) (cur : BitVectorNode) (t : BitVector) :
    Bool :=
  let sel := ops.select_path (bounds_step ops s cur) s.d_nodes cur t
  let inv := pick_inverse ops s cur t sel.1 sel.2
  !inv.1 && !(ops.is_consistent inv.2 s.d_nodes cur t sel.1).1

/-- The number of iterations of the loop of `select_move`, started as
`select_move_loop`, in which no value was selected. -/
def conflict_steps (ops : NodeOps σ) :
    Nat → LocalSearch σ → BitVectorNode → BitVector → Nat
  | 0, _, _, _ => 0
  | fuel + 1, s, cur, t =>
    if cur.arity = 0 then 0
    else if cur.d_is_const || cur.d_all_const then 0
    else
      match select_value ops s cur t with
      | .error _ => 0
      | .ok (none, _) => 1
      | .ok (some (pos_x, t1), s1) =>
        match get_node_of s.d_nodes (cur.d_children.getD pos_x 0) with
        | .error _ => 0
        | .ok child => conflict_steps ops fuel s1 child t1

/-- The number of such iterations over all the paths of one call of the
loop of `move`, started as `move_loop`. -/
def move_loop_conflicts (ops : NodeOps σ) : Nat → LocalSearch σ → Nat
  | 0, _ => 0
  | fuel + 1, s =>
    if s.d_max_nprops > 0 ∧ s.d_statistics.d_nprops ≥ s.d_max_nprops then 0
    else if s.d_max_nupdates > 0 ∧ s.d_statistics.d_nupdates ≥ s.d_max_nupdates then 0
    else
      let pick := ops.pick_from_set s.d_rng s.d_roots_unsat
      let s0 := { s with d_rng := pick.2 }
      match get_node s0 pick.1 with
      | .error _ => 0
      | .ok root =>
        if root.d_is_const && root.d_domain.lo.is_false then 0
        else
          match select_move ops (fuel + 1) s0 root BitVector.mk_true with
          | .error _ => 0
          | .ok (m, s1) =>
            let s2 := { s1 with
              d_statistics := { s1.d_statistics with
                d_nprops := u64 (s1.d_statistics.d_nprops + m.d_nprops)
                d_nupdates := u64 (s1.d_statistics.d_nupdates + m.d_nupdates) } }
            conflict_steps ops (fuel + 1) s0 root BitVector.mk_true +
              (match m.d_input with
               | none => move_loop_conflicts ops fuel s2
               | some _ => 0)

/-- The number of such iterations in one call of `move`. -/
def move_conflicts (ops : NodeOps σ) (fuel : Nat) (s : LocalSearch σ) : Nat :=
  if s.d_roots_unsat.isEmpty then 0 else move_loop_conflicts ops fuel s

/-- The number of such iterations over a transcript of public calls. -/
def run_conflicts (ops : NodeOps σ) (fuel : Nat) : List ApiCall → LocalSearch σ → Nat
  | [], _ => 0
  | ApiCall.set_assignment id v :: rest, s =>
    match set_assignment s id v with
    | .error _ => 0
    | .ok s1 => run_conflicts ops fuel rest s1
  | ApiCall.register_root id :: rest, s =>
    match register_root s id with
    | .error _ => 0
    | .ok s1 => run_conflicts ops fuel rest s1
  | ApiCall.move :: rest, s =>
    match move ops fuel s with
    | .error _ => 0
    | .ok (_, s1) => move_conflicts ops fuel s + run_conflicts ops fuel rest s1

/-- The counter of propagations is the sum of the counters of inverse and
of consistent values, in 64-bit arithmetic. -/
def StatInv (s : LocalSearch σ) : Prop :=
  s.d_statistics.d_nprops = u64 (s.d_statistics.d_nprops_inv + s.d_statistics.d_nprops_cons)

end ConflictCount


/-- Two parents maps that hold, for every node, the same set of parents
enumerated in a possibly different order. -/
def PermParents (p q : List (Nat × List Nat)) : Prop :=
  ∀ x : Nat,
    (∀ ps, p.lookup x = some ps → ∃ qs, q.lookup x = some qs ∧ ps.Perm qs) ∧
    (∀ qs, q.lookup x = some qs → ∃ ps, p.lookup x = some ps ∧ ps.Perm qs)

/-- The diamond graph with the parents of `x` and the entries of the map
enumerated in another order. -/
def diamond_parents_alt : List (Nat × List Nat) := [(3, []), (0, [2, 1]), (2, [3]), (1, [3])]


/-! ## Depth of a node and propagation paths -/

/-- The depth of the node with id `id`, computed with `fuel` levels of
recursion: 0 for a node without children, one more than the largest depth
of a child otherwise. -/
def depth_aux (nodes : List BitVectorNode) : Nat → Nat → Nat
  | 0, _ => 0
  | fuel + 1, id =>
    match nodes[id]? with
    | none => 0
    | some nd =>
      if nd.d_children = [] then 0
      else 1 + (nd.d_children.map (depth_aux nodes fuel)).foldr max 0

/-- The depth of a node in a table whose children have smaller ids than
their parents: `id + 1` levels of recursion reach every descendant. -/
def depth (nodes : List BitVectorNode) (id : Nat) : Nat := depth_aux nodes (id + 1) id

/-- A path of `select_move`: from node `cur` with target `t` in state `s`,
`len` passes through the loop body, each selecting a value and moving to
the child at the selected position, lead to node `leaf` with target `tl` in
state `s2`. -/
inductive SelPath {σ : Type} (ops : NodeOps σ) :
    LocalSearch σ → BitVectorNode → BitVector → Nat →
    LocalSearch σ → BitVectorNode → BitVector → Prop where
  | refl (s : LocalSearch σ) (cur : BitVectorNode) (t : BitVector) :
      SelPath ops s cur t 0 s cur t
  | step (s s1 s2 : LocalSearch σ) (cur child leaf : BitVectorNode) (t t1 tl : BitVector)
      (pos_x len : Nat) :
      cur.arity ≠ 0 → pos_x < cur.arity →
      select_value ops s cur t = .ok (some (pos_x, t1), s1) →
      get_node_of s.d_nodes (cur.d_children.getD pos_x 0) = .ok child →
      SelPath ops s1 child t1 len s2 leaf tl →
      SelPath ops s cur t (len + 1) s2 leaf tl

end ls
end bzla

namespace bzla
namespace type

/-! ## Reference-counted type handles (`type/type.cpp`) -/

/-- Modelled from the spec: the reference counts of the `TypeData` objects
(`type/type_data.h` is not among the sources), indexed by the address of
the object, together with the `Type` handles that exist: a slot is `none`
for a handle that has been destroyed, `some none` for a live handle whose
`d_data` is null and `some (some d)` for a live handle whose `d_data`
points to the object `d`. -/
structure TypeStore where
  refs : Nat → Nat
  handles : List (Option (Option Nat))

/-- Modelled from the spec: `TypeData::inc_ref` (§ on type handles;
`type/type_data.h` is not among the sources): the count of the object grows
by one. -/
def inc_ref (refs : Nat → Nat) (d : Nat) : Nat → Nat :=
  fun x => if x = d then refs x + 1 else refs x

/-- Modelled from the spec: `TypeData::dec_ref`: the count of the object
drops by one. -/
def dec_ref (refs : Nat → Nat) (d : Nat) : Nat → Nat :=
  fun x => if x = d then refs x - 1 else refs x

/-- The member `d_data` of the handle in slot `h`; `none` is the null
pointer. -/
def d_data (w : TypeStore) (h : Nat) : Option Nat := (w.handles.getD h none).getD none

/-- The slot `h` holds a live handle. -/
def is_live (w : TypeStore) (h : Nat) : Bool := (w.handles.getD h none).isSome

/-- The method `Type::is_null`. -/
def is_null (w : TypeStore) (h : Nat) : Bool := (d_data w h).isNone

/-- The statement `if (p) p->inc_ref();`. -/
def inc_if (w : TypeStore) (p : Option Nat) : TypeStore :=
  match p with
  | some d => { w with refs := inc_ref w.refs d }
  | none => w

/-- The statement `if (p) p->dec_ref();`. -/
def dec_if (w : TypeStore) (p : Option Nat) : TypeStore :=
  match p with
  | some d => { w with refs := dec_ref w.refs d }
  | none => w

/-- The assignment `d_data = p` in the handle of slot `h`. -/
def set_data (w : TypeStore) (h : Nat) (p : Option Nat) : TypeStore :=
  { w with handles := w.handles.set h (some p) }

/-- The constructor `Type() = default` (`type.h`): a new handle, in the
next free slot, with `d_data = nullptr`. -/
def default_construct (w : TypeStore) : TypeStore :=
  { w with handles := w.handles ++ [some none] }

/-- The private constructor `Type::Type(TypeData* data)` for a non-null
`data`. -/
def construct (w : TypeStore) (d : Nat) : TypeStore :=
  inc_if { w with handles := w.handles ++ [some (some d)] } (some d)

/-- The destructor `Type::~Type` of the handle in slot `h`; the slot is
dead afterwards. -/
def destroy (w : TypeStore) (h : Nat) : TypeStore :=
  let w1 := dec_if w (d_data w h)
  { w1 with handles := w1.handles.set h none }

/-- The copy constructor `Type::Type(const Type& other)`: the new handle is
in the next free slot. -/
def copy_construct (w : TypeStore) (other : Nat) : TypeStore :=
  let w1 := { w with handles := w.handles ++ [some (d_data w other)] }
  inc_if w1 (d_data w1 w.handles.length)

/-- The first statement of the copy assignment:
`if (other.d_data) other.d_data->inc_ref();`. -/
def copy_assign_inc (w : TypeStore) (other : Nat) : TypeStore := inc_if w (d_data w other)

/-- The copy assignment `Type::operator=(const Type& other)` on the handle
in slot `h`. -/
def copy_assign (w : TypeStore) (h other : Nat) : TypeStore :=
  let w1 := copy_assign_inc w other
  let w2 := dec_if w1 (d_data w1 h)
  set_data w2 h (d_data w2 other)

/-- The move assignment `Type::operator=(Type&& other)` on the handle in
slot `h`. -/
def move_assign (w : TypeStore) (h other : Nat) : TypeStore :=
  let w1 := dec_if w (d_data w h)
  let w2 := set_data w1 h (d_data w1 other)
  set_data w2 other none

/-- The move constructor `Type::Type(Type&& other)`: the new handle, in the
next free slot, starts from the default member initializer
`d_data = nullptr` and runs the body. -/
def move_construct (w : TypeStore) (other : Nat) : TypeStore :=
  move_assign (default_construct w) w.handles.length other

/-- The reference count of every object is the number of live handles whose
`d_data` points to it. -/
def Balanced (w : TypeStore) : Prop :=
  ∀ d : Nat, w.refs d = w.handles.count (some (some d))

/-- A store with one object and the given handles. -/
def store1 (count : Nat) (handles : List (Option (Option Nat))) : TypeStore :=
  { refs := fun x => if x = 0 then count else 0, handles := handles }

end type
end bzla

namespace bzla
namespace ls

/-! ## Normalisation of signed and unsigned bounds -/

/-- The unsigned and signed bounds of a node (`d_min_u`, `d_max_u`,
`d_min_s`, `d_max_s` of `ls/bitvector_node.h`); `none` is the null pointer
of a bound that is not set. -/
structure Bounds where
  min_u : Option BitVector
  max_u : Option BitVector
  min_s : Option BitVector
  max_s : Option BitVector
deriving DecidableEq, Repr

/-- The result parameters of `normalize_bounds`: the lower range, inside
`[min_signed, ones]`, and the upper range, inside `[0, max_signed]`; a
range that covers no value has null bounds. -/
structure NormalizedBounds where
  min_lo : BitVector
  max_lo : BitVector
  min_hi : BitVector
  max_hi : BitVector
deriving DecidableEq, Repr

/-- The value `v` of width `w` lies in the unsigned range of the bounds; a
bound that is not set does not restrict. -/
def Bounds.in_unsigned (b : Bounds) (v : BitVector) : Bool :=
  (match b.min_u with | some m => decide (m.val ≤ v.val) | none => true) &&
  (match b.max_u with | some m => decide (v.val ≤ m.val) | none => true)

/-- The value `v` of width `w` lies in the signed range of the bounds. -/
def Bounds.in_signed (b : Bounds) (v : BitVector) : Bool :=
  (match b.min_s with | some m => decide (m.to_int ≤ v.to_int) | none => true) &&
  (match b.max_s with | some m => decide (v.to_int ≤ m.to_int) | none => true)

/-- An inclusive range as a pair of bounds of width `w`, or the pair of
null bounds when it is empty. -/
def mk_range (w lo hi : Nat) : BitVector × BitVector :=
  if lo ≤ hi then (⟨w, lo⟩, ⟨w, hi⟩) else (BitVector.null, BitVector.null)

/-- The smallest value the unsigned bounds allow: 0 when not set. -/
def Bounds.umin (b : Bounds) : Nat :=
  match b.min_u with | some m => m.val | none => 0

/-- The largest value the unsigned bounds allow: ones when not set. -/
def Bounds.umax (b : Bounds) (w : Nat) : Nat :=
  match b.max_u with | some m => m.val | none => 2 ^ w - 1

/-- The smallest value the signed bounds allow: `min_signed` when not
set. -/
def Bounds.smin (b : Bounds) (w : Nat) : Nat :=
  match b.min_s with | some m => m.val | none => 2 ^ (w - 1)

/-- The largest value the signed bounds allow: `max_signed` when not
set. -/
def Bounds.smax (b : Bounds) (w : Nat) : Nat :=
  match b.max_s with | some m => m.val | none => 2 ^ (w - 1) - 1

/-- Modelled from the spec: `BitVectorNode::normalize_bounds` for a node of
width `w` (§4.6 and the comment on the declaration in
`ls/bitvector_node.h`; the definition in `bitvector_node.cpp` is not among
the sources).  The values allowed by both the unsigned and the signed
bounds are split into the part inside `[min_signed, ones]`, the lower
range, and the part inside `[0, max_signed]`, the upper range. -/
def normalize_bounds (w : Nat) (b : Bounds) : NormalizedBounds :=
  let half := 2 ^ (w - 1)
  let lo :=
    if b.smin w < half then (BitVector.null, BitVector.null)
    else mk_range w (max b.umin (b.smin w))
      (min (b.umax w) (if b.smax w < half then 2 ^ w - 1 else b.smax w))
  let hi :=
    if half ≤ b.smax w then (BitVector.null, BitVector.null)
    else mk_range w (max b.umin (if b.smin w < half then b.smin w else 0))
      (min (b.umax w) (b.smax w))
  ⟨lo.1, lo.2, hi.1, hi.2⟩

/-- The value `v` lies in the inclusive range with the given bounds; no
value lies in a range with a null bound. -/
def in_range (lo hi v : BitVector) : Bool :=
  !lo.is_null && !hi.is_null && decide (lo.val ≤ v.val) && decide (v.val ≤ hi.val)

end ls
end bzla

namespace bzla
namespace fp

/-! ## Values of floating-point terms (`solver/fp/fp_solver.cpp`) -/

/-- The kinds of types `type.cpp` tests for (`TypeData::Kind`). -/
inductive TypeKind where
  | BOOL
  | BV
  | FP
  | RM
  | ARRAY
  | FUN
deriving DecidableEq, Repr

/-- Modelled from the spec: the enum `node::Kind` (`node/node_kind.h` is
not among the sources): the kinds `fp_solver.cpp` names, and `OTHER` for
every other kind. -/
inductive Kind where
  | FP_IS_INF
  | FP_IS_NAN
  | FP_IS_NEG
  | FP_IS_NORM
  | FP_IS_POS
  | FP_IS_SUBNORM
  | FP_IS_ZERO
  | FP_EQUAL
  | FP_LE
  | FP_LT
  | FP_TO_SBV
  | FP_TO_UBV
  | EQUAL
  | OTHER (n : Nat)
deriving DecidableEq, Repr

/-- What `FpSolver::value` reads of a `Node` (`node/node.h`): its kind, the
kind of its type and its children, as indices into the table of terms. -/
structure Node where
  kind : Kind
  type : TypeKind
  children : List Nat
deriving DecidableEq, Repr

/-- The test `type().is_fp() || type().is_rm()`. -/
def is_fp_or_rm (t : TypeKind) : Bool := t == TypeKind.FP || t == TypeKind.RM

/-- The method `FpSolver::is_leaf`. -/
def is_leaf (tbl : List Node) (term : Node) : Bool :=
  term.kind == Kind.FP_IS_INF || term.kind == Kind.FP_IS_NAN ||
  term.kind == Kind.FP_IS_NEG || term.kind == Kind.FP_IS_NORM ||
  term.kind == Kind.FP_IS_POS || term.kind == Kind.FP_IS_SUBNORM ||
  term.kind == Kind.FP_IS_ZERO || term.kind == Kind.FP_EQUAL ||
  term.kind == Kind.FP_LE || term.kind == Kind.FP_LT ||
  term.kind == Kind.FP_TO_SBV || term.kind == Kind.FP_TO_UBV ||
  (term.kind == Kind.EQUAL &&
    (match term.children.head? with
     | none => false
     | some c =>
       match tbl[c]? with
       | none => false
       | some child => is_fp_or_rm child.type))

/-- The `do … while (!visit.empty())` loop of `FpSolver::value`.  The head
of `visit` is the back of the vector; `visited` is the map of the same
name, the first entry of a key being the current one; `cache` is the value
cache of the solver; `solver_value cur` is the bit-vector value the solver
engine returns for the word-blasted `cur`, `none` when the value is not of
bit-vector type.  The result is the map `visited` and the cache when the
loop is left. -/
def value_loop (tbl : List Node) (solver_value : Nat → Option Nat) :
    Nat → List Nat → List (Nat × Bool) → List (Nat × Nat) →
    Except ls.Err (List (Nat × Bool) × List (Nat × Nat))
  | _, [], visited, cache => .ok (visited, cache)
  | 0, _ :: _, _, _ => .error .fuel
  | fuel + 1, cur :: rest, visited, cache =>
    match tbl[cur]? with
    | none => .error .assertion
    | some nd =>
      if !is_fp_or_rm nd.type then .error .assertion
      else if (cache.lookup cur).isSome then value_loop tbl solver_value fuel rest visited cache
      else
        match visited.lookup cur with
        | none =>
          value_loop tbl solver_value fuel
            ((if is_leaf tbl nd then [] else nd.children.reverse) ++ cur :: rest)
            ((cur, false) :: visited) cache
        | some false =>
          match solver_value cur with
          | none => .error .assertion
          | some v =>
            value_loop tbl solver_value fuel rest ((cur, true) :: visited) ((cur, v) :: cache)
        | some true => value_loop tbl solver_value fuel rest visited cache

/-- The method `FpSolver::value`: the cached value of `term` on return
(`none` for a null node) and the cache. -/
def value (tbl : List Node) (solver_value : Nat → Option Nat) (fuel : Nat) (term : Nat)
    (cache : List (Nat × Nat)) : Except ls.Err (Option Nat × List (Nat × Nat)) :=
  match tbl[term]? with
  | none => .error .assertion
  | some nd =>
    if !is_fp_or_rm nd.type then .error .assertion
    else
      match value_loop tbl solver_value fuel [term] [] cache with
      | .error e => .error e
      | .ok (_, c) => .ok (c.lookup term, c)

/-- The number of children of the term with index `x`. -/
def arity_of (tbl : List Node) (x : Nat) : Nat :=
  match tbl[x]? with
  | none => 0
  | some nd => nd.children.length

/-- A bound on the iterations the loop of `FpSolver::value` still needs
for the terms it has not expanded yet: one to expand each and two for each
child pushed. -/
def value_weight (tbl : List Node) (visited : List (Nat × Bool)) : Nat :=
  (((List.range tbl.length).filter (fun x => (visited.lookup x).isNone)).map
    (fun x => 2 * arity_of tbl x + 1)).sum

/-- The terms `c` (Boolean), `a`, `b` (floating-point) and the
floating-point term `ite(c, a, b)`. -/
def ite_terms : List Node :=
  [⟨Kind.OTHER 0, TypeKind.BOOL, []⟩, ⟨Kind.OTHER 0, TypeKind.FP, []⟩,
   ⟨Kind.OTHER 0, TypeKind.FP, []⟩, ⟨Kind.OTHER 1, TypeKind.FP, [0, 1, 2]⟩]

/-- The terms `m` (rounding mode), `a`, `b` (floating-point) and the
floating-point term `add(m, a, b)`. -/
def add_terms : List Node :=
  [⟨Kind.OTHER 0, TypeKind.RM, []⟩, ⟨Kind.OTHER 0, TypeKind.FP, []⟩,
   ⟨Kind.OTHER 0, TypeKind.FP, []⟩, ⟨Kind.OTHER 2, TypeKind.FP, [0, 1, 2]⟩]

end fp
end bzla

namespace bzla
namespace ls

section Construction

variable {σ : Type}

/-- The constructor `LocalSearch::LocalSearch(max_nprops, max_nupdates,
seed)`: the two budgets (`uint64_t`) and the seed (`uint32_t`) are stored,
and `d_rng` is reset to a new `RNG(d_seed)`; the containers start empty and
the counters at zero.  The constructor of `RNG` is not among the sources:
`rng_new` is the state of a generator made from a seed.  The member
`d_options` is not written by the constructor; its initial value is `opts`. -/
def LocalSearch.construct (rng_new : Nat → σ) (opts : Options)
    (max_nprops max_nupdates seed : Nat) : LocalSearch σ :=
  { d_rng := rng_new (seed % 2 ^ 32), d_nodes := [], d_roots := [], d_roots_ineq := [],
    d_roots_unsat := [], d_parents := [], d_max_nprops := max_nprops % 2 ^ 64,
    d_max_nupdates := max_nupdates % 2 ^ 64, d_statistics := ⟨0, 0, 0, 0, 0, 0⟩,
    d_options := opts }

/-- Modelled from the spec: the engine once its nodes are created (§3: the
graph is append-only, every node has a parents set built at construction,
nodes are created before the first move).  The node-creating methods are
defined in no source file; their effect is the node table `nodes` and the
parents map, whose sets an unordered container enumerates in an order of
its own: `parents` is one such enumeration. -/
def with_graph (s : LocalSearch σ) (nodes : List BitVectorNode)
    (parents : List (Nat × List Nat)) : LocalSearch σ :=
  { s with d_nodes := nodes, d_parents := parents }

end Construction

/-- The graph `x`, `a = NOT x`, `b = NOT x`, `c = NOT a`, `d = NOT b` with
the given assignments: `c` and `d` are two roots over the one input `x`. -/
def twin_nodes (vx va vb vc vd : Nat) : List BitVectorNode :=
  [input1 0 vx, op1 1 Kind.NOT [0] va, op1 2 Kind.NOT [0] vb,
   op1 3 Kind.NOT [1] vc, op1 4 Kind.NOT [2] vd]

def twin_parents : List (Nat × List Nat) := [(0, [1, 2]), (1, [3]), (2, [4]), (3, []), (4, [])]

section AccessorLemmas

variable {σ : Type}

theorem get_node_of_ok {nodes : List BitVectorNode} {id : Nat} {nd : BitVectorNode} :
    get_node_of nodes id = .ok nd ↔ nodes[id]? = some nd ∧ nd.d_id = id := by
  unfold get_node_of
  cases h : nodes[id]? with
  | none => simp
  | some x =>
    by_cases hx : x.d_id = id
    · simp only [hx, if_true, Except.ok.injEq, Option.some.injEq]
      constructor
      · intro e; subst e; exact ⟨rfl, hx⟩
      · intro e; exact e.1
    · simp only [hx, if_false, Option.some.injEq]
      constructor
      · intro e; cases e
      · intro e; exact absurd (e.1 ▸ e.2) hx

theorem get_node_of_ne_fuel (nodes : List BitVectorNode) (id : Nat) :
    get_node_of nodes id ≠ .error .fuel := by
  unfold get_node_of
  cases nodes[id]? with
  | none => simp
  | some x => by_cases hx : x.d_id = id <;> simp [hx]

theorem get_node_of_wf {nodes : List BitVectorNode} (hids : IdsOK nodes) {id : Nat}
    {nd : BitVectorNode} (h : nodes[id]? = some nd) : get_node_of nodes id = .ok nd :=
  get_node_of_ok.mpr ⟨h, hids id nd h⟩

theorem mem_of_getElem? {nodes : List BitVectorNode} {i : Nat} {nd : BitVectorNode}
    (h : nodes[i]? = some nd) : nd ∈ nodes := by
  rw [List.getElem?_eq_some] at h
  obtain ⟨hi, e⟩ := h
  exact e ▸ List.getElem_mem hi

theorem getElem?_of_mem {nodes : List BitVectorNode} (hids : IdsOK nodes) {nd : BitVectorNode}
    (h : nd ∈ nodes) : nodes[nd.d_id]? = some nd := by
  obtain ⟨i, hi, e⟩ := List.getElem_of_mem h
  have h1 : nodes[i]? = some nd := by rw [List.getElem?_eq_some]; exact ⟨hi, e⟩
  have h2 := hids i nd h1
  rw [h2]; exact h1

end AccessorLemmas


section UnsatRootsLemmas

variable {σ : Type}

/-- Two states differ at most in the unsat-root set. -/
def SameButUnsat (s s' : LocalSearch σ) : Prop :=
  s' = { s with d_roots_unsat := s'.d_roots_unsat }

theorem sameButUnsat_refl (s : LocalSearch σ) : SameButUnsat s s := rfl

theorem SameButUnsat.nodes {s s' : LocalSearch σ} (h : SameButUnsat s s') :
    s'.d_nodes = s.d_nodes := by rw [h]

theorem SameButUnsat.parents {s s' : LocalSearch σ} (h : SameButUnsat s s') :
    s'.d_parents = s.d_parents := by rw [h]

theorem SameButUnsat.roots {s s' : LocalSearch σ} (h : SameButUnsat s s') :
    s'.d_roots = s.d_roots := by rw [h]

theorem SameButUnsat.statistics {s s' : LocalSearch σ} (h : SameButUnsat s s') :
    s'.d_statistics = s.d_statistics := by rw [h]

/-- What `update_unsat_roots` does when it returns: the node has no parents,
only the membership of its id in the unsat-root set can change, and that
membership follows the assignment. -/
theorem update_unsat_roots_ok {s s' : LocalSearch σ} {root : BitVectorNode}
    (h : update_unsat_roots s root = .ok s') :
    SameButUnsat s s' ∧ s.d_parents.lookup root.d_id = some [] ∧
    (∀ x, x ≠ root.d_id → (x ∈ s'.d_roots_unsat ↔ x ∈ s.d_roots_unsat)) ∧
    (root.d_assignment.is_false = true → root.d_id ∈ s'.d_roots_unsat) ∧
    (root.d_id ∈ s'.d_roots_unsat →
      (root.d_id ∈ s.d_roots_unsat ∧ root.d_assignment.is_true = false) ∨
      root.d_assignment.is_false = true) := by
  unfold update_unsat_roots is_root_node at h
  cases hl : s.d_parents.lookup root.d_id with
  | none => simp [hl] at h
  | some ps =>
    simp only [hl] at h
    cases ps with
    | cons p ps => simp at h
    | nil =>
      simp only [List.isEmpty_nil] at h
      refine ⟨?_, rfl, ?_⟩
      · by_cases hm : root.d_id ∈ s.d_roots_unsat
        · by_cases ht : root.d_assignment.is_true = true
          · simp [hm, ht] at h; subst h; rfl
          · simp [hm, ht] at h; subst h; rfl
        · by_cases hf : root.d_assignment.is_false = true
          · simp [hm, hf] at h; subst h; rfl
          · simp [hm, hf] at h; subst h; rfl
      · by_cases hm : root.d_id ∈ s.d_roots_unsat
        · by_cases ht : root.d_assignment.is_true = true
          · simp only [hm, ht, if_true, Except.ok.injEq] at h
            subst h
            refine ⟨?_, ?_, ?_⟩
            · intro x hx; simp [List.mem_filter, hx]
            · intro hf
              exfalso
              unfold BitVector.is_true at ht
              unfold BitVector.is_false at hf
              simp at ht hf
              omega
            · intro hin; simp [List.mem_filter] at hin
          · simp [hm, ht] at h
            subst h
            refine ⟨fun _ _ => Iff.rfl, fun _ => hm, fun _ => Or.inl ⟨hm, by simpa using ht⟩⟩
        · by_cases hf : root.d_assignment.is_false = true
          · simp only [hm, hf, if_true, if_false, Except.ok.injEq] at h
            subst h
            refine ⟨?_, ?_, fun _ => Or.inr hf⟩
            · intro x hx; simp [hx]
            · intro _; simp
          · simp [hm, hf] at h
            subst h
            exact ⟨fun _ _ => Iff.rfl, fun h' => absurd h' hf, fun h' => absurd h' hm⟩

theorem update_unsat_roots_ne_fuel (s : LocalSearch σ) (root : BitVectorNode) :
    update_unsat_roots s root ≠ .error .fuel := by
  unfold update_unsat_roots is_root_node
  cases hl : s.d_parents.lookup root.d_id with
  | none => simp
  | some ps =>
    cases ps with
    | cons p ps => simp
    | nil =>
      simp only [List.isEmpty_nil]
      split_ifs <;> simp

end UnsatRootsLemmas


section ConeLoopLemmas

theorem push_parents_ok {nodes : List BitVectorNode} {ps stack res : List Nat}
    (h : push_parents nodes ps stack = .ok res) : res = ps.reverse ++ stack := by
  unfold push_parents at h
  split_ifs at h
  simpa using h.symm

theorem push_parents_ne_fuel (nodes : List BitVectorNode) (ps stack : List Nat) :
    push_parents nodes ps stack ≠ .error .fuel := by
  unfold push_parents
  split_ifs <;> simp

theorem unvisited_weight_visit (parents : List (Nat × List Nat)) (visited : List Nat)
    (cur : Nat) (ps : List Nat) (hl : parents.lookup cur = some ps) (hv : cur ∉ visited) :
    unvisited_weight parents (cur :: visited) + ps.length ≤ unvisited_weight parents visited := by
  unfold unvisited_weight
  induction parents with
  | nil => simp at hl
  | cons e rest ih =>
    obtain ⟨k, qs⟩ := e
    by_cases hk : cur = k
    · subst hk
      have hps : qs = ps := by simpa [List.lookup] using hl
      subst hps
      have hmono : ((rest.filter (fun e => decide (e.1 ∉ cur :: visited))).map
            (fun e => e.2.length)).sum ≤
          ((rest.filter (fun e => decide (e.1 ∉ visited))).map (fun e => e.2.length)).sum := by
        clear ih hl
        induction rest with
        | nil => simp
        | cons e2 r2 ih2 =>
          by_cases h1 : e2.1 ∈ visited
          · have h2 : e2.1 ∈ cur :: visited := List.mem_cons_of_mem _ h1
            simpa [List.filter_cons, h1, h2] using ih2
          · by_cases h2 : e2.1 = cur
            · have h3 : e2.1 ∈ cur :: visited := by simp [h2]
              simp only [List.filter_cons, h1, h3, not_true_eq_false, decide_False,
                not_false_eq_true, decide_True, if_true, List.map_cons, List.sum_cons]
              simp only [Bool.false_eq_true, if_false]
              omega
            · have h3 : e2.1 ∉ cur :: visited := by simp [h1, h2]
              simp only [List.filter_cons, h1, h3, not_false_eq_true, decide_True, if_true,
                List.map_cons, List.sum_cons]
              omega
      have h3 : cur ∈ cur :: visited := by simp
      simp only [List.filter_cons, h3, hv, not_true_eq_false, decide_False, not_false_eq_true,
        decide_True, if_true, List.map_cons, List.sum_cons, Bool.false_eq_true, if_false]
      omega
    · have hl2 : rest.lookup cur = some ps := by
        have hbeq : (cur == k) = false := by simpa using hk
        simpa [List.lookup, hbeq] using hl
      have ih2 := ih hl2
      by_cases h1 : k ∈ visited
      · have h2 : k ∈ cur :: visited := List.mem_cons_of_mem _ h1
        simpa [List.filter_cons, h1, h2] using ih2
      · have h3 : k ∉ cur :: visited := by
          simp only [List.mem_cons, not_or]; exact ⟨fun e => hk e.symm, h1⟩
        simp only [List.filter_cons, h1, h3, not_false_eq_true, decide_True, if_true,
          List.map_cons, List.sum_cons]
        omega

/-- The loop of `update_cone` never runs out of iterations when started with
at least as many as there are pending and possible pushes. -/
theorem cone_loop_ne_fuel (parents : List (Nat × List Nat)) (nodes : List BitVectorNode) :
    ∀ (fuel : Nat) (stack visited cone : List Nat),
      stack.length + unvisited_weight parents visited ≤ fuel →
      cone_loop parents nodes fuel stack visited cone ≠ .error .fuel := by
  intro fuel
  induction fuel with
  | zero =>
    intro stack visited cone h
    cases stack with
    | nil => simp [cone_loop]
    | cons c r => simp at h
  | succ n ih =>
    intro stack visited cone h
    cases stack with
    | nil => simp [cone_loop]
    | cons cur rest =>
      rw [cone_loop]
      by_cases hv : cur ∈ visited
      · simp only [hv, if_true]
        apply ih
        simp only [List.length_cons] at h
        omega
      · simp only [hv, if_false]
        cases hl : parents.lookup cur with
        | none => simp
        | some ps =>
          simp only
          cases hp : push_parents nodes ps rest with
          | error e =>
            simp only
            intro he
            have : e = Err.fuel := by simpa using he
            subst this
            exact push_parents_ne_fuel nodes ps rest hp
          | ok st =>
            simp only
            apply ih
            have hst := push_parents_ok hp
            have hw := unvisited_weight_visit parents visited cur ps hl hv
            simp only [List.length_cons] at h
            rw [hst]
            simp only [List.length_append, List.length_reverse]
            omega

/-- The result of the loop of `update_cone` contains what was already in the
cone and what was on the stack, and is closed under the parents map. -/
theorem cone_loop_closed (parents : List (Nat × List Nat)) (nodes : List BitVectorNode) :
    ∀ (fuel : Nat) (stack visited cone res : List Nat),
      cone_loop parents nodes fuel stack visited cone = .ok res →
      (∀ x ∈ visited, x ∈ cone) →
      (∀ x ∈ cone, x ∈ res) ∧ (∀ x ∈ stack, x ∈ res) ∧
      (∀ x ∈ res, x ∉ cone →
        ∃ ps, parents.lookup x = some ps ∧ ∀ p ∈ ps, p ∈ res) := by
  intro fuel
  induction fuel with
  | zero =>
    intro stack visited cone res h hv
    cases stack with
    | nil =>
      simp only [cone_loop, Except.ok.injEq] at h
      subst h
      exact ⟨fun _ hx => hx, fun _ hx => by simp at hx, fun _ hx hn => absurd hx hn⟩
    | cons c r => simp [cone_loop] at h
  | succ n ih =>
    intro stack visited cone res h hv
    cases stack with
    | nil =>
      simp only [cone_loop, Except.ok.injEq] at h
      subst h
      exact ⟨fun _ hx => hx, fun _ hx => by simp at hx, fun _ hx hn => absurd hx hn⟩
    | cons cur rest =>
      rw [cone_loop] at h
      by_cases hc : cur ∈ visited
      · simp only [hc, if_true] at h
        obtain ⟨h1, h2, h3⟩ := ih rest visited cone res h hv
        refine ⟨h1, ?_, h3⟩
        intro x hx
        rcases List.mem_cons.mp hx with e | e
        · subst e; exact h1 _ (hv _ hc)
        · exact h2 _ e
      · simp only [hc, if_false] at h
        cases hl : parents.lookup cur with
        | none => simp [hl] at h
        | some ps =>
          simp only [hl] at h
          cases hp : push_parents nodes ps rest with
          | error e => simp [hp] at h
          | ok st =>
            simp only [hp] at h
            have hst := push_parents_ok hp
            have hv2 : ∀ x ∈ cur :: visited, x ∈ cone ++ [cur] := by
              intro x hx
              rcases List.mem_cons.mp hx with e | e
              · subst e; simp
              · exact List.mem_append_left _ (hv _ e)
            obtain ⟨h1, h2, h3⟩ := ih st (cur :: visited) (cone ++ [cur]) res h hv2
            have hcur : cur ∈ res := h1 _ (by simp)
            refine ⟨fun x hx => h1 _ (List.mem_append_left _ hx), ?_, ?_⟩
            · intro x hx
              rcases List.mem_cons.mp hx with e | e
              · subst e; exact hcur
              · apply h2; rw [hst]; exact List.mem_append_right _ e
            · intro x hx hn
              by_cases e : x = cur
              · subst e
                refine ⟨ps, hl, fun p hp2 => ?_⟩
                apply h2; rw [hst]
                exact List.mem_append_left _ (List.mem_reverse.mpr hp2)
              · apply h3 x hx
                simp only [List.mem_append, List.mem_singleton, not_or]
                exact ⟨hn, e⟩

end ConeLoopLemmas


section ShapeLemmas

variable {σ : Type}

theorem mem_iff_getElem? {nodes : List BitVectorNode} {nd : BitVectorNode} :
    nd ∈ nodes ↔ ∃ i : Nat, nodes[i]? = some nd := by
  constructor
  · intro h
    obtain ⟨i, hi, e⟩ := List.getElem_of_mem h
    exact ⟨i, by rw [List.getElem?_eq_some]; exact ⟨hi, e⟩⟩
  · rintro ⟨i, h⟩
    exact mem_of_getElem? h

theorem sameShape_refl (nodes : List BitVectorNode) : SameShape nodes nodes :=
  ⟨rfl, fun _ m2 hm => ⟨m2, hm, rfl, rfl, rfl, rfl⟩⟩

theorem sameShape_trans {n1 n2 n3 : List BitVectorNode} (h12 : SameShape n1 n2)
    (h23 : SameShape n2 n3) : SameShape n1 n3 := by
  refine ⟨h23.1.trans h12.1, ?_⟩
  intro i m3 hm3
  obtain ⟨m2, h2, e1, e2, e3, e4⟩ := h23.2 i m3 hm3
  obtain ⟨m1, h1, f1, f2, f3, f4⟩ := h12.2 i m2 h2
  exact ⟨m1, h1, e1.trans f1, e2.trans f2, e3.trans f3, e4.trans f4⟩

theorem SameShape.set {nodes : List BitVectorNode} {id : Nat} {nd : BitVectorNode}
    (h : nodes[id]? = some nd) (a : BitVector) :
    SameShape nodes (nodes.set id (nd.set_assignment a)) := by
  refine ⟨List.length_set _ _ _, ?_⟩
  intro i m2 hm
  rw [List.getElem?_set] at hm
  by_cases hi : id = i
  · subst hi
    simp only [if_true] at hm
    split_ifs at hm with hlt
    · simp only [Option.some.injEq] at hm
      subst hm
      exact ⟨nd, h, rfl, rfl, rfl, rfl⟩
  · simp only [hi, if_false] at hm
    exact ⟨m2, hm, rfl, rfl, rfl, rfl⟩

/-- In tables of the same shape every node of the first has its counterpart
in the second. -/
theorem SameShape.back {nodes nodes2 : List BitVectorNode} (h : SameShape nodes nodes2)
    {i : Nat} {m : BitVectorNode} (hm : nodes[i]? = some m) :
    ∃ m2, nodes2[i]? = some m2 ∧ m2.d_id = m.d_id ∧ m2.d_children = m.d_children ∧
      m2.d_kind = m.d_kind ∧ m2.d_indices = m.d_indices := by
  have hi : i < nodes.length := (List.getElem?_eq_some.mp hm).1
  have hi2 : i < nodes2.length := by rw [h.1]; exact hi
  have h2 : nodes2[i]? = some nodes2[i] := List.getElem?_eq_getElem hi2
  obtain ⟨m1, h1, e⟩ := h.2 i _ h2
  rw [hm] at h1
  simp only [Option.some.injEq] at h1
  subst h1
  exact ⟨_, h2, e⟩

theorem SameShape.idsOK {nodes nodes2 : List BitVectorNode} (h : SameShape nodes nodes2)
    (hids : IdsOK nodes) : IdsOK nodes2 := by
  intro i m2 hm
  obtain ⟨m, h1, h2, _⟩ := h.2 i m2 hm
  rw [h2]; exact hids i m h1

theorem SameShape.childrenBelow {nodes nodes2 : List BitVectorNode}
    (h : SameShape nodes nodes2) (hlt : ChildrenBelow nodes) : ChildrenBelow nodes2 := by
  intro m2 hm c hc
  obtain ⟨i, hi⟩ := mem_iff_getElem?.mp hm
  obtain ⟨m, h1, h2, h3, _⟩ := h.2 i m2 hi
  rw [h2]
  exact hlt m (mem_of_getElem? h1) c (h3 ▸ hc)

theorem SameShape.closedUnder {nodes nodes2 : List BitVectorNode}
    (h : SameShape nodes nodes2) {A : List Nat} (hc : ClosedUnder nodes A) :
    ClosedUnder nodes2 A := by
  intro m2 hm x hx hxA
  obtain ⟨i, hi⟩ := mem_iff_getElem?.mp hm
  obtain ⟨m, h1, h2, h3, _⟩ := h.2 i m2 hi
  rw [h2]
  exact hc m (mem_of_getElem? h1) x (h3 ▸ hx) hxA

theorem assignment_of_set_ne (nodes : List BitVectorNode) (id c : Nat) (x : BitVectorNode)
    (h : c ≠ id) : assignment_of (nodes.set id x) c = assignment_of nodes c := by
  unfold assignment_of
  rw [List.getElem?_set_ne (Ne.symm h)]

theorem eval_node_congr (ops : NodeOps σ) (nodes nodes2 : List BitVectorNode)
    (m m2 : BitVectorNode) (hk : m2.d_kind = m.d_kind) (hi : m2.d_indices = m.d_indices)
    (hc : m2.d_children = m.d_children)
    (h : ∀ c ∈ m.d_children, assignment_of nodes2 c = assignment_of nodes c) :
    eval_node ops nodes2 m2 = eval_node ops nodes m := by
  unfold eval_node child_assignments
  rw [hk, hi, hc]
  congr 1
  exact List.map_congr_left h

/-- One `evaluate()` at a node all of whose children have smaller ids, in a
table where everything outside `id :: rest` already satisfies P1, leaves
everything outside `rest` satisfying P1. -/
theorem evaluate_step_P1 (ops : NodeOps σ) (nodes : List BitVectorNode) (id : Nat)
    (cur : BitVectorNode) (done rest : List Nat)
    (hcur : get_node_of nodes id = .ok cur)
    (hsorted : (done ++ id :: rest).Sorted (fun a b => a ≤ b))
    (hids : IdsOK nodes) (hlt : ChildrenBelow nodes)
    (hcl : ClosedUnder nodes (done ++ id :: rest))
    (hinv : ∀ m ∈ nodes, m.d_kind ≠ Kind.CONST → m.d_id ∉ id :: rest →
      m.d_assignment = eval_node ops nodes m) :
    SameShape nodes (evaluate ops nodes cur) ∧
    ∀ m ∈ evaluate ops nodes cur, m.d_kind ≠ Kind.CONST → m.d_id ∉ rest →
      m.d_assignment = eval_node ops (evaluate ops nodes cur) m := by
  obtain ⟨hget, hid⟩ := get_node_of_ok.mp hcur
  unfold evaluate
  by_cases hk : cur.d_kind = Kind.CONST
  · simp only [hk, if_true]
    refine ⟨sameShape_refl _, ?_⟩
    intro m hm hmk hmr
    apply hinv m hm hmk
    intro hmem
    rcases List.mem_cons.mp hmem with e | e
    · have h1 := getElem?_of_mem hids hm
      rw [e, hget] at h1
      simp only [Option.some.injEq] at h1
      subst h1
      exact hmk hk
    · exact hmr e
  · simp only [hk, if_false]
    rw [hid]
    refine ⟨SameShape.set hget _, ?_⟩
    intro m2 hm2 hmk hmr
    obtain ⟨i, hi⟩ := mem_iff_getElem?.mp hm2
    rw [List.getElem?_set] at hi
    by_cases hii : id = i
    · subst hii
      simp only [if_true] at hi
      split_ifs at hi with hlen
      simp only [Option.some.injEq] at hi
      subst hi
      show eval_node ops nodes cur = _
      symm
      apply eval_node_congr ops nodes _ cur _ rfl rfl rfl
      intro c hc
      apply assignment_of_set_ne
      have := hlt cur (mem_of_getElem? hget) c hc
      omega
    · simp only [hii, if_false] at hi
      have hm : m2 ∈ nodes := mem_of_getElem? hi
      have hmid : m2.d_id = i := hids i m2 hi
      have hnot : m2.d_id ∉ id :: rest := by
        intro hmem
        rcases List.mem_cons.mp hmem with e | e
        · exact hii (by omega)
        · exact hmr e
      rw [hinv m2 hm hmk hnot]
      symm
      apply eval_node_congr ops nodes _ m2 _ rfl rfl rfl
      intro c hc
      apply assignment_of_set_ne
      intro hcid
      subst hcid
      have h1 : m2.d_id ∈ done ++ c :: rest := hcl m2 hm c hc (by simp)
      have h2 : c < m2.d_id := hlt m2 hm c hc
      rcases List.mem_append.mp h1 with e | e
      · have h3 := (List.pairwise_append.mp hsorted).2.2 m2.d_id e c (by simp)
        omega
      · exact hnot e

end ShapeLemmas


section ConeEvalLemmas

variable {σ : Type}

theorem is_root_node_ne_fuel (s : LocalSearch σ) (nd : BitVectorNode) :
    is_root_node s nd ≠ .error .fuel := by
  unfold is_root_node
  cases s.d_parents.lookup nd.d_id <;> simp

theorem refresh_root_ne_fuel (s : LocalSearch σ) (id : Nat) :
    refresh_root s id ≠ .error .fuel := by
  unfold refresh_root
  cases hg : get_node s id with
  | error e =>
    intro h
    have : e = Err.fuel := by simpa using h
    subst this
    exact get_node_of_ne_fuel _ _ hg
  | ok cur =>
    simp only
    cases hr : is_root_node s cur with
    | error e =>
      intro h
      have : e = Err.fuel := by simpa using h
      subst this
      exact is_root_node_ne_fuel _ _ hr
    | ok r =>
      cases r
      · simp
      · exact update_unsat_roots_ne_fuel s cur

/-- What the root bookkeeping does when it returns. -/
theorem refresh_root_ok {s s2 : LocalSearch σ} {id : Nat} (h : refresh_root s id = .ok s2) :
    SameButUnsat s s2 ∧ ∃ nd, get_node s id = .ok nd ∧
    (∀ x, x ≠ id → (x ∈ s2.d_roots_unsat ↔ x ∈ s.d_roots_unsat)) ∧
    (s.d_parents.lookup id = some [] → nd.d_assignment.is_false = true →
      id ∈ s2.d_roots_unsat) ∧
    (id ∈ s2.d_roots_unsat → id ∈ s.d_roots_unsat ∨
      (s.d_parents.lookup id = some [] ∧ nd.d_assignment.is_false = true)) := by
  unfold refresh_root at h
  cases hg : get_node s id with
  | error e => simp [hg] at h
  | ok cur =>
    simp only [hg] at h
    have hid : cur.d_id = id := (get_node_of_ok.mp hg).2
    cases hr : is_root_node s cur with
    | error e => simp [hr] at h
    | ok r =>
      simp only [hr] at h
      cases r with
      | false =>
        simp only [Except.ok.injEq] at h
        subst h
        refine ⟨sameButUnsat_refl _, cur, rfl, fun _ _ => Iff.rfl, ?_, fun hx => Or.inl hx⟩
        intro hl
        unfold is_root_node at hr
        rw [hid, hl] at hr
        simp at hr
      | true =>
        simp only at h
        obtain ⟨h1, h2, h3, h4, h5⟩ := update_unsat_roots_ok h
        rw [hid] at h2 h3 h4 h5
        refine ⟨h1, cur, rfl, h3, fun _ hf => h4 hf, ?_⟩
        intro hx
        rcases h5 hx with e | e
        · exact Or.inl e.1
        · exact Or.inr ⟨h2, e⟩

/-- One iteration of the loop over the cone: `evaluate()`, then the root
bookkeeping, then the rest of the loop. -/
theorem update_cone_eval_cons (ops : NodeOps σ) (id : Nat) (rest : List Nat)
    (s : LocalSearch σ) (k : Nat) :
    update_cone_eval ops (id :: rest) s k =
      match get_node s id with
      | .error e => .error e
      | .ok cur =>
        match refresh_root { s with d_nodes := evaluate ops s.d_nodes cur } id with
        | .error e => .error e
        | .ok s2 => update_cone_eval ops rest s2 (u64 (k + 1)) := by
  rw [update_cone_eval]
  cases hg : get_node s id with
  | error e => rfl
  | ok cur =>
    simp only
    unfold refresh_root
    cases hg1 : get_node { s with d_nodes := evaluate ops s.d_nodes cur } id with
    | error e => rfl
    | ok cur1 =>
      simp only
      cases hr : is_root_node { s with d_nodes := evaluate ops s.d_nodes cur } cur1 with
      | error e => rfl
      | ok r =>
        cases r
        · rfl
        · rfl

theorem update_cone_eval_ne_fuel (ops : NodeOps σ) :
    ∀ (l : List Nat) (s : LocalSearch σ) (k : Nat),
      update_cone_eval ops l s k ≠ .error .fuel := by
  intro l
  induction l with
  | nil => intro s k; simp [update_cone_eval]
  | cons id rest ih =>
    intro s k
    rw [update_cone_eval_cons]
    cases hg : get_node s id with
    | error e =>
      intro h
      have : e = Err.fuel := by simpa using h
      subst this
      exact get_node_of_ne_fuel _ _ hg
    | ok cur =>
      simp only
      cases hr : refresh_root { s with d_nodes := evaluate ops s.d_nodes cur } id with
      | error e =>
        intro h
        have : e = Err.fuel := by simpa using h
        subst this
        exact refresh_root_ne_fuel _ _ hr
      | ok s2 => exact ih s2 _

/-- An invariant kept by every single `evaluate()` with its root bookkeeping
is kept by the loop over the cone. -/
theorem update_cone_eval_induct (ops : NodeOps σ) (Q : LocalSearch σ → Prop)
    (hstep : ∀ (s : LocalSearch σ) (id : Nat) (cur : BitVectorNode) (s2 : LocalSearch σ),
      Q s → get_node s id = .ok cur →
      refresh_root { s with d_nodes := evaluate ops s.d_nodes cur } id = .ok s2 → Q s2) :
    ∀ (l : List Nat) (s : LocalSearch σ) (k : Nat) (res : Nat × LocalSearch σ),
      update_cone_eval ops l s k = .ok res → Q s → Q res.2 := by
  intro l
  induction l with
  | nil =>
    intro s k res h hq
    simp only [update_cone_eval, Except.ok.injEq] at h
    subst h
    exact hq
  | cons id rest ih =>
    intro s k res h hq
    rw [update_cone_eval_cons] at h
    cases hg : get_node s id with
    | error e => simp [hg] at h
    | ok cur =>
      simp only [hg] at h
      cases hr : refresh_root { s with d_nodes := evaluate ops s.d_nodes cur } id with
      | error e => simp [hr] at h
      | ok s2 =>
        simp only [hr] at h
        exact ih s2 _ res h (hstep s id cur s2 hq hg hr)

/-- The loop over a sorted, parent-closed cone re-establishes P1. -/
theorem update_cone_eval_P1 (ops : NodeOps σ) :
    ∀ (rest done : List Nat) (s : LocalSearch σ) (k : Nat) (res : Nat × LocalSearch σ),
      update_cone_eval ops rest s k = .ok res →
      (done ++ rest).Sorted (fun a b => a ≤ b) →
      IdsOK s.d_nodes → ChildrenBelow s.d_nodes →
      ClosedUnder s.d_nodes (done ++ rest) →
      (∀ m ∈ s.d_nodes, m.d_kind ≠ Kind.CONST → m.d_id ∉ rest →
        m.d_assignment = eval_node ops s.d_nodes m) →
      P1 ops res.2.d_nodes ∧ SameShape s.d_nodes res.2.d_nodes := by
  intro rest
  induction rest with
  | nil =>
    intro done s k res h _ _ _ _ hinv
    simp only [update_cone_eval, Except.ok.injEq] at h
    subst h
    exact ⟨fun m hm hk => hinv m hm hk (by simp), sameShape_refl _⟩
  | cons id rest ih =>
    intro done s k res h hsorted hids hlt hcl hinv
    rw [update_cone_eval_cons] at h
    cases hg : get_node s id with
    | error e => simp [hg] at h
    | ok cur =>
      simp only [hg] at h
      cases hr : refresh_root { s with d_nodes := evaluate ops s.d_nodes cur } id with
      | error e => simp [hr] at h
      | ok s2 =>
        simp only [hr] at h
        obtain ⟨hshape, hinv2⟩ :=
          evaluate_step_P1 ops s.d_nodes id cur done rest hg hsorted hids hlt hcl hinv
        have hn2 : s2.d_nodes = evaluate ops s.d_nodes cur := (refresh_root_ok hr).1.nodes
        have happ : done ++ [id] ++ rest = done ++ id :: rest := by simp
        have := ih (done ++ [id]) s2 _ res h (by rw [happ]; exact hsorted)
          (by rw [hn2]; exact hshape.idsOK hids)
          (by rw [hn2]; exact hshape.childrenBelow hlt)
          (by rw [hn2, happ]; exact hshape.closedUnder hcl)
          (by rw [hn2]; exact hinv2)
        refine ⟨this.1, ?_⟩
        have h3 := this.2
        rw [hn2] at h3
        exact sameShape_trans hshape h3

end ConeEvalLemmas


section UpdateConeLemmas

variable {σ : Type}

theorem unvisited_weight_nil (parents : List (Nat × List Nat)) :
    unvisited_weight parents [] = (parents.map (fun e => e.2.length)).sum := by
  unfold unvisited_weight
  simp

/-- The shape of a returning call of `update_cone`. -/
theorem update_cone_ok {ops : NodeOps σ} {s : LocalSearch σ} {id : Nat} {v : BitVector}
    {k : Nat} {s' : LocalSearch σ} (h : update_cone ops s id v = .ok (k, s')) :
    ∃ node, get_node s id = .ok node ∧ node.d_children = [] ∧ check_unsat_false s = true ∧
      ((node.d_assignment = v ∧ k = 0 ∧ s' = s) ∨
       (node.d_assignment ≠ v ∧ ∃ ps cone s2,
          s.d_parents.lookup id = some ps ∧
          cone_loop s.d_parents (s.d_nodes.set id (node.set_assignment v))
            (cone_fuel s.d_parents ps) ps.reverse [] [] = .ok cone ∧
          refresh_root { s with d_nodes := s.d_nodes.set id (node.set_assignment v) } id
            = .ok s2 ∧
          update_cone_eval ops (cone.insertionSort (fun a b => a ≤ b)) s2 1 = .ok (k, s') ∧
          check_unsat_false s' = true)) := by
  unfold update_cone at h
  cases hg : get_node s id with
  | error e => simp [hg] at h
  | ok node =>
    simp only [hg] at h
    by_cases hleaf : is_leaf_node node = true
    · simp only [hleaf, Bool.not_true, Bool.false_eq_true, if_false] at h
      have hch : node.d_children = [] := by
        unfold is_leaf_node BitVectorNode.arity at hleaf
        simpa using hleaf
      by_cases hchk : check_unsat_false s = true
      · simp only [hchk, Bool.not_true, Bool.false_eq_true, if_false] at h
        refine ⟨node, rfl, hch, hchk, ?_⟩
        by_cases heq : node.d_assignment = v
        · simp only [heq, if_true, Except.ok.injEq, Prod.mk.injEq] at h
          exact Or.inl ⟨heq, h.1.symm, h.2.symm⟩
        · simp only [heq, if_false] at h
          right
          refine ⟨heq, ?_⟩
          cases hl : s.d_parents.lookup id with
          | none => simp [hl] at h
          | some ps =>
            simp only [hl] at h
            cases hp : push_parents (s.d_nodes.set id (node.set_assignment v)) ps [] with
            | error e => simp [hp] at h
            | ok st =>
              simp only [hp] at h
              have hst := push_parents_ok hp
              simp only [List.append_nil] at hst
              subst hst
              cases hc : cone_loop s.d_parents (s.d_nodes.set id (node.set_assignment v))
                  (cone_fuel s.d_parents ps) ps.reverse [] [] with
              | error e => simp [hc] at h
              | ok cone =>
                simp only [hc] at h
                cases hrr : refresh_root
                    { s with d_nodes := s.d_nodes.set id (node.set_assignment v) } id with
                | error e =>
                  exfalso
                  unfold refresh_root at hrr
                  cases hg1 : get_node
                      { s with d_nodes := s.d_nodes.set id (node.set_assignment v) } id with
                  | error e1 => simp [hg1] at h
                  | ok node1 =>
                    simp only [hg1] at h hrr
                    cases hr : is_root_node
                        { s with d_nodes := s.d_nodes.set id (node.set_assignment v) } node1 with
                    | error e2 => simp [hr] at h
                    | ok r =>
                      simp only [hr] at h hrr
                      cases r with
                      | false => simp at hrr
                      | true =>
                        simp only [if_true] at h
                        simp only at hrr
                        simp [hrr] at h
                | ok s2 =>
                  refine ⟨ps, cone, s2, rfl, hc, rfl, ?_⟩
                  unfold refresh_root at hrr
                  cases hg1 : get_node
                      { s with d_nodes := s.d_nodes.set id (node.set_assignment v) } id with
                  | error e1 => simp [hg1] at h
                  | ok node1 =>
                    simp only [hg1] at h hrr
                    cases hr : is_root_node
                        { s with d_nodes := s.d_nodes.set id (node.set_assignment v) } node1 with
                    | error e2 => simp [hr] at h
                    | ok r =>
                      simp only [hr] at h hrr
                      have hs2 : (if r = true then update_unsat_roots
                          { s with d_nodes := s.d_nodes.set id (node.set_assignment v) } node1
                          else Except.ok
                            { s with d_nodes := s.d_nodes.set id (node.set_assignment v) })
                          = .ok s2 := by
                        cases r with
                        | false => simpa using hrr
                        | true => simpa using hrr
                      simp only [hs2] at h
                      cases he : update_cone_eval ops
                          (cone.insertionSort (fun a b => a ≤ b)) s2 1 with
                      | error e3 => simp [he] at h
                      | ok res =>
                        obtain ⟨n3, s3⟩ := res
                        simp only [he] at h
                        by_cases hc3 : check_unsat_false s3 = true
                        · simp only [hc3, if_true, Except.ok.injEq, Prod.mk.injEq] at h
                          obtain ⟨h1, h2⟩ := h
                          subst h1; subst h2
                          exact ⟨rfl, hc3⟩
                        · simp [hc3] at h
      · simp [hchk] at h
    · simp [hleaf] at h

end UpdateConeLemmas


section UpdateConeP1

variable {σ : Type}

/-- The loop of `update_cone` is given enough iterations: the call never
stops for lack of them. -/
theorem update_cone_ne_fuel (ops : NodeOps σ) (s : LocalSearch σ) (id : Nat) (v : BitVector) :
    update_cone ops s id v ≠ .error .fuel := by
  unfold update_cone
  cases hg : get_node s id with
  | error e =>
    intro h
    have : e = Err.fuel := by simpa using h
    subst this
    exact get_node_of_ne_fuel _ _ hg
  | ok node =>
    simp only
    split_ifs with h1 h2 h3
    · simp
    · simp
    · simp
    · cases hl : s.d_parents.lookup id with
      | none => simp
      | some ps =>
        simp only
        cases hp : push_parents (s.d_nodes.set id (node.set_assignment v)) ps [] with
        | error e =>
          intro h
          have : e = Err.fuel := by simpa using h
          subst this
          exact push_parents_ne_fuel _ _ _ hp
        | ok st =>
          simp only
          have hst := push_parents_ok hp
          cases hc : cone_loop s.d_parents (s.d_nodes.set id (node.set_assignment v))
              (cone_fuel s.d_parents ps) st [] [] with
          | error e =>
            intro h
            have : e = Err.fuel := by simpa using h
            subst this
            refine cone_loop_ne_fuel _ _ _ _ _ _ ?_ hc
            rw [hst, unvisited_weight_nil]
            simp [cone_fuel]
          | ok cone =>
            simp only
            cases hg1 : get_node
                { s with d_nodes := s.d_nodes.set id (node.set_assignment v) } id with
            | error e =>
              intro h
              have : e = Err.fuel := by simpa using h
              subst this
              exact get_node_of_ne_fuel _ _ hg1
            | ok node1 =>
              simp only
              cases hr : is_root_node
                  { s with d_nodes := s.d_nodes.set id (node.set_assignment v) } node1 with
              | error e =>
                intro h
                have : e = Err.fuel := by simpa using h
                subst this
                exact is_root_node_ne_fuel _ _ hr
              | ok r =>
                simp only
                cases hu : (if r = true then update_unsat_roots
                    { s with d_nodes := s.d_nodes.set id (node.set_assignment v) } node1
                    else Except.ok
                      { s with d_nodes := s.d_nodes.set id (node.set_assignment v) }) with
                | error e =>
                  intro h
                  have : e = Err.fuel := by simpa using h
                  subst this
                  cases r with
                  | false => simp at hu
                  | true =>
                    simp only [if_true] at hu
                    exact update_unsat_roots_ne_fuel _ _ hu
                | ok s2 =>
                  simp only
                  cases he : update_cone_eval ops
                      (cone.insertionSort (fun a b => a ≤ b)) s2 1 with
                  | error e =>
                    intro h
                    have : e = Err.fuel := by simpa using h
                    subst this
                    exact update_cone_eval_ne_fuel _ _ _ _ he
                  | ok res =>
                    obtain ⟨n3, s3⟩ := res
                    simp only
                    split_ifs <;> simp

/-- The cone update of an input leaf re-establishes P1 on a well-formed
graph. -/
theorem update_cone_P1 (ops : NodeOps σ) (s : LocalSearch σ) (n : Nat) (v : BitVector)
    (nd : BitVectorNode) (hids : IdsOK s.d_nodes) (hlt : ChildrenBelow s.d_nodes)
    (hpar : ParentsInverse s.d_parents s.d_nodes) (hP1 : P1 ops s.d_nodes)
    (hn : get_node s n = .ok nd) (hin : nd.d_kind = Kind.CONST)
    (k : Nat) (s' : LocalSearch σ) (h : update_cone ops s n v = .ok (k, s')) :
    P1 ops s'.d_nodes ∧ SameShape s.d_nodes s'.d_nodes := by
  obtain ⟨node, hg, _, _, hcase⟩ := update_cone_ok h
  have hnode : node = nd := by
    rw [hn] at hg; simpa using hg.symm
  subst hnode
  rcases hcase with ⟨_, _, e⟩ | ⟨_, ps, cone, s2, hl, hc, hrr, he, _⟩
  · subst e
    exact ⟨hP1, sameShape_refl _⟩
  · obtain ⟨hget, hid⟩ := get_node_of_ok.mp hn
    have hshape : SameShape s.d_nodes (s.d_nodes.set n (node.set_assignment v)) :=
      SameShape.set hget v
    obtain ⟨_, hstack, hclosed⟩ := cone_loop_closed _ _ _ _ _ _ _ hc (by simp)
    have hn2 : s2.d_nodes = s.d_nodes.set n (node.set_assignment v) :=
      (refresh_root_ok hrr).1.nodes
    have hmemsort : ∀ x, x ∈ cone.insertionSort (fun a b => a ≤ b) ↔ x ∈ cone :=
      fun x => List.mem_insertionSort _
    -- parents of the leaf and of every cone member are in the cone
    have hpn : ∀ m ∈ s.d_nodes, n ∈ m.d_children → m.d_id ∈ cone := by
      intro m hm hc2
      apply hstack
      rw [List.mem_reverse]
      exact (hpar.2 n ps hl m.d_id).mpr ⟨m, hm, rfl, hc2⟩
    have hcl : ClosedUnder s.d_nodes (cone.insertionSort (fun a b => a ≤ b)) := by
      intro m hm x hx hxA
      rw [hmemsort] at hxA ⊢
      obtain ⟨qs, hq, hqs⟩ := hclosed x hxA (by simp)
      exact hqs _ ((hpar.2 x qs hq m.d_id).mpr ⟨m, hm, rfl, hx⟩)
    have hinv : ∀ m ∈ s2.d_nodes, m.d_kind ≠ Kind.CONST →
        m.d_id ∉ cone.insertionSort (fun a b => a ≤ b) →
        m.d_assignment = eval_node ops s2.d_nodes m := by
      rw [hn2]
      intro m2 hm2 hk hnot
      obtain ⟨i, hi⟩ := mem_iff_getElem?.mp hm2
      rw [List.getElem?_set] at hi
      by_cases hii : n = i
      · subst hii
        simp only [if_true] at hi
        split_ifs at hi
        simp only [Option.some.injEq] at hi
        subst hi
        exact absurd hin hk
      · simp only [hii, if_false] at hi
        have hm : m2 ∈ s.d_nodes := mem_of_getElem? hi
        rw [hP1 m2 hm hk]
        symm
        apply eval_node_congr ops s.d_nodes _ m2 _ rfl rfl rfl
        intro c hc2
        apply assignment_of_set_ne
        intro hcn
        subst hcn
        exact hnot ((hmemsort _).mpr (hpn m2 hm hc2))
    have hsorted : ([] ++ cone.insertionSort (fun a b => a ≤ b)).Sorted (fun a b => a ≤ b) := by
      simpa using List.sorted_insertionSort (fun a b : Nat => a ≤ b) cone
    have := update_cone_eval_P1 ops _ [] s2 1 (k, s') he hsorted
      (by rw [hn2]; exact hshape.idsOK hids)
      (by rw [hn2]; exact hshape.childrenBelow hlt)
      (by rw [hn2]; simpa using hshape.closedUnder hcl)
      hinv
    refine ⟨this.1, ?_⟩
    have h3 := this.2
    rw [hn2] at h3
    exact sameShape_trans hshape h3

end UpdateConeP1


section MoveLemmas

variable {σ : Type}

theorem moveFrame_refl (s : LocalSearch σ) : MoveFrame s s :=
  ⟨rfl, rfl, rfl, rfl, rfl, rfl, rfl, rfl, rfl⟩

theorem moveFrame_trans {s s1 s2 : LocalSearch σ} (h1 : MoveFrame s s1) (h2 : MoveFrame s1 s2) :
    MoveFrame s s2 := by
  obtain ⟨a1, a2, a3, a4, a5, a6, a7, a8, a9⟩ := h1
  obtain ⟨b1, b2, b3, b4, b5, b6, b7, b8, b9⟩ := h2
  exact ⟨b1.trans a1, b2.trans a2, b3.trans a3, b4.trans a4, b5.trans a5, b6.trans a6,
    b7.trans a7, b8.trans a8, b9.trans a9⟩

theorem select_value_frame (ops : NodeOps σ) (s : LocalSearch σ) (cur : BitVectorNode)
    (t : BitVector) (o : Option (Nat × BitVector)) (s1 : LocalSearch σ)
    (h : select_value ops s cur t = .ok (o, s1)) :
    MoveFrame s s1 ∧ s1.d_statistics.d_nprops = s.d_statistics.d_nprops ∧
    s1.d_statistics.d_nupdates = s.d_statistics.d_nupdates := by
  unfold select_value at h
  simp only at h
  split_ifs at h with h1 h2 h3 h4
  all_goals (
     simp only [Except.ok.injEq, Prod.mk.injEq] at h
     obtain ⟨_, hs⟩ := h
     subst hs
     exact ⟨⟨rfl, rfl, rfl, rfl, rfl, rfl, rfl, rfl, rfl⟩, rfl, rfl⟩)

/-- A propagation path changes neither the node table nor the root sets, and
the input it lands on is a leaf of the table. -/
theorem select_move_loop_frame (ops : NodeOps σ) :
    ∀ (fuel : Nat) (s : LocalSearch σ) (cur : BitVectorNode) (t : BitVector) (n : Nat)
      (m : LocalSearchMove) (s1 : LocalSearch σ),
      select_move_loop ops fuel s cur t n = .ok (m, s1) →
      get_node s cur.d_id = .ok cur →
      (MoveFrame s s1 ∧ s1.d_statistics.d_nprops = s.d_statistics.d_nprops ∧
        s1.d_statistics.d_nupdates = s.d_statistics.d_nupdates) ∧
      m.d_nupdates = 0 ∧
      ∀ i, m.d_input = some i →
        ∃ leaf, get_node s i = .ok leaf ∧ leaf.d_children = [] := by
  intro fuel
  induction fuel with
  | zero => intro s cur t n m s1 h; simp [select_move_loop] at h
  | succ f ih =>
    intro s cur t n m s1 h hcur
    rw [select_move_loop] at h
    by_cases h0 : cur.arity = 0
    · simp only [h0, if_true, Except.ok.injEq, Prod.mk.injEq] at h
      obtain ⟨hm, hs⟩ := h
      subst hm; subst hs
      refine ⟨⟨moveFrame_refl _, rfl, rfl⟩, rfl, ?_⟩
      intro i hi
      simp only [Option.some.injEq] at hi
      subst hi
      exact ⟨cur, hcur, by simpa [BitVectorNode.arity] using h0⟩
    · rw [if_neg h0] at h
      by_cases h1 : (cur.d_is_const || cur.d_all_const) = true
      · rw [if_pos h1] at h
        simp only [Except.ok.injEq, Prod.mk.injEq] at h
        obtain ⟨hm, hs⟩ := h
        subst hm; subst hs
        exact ⟨⟨moveFrame_refl _, rfl, rfl⟩, rfl, fun i hi => by simp [conflict_move] at hi⟩
      · rw [if_neg h1] at h
        cases hv : select_value ops s cur t with
        | error e => simp [hv] at h
        | ok res =>
          obtain ⟨o, sv⟩ := res
          have hf := select_value_frame ops s cur t o sv hv
          cases o with
          | none =>
            simp only [hv, Except.ok.injEq, Prod.mk.injEq] at h
            obtain ⟨hm, hs⟩ := h
            subst hm; subst hs
            exact ⟨hf, rfl, fun i hi => by simp [conflict_move] at hi⟩
          | some pt =>
            obtain ⟨pos_x, t1⟩ := pt
            simp only [hv] at h
            cases hchild : get_node_of s.d_nodes (cur.d_children.getD pos_x 0) with
            | error e => rw [hchild] at h; simp at h
            | ok child =>
              rw [hchild] at h
              simp only at h
              have hc0 := get_node_of_ok.mp hchild
              have hc : get_node sv child.d_id = .ok child := by
                unfold get_node
                rw [hf.1.1]
                exact get_node_of_ok.mpr ⟨by rw [hc0.2]; exact hc0.1, rfl⟩
              obtain ⟨⟨g1, g2, g3⟩, g4, g5⟩ := ih sv child t1 _ m s1 h hc
              refine ⟨⟨moveFrame_trans hf.1 g1, g2.trans hf.2.1, g3.trans hf.2.2⟩, g4, ?_⟩
              intro i hi
              obtain ⟨leaf, hl1, hl2⟩ := g5 i hi
              refine ⟨leaf, ?_, hl2⟩
              unfold get_node at hl1 ⊢
              rw [hf.1.1] at hl1
              exact hl1

end MoveLemmas


section MoveLoopLemmas

variable {σ : Type}

theorem coneFrame_refl (s : LocalSearch σ) : ConeFrame s s :=
  ⟨rfl, rfl, rfl, rfl, rfl, rfl, rfl, rfl⟩

theorem ConeFrame.of_sameButUnsat {s0 s s2 : LocalSearch σ} (h0 : ConeFrame s0 s)
    (h : SameButUnsat s s2) : ConeFrame s0 s2 := by
  obtain ⟨a1, a2, a3, a4, a5, a6, a7, a8⟩ := h0
  rw [h]
  exact ⟨a1, a2, a3, a4, a5, a6, a7, a8⟩

/-- A cone update changes the node table and the unsat-root set only. -/
theorem update_cone_frame {ops : NodeOps σ} {s : LocalSearch σ} {id : Nat} {v : BitVector}
    {k : Nat} {s' : LocalSearch σ} (h : update_cone ops s id v = .ok (k, s')) :
    ConeFrame s s' := by
  obtain ⟨node, _, _, _, hcase⟩ := update_cone_ok h
  rcases hcase with ⟨_, _, e⟩ | ⟨_, ps, cone, s2, _, _, hrr, he, _⟩
  · subst e; exact coneFrame_refl _
  · have h2 : ConeFrame s s2 :=
      ConeFrame.of_sameButUnsat
        (s := { s with d_nodes := s.d_nodes.set id (node.set_assignment v) })
        ⟨rfl, rfl, rfl, rfl, rfl, rfl, rfl, rfl⟩ (refresh_root_ok hrr).1
    refine update_cone_eval_induct ops (fun st => ConeFrame s st) ?_ _ s2 1 (k, s') he h2
    intro st i cur st2 hq _ hr
    exact ConeFrame.of_sameButUnsat (s := { st with d_nodes := evaluate ops st.d_nodes cur })
      hq (refresh_root_ok hr).1

/-- The shape of a returning call of the end of `move`. -/
theorem move_finish_ok {ops : NodeOps σ} {s : LocalSearch σ} {input : Nat} {a : BitVector}
    {r : Result} {s' : LocalSearch σ} (h : move_finish ops s input a = .ok (r, s')) :
    ∃ k s2, update_cone ops { s with d_statistics := { s.d_statistics with
        d_nmoves := u64 (s.d_statistics.d_nmoves + 1) } } input a = .ok (k, s2) ∧
      s'.d_nodes = s2.d_nodes ∧ s'.d_roots_unsat = s2.d_roots_unsat ∧
      s'.d_roots = s.d_roots ∧ s'.d_parents = s.d_parents ∧
      s'.d_statistics.d_nmoves = u64 (s.d_statistics.d_nmoves + 1) ∧
      (r = Result.SAT ↔ s'.d_roots_unsat = []) ∧ r ≠ Result.UNSAT := by
  unfold move_finish at h
  split_ifs at h with hnull
  simp only at h
  cases hu : update_cone ops { s with d_statistics := { s.d_statistics with
        d_nmoves := u64 (s.d_statistics.d_nmoves + 1) } } input a with
  | error e => simp [hu] at h
  | ok res =>
    obtain ⟨k, s2⟩ := res
    simp only [hu] at h
    obtain ⟨_, f2, _, f4, _, _, _, f8⟩ := update_cone_frame hu
    refine ⟨k, s2, rfl, ?_⟩
    split_ifs at h with hemp
    · simp only [Except.ok.injEq, Prod.mk.injEq] at h
      obtain ⟨hr, hs⟩ := h
      subst hr; subst hs
      refine ⟨rfl, rfl, f2, f4, ?_, ?_, by simp⟩
      · simp [f8]
      · simpa using hemp
    · simp only [Except.ok.injEq, Prod.mk.injEq] at h
      obtain ⟨hr, hs⟩ := h
      subst hr; subst hs
      refine ⟨rfl, rfl, f2, f4, ?_, ?_, by simp⟩
      · simp [f8]
      · simpa using hemp

/-- How a returning call of the loop of `move` ends: on a budget test, on a
root that is constant false, or with a cone update for a leaf. -/
theorem move_loop_cases (ops : NodeOps σ) :
    ∀ (fuel : Nat) (s : LocalSearch σ) (r : Result) (s' : LocalSearch σ),
      move_loop ops fuel s = .ok (r, s') →
      (r = Result.UNKNOWN ∧ MoveFrame s s' ∧
        ((0 < s'.d_max_nprops ∧ s'.d_statistics.d_nprops ≥ s'.d_max_nprops) ∨
         (0 < s'.d_max_nupdates ∧ s'.d_statistics.d_nupdates ≥ s'.d_max_nupdates))) ∨
      (r = Result.UNSAT ∧ MoveFrame s s' ∧
        ∃ g root, get_node s (ops.pick_from_set g s.d_roots_unsat).1 = .ok root ∧
          root.d_is_const = true ∧ root.d_domain.lo.is_false = true) ∨
      (∃ sm input a, MoveFrame s sm ∧
        (∃ leaf, get_node sm input = .ok leaf ∧ leaf.d_children = []) ∧
        move_finish ops sm input a = .ok (r, s')) := by
  intro fuel
  induction fuel with
  | zero => intro s r s' h; simp [move_loop] at h
  | succ f ih =>
    intro s r s' h
    rw [move_loop] at h
    split_ifs at h with hb1 hb2
    · simp only [Except.ok.injEq, Prod.mk.injEq] at h
      obtain ⟨hr, hs⟩ := h
      subst hr; subst hs
      exact Or.inl ⟨rfl, moveFrame_refl _, Or.inl hb1⟩
    · simp only [Except.ok.injEq, Prod.mk.injEq] at h
      obtain ⟨hr, hs⟩ := h
      subst hr; subst hs
      exact Or.inl ⟨rfl, moveFrame_refl _, Or.inr hb2⟩
    · unfold move_pick at h
      simp only at h
      have hf0 : MoveFrame s { s with d_rng := (ops.pick_from_set s.d_rng s.d_roots_unsat).2 } :=
        ⟨rfl, rfl, rfl, rfl, rfl, rfl, rfl, rfl, rfl⟩
      cases hg : get_node { s with d_rng := (ops.pick_from_set s.d_rng s.d_roots_unsat).2 }
          (ops.pick_from_set s.d_rng s.d_roots_unsat).1 with
      | error e => simp [hg] at h
      | ok root =>
        simp only [hg] at h
        split_ifs at h with hc
        · simp only [Except.ok.injEq, Prod.mk.injEq] at h
          obtain ⟨hr, hs⟩ := h
          subst hr; subst hs
          refine Or.inr (Or.inl ⟨rfl, hf0, s.d_rng, root, hg, ?_, ?_⟩)
          · simp only [Bool.and_eq_true] at hc; exact hc.1
          · simp only [Bool.and_eq_true] at hc; exact hc.2
        · cases hsel : select_move ops (f + 1)
              { s with d_rng := (ops.pick_from_set s.d_rng s.d_roots_unsat).2 }
              root BitVector.mk_true with
          | error e => simp [hsel] at h
          | ok res =>
            obtain ⟨m, s1⟩ := res
            simp only [hsel] at h
            have hroot : get_node
                { s with d_rng := (ops.pick_from_set s.d_rng s.d_roots_unsat).2 } root.d_id
                = .ok root := by
              rw [(get_node_of_ok.mp hg).2]; exact hg
            obtain ⟨⟨g1, _, _⟩, _, g5⟩ := select_move_loop_frame ops _ _ _ _ _ _ _ hsel hroot
            have hf2 : MoveFrame s1 { s1 with d_statistics := { s1.d_statistics with
                d_nprops := u64 (s1.d_statistics.d_nprops + m.d_nprops)
                d_nupdates := u64 (s1.d_statistics.d_nupdates + m.d_nupdates) } } :=
              ⟨rfl, rfl, rfl, rfl, rfl, rfl, rfl, rfl, rfl⟩
            have hfs : MoveFrame s { s1 with d_statistics := { s1.d_statistics with
                d_nprops := u64 (s1.d_statistics.d_nprops + m.d_nprops)
                d_nupdates := u64 (s1.d_statistics.d_nupdates + m.d_nupdates) } } :=
              moveFrame_trans (moveFrame_trans hf0 g1) hf2
            cases hin : m.d_input with
            | none =>
              simp only [hin] at h
              rcases ih _ r s' h with ⟨e1, e2, e3⟩ | ⟨e1, e2, g, rt, e3, e4, e5⟩ | ⟨sm, inp, a, e1, e2, e3⟩
              · exact Or.inl ⟨e1, moveFrame_trans hfs e2, e3⟩
              · refine Or.inr (Or.inl ⟨e1, moveFrame_trans hfs e2, g, rt, ?_, e4, e5⟩)
                unfold get_node at e3 ⊢
                simp only at e3
                rw [hfs.2.2.2.1] at e3
                rw [hfs.1] at e3
                exact e3
              · exact Or.inr (Or.inr ⟨sm, inp, a, moveFrame_trans hfs e1, e2, e3⟩)
            | some input =>
              simp only [hin] at h
              refine Or.inr (Or.inr ⟨_, input, m.d_assignment, hfs, ?_, h⟩)
              obtain ⟨leaf, l1, l2⟩ := g5 input hin
              refine ⟨leaf, ?_, l2⟩
              unfold get_node at l1 ⊢
              simp only at l1 ⊢
              rw [g1.1]
              exact l1

end MoveLoopLemmas


section TrackingLemmas

variable {σ : Type}

theorem MoveFrame.sameCore {s s1 : LocalSearch σ} (h : MoveFrame s s1) : SameCore s s1 :=
  ⟨h.1, h.2.1, h.2.2.2.1, h.2.2.2.2.1⟩

theorem evaluate_getElem?_ne (ops : NodeOps σ) (nodes : List BitVectorNode)
    (cur : BitVectorNode) (r : Nat) (h : r ≠ cur.d_id) :
    (evaluate ops nodes cur)[r]? = nodes[r]? := by
  unfold evaluate
  split_ifs
  · rfl
  · exact List.getElem?_set_ne (Ne.symm h)

theorem check_unsat_false_iff (s : LocalSearch σ) :
    check_unsat_false s = true ↔
      ∀ id ∈ s.d_roots_unsat, ∃ nd, get_node s id = .ok nd ∧ nd.d_assignment.is_false = true := by
  unfold check_unsat_false
  rw [List.all_eq_true]
  constructor
  · intro h id hid
    have := h id hid
    cases hg : get_node s id with
    | error e => simp [hg] at this
    | ok nd => exact ⟨nd, rfl, by simpa [hg] using this⟩
  · intro h id hid
    obtain ⟨nd, h1, h2⟩ := h id hid
    simp [h1, h2]

/-- A returning cone update has passed its closing check. -/
theorem update_cone_check {ops : NodeOps σ} {s : LocalSearch σ} {id : Nat} {v : BitVector}
    {k : Nat} {s' : LocalSearch σ} (h : update_cone ops s id v = .ok (k, s')) :
    check_unsat_false s' = true := by
  obtain ⟨node, _, _, hchk, hcase⟩ := update_cone_ok h
  rcases hcase with ⟨_, _, e⟩ | ⟨_, ps, cone, s2, _, _, _, _, hc⟩
  · subst e; exact hchk
  · exact hc

/-- A property kept whenever one node is given a new assignment and the root
bookkeeping is done for it is kept by a cone update. -/
theorem update_cone_track (ops : NodeOps σ) (Q : LocalSearch σ → Prop)
    (htouch : ∀ (s : LocalSearch σ) (nodes1 : List BitVectorNode) (id : Nat)
      (s2 : LocalSearch σ), Q s → (∀ r : Nat, r ≠ id → nodes1[r]? = s.d_nodes[r]?) →
      refresh_root { s with d_nodes := nodes1 } id = .ok s2 → Q s2)
    {s : LocalSearch σ} {id : Nat} {v : BitVector} {k : Nat} {s' : LocalSearch σ}
    (h : update_cone ops s id v = .ok (k, s')) (hq : Q s) : Q s' := by
  obtain ⟨node, _, _, _, hcase⟩ := update_cone_ok h
  rcases hcase with ⟨_, _, e⟩ | ⟨_, ps, cone, s2, _, _, hrr, he, _⟩
  · subst e; exact hq
  · have h2 : Q s2 := htouch s _ id s2 hq
      (fun r hr => List.getElem?_set_ne (Ne.symm hr)) hrr
    refine update_cone_eval_induct ops Q ?_ _ s2 1 (k, s') he h2
    intro st i cur st2 hst hg hr
    refine htouch st _ i st2 hst ?_ hr
    intro r hri
    apply evaluate_getElem?_ne
    rw [(get_node_of_ok.mp hg).2]
    exact hri

/-- A property of the node table, the roots, the unsat-root set and the
parents map that a cone update keeps is kept by `move`. -/
theorem move_track (ops : NodeOps σ) (Q : LocalSearch σ → Prop)
    (hcore : ∀ s s1 : LocalSearch σ, SameCore s s1 → Q s → Q s1)
    (hcone : ∀ (s : LocalSearch σ) (id : Nat) (v : BitVector) (k : Nat) (s2 : LocalSearch σ),
      (∃ leaf, get_node s id = .ok leaf ∧ leaf.d_children = []) →
      update_cone ops s id v = .ok (k, s2) → Q s → Q s2)
    {fuel : Nat} {s : LocalSearch σ} {r : Result} {s' : LocalSearch σ}
    (h : move ops fuel s = .ok (r, s')) (hq : Q s) : Q s' := by
  unfold move at h
  split_ifs at h with hemp
  · simp only [Except.ok.injEq, Prod.mk.injEq] at h
    rw [← h.2]; exact hq
  · rcases move_loop_cases ops fuel s r s' h with
      ⟨_, e2, _⟩ | ⟨_, e2, _⟩ | ⟨sm, inp, a, e1, e2, e3⟩
    · exact hcore _ _ e2.sameCore hq
    · exact hcore _ _ e2.sameCore hq
    · obtain ⟨k, s2, hu, f1, f2, f3, f4, _⟩ := move_finish_ok e3
      have hsm : Q sm := hcore _ _ e1.sameCore hq
      have hsm1 := hcore sm { sm with d_statistics := { sm.d_statistics with
        d_nmoves := u64 (sm.d_statistics.d_nmoves + 1) } } ⟨rfl, rfl, rfl, rfl⟩ hsm
      have hs2 := hcone { sm with d_statistics := { sm.d_statistics with
        d_nmoves := u64 (sm.d_statistics.d_nmoves + 1) } } inp a k s2 e2 hu hsm1
      obtain ⟨_, c2, _, c4, _⟩ := update_cone_frame hu
      exact hcore s2 s' ⟨f1, f3.trans c2.symm, f2, f4.trans c4.symm⟩ hs2

end TrackingLemmas


section RootInvariantLemmas

variable {σ : Type}

theorem get_node_congr {s s1 : LocalSearch σ} {r : Nat} (h : s1.d_nodes[r]? = s.d_nodes[r]?) :
    get_node s1 r = get_node s r := by
  unfold get_node get_node_of
  rw [h]

/-- Giving one node a new assignment and doing the root bookkeeping for it
keeps: roots have no parents, false roots are in the unsat-root set. -/
theorem falseRoots_touch (s : LocalSearch σ) (nodes1 : List BitVectorNode) (id : Nat)
    (s2 : LocalSearch σ) (hq : RootsParentless s ∧ FalseRootsUnsat s)
    (hne : ∀ r : Nat, r ≠ id → nodes1[r]? = s.d_nodes[r]?)
    (hrr : refresh_root { s with d_nodes := nodes1 } id = .ok s2) :
    RootsParentless s2 ∧ FalseRootsUnsat s2 := by
  obtain ⟨hsame, nd, hnd, hmem, hins, _⟩ := refresh_root_ok hrr
  have hroots : s2.d_roots = s.d_roots := hsame.roots
  have hpar : s2.d_parents = s.d_parents := hsame.parents
  have hnodes : s2.d_nodes = nodes1 := hsame.nodes
  refine ⟨?_, ?_⟩
  · intro r hr
    rw [hpar]; exact hq.1 r (hroots ▸ hr)
  · intro r hr nd2 hg hf
    rw [hroots] at hr
    by_cases hri : r = id
    · subst hri
      have e : get_node s2 r = get_node { s with d_nodes := nodes1 } r :=
        get_node_congr (by rw [hnodes])
      rw [e, hnd] at hg
      simp only [Except.ok.injEq] at hg
      subst hg
      exact hins (hq.1 r hr) hf
    · have e : get_node s2 r = get_node s r :=
        get_node_congr (by rw [hnodes]; exact hne r hri)
      rw [e] at hg
      exact (hmem r hri).mpr (hq.2 r hr nd2 hg hf)

/-- Giving one node a new assignment and doing the root bookkeeping for it
keeps the unsat-root set within the registered roots, when every node
without parents is registered. -/
theorem unsatRegistered_touch (s : LocalSearch σ) (nodes1 : List BitVectorNode) (id : Nat)
    (s2 : LocalSearch σ) (hq : UnsatRegistered s ∧ ParentlessRegistered s)
    (hrr : refresh_root { s with d_nodes := nodes1 } id = .ok s2) :
    UnsatRegistered s2 ∧ ParentlessRegistered s2 := by
  obtain ⟨hsame, nd, hnd, hmem, _, hback⟩ := refresh_root_ok hrr
  have hroots : s2.d_roots = s.d_roots := hsame.roots
  have hpar : s2.d_parents = s.d_parents := hsame.parents
  refine ⟨?_, ?_⟩
  · intro x hx
    rw [hroots]
    by_cases hxi : x = id
    · subst hxi
      rcases hback hx with e | e
      · exact hq.1 x e
      · exact hq.2 x e.1
    · exact hq.1 x ((hmem x hxi).mp hx)
  · intro x hx
    rw [hroots]; rw [hpar] at hx; exact hq.2 x hx

theorem register_ineq_ok {s s3 : LocalSearch σ} {id : Nat} {root : BitVectorNode}
    (h : register_ineq s id root = .ok s3) :
    s3 = { s with d_roots_ineq := s3.d_roots_ineq } := by
  unfold register_ineq at h
  simp only at h
  by_cases h1 : root.is_inequality = true <;> by_cases h2 : root.is_not = true
  all_goals simp only [h1, h2, if_true, if_false, Bool.not_true, Bool.not_false,
    Bool.false_eq_true] at h
  all_goals first
    | (simp only [Except.ok.injEq] at h; subst h; rfl)
    | (split at h
       · simp at h
       · split at h
         · simp at h
         · simp only [Except.ok.injEq] at h
           subst h
           split_ifs <;> rfl)

/-- The shape of a returning call of `register_root`. -/
theorem register_root_ok {s s' : LocalSearch σ} {id : Nat}
    (h : register_root s id = .ok s') :
    ∃ root sx, get_node s id = .ok root ∧ sx.d_nodes = s.d_nodes ∧
      sx.d_roots = s.d_roots ++ [id] ∧ sx.d_roots_unsat = s.d_roots_unsat ∧
      sx.d_parents = s.d_parents ∧ update_unsat_roots sx root = .ok s' := by
  unfold register_root at h
  split_ifs at h with hlen
  cases hg : get_node s id with
  | error e => simp [hg] at h
  | ok root =>
    simp only [hg] at h
    cases hr : register_ineq { s with d_roots := s.d_roots ++ [id] } id root with
    | error e => simp [hr] at h
    | ok s3 =>
      simp only [hr] at h
      have e := register_ineq_ok hr
      refine ⟨root, s3, rfl, ?_, ?_, ?_, ?_, h⟩
      · rw [e]
      · rw [e]
      · rw [e]
      · rw [e]

/-- The shape of a returning call of `set_assignment`. -/
theorem set_assignment_ok {s s' : LocalSearch σ} {id : Nat} {v : BitVector}
    (h : set_assignment s id v = .ok s') :
    ∃ nd, get_node s id = .ok nd ∧
      s' = { s with d_nodes := s.d_nodes.set id (nd.set_assignment v) } := by
  unfold set_assignment at h
  split_ifs at h with hlen
  cases hg : get_node s id with
  | error e => simp [hg] at h
  | ok nd =>
    simp only [hg, Except.ok.injEq] at h
    exact ⟨nd, rfl, h.symm⟩

theorem u64_succ_ne (n : Nat) : u64 (n + 1) ≠ n := by
  unfold u64
  omega

end RootInvariantLemmas


section ClaimLemmas

variable {σ : Type}

theorem falseRoots_core (s s1 : LocalSearch σ) (h : SameCore s s1)
    (hq : RootsParentless s ∧ FalseRootsUnsat s) : RootsParentless s1 ∧ FalseRootsUnsat s1 := by
  obtain ⟨c1, c2, c3, c4⟩ := h
  refine ⟨?_, ?_⟩
  · intro r hr; rw [c4]; exact hq.1 r (c2 ▸ hr)
  · intro r hr nd hg hf
    rw [c3]
    refine hq.2 r (c2 ▸ hr) nd ?_ hf
    rw [← hg]; exact (get_node_congr (by rw [c1])).symm

theorem falseRoots_move (ops : NodeOps σ) {fuel : Nat} {s : LocalSearch σ} {r : Result}
    {s' : LocalSearch σ} (h : move ops fuel s = .ok (r, s'))
    (hq : RootsParentless s ∧ FalseRootsUnsat s) : RootsParentless s' ∧ FalseRootsUnsat s' :=
  move_track ops (fun st => RootsParentless st ∧ FalseRootsUnsat st) falseRoots_core
    (fun _ _ _ _ _ _ hu hst =>
      update_cone_track ops (fun st => RootsParentless st ∧ FalseRootsUnsat st)
        falseRoots_touch hu hst) h hq

theorem falseRoots_register {s s' : LocalSearch σ} {id : Nat}
    (h : register_root s id = .ok s') (hq : RootsParentless s ∧ FalseRootsUnsat s) :
    RootsParentless s' ∧ FalseRootsUnsat s' := by
  obtain ⟨root, sx, hg, x1, x2, x3, x4, hu⟩ := register_root_ok h
  obtain ⟨hsame, hnop, hmem, hins, _⟩ := update_unsat_roots_ok hu
  have hid : root.d_id = id := (get_node_of_ok.mp hg).2
  have hroots : s'.d_roots = s.d_roots ++ [id] := hsame.roots.trans x2
  have hpar : s'.d_parents = s.d_parents := hsame.parents.trans x4
  have hnodes : s'.d_nodes = s.d_nodes := hsame.nodes.trans x1
  refine ⟨?_, ?_⟩
  · intro r hr
    rw [hroots] at hr
    rw [hpar]
    rcases List.mem_append.mp hr with e | e
    · exact hq.1 r e
    · have : r = id := by simpa using e
      subst this
      rw [← x4, ← hid]; exact hnop
  · intro r hr nd hnd hf
    rw [hroots] at hr
    have e1 : get_node s' r = get_node s r := get_node_congr (by rw [hnodes])
    rw [e1] at hnd
    by_cases hri : r = id
    · subst hri
      rw [hg] at hnd
      simp only [Except.ok.injEq] at hnd
      subst hnd
      rw [← hid]; exact hins hf
    · have hr2 : r ∈ s.d_roots := by
        rcases List.mem_append.mp hr with e | e
        · exact e
        · exact absurd (by simpa using e) hri
      rw [← hid] at hri
      exact (hmem r hri).mpr (x3 ▸ hq.2 r hr2 nd hnd hf)

theorem falseRoots_set {s s' : LocalSearch σ} {id : Nat} {v : BitVector}
    (hid : id ∉ s.d_roots) (h : set_assignment s id v = .ok s')
    (hq : RootsParentless s ∧ FalseRootsUnsat s) : RootsParentless s' ∧ FalseRootsUnsat s' := by
  obtain ⟨nd, _, e⟩ := set_assignment_ok h
  subst e
  refine ⟨hq.1, ?_⟩
  intro r hr nd2 hnd hf
  have hri : r ≠ id := fun e => hid (e ▸ hr)
  have e1 : get_node { s with d_nodes := s.d_nodes.set id (nd.set_assignment v) } r
      = get_node s r := get_node_congr (List.getElem?_set_ne (Ne.symm hri))
  rw [e1] at hnd
  exact hq.2 r hr nd2 hnd hf

theorem falseRoots_reach (ops : NodeOps σ) {s0 s : LocalSearch σ}
    (hreach : Relation.ReflTransGen (PublicStep ops) s0 s)
    (hq : RootsParentless s0 ∧ FalseRootsUnsat s0) : RootsParentless s ∧ FalseRootsUnsat s := by
  induction hreach with
  | refl => exact hq
  | tail _ hstep ih =>
    cases hstep with
    | register_root id h => exact falseRoots_register h ih
    | move fuel r h => exact falseRoots_move ops h ih
    | set_assignment id v hid h => exact falseRoots_set hid h ih

/-- The result of `move` is SAT exactly when the unsat-root set is empty at
the return. -/
theorem move_sat_iff (ops : NodeOps σ) {fuel : Nat} {s : LocalSearch σ} {r : Result}
    {s' : LocalSearch σ} (h : move ops fuel s = .ok (r, s')) :
    r = Result.SAT ↔ s'.d_roots_unsat = [] := by
  unfold move at h
  split_ifs at h with hemp
  · simp only [Except.ok.injEq, Prod.mk.injEq] at h
    rw [← h.1, ← h.2]
    simpa using hemp
  · have hne : s.d_roots_unsat ≠ [] := by simpa using hemp
    rcases move_loop_cases ops fuel s r s' h with
      ⟨e1, e2, _⟩ | ⟨e1, e2, _⟩ | ⟨sm, inp, a, _, _, e3⟩
    · rw [e1, e2.2.2.2.1]; simp [hne]
    · rw [e1, e2.2.2.2.1]; simp [hne]
    · obtain ⟨_, _, _, _, _, _, _, _, hiff, _⟩ := move_finish_ok e3
      exact hiff

end ClaimLemmas


section Criteria

theorem idsOK_of_range {nodes : List BitVectorNode}
    (h : nodes.map (fun nd => nd.d_id) = List.range nodes.length) : IdsOK nodes := by
  intro i nd hi
  have h1 : (nodes.map (fun nd => nd.d_id))[i]? = some nd.d_id := by
    rw [List.getElem?_map, hi]; rfl
  rw [h] at h1
  have hlt : i < nodes.length := (List.getElem?_eq_some.mp hi).1
  rw [List.getElem?_range hlt] at h1
  simpa using h1.symm

theorem lookup_mem {parents : List (Nat × List Nat)} {c : Nat} {ps : List Nat}
    (h : parents.lookup c = some ps) : (c, ps) ∈ parents := by
  induction parents with
  | nil => simp at h
  | cons e rest ih =>
    obtain ⟨k, qs⟩ := e
    by_cases hk : c = k
    · subst hk
      have : qs = ps := by simpa [List.lookup] using h
      subst this
      simp
    · have hbeq : (c == k) = false := by simpa using hk
      have h2 : rest.lookup c = some ps := by simpa [List.lookup, hbeq] using h
      exact List.mem_cons_of_mem _ (ih h2)

theorem parentsInverse_of_entries {parents : List (Nat × List Nat)}
    {nodes : List BitVectorNode}
    (h1 : ∀ nd ∈ nodes, (parents.lookup nd.d_id).isSome = true)
    (h2 : ∀ e ∈ parents, (∀ p ∈ e.2, ∃ nd ∈ nodes, nd.d_id = p ∧ e.1 ∈ nd.d_children) ∧
      (∀ nd ∈ nodes, e.1 ∈ nd.d_children → nd.d_id ∈ e.2)) :
    ParentsInverse parents nodes := by
  refine ⟨?_, ?_⟩
  · intro nd hnd
    exact Option.isSome_iff_exists.mp (h1 nd hnd)
  · intro c ps hl p
    obtain ⟨a, b⟩ := h2 (c, ps) (lookup_mem hl)
    constructor
    · intro hp; exact a p hp
    · rintro ⟨nd, hnd, e, hc⟩
      rw [← e]; exact b nd hnd hc

end Criteria

section Claims

variable {σ : Type}

/-- C1 (as amended): in every state reachable from an engine without
registered roots through `register_root`, `move` and `set_assignment` on
nodes that are not registered roots, whenever `move()` returns SAT no
registered root has a false assignment, and every registered root whose
assignment is a well-formed width-1 value is true. -/
theorem C1_sat_implies_roots_true (ops : NodeOps σ) (s0 s s' : LocalSearch σ) (fuel : Nat)
    (h0 : s0.d_roots = [])
    (hreach : Relation.ReflTransGen (PublicStep ops) s0 s)
    (hmove : move ops fuel s = .ok (Result.SAT, s')) :
    ∀ r ∈ s'.d_roots, ∀ nd, get_node s' r = .ok nd →
      nd.d_assignment.is_false = false ∧
      (nd.d_assignment.size = 1 → nd.d_assignment.wf → nd.d_assignment.is_true = true) := by
  have hq0 : RootsParentless s0 ∧ FalseRootsUnsat s0 := by
    refine ⟨?_, ?_⟩
    · intro r hr; rw [h0] at hr; simp at hr
    · intro r hr; rw [h0] at hr; simp at hr
  have hq := falseRoots_move ops hmove (falseRoots_reach ops hreach hq0)
  have hemp : s'.d_roots_unsat = [] := (move_sat_iff ops hmove).mp rfl
  intro r hr nd hnd
  have hnf : nd.d_assignment.is_false = false := by
    cases hf : nd.d_assignment.is_false with
    | false => rfl
    | true =>
      have := hq.2 r hr nd hnd hf
      rw [hemp] at this
      simp at this
  refine ⟨hnf, ?_⟩
  intro hsz hwf
  unfold BitVector.wf at hwf
  unfold BitVector.is_false at hnf
  unfold BitVector.is_true
  rw [hsz] at hwf
  simp only [hsz, beq_self_eq_true, Bool.true_and, beq_eq_false_iff_ne, ne_eq] at hnf
  simp only [hsz, beq_self_eq_true, Bool.true_and, beq_iff_eq]
  omega

/-- Witness for C1: on the graph `x = 1`, `r = NOT x`, the root `r` is
registered and the next `move()` flips `x`, returns SAT, and `r` is true. -/
theorem C1_sat_implies_roots_true_witness :
    move sample_ops 2 (engine (not_nodes 1 0) not_parents 0 [1] [1])
      = .ok (Result.SAT, { engine (not_nodes 0 1) not_parents 2 [1] [] with
          d_statistics := ⟨1, 2, 1, 1, 0, 0⟩ }) ∧
    (op1 1 Kind.NOT [0] 1).d_assignment.is_false = false ∧
    (op1 1 Kind.NOT [0] 1).d_assignment.is_true = true :=
  ⟨by decide,
   (C1_sat_implies_roots_true sample_ops (engine (not_nodes 1 0) not_parents 0 [] [])
      (engine (not_nodes 1 0) not_parents 0 [1] [1])
      { engine (not_nodes 0 1) not_parents 2 [1] [] with d_statistics := ⟨1, 2, 1, 1, 0, 0⟩ }
      2 rfl
      (Relation.ReflTransGen.single (PublicStep.register_root _ _ 1 (by decide)))
      (by decide) 1 (by decide) (op1 1 Kind.NOT [0] 1) (by decide)).1,
   (C1_sat_implies_roots_true sample_ops (engine (not_nodes 1 0) not_parents 0 [] [])
      (engine (not_nodes 1 0) not_parents 0 [1] [1])
      { engine (not_nodes 0 1) not_parents 2 [1] [] with d_statistics := ⟨1, 2, 1, 1, 0, 0⟩ }
      2 rfl
      (Relation.ReflTransGen.single (PublicStep.register_root _ _ 1 (by decide)))
      (by decide) 1 (by decide) (op1 1 Kind.NOT [0] 1) (by decide)).2 rfl (by decide)⟩

/-- Counterexample to C1 as stated: with one width-1 input `x = 1` registered
as root, `set_assignment(x, 0)` followed by `move()` returns SAT although
the registered root's assignment is 0. -/
theorem C1_counterexample :
    register_root (engine (leaf_nodes 1) leaf_parents 0 [] []) 0
      = .ok (engine (leaf_nodes 1) leaf_parents 0 [0] []) ∧
    set_assignment (engine (leaf_nodes 1) leaf_parents 0 [0] []) 0 BitVector.mk_false
      = .ok (engine (leaf_nodes 0) leaf_parents 0 [0] []) ∧
    move sample_ops 1 (engine (leaf_nodes 0) leaf_parents 0 [0] [])
      = .ok (Result.SAT, engine (leaf_nodes 0) leaf_parents 0 [0] []) ∧
    0 ∈ (engine (leaf_nodes 0) leaf_parents 0 [0] []).d_roots ∧
    get_assignment (engine (leaf_nodes 0) leaf_parents 0 [0] []) 0 = .ok BitVector.mk_false ∧
    BitVector.mk_false.is_true = false := by
  decide

end Claims


section Claims2

variable {σ : Type}

theorem P3_iff (s : LocalSearch σ) :
    P3 s ↔ (UnsatRegistered s ∧ FalseRootsUnsat s ∧ check_unsat_false s = true) := by
  rw [check_unsat_false_iff]
  constructor
  · intro h
    refine ⟨fun id hid => ((h id).mp hid).1, ?_, fun id hid => ((h id).mp hid).2⟩
    intro r hr nd hnd hf
    exact (h r).mpr ⟨hr, nd, hnd, hf⟩
  · rintro ⟨h1, h2, h3⟩ id
    constructor
    · intro hid; exact ⟨h1 id hid, h3 id hid⟩
    · rintro ⟨hr, nd, hnd, hf⟩; exact h2 id hr nd hnd hf

theorem rootSets_core (s s1 : LocalSearch σ) (h : SameCore s s1)
    (hq : (RootsParentless s ∧ FalseRootsUnsat s) ∧ UnsatRegistered s ∧
      ParentlessRegistered s ∧ check_unsat_false s = true) :
    (RootsParentless s1 ∧ FalseRootsUnsat s1) ∧ UnsatRegistered s1 ∧
      ParentlessRegistered s1 ∧ check_unsat_false s1 = true := by
  obtain ⟨c1, c2, c3, c4⟩ := h
  refine ⟨falseRoots_core s s1 ⟨c1, c2, c3, c4⟩ hq.1, ?_, ?_, ?_⟩
  · intro x hx; rw [c2]; exact hq.2.1 x (c3 ▸ hx)
  · intro x hx; rw [c2]; exact hq.2.2.1 x (c4 ▸ hx)
  · rw [check_unsat_false_iff] at hq ⊢
    intro id hid
    obtain ⟨nd, h1, h2⟩ := hq.2.2.2 id (c3 ▸ hid)
    refine ⟨nd, ?_, h2⟩
    rw [← h1]; exact get_node_congr (by rw [c1])

theorem P3_move (ops : NodeOps σ) {fuel : Nat} {s : LocalSearch σ} {r : Result}
    {s' : LocalSearch σ} (h : move ops fuel s = .ok (r, s'))
    (hp3 : P3 s) (hpl : RootsParentless s) (hreg : ParentlessRegistered s) :
    P3 s' ∧ RootsParentless s' := by
  obtain ⟨u1, u2, u3⟩ := (P3_iff s).mp hp3
  have := move_track ops (fun st => (RootsParentless st ∧ FalseRootsUnsat st) ∧
      UnsatRegistered st ∧ ParentlessRegistered st ∧ check_unsat_false st = true)
    rootSets_core
    (fun st id v k s2 _ hu hst => by
      have a := update_cone_track ops (fun st => RootsParentless st ∧ FalseRootsUnsat st)
        falseRoots_touch hu hst.1
      have b := update_cone_track ops (fun st => UnsatRegistered st ∧ ParentlessRegistered st)
        (fun s nodes1 id s2 hq _ hrr => unsatRegistered_touch s nodes1 id s2 hq hrr)
        hu ⟨hst.2.1, hst.2.2.1⟩
      exact ⟨a, b.1, b.2, update_cone_check hu⟩)
    h ⟨⟨hpl, u2⟩, u1, hreg, u3⟩
  exact ⟨(P3_iff s').mpr ⟨this.2.1, this.1.2, this.2.2.2⟩, this.1.1⟩

theorem P3_register {s s' : LocalSearch σ} {id : Nat} (h : register_root s id = .ok s')
    (hp3 : P3 s) (hpl : RootsParentless s) : P3 s' ∧ RootsParentless s' := by
  obtain ⟨u1, u2, u3⟩ := (P3_iff s).mp hp3
  have hfr := falseRoots_register h ⟨hpl, u2⟩
  refine ⟨(P3_iff s').mpr ⟨?_, hfr.2, ?_⟩, hfr.1⟩
  · obtain ⟨root, sx, hg, x1, x2, x3, x4, hu⟩ := register_root_ok h
    obtain ⟨hsame, _, hmem, _, hback⟩ := update_unsat_roots_ok hu
    have hid : root.d_id = id := (get_node_of_ok.mp hg).2
    intro x hx
    rw [hsame.roots, x2]
    by_cases hxi : x = id
    · subst hxi; simp
    · rw [← hid] at hxi
      have := (hmem x hxi).mp hx
      rw [x3] at this
      exact List.mem_append_left _ (u1 x this)
  · obtain ⟨root, sx, hg, x1, x2, x3, x4, hu⟩ := register_root_ok h
    obtain ⟨hsame, _, hmem, _, hback⟩ := update_unsat_roots_ok hu
    have hid : root.d_id = id := (get_node_of_ok.mp hg).2
    have hnodes : s'.d_nodes = s.d_nodes := hsame.nodes.trans x1
    rw [check_unsat_false_iff] at u3 ⊢
    intro x hx
    have e1 : get_node s' x = get_node s x := get_node_congr (by rw [hnodes])
    rw [e1]
    by_cases hxi : x = id
    · subst hxi
      rw [← hid] at hx
      rcases hback hx with e | e
      · rw [x3, hid] at e; exact u3 _ e.1
      · exact ⟨root, hg, e⟩
    · rw [← hid] at hxi
      have := (hmem x hxi).mp hx
      rw [x3] at this
      exact u3 x this

/-- C2 (as amended): if the unsat-root set is exactly the set of registered
roots with a false assignment and the registered roots have no parents,
then the same holds after a returning `register_root(id)`, and after a
returning `move()` provided every node without parents is a registered
root. -/
theorem C2_unsat_roots_exact (ops : NodeOps σ) (s s' : LocalSearch σ)
    (hp3 : P3 s) (hpl : RootsParentless s) (hstep : RootStep ops s s') :
    P3 s' ∧ RootsParentless s' := by
  cases hstep with
  | register_root id h => exact P3_register h hp3 hpl
  | move fuel r hreg h => exact P3_move ops h hp3 hpl hreg

/-- Witness for C2: on the graph `x = 1`, `r = NOT x` with `r` registered and
unsatisfied, the next `move()` leaves the unsat-root set empty, which is the
set of false registered roots. -/
theorem C2_unsat_roots_exact_witness :
    P3 ({ engine (not_nodes 0 1) not_parents 2 [1] [] with
      d_statistics := ⟨1, 2, 1, 1, 0, 0⟩ } : LocalSearch Nat) ∧
    RootsParentless ({ engine (not_nodes 0 1) not_parents 2 [1] [] with
      d_statistics := ⟨1, 2, 1, 1, 0, 0⟩ } : LocalSearch Nat) :=
  C2_unsat_roots_exact sample_ops (engine (not_nodes 1 0) not_parents 0 [1] [1])
    { engine (not_nodes 0 1) not_parents 2 [1] [] with d_statistics := ⟨1, 2, 1, 1, 0, 0⟩ }
    (by
      intro id
      constructor
      · intro h
        have : id = 1 := by simpa [engine] using h
        subst this
        exact ⟨by decide, op1 1 Kind.NOT [0] 0, by decide, by decide⟩
      · rintro ⟨h, _⟩
        simpa [engine] using h)
    (by intro r hr; have : r = 1 := by simpa [engine] using hr
        subst this; decide)
    (RootStep.move _ _ 2 Result.SAT
      (by intro id h
          have hid : id = 1 := by
            by_cases h0 : id = 0
            · subst h0; simp [engine, not_parents, List.lookup] at h
            · by_cases h1 : id = 1
              · exact h1
              · have e0 : (id == 0) = false := by simpa using h0
                have e1 : (id == 1) = false := by simpa using h1
                simp [engine, not_parents, List.lookup, e0, e1] at h
          subst hid; decide)
      (by decide))

/-- Counterexample to C2 as stated: on the graph `x = 1`, `r = NOT x`,
`y = x AND x` with only `r` registered, `move()` flips `x`; the node `y`,
which was never registered, becomes false and its id 2 is put into the
unsat-root set. -/
theorem C2_counterexample :
    register_root (engine (fork_nodes 1 0 1) fork_parents 0 [] []) 1
      = .ok (engine (fork_nodes 1 0 1) fork_parents 0 [1] [1]) ∧
    move sample_ops 2 (engine (fork_nodes 1 0 1) fork_parents 0 [1] [1])
      = .ok (Result.UNKNOWN, { engine (fork_nodes 0 1 0) fork_parents 2 [1] [2] with
          d_statistics := ⟨1, 3, 1, 1, 0, 0⟩ }) ∧
    2 ∈ ({ engine (fork_nodes 0 1 0) fork_parents 2 [1] [2] with
          d_statistics := ⟨1, 3, 1, 1, 0, 0⟩ } : LocalSearch Nat).d_roots_unsat ∧
    2 ∉ ({ engine (fork_nodes 0 1 0) fork_parents 2 [1] [2] with
          d_statistics := ⟨1, 3, 1, 1, 0, 0⟩ } : LocalSearch Nat).d_roots := by
  decide

end Claims2


section Claims3

variable {σ : Type}

theorem SameShape.parentsInverse {nodes nodes2 : List BitVectorNode}
    (h : SameShape nodes nodes2) {parents : List (Nat × List Nat)}
    (hp : ParentsInverse parents nodes) : ParentsInverse parents nodes2 := by
  refine ⟨?_, ?_⟩
  · intro nd2 hnd2
    obtain ⟨i, hi⟩ := mem_iff_getElem?.mp hnd2
    obtain ⟨m, h1, e, _⟩ := h.2 i nd2 hi
    rw [e]; exact hp.1 m (mem_of_getElem? h1)
  · intro c ps hl p
    rw [hp.2 c ps hl p]
    constructor
    · rintro ⟨nd, hnd, e, hc⟩
      obtain ⟨i, hi⟩ := mem_iff_getElem?.mp hnd
      obtain ⟨m2, h2, e1, e2, _⟩ := h.back hi
      exact ⟨m2, mem_of_getElem? h2, e1.trans e, e2 ▸ hc⟩
    · rintro ⟨nd2, hnd2, e, hc⟩
      obtain ⟨i, hi⟩ := mem_iff_getElem?.mp hnd2
      obtain ⟨m, h1, e1, e2, _⟩ := h.2 i nd2 hi
      exact ⟨m, mem_of_getElem? h1, e1 ▸ e, e2 ▸ hc⟩

theorem SameShape.leavesAreInputs {nodes nodes2 : List BitVectorNode}
    (h : SameShape nodes nodes2) (hl : LeavesAreInputs nodes) : LeavesAreInputs nodes2 := by
  intro nd2 hnd2 hc
  obtain ⟨i, hi⟩ := mem_iff_getElem?.mp hnd2
  obtain ⟨m, h1, _, e2, e3, _⟩ := h.2 i nd2 hi
  rw [e3]; exact hl m (mem_of_getElem? h1) (e2 ▸ hc)

theorem P1_move (ops : NodeOps σ) {fuel : Nat} {s : LocalSearch σ} {r : Result}
    {s' : LocalSearch σ} (h : move ops fuel s = .ok (r, s'))
    (hwf : GraphWF s) (hP1 : P1 ops s.d_nodes) : GraphWF s' ∧ P1 ops s'.d_nodes := by
  refine move_track ops (fun st => GraphWF st ∧ P1 ops st.d_nodes) ?_ ?_ h ⟨hwf, hP1⟩
  · rintro st st1 ⟨c1, _, _, c4⟩ ⟨hw, hp⟩
    unfold GraphWF at hw ⊢
    rw [c1, c4]
    exact ⟨hw, hp⟩
  · rintro st id v k s2 ⟨leaf, hleaf, hch⟩ hu ⟨⟨w1, w2, w3, w4⟩, hp⟩
    have hk : leaf.d_kind = Kind.CONST :=
      w4 leaf (mem_of_getElem? (get_node_of_ok.mp hleaf).1) hch
    obtain ⟨p1, hshape⟩ := update_cone_P1 ops st id v leaf w1 w2 w3 hp hleaf hk k s2 hu
    obtain ⟨_, _, _, c4, _⟩ := update_cone_frame hu
    refine ⟨⟨hshape.idsOK w1, hshape.childrenBelow w2, ?_, hshape.leavesAreInputs w4⟩, p1⟩
    rw [c4]; exact hshape.parentsInverse w3

theorem P1_set_assignment (ops : NodeOps σ) {s s' : LocalSearch σ} {id : Nat} {v : BitVector}
    {nd : BitVectorNode} (hnd : get_node s id = .ok nd) (hk : nd.d_kind = Kind.CONST)
    (hnop : s.d_parents.lookup id = some []) (h : set_assignment s id v = .ok s')
    (hwf : GraphWF s) (hP1 : P1 ops s.d_nodes) : P1 ops s'.d_nodes := by
  obtain ⟨nd1, hnd1, e⟩ := set_assignment_ok h
  rw [hnd] at hnd1
  simp only [Except.ok.injEq] at hnd1
  subst hnd1
  subst e
  obtain ⟨w1, _, w3, _⟩ := hwf
  intro m2 hm2 hmk
  obtain ⟨i, hi⟩ := mem_iff_getElem?.mp hm2
  simp only at hi
  rw [List.getElem?_set] at hi
  by_cases hii : id = i
  · subst hii
    simp only [if_true] at hi
    split_ifs at hi
    simp only [Option.some.injEq] at hi
    subst hi
    exact absurd hk hmk
  · simp only [hii, if_false] at hi
    have hm : m2 ∈ s.d_nodes := mem_of_getElem? hi
    rw [hP1 m2 hm hmk]
    symm
    apply eval_node_congr ops s.d_nodes _ m2 _ rfl rfl rfl
    intro c hc
    apply assignment_of_set_ne
    intro hcid
    subst hcid
    have := (w3.2 c [] hnop m2.d_id).mpr ⟨m2, hm, rfl, hc⟩
    simp at this

/-- C3: if every child has a smaller id than its parent, the parents map is
the exact inverse of the children relation, and every non-input node's
assignment equals the evaluation of its children's assignments, then
`update_cone(n, v)` on an input leaf `n` does not run out of iterations,
and when it returns every non-input node's assignment again equals the
evaluation of its children's current assignments. -/
theorem C3_update_cone_restores_P1 (ops : NodeOps σ) (s : LocalSearch σ) (n : Nat)
    (v : BitVector) (nd : BitVectorNode)
    (hids : IdsOK s.d_nodes) (hlt : ChildrenBelow s.d_nodes)
    (hpar : ParentsInverse s.d_parents s.d_nodes) (hP1 : P1 ops s.d_nodes)
    (hn : get_node s n = .ok nd) (hin : nd.d_kind = Kind.CONST) (hleaf : nd.d_children = []) :
    update_cone ops s n v ≠ .error .fuel ∧
    ∀ k s', update_cone ops s n v = .ok (k, s') → P1 ops s'.d_nodes := by
  have _ := hleaf
  exact ⟨update_cone_ne_fuel ops s n v,
    fun k s' h => (update_cone_P1 ops s n v nd hids hlt hpar hP1 hn hin k s' h).1⟩

/-- C4 (as amended): on a well-formed graph P1 is kept by every returning
`move()`, by every returning `register_root(id)`, and by a returning
`set_assignment(id, v)` on an input that has no parents. -/
theorem C4_P1_after_public_calls (ops : NodeOps σ) (s s' : LocalSearch σ)
    (hwf : GraphWF s) (hP1 : P1 ops s.d_nodes) (hstep : EvalStep ops s s') :
    P1 ops s'.d_nodes := by
  cases hstep with
  | move fuel r h => exact (P1_move ops h hwf hP1).2
  | register_root id h =>
    obtain ⟨root, sx, _, x1, _, _, _, hu⟩ := register_root_ok h
    rw [(update_unsat_roots_ok hu).1.nodes, x1]
    exact hP1
  | set_assignment id v nd hnd hk hnop h =>
    exact P1_set_assignment ops hnd hk hnop h hwf hP1

end Claims3


section Witnesses3

theorem fork_graph_wf (vx vr vy rng : Nat) (roots unsat : List Nat) :
    GraphWF (engine (fork_nodes vx vr vy) fork_parents rng roots unsat) := by
  refine ⟨idsOK_of_range rfl, ?_, parentsInverse_of_entries ?_ ?_, ?_⟩
  · unfold ChildrenBelow; simp [engine, fork_nodes, input1, op1]
  · simp [engine, fork_nodes, fork_parents, input1, op1, List.lookup]
  · simp [engine, fork_nodes, fork_parents, input1, op1]
  · unfold LeavesAreInputs; simp [engine, fork_nodes, input1, op1]

theorem not_graph_wf (vx vr rng : Nat) (roots unsat : List Nat) :
    GraphWF (engine (not_nodes vx vr) not_parents rng roots unsat) := by
  refine ⟨idsOK_of_range rfl, ?_, parentsInverse_of_entries ?_ ?_, ?_⟩
  · unfold ChildrenBelow; simp [engine, not_nodes, input1, op1]
  · simp [engine, not_nodes, not_parents, input1, op1, List.lookup]
  · simp [engine, not_nodes, not_parents, input1, op1]
  · unfold LeavesAreInputs; simp [engine, not_nodes, input1, op1]

/-- Witness for C3: on the graph `x = 1`, `r = NOT x`, `y = x AND x` the call
`update_cone(x, 0)` returns 3 and the new assignments `r = 1`, `y = 0`
satisfy P1. -/
theorem C3_update_cone_restores_P1_witness :
    update_cone sample_ops (engine (fork_nodes 1 0 1) fork_parents 0 [1, 2] [1]) 0 ⟨1, 0⟩
      = .ok (3, engine (fork_nodes 0 1 0) fork_parents 0 [1, 2] [2]) ∧
    P1 sample_ops (engine (fork_nodes 0 1 0) fork_parents 0 [1, 2] [2]).d_nodes :=
  ⟨by decide,
   (C3_update_cone_restores_P1 sample_ops (engine (fork_nodes 1 0 1) fork_parents 0 [1, 2] [1])
      0 ⟨1, 0⟩ (input1 0 1) (fork_graph_wf 1 0 1 0 [1, 2] [1]).1
      (fork_graph_wf 1 0 1 0 [1, 2] [1]).2.1 (fork_graph_wf 1 0 1 0 [1, 2] [1]).2.2.1
      (by unfold P1; decide) (by decide) rfl rfl).2 3 _ (by decide)⟩

/-- Witness for C4: on the graph `x = 1`, `r = NOT x` with `r` registered,
P1 holds after the `move()` that flips `x`. -/
theorem C4_P1_after_public_calls_witness :
    P1 sample_ops ({ engine (not_nodes 0 1) not_parents 2 [1] [] with
      d_statistics := ⟨1, 2, 1, 1, 0, 0⟩ } : LocalSearch Nat).d_nodes :=
  C4_P1_after_public_calls sample_ops (engine (not_nodes 1 0) not_parents 0 [1] [1])
    { engine (not_nodes 0 1) not_parents 2 [1] [] with d_statistics := ⟨1, 2, 1, 1, 0, 0⟩ }
    (not_graph_wf 1 0 0 [1] [1]) (by unfold P1; decide)
    (EvalStep.move _ _ 2 Result.SAT (by decide))

/-- Counterexample to C4 as stated: on the graph `x = 1`, `r = NOT x`, where
P1 holds, `set_assignment(x, 0)` on the leaf `x`, which has the parent `r`,
leaves `r = 0`, which is not the evaluation of NOT on `x = 0`. -/
theorem C4_counterexample :
    P1 sample_ops (engine (not_nodes 1 0) not_parents 0 [] []).d_nodes ∧
    (engine (not_nodes 1 0) not_parents 0 [] [] : LocalSearch Nat).d_parents.lookup 0
      = some [1] ∧
    set_assignment (engine (not_nodes 1 0) not_parents 0 [] []) 0 BitVector.mk_false
      = .ok (engine (not_nodes 0 0) not_parents 0 [] []) ∧
    ¬ P1 sample_ops (engine (not_nodes 0 0) not_parents 0 [] []).d_nodes := by
  refine ⟨by unfold P1; decide, by decide, by decide, by unfold P1; decide⟩

end Witnesses3

section SampleOps

theorem sample_pick_mem (g : Nat) (l : List Nat) (h : l ≠ []) :
    (sample_ops.pick_from_set g l).1 ∈ l := by
  show l.getD (g % l.length) 0 ∈ l
  have hpos : 0 < l.length := List.length_pos.mpr h
  have hlt : g % l.length < l.length := Nat.mod_lt _ hpos
  rw [List.getD_eq_getElem?_getD, List.getElem?_eq_getElem hlt]
  exact List.getElem_mem hlt

end SampleOps

section Claims5

variable {σ : Type}

/-- C5: when `move()` returns, the result is SAT if and only if the
unsat-root set is empty at the return, that is if and only if
`all_roots_sat()` is true, and (the size of the set fitting the `uint32_t`
that `get_num_roots_unsat()` returns) if and only if
`get_num_roots_unsat()` is 0. -/
theorem C5_sat_iff_no_unsat_roots (ops : NodeOps σ) (fuel : Nat) (s s' : LocalSearch σ)
    (r : Result) (h : move ops fuel s = .ok (r, s')) :
    (r = Result.SAT ↔ s'.d_roots_unsat = []) ∧
    (r = Result.SAT ↔ all_roots_sat s' = true) ∧
    (s'.d_roots_unsat.length < 2 ^ 32 → (r = Result.SAT ↔ get_num_roots_unsat s' = 0)) := by
  have hiff := move_sat_iff ops h
  refine ⟨hiff, ?_, ?_⟩
  · rw [hiff]; unfold all_roots_sat; simp
  · intro hlen
    rw [hiff]
    unfold get_num_roots_unsat
    rw [Nat.mod_eq_of_lt hlen]
    simp

/-- Witness for C5: the move on `x = 1`, `r = NOT x` returns SAT with an empty
unsat-root set, and `get_num_roots_unsat()` is 0. -/
theorem C5_sat_iff_no_unsat_roots_witness :
    move sample_ops 2 (engine (not_nodes 1 0) not_parents 0 [1] [1])
      = .ok (Result.SAT, { engine (not_nodes 0 1) not_parents 2 [1] [] with
          d_statistics := ⟨1, 2, 1, 1, 0, 0⟩ }) ∧
    get_num_roots_unsat ({ engine (not_nodes 0 1) not_parents 2 [1] [] with
      d_statistics := ⟨1, 2, 1, 1, 0, 0⟩ } : LocalSearch Nat) = 0 :=
  ⟨by decide,
   ((C5_sat_iff_no_unsat_roots sample_ops 2 (engine (not_nodes 1 0) not_parents 0 [1] [1])
      { engine (not_nodes 0 1) not_parents 2 [1] [] with d_statistics := ⟨1, 2, 1, 1, 0, 0⟩ }
      Result.SAT (by decide)).2.2 (by decide)).mp rfl⟩

/-- C6: when `move()` returns UNSAT, a root picked from the unsat-root set
is a constant whose domain value is false; so, the generator picking
members of the set, some unsatisfied root is a fixed-false constant, and
`move()` never returns UNSAT when there is none. -/
theorem C6_unsat_only_on_const_false_root (ops : NodeOps σ) (fuel : Nat)
    (s s' : LocalSearch σ) (h : move ops fuel s = .ok (Result.UNSAT, s')) :
    s.d_roots_unsat ≠ [] ∧
    (∃ g root, get_node s (ops.pick_from_set g s.d_roots_unsat).1 = .ok root ∧
      root.d_is_const = true ∧ root.d_domain.lo.is_false = true) ∧
    ((∀ (g : σ) (l : List Nat), l ≠ [] → (ops.pick_from_set g l).1 ∈ l) →
      ∃ id ∈ s.d_roots_unsat, ∃ root, get_node s id = .ok root ∧
        root.d_is_const = true ∧ root.d_domain.lo.is_false = true) := by
  unfold move at h
  split_ifs at h with hemp
  · simp at h
  · have hne : s.d_roots_unsat ≠ [] := by simpa using hemp
    rcases move_loop_cases ops fuel s _ s' h with
      ⟨e1, _, _⟩ | ⟨_, _, g, root, e3, e4, e5⟩ | ⟨sm, inp, a, _, _, e3⟩
    · cases e1
    · refine ⟨hne, ⟨g, root, e3, e4, e5⟩, ?_⟩
      intro hpick
      exact ⟨_, hpick g _ hne, root, e3, e4, e5⟩
    · obtain ⟨_, _, _, _, _, _, _, _, _, hno⟩ := move_finish_ok e3
      exact absurd rfl hno

/-- Witness for C6: with the constant false `c` as the only unsatisfied root
`move()` returns UNSAT, and some unsatisfied root is a fixed-false
constant. -/
theorem C6_unsat_only_on_const_false_root_witness :
    move sample_ops 1 (engine (pair_nodes 0) pair_parents 0 [0, 1] [0])
      = .ok (Result.UNSAT, engine (pair_nodes 0) pair_parents 1 [0, 1] [0]) ∧
    ∃ id ∈ (engine (pair_nodes 0) pair_parents 0 [0, 1] [0]).d_roots_unsat,
      ∃ root, get_node (engine (pair_nodes 0) pair_parents 0 [0, 1] [0]) id = .ok root ∧
      root.d_is_const = true ∧ root.d_domain.lo.is_false = true :=
  ⟨by decide,
   (C6_unsat_only_on_const_false_root sample_ops 1
      (engine (pair_nodes 0) pair_parents 0 [0, 1] [0])
      (engine (pair_nodes 0) pair_parents 1 [0, 1] [0]) (by decide)).2.2
      sample_pick_mem⟩

/-- C7 (as amended): if some root is unsatisfied, no budget is exhausted, and
the root that `move()` picks from the unsat-root set is a constant whose
domain is fixed to false, then `move()` returns UNSAT. -/
theorem C7_const_false_root_unsat (ops : NodeOps σ) (fuel : Nat) (s : LocalSearch σ)
    (root : BitVectorNode) (hne : s.d_roots_unsat ≠ [])
    (hb1 : ¬ (s.d_max_nprops > 0 ∧ s.d_statistics.d_nprops ≥ s.d_max_nprops))
    (hb2 : ¬ (s.d_max_nupdates > 0 ∧ s.d_statistics.d_nupdates ≥ s.d_max_nupdates))
    (hpick : get_node s (ops.pick_from_set s.d_rng s.d_roots_unsat).1 = .ok root)
    (hconst : root.d_is_const = true) (hfalse : root.d_domain.lo.is_false = true) :
    move ops (fuel + 1) s =
      .ok (Result.UNSAT, { s with d_rng := (ops.pick_from_set s.d_rng s.d_roots_unsat).2 }) := by
  unfold move
  have hemp : s.d_roots_unsat.isEmpty = false := by
    cases h : s.d_roots_unsat with
    | nil => exact absurd h hne
    | cons a l => rfl
  rw [hemp]
  simp only [Bool.false_eq_true, if_false]
  rw [move_loop, if_neg hb1, if_neg hb2]
  unfold move_pick
  simp only
  have hg : get_node { s with d_rng := (ops.pick_from_set s.d_rng s.d_roots_unsat).2 }
      (ops.pick_from_set s.d_rng s.d_roots_unsat).1 = .ok root := hpick
  rw [hg]
  simp [hconst, hfalse]

/-- Witness for C7: the engine whose only unsatisfied root is the constant
false `c`. -/
theorem C7_const_false_root_unsat_witness :
    move sample_ops (0 + 1) (engine (pair_nodes 0) pair_parents 0 [0, 1] [0]) =
      .ok (Result.UNSAT, { engine (pair_nodes 0) pair_parents 0 [0, 1] [0] with
        d_rng := (sample_ops.pick_from_set
          (engine (pair_nodes 0) pair_parents 0 [0, 1] [0]).d_rng
          (engine (pair_nodes 0) pair_parents 0 [0, 1] [0]).d_roots_unsat).2 }) :=
  C7_const_false_root_unsat sample_ops 0 (engine (pair_nodes 0) pair_parents 0 [0, 1] [0])
    (const_false1 0) (by decide) (by decide) (by decide) (by decide) rfl (by decide)

/-- Counterexample to C7 as stated: the constant false `c` and the input
`x = 0` are both registered and unsatisfied; the generator picks `x`, the
move sets `x` to 1 and `move()` returns UNKNOWN, not UNSAT, although the
registered root `c` has a domain fixed to false. -/
theorem C7_counterexample :
    0 ∈ (engine (pair_nodes 0) pair_parents 1 [0, 1] [0, 1]).d_roots ∧
    get_node (engine (pair_nodes 0) pair_parents 1 [0, 1] [0, 1]) 0 = .ok (const_false1 0) ∧
    (const_false1 0).d_is_const = true ∧
    (const_false1 0).d_domain.is_fixed = true ∧
    (const_false1 0).d_domain.lo.is_false = true ∧
    move sample_ops 2 (engine (pair_nodes 0) pair_parents 1 [0, 1] [0, 1])
      = .ok (Result.UNKNOWN, { engine (pair_nodes 1) pair_parents 2 [0, 1] [0] with
          d_statistics := ⟨0, 1, 1, 0, 0, 0⟩ }) := by
  decide

/-- C8 (as amended): for every engine state with at least one unsatisfied
root, if `max_nprops > 0` and `nprops >= max_nprops`, or `max_nupdates > 0`
and `nupdates >= max_nupdates`, then `move()` returns UNKNOWN and leaves the
state as it is. -/
theorem C8_budget_exhausted_unknown (ops : NodeOps σ) (fuel : Nat) (s : LocalSearch σ)
    (hne : s.d_roots_unsat ≠ [])
    (hb : (s.d_max_nprops > 0 ∧ s.d_statistics.d_nprops ≥ s.d_max_nprops) ∨
      (s.d_max_nupdates > 0 ∧ s.d_statistics.d_nupdates ≥ s.d_max_nupdates)) :
    move ops (fuel + 1) s = .ok (Result.UNKNOWN, s) := by
  unfold move
  have hemp : s.d_roots_unsat.isEmpty = false := by
    cases h : s.d_roots_unsat with
    | nil => exact absurd h hne
    | cons a l => rfl
  rw [hemp]
  simp only [Bool.false_eq_true, if_false]
  rw [move_loop]
  by_cases h1 : s.d_max_nprops > 0 ∧ s.d_statistics.d_nprops ≥ s.d_max_nprops
  · rw [if_pos h1]
  · rw [if_neg h1]
    rcases hb with h | h
    · exact absurd h h1
    · rw [if_pos h]

/-- Witness for C8: a budget of one propagation that is used up. -/
theorem C8_budget_exhausted_unknown_witness :
    move sample_ops (0 + 1)
      ({ engine (not_nodes 1 0) not_parents 0 [1] [1] with
        d_max_nprops := 1, d_statistics := ⟨1, 0, 0, 0, 0, 0⟩ } : LocalSearch Nat)
      = .ok (Result.UNKNOWN, { engine (not_nodes 1 0) not_parents 0 [1] [1] with
        d_max_nprops := 1, d_statistics := ⟨1, 0, 0, 0, 0, 0⟩ }) :=
  C8_budget_exhausted_unknown sample_ops 0
    { engine (not_nodes 1 0) not_parents 0 [1] [1] with
      d_max_nprops := 1, d_statistics := ⟨1, 0, 0, 0, 0, 0⟩ }
    (by decide) (Or.inl (by decide))

/-- Counterexample to C8 as stated: with `max_nprops = 0` the test
`nprops >= max_nprops` holds (0 >= 0) and the input `x = 0` is an
unsatisfied root, yet `move()` sets `x` to 1 and returns SAT. -/
theorem C8_counterexample :
    (engine (leaf_nodes 0) leaf_parents 0 [0] [0]).d_roots_unsat ≠ [] ∧
    (engine (leaf_nodes 0) leaf_parents 0 [0] [0]).d_statistics.d_nprops
      ≥ (engine (leaf_nodes 0) leaf_parents 0 [0] [0]).d_max_nprops ∧
    move sample_ops 2 (engine (leaf_nodes 0) leaf_parents 0 [0] [0])
      = .ok (Result.SAT, { engine (leaf_nodes 1) leaf_parents 1 [0] [] with
          d_statistics := ⟨0, 1, 1, 0, 0, 0⟩ }) := by
  decide

/-- C9: a budget of 0 is unlimited.  With `max_nprops = 0`, `max_nupdates = 0`
and some root unsatisfied, whatever the counters hold, `move()` passes the
budget tests and goes on to pick a root; and whenever it returns UNKNOWN a
move has been made, so the result never comes from a budget test. -/
theorem C9_zero_budget_unlimited (ops : NodeOps σ) (s : LocalSearch σ)
    (hp : s.d_max_nprops = 0) (hu : s.d_max_nupdates = 0) (hne : s.d_roots_unsat ≠ []) :
    (∀ fuel, move ops (fuel + 1) s = move_pick ops (move_loop ops fuel) (fuel + 1) s) ∧
    (∀ fuel s', move ops fuel s = .ok (Result.UNKNOWN, s') →
      s'.d_statistics.d_nmoves = u64 (s.d_statistics.d_nmoves + 1)) := by
  have hemp : s.d_roots_unsat.isEmpty = false := by
    cases h : s.d_roots_unsat with
    | nil => exact absurd h hne
    | cons a l => rfl
  refine ⟨?_, ?_⟩
  · intro fuel
    unfold move
    rw [hemp]
    simp only [Bool.false_eq_true, if_false]
    rw [move_loop, if_neg (by omega), if_neg (by omega)]
  · intro fuel s' h
    unfold move at h
    rw [hemp] at h
    simp only [Bool.false_eq_true, if_false] at h
    rcases move_loop_cases ops fuel s _ s' h with
      ⟨_, e2, e3⟩ | ⟨e1, _, _⟩ | ⟨sm, inp, a, e1, _, e3⟩
    · exfalso
      obtain ⟨_, _, _, _, _, m1, m2, _, _⟩ := e2
      rw [m1, m2, hp, hu] at e3
      omega
    · cases e1
    · obtain ⟨_, _, _, _, _, _, _, hm, _, _⟩ := move_finish_ok e3
      rw [hm, e1.2.2.2.2.2.2.2.2]

/-- Witness for C9: unlimited budgets with counters far above zero; the move
that follows makes `y` unsatisfied, returns UNKNOWN and has counted one
move. -/
theorem C9_zero_budget_unlimited_witness :
    move sample_ops (1 + 1) ({ engine (fork_nodes 1 0 1) fork_parents 0 [1, 2] [1] with
        d_statistics := ⟨1000, 1000, 7, 0, 0, 0⟩ } : LocalSearch Nat)
      = move_pick sample_ops (move_loop sample_ops 1) (1 + 1)
        { engine (fork_nodes 1 0 1) fork_parents 0 [1, 2] [1] with
          d_statistics := ⟨1000, 1000, 7, 0, 0, 0⟩ } ∧
    ({ engine (fork_nodes 0 1 0) fork_parents 2 [1, 2] [2] with
        d_statistics := ⟨1001, 1003, 8, 1, 0, 0⟩ } : LocalSearch Nat).d_statistics.d_nmoves
      = u64 (7 + 1) :=
  ⟨(C9_zero_budget_unlimited sample_ops
      { engine (fork_nodes 1 0 1) fork_parents 0 [1, 2] [1] with
        d_statistics := ⟨1000, 1000, 7, 0, 0, 0⟩ } rfl rfl (by decide)).1 1,
   (C9_zero_budget_unlimited sample_ops
      { engine (fork_nodes 1 0 1) fork_parents 0 [1, 2] [1] with
        d_statistics := ⟨1000, 1000, 7, 0, 0, 0⟩ } rfl rfl (by decide)).2 2
      { engine (fork_nodes 0 1 0) fork_parents 2 [1, 2] [2] with
        d_statistics := ⟨1001, 1003, 8, 1, 0, 0⟩ } (by decide)⟩

/-- C10: when `move()` returns UNSAT, or returns UNKNOWN without having made
a move (the budget test), the node table with every assignment and the
unsat-root set are as they were before the call. -/
theorem C10_no_change_on_budget_or_unsat (ops : NodeOps σ) (fuel : Nat) (s s' : LocalSearch σ)
    (r : Result) (h : move ops fuel s = .ok (r, s'))
    (hr : r = Result.UNSAT ∨
      (r = Result.UNKNOWN ∧ s'.d_statistics.d_nmoves = s.d_statistics.d_nmoves)) :
    s'.d_nodes = s.d_nodes ∧ s'.d_roots_unsat = s.d_roots_unsat := by
  unfold move at h
  split_ifs at h with hemp
  · simp only [Except.ok.injEq, Prod.mk.injEq] at h
    rw [← h.2]; exact ⟨rfl, rfl⟩
  · rcases move_loop_cases ops fuel s r s' h with
      ⟨_, e2, _⟩ | ⟨_, e2, _⟩ | ⟨sm, inp, a, e1, _, e3⟩
    · exact ⟨e2.1, e2.2.2.2.1⟩
    · exact ⟨e2.1, e2.2.2.2.1⟩
    · exfalso
      obtain ⟨_, _, _, _, _, _, _, hm, _, hno⟩ := move_finish_ok e3
      rcases hr with e | ⟨_, e⟩
      · exact hno e
      · rw [hm, e1.2.2.2.2.2.2.2.2] at e
        exact u64_succ_ne _ e

/-- Witness for C10: the budget of one propagation is used up; `move()`
returns UNKNOWN and the node table and the unsat-root set are untouched. -/
theorem C10_no_change_on_budget_or_unsat_witness :
    ({ engine (not_nodes 1 0) not_parents 0 [1] [1] with
        d_max_nprops := 1, d_statistics := ⟨1, 0, 0, 0, 0, 0⟩ } : LocalSearch Nat).d_nodes
      = not_nodes 1 0 ∧
    ({ engine (not_nodes 1 0) not_parents 0 [1] [1] with
        d_max_nprops := 1, d_statistics := ⟨1, 0, 0, 0, 0, 0⟩ } : LocalSearch Nat).d_roots_unsat
      = [1] :=
  C10_no_change_on_budget_or_unsat sample_ops 1
    { engine (not_nodes 1 0) not_parents 0 [1] [1] with
      d_max_nprops := 1, d_statistics := ⟨1, 0, 0, 0, 0, 0⟩ }
    { engine (not_nodes 1 0) not_parents 0 [1] [1] with
      d_max_nprops := 1, d_statistics := ⟨1, 0, 0, 0, 0, 0⟩ }
    Result.UNKNOWN (by decide) (Or.inr ⟨rfl, rfl⟩)

end Claims5


section Claims12

variable {σ : Type}

/-- C12: on a leaf `n` whose current assignment is `v` (the entry assertions
of `update_cone` holding), `update_cone(n, v)` returns 0 and leaves the
whole state as it is: no assignment, no unsat-root membership changes, and
no node is evaluated, whatever `evaluate()` would compute. -/
theorem C12_update_cone_same_value (ops : NodeOps σ) (s : LocalSearch σ) (n : Nat)
    (v : BitVector) (nd : BitVectorNode) (hn : get_node s n = .ok nd)
    (hleaf : nd.d_children = []) (hchk : check_unsat_false s = true)
    (hv : nd.d_assignment = v) :
    update_cone ops s n v = .ok (0, s) := by
  unfold update_cone
  rw [hn]
  have h1 : is_leaf_node nd = true := by
    unfold is_leaf_node BitVectorNode.arity
    simp [hleaf]
  simp [h1, hchk, hv]

/-- Witness for C12: on `x = 1`, `r = NOT x`, `y = x AND x` the call
`update_cone(x, 1)` returns 0 and the state is unchanged. -/
theorem C12_update_cone_same_value_witness :
    update_cone sample_ops (engine (fork_nodes 1 0 1) fork_parents 0 [1, 2] [1]) 0 ⟨1, 1⟩
      = .ok (0, engine (fork_nodes 1 0 1) fork_parents 0 [1, 2] [1]) :=
  C12_update_cone_same_value sample_ops (engine (fork_nodes 1 0 1) fork_parents 0 [1, 2] [1])
    0 ⟨1, 1⟩ (input1 0 1) (by decide) rfl (by decide) rfl

/-- C14: for a node without parents whose assignment is a well-formed
width-1 value, `update_unsat_roots(root)` returns, afterwards the root's id
is in the unsat-root set if and only if the assignment is false, the
membership of every other id is unchanged, and a second call changes
nothing. -/
theorem C14_update_unsat_roots_exact (s : LocalSearch σ) (root : BitVectorNode)
    (hnop : s.d_parents.lookup root.d_id = some [])
    (hsize : root.d_assignment.size = 1) (hwf : root.d_assignment.wf) :
    ∃ s', update_unsat_roots s root = .ok s' ∧
      (root.d_id ∈ s'.d_roots_unsat ↔ root.d_assignment.is_false = true) ∧
      (∀ x, x ≠ root.d_id → (x ∈ s'.d_roots_unsat ↔ x ∈ s.d_roots_unsat)) ∧
      update_unsat_roots s' root = .ok s' := by
  have hbool : root.d_assignment.is_true = true ↔ ¬ root.d_assignment.is_false = true := by
    unfold BitVector.wf at hwf
    rw [hsize] at hwf
    unfold BitVector.is_true BitVector.is_false
    simp only [hsize, beq_self_eq_true, Bool.true_and, beq_iff_eq]
    omega
  have key : ∀ st : LocalSearch σ, st.d_parents = s.d_parents →
      ∃ s', update_unsat_roots st root = .ok s' ∧ s'.d_parents = s.d_parents ∧
        (root.d_id ∈ s'.d_roots_unsat ↔ root.d_assignment.is_false = true) ∧
        (∀ x, x ≠ root.d_id → (x ∈ s'.d_roots_unsat ↔ x ∈ st.d_roots_unsat)) ∧
        ((root.d_id ∈ st.d_roots_unsat ↔ root.d_assignment.is_false = true) → s' = st) := by
    intro st hpar
    have hl : st.d_parents.lookup root.d_id = some [] := by rw [hpar]; exact hnop
    unfold update_unsat_roots is_root_node
    rw [hl]
    simp only [List.isEmpty_nil]
    by_cases hm : root.d_id ∈ st.d_roots_unsat
    · by_cases ht : root.d_assignment.is_true = true
      · have hf : ¬ root.d_assignment.is_false = true := hbool.mp ht
        refine ⟨{ st with d_roots_unsat := st.d_roots_unsat.filter (fun x => x != root.d_id) },
          by simp only [hm, ht, if_true], hpar, ?_, ?_, ?_⟩
        · simp [List.mem_filter, hf]
        · intro x hx; simp [List.mem_filter, hx]
        · intro hiff; exact absurd (hiff.mp hm) hf
      · have hf : root.d_assignment.is_false = true := by
          by_contra hc; exact ht (hbool.mpr hc)
        refine ⟨st, by simp [hm, ht], hpar, ?_, fun _ _ => Iff.rfl, fun _ => rfl⟩
        simp [hm, hf]
    · by_cases hf : root.d_assignment.is_false = true
      · refine ⟨{ st with d_roots_unsat := st.d_roots_unsat ++ [root.d_id] },
          by simp only [hm, hf, if_true, if_false], hpar, ?_, ?_, ?_⟩
        · simp [hf]
        · intro x hx; simp [hx]
        · intro hiff; exact absurd (hiff.mpr hf) hm
      · refine ⟨st, by simp [hm, hf], hpar, ?_, fun _ _ => Iff.rfl, fun _ => rfl⟩
        simp [hm, hf]
  obtain ⟨s1, h1, hp1, h2, h3, _⟩ := key s rfl
  obtain ⟨s2, g1, _, _, _, g5⟩ := key s1 hp1
  have : s2 = s1 := g5 h2
  subst this
  exact ⟨s2, h1, h2, h3, g1⟩

/-- Witness for C14: the false root `r` of `x = 1`, `r = NOT x` is put into
the empty unsat-root set, and a second call changes nothing. -/
theorem C14_update_unsat_roots_exact_witness :
    ∃ s', update_unsat_roots (engine (not_nodes 1 0) not_parents 0 [1] []) (op1 1 Kind.NOT [0] 0)
        = .ok s' ∧
      ((op1 1 Kind.NOT [0] 0).d_id ∈ s'.d_roots_unsat ↔
        (op1 1 Kind.NOT [0] 0).d_assignment.is_false = true) ∧
      (∀ x, x ≠ (op1 1 Kind.NOT [0] 0).d_id → (x ∈ s'.d_roots_unsat ↔
        x ∈ (engine (not_nodes 1 0) not_parents 0 [1] []).d_roots_unsat)) ∧
      update_unsat_roots s' (op1 1 Kind.NOT [0] 0) = .ok s' :=
  C14_update_unsat_roots_exact (engine (not_nodes 1 0) not_parents 0 [1] [])
    (op1 1 Kind.NOT [0] 0) (by decide) rfl (by decide)

end Claims12


section Claims17

variable {σ : Type}

theorem update_unsat_roots_returns (s : LocalSearch σ) (root : BitVectorNode)
    (hnop : s.d_parents.lookup root.d_id = some []) :
    ∃ s', update_unsat_roots s root = .ok s' ∧
      (root.d_assignment.size ≠ 1 → s' = s) := by
  unfold update_unsat_roots is_root_node
  rw [hnop]
  simp only [List.isEmpty_nil]
  have hsz : root.d_assignment.size ≠ 1 →
      root.d_assignment.is_true = false ∧ root.d_assignment.is_false = false := by
    intro h
    unfold BitVector.is_true BitVector.is_false
    simp [h]
  by_cases hm : root.d_id ∈ s.d_roots_unsat
  · by_cases ht : root.d_assignment.is_true = true
    · refine ⟨{ s with d_roots_unsat := s.d_roots_unsat.filter (fun x => x != root.d_id) },
        by simp only [hm, ht, if_true], ?_⟩
      intro h; rw [(hsz h).1] at ht; cases ht
    · exact ⟨s, by simp [hm, ht], fun _ => rfl⟩
  · by_cases hf : root.d_assignment.is_false = true
    · refine ⟨{ s with d_roots_unsat := s.d_roots_unsat ++ [root.d_id] },
        by simp only [hm, hf, if_true, if_false], ?_⟩
      intro h; rw [(hsz h).2] at hf; cases hf
    · exact ⟨s, by simp [hm, hf], fun _ => rfl⟩

theorem get_node_of_lt {s : LocalSearch σ} (hids : IdsOK s.d_nodes) {id : Nat}
    (h : id < s.d_nodes.length) : ∃ nd, get_node s id = .ok nd := by
  have h1 : s.d_nodes[id]? = some s.d_nodes[id] := List.getElem?_eq_getElem h
  exact ⟨_, get_node_of_wf hids h1⟩

theorem register_ineq_returns (s : LocalSearch σ) (id : Nat) (root : BitVectorNode)
    (hids : IdsOK s.d_nodes) (hlt : ChildrenBelow s.d_nodes)
    (hroot : get_node s id = .ok root)
    (hnot : root.is_not = true → root.d_children ≠ []) :
    ∃ s3, register_ineq s id root = .ok s3 := by
  obtain ⟨hget, hid⟩ := get_node_of_ok.mp hroot
  have hlen : id < s.d_nodes.length := (List.getElem?_eq_some.mp hget).1
  unfold register_ineq
  simp only
  by_cases h2 : root.is_not = true
  · simp only [h2, Bool.not_true, Bool.false_eq_true, if_false]
    cases hc : root.d_children with
    | nil => exact absurd hc (hnot h2)
    | cons c rest =>
      simp only
      have hcl : c < s.d_nodes.length := by
        have := hlt root (mem_of_getElem? hget) c (by rw [hc]; simp)
        omega
      by_cases h1 : root.is_inequality = true
      · simp only [h1, if_true]
        obtain ⟨child, hch⟩ := get_node_of_lt
          (s := { s with d_roots_ineq := roots_ineq_insert s.d_roots_ineq id true }) hids hcl
        rw [hch]
        exact ⟨_, rfl⟩
      · simp only [h1, Bool.false_eq_true, if_false]
        obtain ⟨child, hch⟩ := get_node_of_lt hids hcl
        rw [hch]
        exact ⟨_, rfl⟩
  · simp only [h2, Bool.not_false, if_true]
    exact ⟨_, rfl⟩

/-- A node without parents is registered by `register_root`, whatever its
bit-width; for a width other than 1 the unsat-root set stays as it is. -/
theorem register_root_returns (s : LocalSearch σ) (id : Nat) (root : BitVectorNode)
    (hids : IdsOK s.d_nodes) (hlt : ChildrenBelow s.d_nodes)
    (hroot : get_node s id = .ok root) (hnop : s.d_parents.lookup id = some [])
    (hnot : root.is_not = true → root.d_children ≠ []) :
    ∃ s', register_root s id = .ok s' ∧ s'.d_roots = s.d_roots ++ [id] ∧
      (root.d_assignment.size ≠ 1 → s'.d_roots_unsat = s.d_roots_unsat) := by
  obtain ⟨hget, hid⟩ := get_node_of_ok.mp hroot
  have hlen : id < s.d_nodes.length := (List.getElem?_eq_some.mp hget).1
  obtain ⟨s3, h3⟩ := register_ineq_returns { s with d_roots := s.d_roots ++ [id] } id root
    hids hlt hroot hnot
  have e3 := register_ineq_ok h3
  have hp3 : s3.d_parents.lookup root.d_id = some [] := by
    rw [e3, hid]; exact hnop
  obtain ⟨s', hu, hsame⟩ := update_unsat_roots_returns s3 root hp3
  refine ⟨s', ?_, ?_, ?_⟩
  · unfold register_root
    rw [if_neg (by omega), hroot]
    simp only [h3]
    exact hu
  · rw [(update_unsat_roots_ok hu).1.roots, e3]
  · intro hsz
    rw [hsame hsz, e3]

end Claims17


section Claims18

variable {σ : Type}

/-- C18 (as amended): `register_root(id)` does not look at the bit-width.  A
node without parents whose width is not 1 is registered as a root; its
assignment being neither true nor false, the unsat-root set stays as it
is. -/
theorem C18_register_root_any_width (s : LocalSearch σ) (id : Nat) (root : BitVectorNode)
    (hids : IdsOK s.d_nodes) (hlt : ChildrenBelow s.d_nodes)
    (hroot : get_node s id = .ok root) (hnop : s.d_parents.lookup id = some [])
    (hnot : root.is_not = true → root.d_children ≠ [])
    (hsz : root.d_assignment.size ≠ 1) :
    ∃ s', register_root s id = .ok s' ∧ id ∈ s'.d_roots ∧
      s'.d_roots_unsat = s.d_roots_unsat := by
  obtain ⟨s', h1, h2, h3⟩ := register_root_returns s id root hids hlt hroot hnop hnot
  exact ⟨s', h1, by rw [h2]; simp, h3 hsz⟩

/-- Witness for C18: a width-2 input without parents is registered. -/
theorem C18_register_root_any_width_witness :
    ∃ s', register_root (engine [input2 0 0] leaf_parents 0 [] []) 0 = .ok s' ∧
      0 ∈ s'.d_roots ∧
      s'.d_roots_unsat = (engine [input2 0 0] leaf_parents 0 [] []).d_roots_unsat :=
  C18_register_root_any_width (engine [input2 0 0] leaf_parents 0 [] []) 0 (input2 0 0)
    (idsOK_of_range rfl) (by unfold ChildrenBelow; simp [engine, input2])
    (by decide) (by decide) (by decide) (by decide)

/-- Counterexample to C18 as stated: the width-2 input `x = 00` is accepted by
`register_root`; it is then a registered root, and `move()` returns SAT
although its assignment is not true. -/
theorem C18_counterexample :
    (input2 0 0).d_assignment.size = 2 ∧
    register_root (engine [input2 0 0] leaf_parents 0 [] []) 0
      = .ok (engine [input2 0 0] leaf_parents 0 [0] []) ∧
    0 ∈ (engine [input2 0 0] leaf_parents 0 [0] []).d_roots ∧
    move sample_ops 1 (engine [input2 0 0] leaf_parents 0 [0] [])
      = .ok (Result.SAT, engine [input2 0 0] leaf_parents 0 [0] []) ∧
    (input2 0 0).d_assignment.is_true = false := by
  decide

end Claims18


section Claims15

variable {σ : Type}

/-- C15: at a propagation step of `select_move` (an operator node that is not
constant, the selected position below the arity), with `draw` the result of
the generator's draw with probability `prob_pick_inv_value`: the condition
for the inverse value is true exactly when the draw succeeded and
`is_invertible` returned true, and `is_invertible` is not consulted when the
draw failed; `inverse_value` gives the new target exactly under that
condition; otherwise `consistent_value` gives it exactly when
`is_consistent` returned true; otherwise there is no new target and
`select_move` returns the conflict move (null input) with the count of
propagations it had. -/
theorem C15_value_policy (ops : NodeOps σ) (s : LocalSearch σ) (cur : BitVectorNode)
    (t : BitVector) (fuel nprops : Nat)
    (harity : cur.arity ≠ 0) (hconst : (cur.d_is_const || cur.d_all_const) = false)
    (hfix : cur.d_domain.is_fixed = false)
    (hpos : (ops.select_path (bounds_step ops s cur) s.d_nodes cur t).1 < cur.arity) :
    let sel := ops.select_path (bounds_step ops s cur) s.d_nodes cur t
    let draw := ops.pick_with_prob sel.2 s.d_options.prob_pick_inv_value
    let inv := pick_inverse ops s cur t sel.1 sel.2
    let cons := ops.is_consistent inv.2 s.d_nodes cur t sel.1
    (inv.1 = true ↔
      (draw.1 = true ∧ (ops.is_invertible draw.2 s.d_nodes cur t sel.1).1 = true)) ∧
    (draw.1 = false → inv = (false, draw.2)) ∧
    ∃ res s1, select_value ops s cur t = .ok (res, s1) ∧
      ((inv.1 = true ∧
          res = some (sel.1, (ops.inverse_value inv.2 s.d_nodes cur t sel.1).1)) ∨
       (inv.1 = false ∧ cons.1 = true ∧
          res = some (sel.1, (ops.consistent_value cons.2 s.d_nodes cur t sel.1).1)) ∨
       (inv.1 = false ∧ cons.1 = false ∧ res = none ∧
          select_move_loop ops (fuel + 1) s cur t nprops = .ok (conflict_move nprops, s1))) := by
  intro sel draw inv cons
  refine ⟨?_, ?_, ?_⟩
  · show (pick_inverse ops s cur t sel.1 sel.2).1 = true ↔ _
    unfold pick_inverse
    simp only
    by_cases hd : (ops.pick_with_prob sel.2 s.d_options.prob_pick_inv_value).1 = true
    · simp only [hd, if_true]
      constructor
      · intro h; exact ⟨hd, h⟩
      · intro h; exact h.2
    · simp only [hd, if_false]
      constructor
      · intro h; cases h
      · intro h; exact absurd h.1 hd
  · intro hd
    show pick_inverse ops s cur t sel.1 sel.2 = _
    unfold pick_inverse
    simp only
    have hd2 : (ops.pick_with_prob sel.2 s.d_options.prob_pick_inv_value).1 = false := hd
    rw [hd2]
    simp
  · have hsv : select_value ops s cur t =
        (if inv.1 = true then
          .ok (some (sel.1, (ops.inverse_value inv.2 s.d_nodes cur t sel.1).1), { s with
            d_rng := (ops.inverse_value inv.2 s.d_nodes cur t sel.1).2
            d_statistics := { s.d_statistics with
              d_nprops_inv := u64 (s.d_statistics.d_nprops_inv + 1) } })
        else if cons.1 = true then
          .ok (some (sel.1, (ops.consistent_value cons.2 s.d_nodes cur t sel.1).1), { s with
            d_rng := (ops.consistent_value cons.2 s.d_nodes cur t sel.1).2
            d_statistics := { s.d_statistics with
              d_nprops_cons := u64 (s.d_statistics.d_nprops_cons + 1) } })
        else
          .ok (none, { s with
            d_rng := cons.2
            d_statistics := { s.d_statistics with
              d_nconf := u64 (s.d_statistics.d_nconf + 1) } })) := by
      unfold select_value
      rw [hfix]
      simp only [Bool.false_eq_true, if_false]
      rw [if_neg (by omega)]
    by_cases hi : inv.1 = true
    · rw [if_pos hi] at hsv
      exact ⟨_, _, hsv, Or.inl ⟨hi, rfl⟩⟩
    · rw [if_neg hi] at hsv
      have hi2 : inv.1 = false := by simpa using hi
      by_cases hc : cons.1 = true
      · rw [if_pos hc] at hsv
        exact ⟨_, _, hsv, Or.inr (Or.inl ⟨hi2, hc, rfl⟩)⟩
      · rw [if_neg hc] at hsv
        have hc2 : cons.1 = false := by simpa using hc
        refine ⟨_, _, hsv, Or.inr (Or.inr ⟨hi2, hc2, rfl, ?_⟩)⟩
        rw [select_move_loop, if_neg harity, hconst]
        simp only [Bool.false_eq_true, if_false]
        rw [hsv]

end Claims15


section Claims11

variable {σ : Type}

/-- Witness for C15: at the node `a = NOT x` of the chain graph with target
`11` the draw succeeds, but `~t = 00` does not match the fixed bit of `x`;
neither value is offered and the step is a conflict. -/
theorem C15_value_policy_witness :
    select_value eq_not_ops (engine (chain_nodes 0) chain_parents 2 [3, 4] [3, 4])
        ⟨1, Kind.NOT, [0], [], ⟨2, 1⟩, ⟨⟨2, 0⟩, ⟨2, 3⟩⟩, false, false⟩ ⟨2, 3⟩
      = .ok (none, engine_stats (chain_nodes 0) chain_parents 3 [3, 4] [3, 4]
          ⟨0, 0, 0, 0, 0, 1⟩) ∧
    ∃ res s1, select_value eq_not_ops (engine (chain_nodes 0) chain_parents 2 [3, 4] [3, 4])
        ⟨1, Kind.NOT, [0], [], ⟨2, 1⟩, ⟨⟨2, 0⟩, ⟨2, 3⟩⟩, false, false⟩ ⟨2, 3⟩
      = .ok (res, s1) :=
  ⟨by decide, by
    obtain ⟨res, s1, h, _⟩ := (C15_value_policy eq_not_ops
      (engine (chain_nodes 0) chain_parents 2 [3, 4] [3, 4])
      ⟨1, Kind.NOT, [0], [], ⟨2, 1⟩, ⟨⟨2, 0⟩, ⟨2, 3⟩⟩, false, false⟩ ⟨2, 3⟩ 0 1
      (by decide) (by decide) (by decide) (by decide)).2.2
    exact ⟨res, s1, h⟩⟩

/-- C11 (as amended): a returning `move()` makes at most one cone update.
Either the node table, the unsat-root set and the count of moves are as
before the call, or the final node table and unsat-root set are those of
one `update_cone` call on the graph as it was, and the count of moves has
grown by one.  The number of propagation paths is not bounded by one:
after a conflict the loop picks a root again. -/
theorem C11_at_most_one_cone_update (ops : NodeOps σ) (fuel : Nat) (s s' : LocalSearch σ)
    (r : Result) (h : move ops fuel s = .ok (r, s')) :
    (s'.d_nodes = s.d_nodes ∧ s'.d_roots_unsat = s.d_roots_unsat ∧
      s'.d_statistics.d_nmoves = s.d_statistics.d_nmoves) ∨
    (∃ sm input a k s2, sm.d_nodes = s.d_nodes ∧ sm.d_roots_unsat = s.d_roots_unsat ∧
      sm.d_parents = s.d_parents ∧
      update_cone ops sm input a = .ok (k, s2) ∧
      s'.d_nodes = s2.d_nodes ∧ s'.d_roots_unsat = s2.d_roots_unsat ∧
      s'.d_statistics.d_nmoves = u64 (s.d_statistics.d_nmoves + 1)) := by
  unfold move at h
  split_ifs at h with hemp
  · simp only [Except.ok.injEq, Prod.mk.injEq] at h
    rw [← h.2]; exact Or.inl ⟨rfl, rfl, rfl⟩
  · rcases move_loop_cases ops fuel s r s' h with
      ⟨_, e2, _⟩ | ⟨_, e2, _⟩ | ⟨sm, inp, a, e1, _, e3⟩
    · exact Or.inl ⟨e2.1, e2.2.2.2.1, e2.2.2.2.2.2.2.2.2⟩
    · exact Or.inl ⟨e2.1, e2.2.2.2.1, e2.2.2.2.2.2.2.2.2⟩
    · obtain ⟨k, s2, hu, f1, f2, _, _, f5, _, _⟩ := move_finish_ok e3
      refine Or.inr ⟨_, inp, a, k, s2, ?_, ?_, ?_, hu, f1, f2, ?_⟩
      · exact e1.1
      · exact e1.2.2.2.1
      · exact e1.2.2.2.2.1
      · rw [f5, e1.2.2.2.2.2.2.2.2]

/-- Witness for C11: the move on `x = 1`, `r = NOT x`, which makes one cone
update; the count of moves goes from 0 to 1. -/
theorem C11_at_most_one_cone_update_witness :
    move sample_ops 2 (engine (not_nodes 1 0) not_parents 0 [1] [1])
      = .ok (Result.SAT, engine_stats (not_nodes 0 1) not_parents 2 [1] [] ⟨1, 2, 1, 1, 0, 0⟩) ∧
    ((engine_stats (not_nodes 0 1) not_parents 2 [1] [] ⟨1, 2, 1, 1, 0, 0⟩).d_statistics.d_nmoves
        = (engine (not_nodes 1 0) not_parents 0 [1] [1]).d_statistics.d_nmoves ∨
     (engine_stats (not_nodes 0 1) not_parents 2 [1] [] ⟨1, 2, 1, 1, 0, 0⟩).d_statistics.d_nmoves
        = u64 ((engine (not_nodes 1 0) not_parents 0 [1] [1]).d_statistics.d_nmoves + 1)) :=
  ⟨by decide, by
    rcases C11_at_most_one_cone_update sample_ops 2
      (engine (not_nodes 1 0) not_parents 0 [1] [1])
      (engine_stats (not_nodes 0 1) not_parents 2 [1] [] ⟨1, 2, 1, 1, 0, 0⟩)
      Result.SAT (by decide) with h | ⟨_, _, _, _, _, _, _, _, _, _, _, h⟩
    · exact Or.inl h.2.2
    · exact Or.inr h⟩

/-- Counterexample to C11 as stated: on the chain graph with the roots
`r = (NOT x = 11)` and `y`, one call of `move()` runs two propagation
paths.  The first, from `r`, ends in a conflict after one propagation (at
`NOT x` the value `00` does not match the fixed bit of `x`); the loop goes
round; the second, from `y`, lands on `y`; then the cone is updated and
the call returns UNKNOWN with one conflict and one move counted. -/
theorem C11_counterexample :
    select_move eq_not_ops 3 (engine (chain_nodes 0) chain_parents 1 [3, 4] [3, 4])
        ⟨3, Kind.EQ, [1, 2], [], ⟨1, 0⟩, dom_x1, false, false⟩ BitVector.mk_true
      = .ok (⟨1, 0, none, BitVector.null⟩,
          engine_stats (chain_nodes 0) chain_parents 3 [3, 4] [3, 4] ⟨0, 0, 0, 1, 0, 1⟩) ∧
    move eq_not_ops 3 (engine (chain_nodes 0) chain_parents 0 [3, 4] [3, 4])
      = move_loop eq_not_ops 2
          (engine_stats (chain_nodes 0) chain_parents 3 [3, 4] [3, 4] ⟨1, 0, 0, 1, 0, 1⟩) ∧
    select_move eq_not_ops 2
        (engine_stats (chain_nodes 0) chain_parents 4 [3, 4] [3, 4] ⟨1, 0, 0, 1, 0, 1⟩)
        (input1 4 0) BitVector.mk_true
      = .ok (⟨0, 0, some 4, BitVector.mk_true⟩,
          engine_stats (chain_nodes 0) chain_parents 4 [3, 4] [3, 4] ⟨1, 0, 0, 1, 0, 1⟩) ∧
    move eq_not_ops 3 (engine (chain_nodes 0) chain_parents 0 [3, 4] [3, 4])
      = .ok (Result.UNKNOWN,
          engine_stats (chain_nodes 1) chain_parents 4 [3, 4] [3] ⟨1, 1, 1, 1, 0, 1⟩) := by
  decide

end Claims11


section ConeCount

variable {σ : Type}

theorem push_parents_lt {nodes : List BitVectorNode} {ps stack res : List Nat}
    (h : push_parents nodes ps stack = .ok res) : ∀ p ∈ ps, p < nodes.length := by
  unfold push_parents at h
  split_ifs at h with hall
  intro p hp
  rw [List.all_eq_true] at hall
  have h1 := hall p hp
  cases hg : get_node_of nodes p with
  | error e => simp [hg] at h1
  | ok nd =>
    have h2 := (get_node_of_ok.mp hg).1
    rw [List.getElem?_eq_some] at h2
    exact h2.1

/-- The loop of `update_cone` collects each node once, and only nodes that
are in the table and reachable from the stack through the parents map. -/
theorem cone_loop_sound (parents : List (Nat × List Nat)) (nodes : List BitVectorNode)
    (A : Nat → Prop)
    (hA : ∀ (x : Nat) (ps : List Nat) (p : Nat), A x → parents.lookup x = some ps → p ∈ ps → A p) :
    ∀ (fuel : Nat) (stack visited cone res : List Nat),
      cone_loop parents nodes fuel stack visited cone = .ok res →
      (∀ x ∈ stack, A x ∧ x < nodes.length) →
      (∀ x ∈ cone, A x ∧ x < nodes.length) →
      (∀ x ∈ cone, x ∈ visited) → cone.Nodup →
      res.Nodup ∧ ∀ x ∈ res, A x ∧ x < nodes.length := by
  intro fuel
  induction fuel with
  | zero =>
    intro stack visited cone res h hs hc hv hn
    cases stack with
    | nil =>
      simp only [cone_loop, Except.ok.injEq] at h
      subst h
      exact ⟨hn, hc⟩
    | cons c r => simp [cone_loop] at h
  | succ n ih =>
    intro stack visited cone res h hs hc hv hn
    cases stack with
    | nil =>
      simp only [cone_loop, Except.ok.injEq] at h
      subst h
      exact ⟨hn, hc⟩
    | cons cur rest =>
      rw [cone_loop] at h
      have hrest : ∀ x ∈ rest, A x ∧ x < nodes.length :=
        fun x hx => hs x (List.mem_cons_of_mem _ hx)
      by_cases hvis : cur ∈ visited
      · simp only [hvis, if_true] at h
        exact ih rest visited cone res h hrest hc hv hn
      · simp only [hvis, if_false] at h
        cases hl : parents.lookup cur with
        | none => simp [hl] at h
        | some ps =>
          simp only [hl] at h
          cases hp : push_parents nodes ps rest with
          | error e => simp [hp] at h
          | ok st =>
            simp only [hp] at h
            have hst := push_parents_ok hp
            have hlt := push_parents_lt hp
            have hcur := hs cur (List.mem_cons_self _ _)
            apply ih st (cur :: visited) (cone ++ [cur]) res h
            · intro x hx
              rw [hst, List.mem_append, List.mem_reverse] at hx
              rcases hx with hx | hx
              · exact ⟨hA cur ps x hcur.1 hl hx, hlt x hx⟩
              · exact hrest x hx
            · intro x hx
              rw [List.mem_append, List.mem_singleton] at hx
              rcases hx with hx | hx
              · exact hc x hx
              · rw [hx]; exact hcur
            · intro x hx
              rw [List.mem_append, List.mem_singleton] at hx
              rcases hx with hx | hx
              · exact List.mem_cons_of_mem _ (hv x hx)
              · rw [hx]; exact List.mem_cons_self _ _
            · rw [List.nodup_append]
              refine ⟨hn, List.nodup_singleton _, ?_⟩
              intro x hx1 hx2
              rw [List.mem_singleton] at hx2
              rw [hx2] at hx1
              exact hvis (hv cur hx1)

/-- The loop over the cone counts one update for each id of the list. -/
theorem update_cone_eval_count (ops : NodeOps σ) :
    ∀ (l : List Nat) (s : LocalSearch σ) (k : Nat) (res : Nat × LocalSearch σ),
      update_cone_eval ops l s k = .ok res → k + l.length < 2 ^ 64 →
      res.1 = k + l.length := by
  intro l
  induction l with
  | nil =>
    intro s k res h _
    simp only [update_cone_eval, Except.ok.injEq] at h
    subst h
    simp
  | cons id rest ih =>
    intro s k res h hk
    rw [update_cone_eval_cons] at h
    simp only [List.length_cons] at hk
    cases hg : get_node s id with
    | error e => simp [hg] at h
    | ok cur =>
      simp only [hg] at h
      cases hr : refresh_root { s with d_nodes := evaluate ops s.d_nodes cur } id with
      | error e => simp [hr] at h
      | ok s2 =>
        simp only [hr] at h
        have hu : u64 (k + 1) = k + 1 := by
          unfold u64
          exact Nat.mod_eq_of_lt (by omega)
        rw [hu] at h
        have := ih s2 (k + 1) res h (by omega)
        rw [this, List.length_cons]
        omega

/-- A list of distinct numbers below `n` has at most `n` elements. -/
theorem nodup_length_le_of_lt {l : List Nat} {n : Nat} (hn : l.Nodup)
    (hlt : ∀ x ∈ l, x < n) : l.length ≤ n := by
  have hsub : l ⊆ List.range n := fun x hx => List.mem_range.mpr (hlt x hx)
  have := (List.subperm_of_subset hn hsub).length_le
  simpa using this

end ConeCount


section Claims13

variable {σ : Type}

/-- C13: when the new value differs from the current assignment of `n`, a
returning `update_cone(n, v)` returns 1 plus the number of distinct strict
ancestors of `n` under the parents map (each counted once), on an engine
whose node table has fewer than 2^64 - 1 entries; and the call never stops
for lack of loop iterations. -/
theorem C13_update_cone_count (ops : NodeOps σ) (s : LocalSearch σ) (n : Nat) (v : BitVector)
    (nd : BitVectorNode) (hg : get_node s n = .ok nd) (hne : nd.d_assignment ≠ v)
    (hsize : s.d_nodes.length + 1 < 2 ^ 64) :
    update_cone ops s n v ≠ .error .fuel ∧
    ∀ (k : Nat) (s' : LocalSearch σ), update_cone ops s n v = .ok (k, s') →
      ∃ cone : List Nat, cone.Nodup ∧ (∀ x, x ∈ cone ↔ Ancestor s.d_parents n x) ∧
        k = 1 + cone.length := by
  refine ⟨update_cone_ne_fuel ops s n v, ?_⟩
  intro k s' h
  obtain ⟨node, hg2, _, _, hcase⟩ := update_cone_ok h
  rw [hg] at hg2
  have hnode : nd = node := by simpa using hg2
  subst hnode
  rcases hcase with ⟨heq, _⟩ | ⟨_, ps, cone, s2, hl, hc, _, he, _⟩
  · exact absurd heq hne
  · have hps : ∀ p ∈ ps, p < (s.d_nodes.set n (nd.set_assignment v)).length := by
      unfold update_cone at h
      simp only [hg] at h
      split_ifs at h
      simp only [hl] at h
      cases hp : push_parents (s.d_nodes.set n (nd.set_assignment v)) ps [] with
      | error e => simp [hp] at h
      | ok st => exact push_parents_lt hp
    have hsound := cone_loop_sound s.d_parents (s.d_nodes.set n (nd.set_assignment v))
      (Ancestor s.d_parents n) (fun x qs p hx hq hp => Ancestor.step x qs p hx hq hp)
      (cone_fuel s.d_parents ps) ps.reverse [] [] cone hc
      (fun x hx => ⟨Ancestor.parent ps x hl (List.mem_reverse.mp hx),
        hps x (List.mem_reverse.mp hx)⟩)
      (fun x hx => by simp at hx) (fun x hx => by simp at hx) List.nodup_nil
    have hclosed := cone_loop_closed s.d_parents (s.d_nodes.set n (nd.set_assignment v))
      (cone_fuel s.d_parents ps) ps.reverse [] [] cone hc (fun x hx => by simp at hx)
    refine ⟨cone, hsound.1, ?_, ?_⟩
    · intro x
      constructor
      · intro hx; exact (hsound.2 x hx).1
      · intro hx
        induction hx with
        | parent qs p hq hp =>
          rw [hl] at hq
          have : ps = qs := by simpa using hq
          subst this
          exact hclosed.2.1 p (List.mem_reverse.mpr hp)
        | step y qs p _ hq hp ih =>
          obtain ⟨rs, hr, hall⟩ := hclosed.2.2 y ih (by simp)
          rw [hq] at hr
          have : qs = rs := by simpa using hr
          subst this
          exact hall p hp
    · have hlen : cone.length ≤ s.d_nodes.length := by
        have := nodup_length_le_of_lt hsound.1 (fun x hx => (hsound.2 x hx).2)
        simpa using this
      have := update_cone_eval_count ops (cone.insertionSort (fun a b => a ≤ b)) s2 1 (k, s') he
        (by rw [List.length_insertionSort]; omega)
      rw [List.length_insertionSort] at this
      exact this

/-- Witness for C13: on the diamond `x`, `a = NOT x`, `b = NOT x`,
`r = a AND b` the call `update_cone(x, 0)` returns 4: `x` and its three
ancestors, `r` counted once. -/
theorem C13_update_cone_count_witness :
    update_cone sample_ops (engine (diamond_nodes 1 0 0 0) diamond_parents 0 [3] [3]) 0 ⟨1, 0⟩
      = .ok (4, engine_stats (diamond_nodes 0 1 1 1) diamond_parents 0 [3] [] ⟨0, 0, 0, 0, 0, 0⟩) ∧
    ∃ cone : List Nat, cone.Nodup ∧ (∀ x, x ∈ cone ↔ Ancestor diamond_parents 0 x) ∧
      4 = 1 + cone.length :=
  ⟨by decide,
   (C13_update_cone_count sample_ops (engine (diamond_nodes 1 0 0 0) diamond_parents 0 [3] [3])
      0 ⟨1, 0⟩ (input1 0 1) (by decide) (by decide) (by decide)).2 4
      (engine_stats (diamond_nodes 0 1 1 1) diamond_parents 0 [3] [] ⟨0, 0, 0, 0, 0, 0⟩)
      (by decide)⟩

end Claims13


section FuelLemmas

variable {σ : Type}

end FuelLemmas


section Claims19

/-- Addition modulo `M` of two numbers below `M`. -/
theorem add_mod_cases (M a b : Nat) (ha : a < M) (hb : b ≤ M) :
    (a + b) % M = if a + b < M then a + b else a + b - M := by
  split_ifs with h
  · exact Nat.mod_eq_of_lt h
  · rw [Nat.mod_eq_sub_mod (by omega)]
    exact Nat.mod_eq_of_lt (by omega)

theorem sub_mod_unique (M s t v : Nat) (hs : s < M) (ht : t < M) (hv : v < M) :
    (v + s) % M = t ↔ v = (t + (M - s)) % M := by
  rw [add_mod_cases M v s hv (by omega), add_mod_cases M t (M - s) ht (by omega)]
  split_ifs <;> omega

/-- C19: ADD with `x` at either position.  For every width `w`, every
domain `x` and all well-formed values `s`, `t` of width `w`, the condition
`mfb(x, t - s)` holds if and only if some well-formed value `v` of width
`w` in the domain of `x` has `v + s = t`; `t - s` is the only well-formed
value of width `w` with `v + s = t`, it evaluates back to `t`, and the
operands of the sum can be swapped. -/
theorem C19_add_invertibility (w : Nat) (x : BitVectorDomain) (s t : BitVector)
    (hs : s.size = w) (ht : t.size = w) (hsw : s.wf) (htw : t.wf) :
    (add_is_invertible x s t = true ↔
      ∃ v : BitVector, v.size = w ∧ v.wf ∧ match_fixed_bits x v = true ∧ v.bvadd s = t) ∧
    (∀ v : BitVector, v.size = w → v.wf → (v.bvadd s = t ↔ v = t.bvsub s)) ∧
    (t.bvsub s).size = w ∧ (t.bvsub s).wf ∧ (t.bvsub s).bvadd s = t ∧
    (∀ v : BitVector, v.size = w → s.bvadd v = v.bvadd s) := by
  obtain ⟨ssz, sv⟩ := s
  obtain ⟨tsz, tv⟩ := t
  simp only at hs ht
  subst hs; subst ht
  simp only [BitVector.wf] at hsw htw
  have hM : 0 < 2 ^ tsz := Nat.two_pow_pos _
  have hsubwf : (BitVector.bvsub ⟨tsz, tv⟩ ⟨tsz, sv⟩).wf := by
    simp only [BitVector.wf, BitVector.bvsub]
    exact Nat.mod_lt _ hM
  have huniq : ∀ v : BitVector, v.size = tsz → v.wf →
      (v.bvadd ⟨tsz, sv⟩ = ⟨tsz, tv⟩ ↔ v = BitVector.bvsub ⟨tsz, tv⟩ ⟨tsz, sv⟩) := by
    intro v hv hvw
    obtain ⟨vsz, vv⟩ := v
    simp only at hv
    subst hv
    simp only [BitVector.wf] at hvw
    simp only [BitVector.bvadd, BitVector.bvsub, BitVector.mk.injEq, true_and]
    rw [Nat.mod_eq_of_lt hsw]
    exact sub_mod_unique _ sv tv vv hsw htw hvw
  have hback : (BitVector.bvsub ⟨tsz, tv⟩ ⟨tsz, sv⟩).bvadd ⟨tsz, sv⟩ = ⟨tsz, tv⟩ :=
    (huniq _ rfl hsubwf).mpr rfl
  refine ⟨?_, huniq, rfl, hsubwf, hback, ?_⟩
  · unfold add_is_invertible
    constructor
    · intro h
      exact ⟨_, rfl, hsubwf, h, hback⟩
    · rintro ⟨v, hv, hvw, hm, hadd⟩
      rw [← (huniq v hv hvw).mp hadd]
      exact hm
  · intro v hv
    simp only [BitVector.bvadd, BitVector.mk.injEq]
    exact ⟨hv.symm, by rw [hv, Nat.add_comm]⟩

/-- Witness for C19: width 2, domain `1x`, `s = 01`, `t = 11`: `t - s = 10`
matches the fixed bit, and `10 + 01 = 11`. -/
theorem C19_add_invertibility_witness :
    add_is_invertible ⟨⟨2, 2⟩, ⟨2, 3⟩⟩ ⟨2, 1⟩ ⟨2, 3⟩ = true ∧
    (add_is_invertible ⟨⟨2, 2⟩, ⟨2, 3⟩⟩ ⟨2, 1⟩ ⟨2, 3⟩ = true ↔
      ∃ v : BitVector, v.size = 2 ∧ v.wf ∧
        match_fixed_bits ⟨⟨2, 2⟩, ⟨2, 3⟩⟩ v = true ∧ v.bvadd ⟨2, 1⟩ = ⟨2, 3⟩) :=
  ⟨by decide,
   (C19_add_invertibility 2 ⟨⟨2, 2⟩, ⟨2, 3⟩⟩ ⟨2, 1⟩ ⟨2, 3⟩ rfl rfl (by decide) (by decide)).1⟩

end Claims19


section Claims20

theorem testBit_not_val (w a i : Nat) (ha : a < 2 ^ w) :
    (2 ^ w - 1 - a % 2 ^ w).testBit i = (decide (i < w) && !a.testBit i) := by
  rw [Nat.mod_eq_of_lt ha, Nat.sub_sub, Nat.add_comm 1 a]
  exact Nat.testBit_two_pow_sub_succ ha i

theorem testBit_mask (w lo hi i : Nat) :
    (2 ^ w - 1 - (lo ^^^ hi) % 2 ^ w % 2 ^ w).testBit i
      = (decide (i < w) && !(lo.testBit i ^^ hi.testBit i)) := by
  rw [testBit_not_val w _ i (Nat.mod_lt _ (Nat.two_pow_pos w)), Nat.testBit_mod_two_pow,
    Nat.testBit_xor]
  cases decide (i < w) <;> simp

theorem testBit_ge_false {w a i : Nat} (ha : a < 2 ^ w) (hi : ¬ i < w) : a.testBit i = false :=
  Nat.testBit_lt_two_pow (lt_of_lt_of_le ha (Nat.pow_le_pow_right (by decide) (by omega)))

theorem and_bits_fwd (d lo hi s t : Bool)
    (hlo : d = false → lo = false) (ht : d = false → t = false)
    (hvalid : ((d && !lo) || hi) = d)
    (h1 : (d && (t && s)) = t)
    (h2 : (d && ((d && (s && hi)) && (d && !(lo ^^ hi)))) = (d && (t && (d && !(lo ^^ hi))))) :
    ((lo || (lo || (t && hi))) = (lo || (t && hi))) ∧
    (((lo || (t && hi)) || hi) = hi) ∧
    ((d && ((lo || (t && hi)) && s)) = t) := by
  cases d <;> cases lo <;> cases hi <;> cases s <;> cases t <;> simp_all

theorem and_bits_bwd (d lo hi s t v : Bool)
    (hv : d = false → v = false)
    (m1 : (lo || v) = v) (m2 : (v || hi) = hi)
    (hand : (d && (v && s)) = t) :
    ((d && (t && s)) = t) ∧
    ((d && ((d && (s && hi)) && (d && !(lo ^^ hi)))) = (d && (t && (d && !(lo ^^ hi))))) := by
  cases d <;> cases lo <;> cases hi <;> cases s <;> cases t <;> cases v <;> simp_all

theorem and_ic_nat (w lo hi s t : Nat) (hlo : lo < 2 ^ w) (hhi : hi < 2 ^ w)
    (ht : t < 2 ^ w)
    (hvalid : (2 ^ w - 1 - lo % 2 ^ w) ||| hi = 2 ^ w - 1) :
    ((t &&& s) % 2 ^ w = t ∧
      ((s &&& hi) % 2 ^ w &&& (2 ^ w - 1 - (lo ^^^ hi) % 2 ^ w % 2 ^ w)) % 2 ^ w
        = (t &&& (2 ^ w - 1 - (lo ^^^ hi) % 2 ^ w % 2 ^ w)) % 2 ^ w) ↔
    ∃ v, v < 2 ^ w ∧ lo ||| v = v ∧ v ||| hi = hi ∧ (v &&& s) % 2 ^ w = t := by
  constructor
  · rintro ⟨h1, h2⟩
    have key : ∀ i, _ := fun i => and_bits_fwd (decide (i < w)) (lo.testBit i) (hi.testBit i)
      (s.testBit i) (t.testBit i)
      (fun h => testBit_ge_false hlo (by simpa using h))
      (fun h => testBit_ge_false ht (by simpa using h))
      (by
        have := congrArg (fun n => n.testBit i) hvalid
        simpa only [Nat.testBit_or, testBit_not_val w lo i hlo, Nat.testBit_two_pow_sub_one]
          using this)
      (by
        have := congrArg (fun n => n.testBit i) h1
        simpa only [Nat.testBit_mod_two_pow, Nat.testBit_and] using this)
      (by
        have := congrArg (fun n => n.testBit i) h2
        simpa only [Nat.testBit_mod_two_pow, Nat.testBit_and, testBit_mask] using this)
    refine ⟨lo ||| (t &&& hi), Nat.or_lt_two_pow hlo (Nat.and_lt_two_pow _ hhi), ?_, ?_, ?_⟩
    · apply Nat.eq_of_testBit_eq
      intro i
      simpa only [Nat.testBit_or, Nat.testBit_and] using (key i).1
    · apply Nat.eq_of_testBit_eq
      intro i
      simpa only [Nat.testBit_or, Nat.testBit_and] using (key i).2.1
    · apply Nat.eq_of_testBit_eq
      intro i
      simpa only [Nat.testBit_mod_two_pow, Nat.testBit_or, Nat.testBit_and] using (key i).2.2
  · rintro ⟨v, hv, m1, m2, hand⟩
    have key : ∀ i, _ := fun i => and_bits_bwd (decide (i < w)) (lo.testBit i) (hi.testBit i)
      (s.testBit i) (t.testBit i) (v.testBit i)
      (fun h => testBit_ge_false hv (by simpa using h))
      (by
        have := congrArg (fun n => n.testBit i) m1
        simpa only [Nat.testBit_or] using this)
      (by
        have := congrArg (fun n => n.testBit i) m2
        simpa only [Nat.testBit_or] using this)
      (by
        have := congrArg (fun n => n.testBit i) hand
        simpa only [Nat.testBit_mod_two_pow, Nat.testBit_and] using this)
    constructor
    · apply Nat.eq_of_testBit_eq
      intro i
      simpa only [Nat.testBit_mod_two_pow, Nat.testBit_and] using (key i).1
    · apply Nat.eq_of_testBit_eq
      intro i
      simpa only [Nat.testBit_mod_two_pow, Nat.testBit_and, testBit_mask] using (key i).2

/-- C20: AND with `x` at either position.  For every width `w`, every valid
domain `x = (x_lo, x_hi)` of well-formed bounds of width `w`, every value
`s` of width `w` and every well-formed value `t` of width `w`, the condition
`(t & s) = t` and `((s & x_hi) & m) = (t & m)` with `m = ~(x_lo ^ x_hi)`
holds if and only if some well-formed value `v` of width `w` in the domain
of `x` has `v & s = t`; the operands of the conjunction can be swapped. -/
theorem C20_and_invertibility (w : Nat) (x : BitVectorDomain) (s t : BitVector)
    (hlo : x.lo.size = w) (hhi : x.hi.size = w) (hlow : x.lo.wf) (hhiw : x.hi.wf)
    (hvalid : x.is_valid = true) (hs : s.size = w) (ht : t.size = w) (htw : t.wf) :
    (and_is_invertible x s t = true ↔
      ∃ v : BitVector, v.size = w ∧ v.wf ∧ match_fixed_bits x v = true ∧ v.bvand s = t) ∧
    (∀ v : BitVector, v.size = w → s.bvand v = v.bvand s) := by
  obtain ⟨⟨losz, lov⟩, ⟨hisz, hiv⟩⟩ := x
  obtain ⟨ssz, sv⟩ := s
  obtain ⟨tsz, tv⟩ := t
  simp only at hlo hhi hs ht
  subst hlo; subst hhi; subst hs; subst ht
  simp only [BitVector.wf] at hlow hhiw htw
  have hv2 : (2 ^ tsz - 1 - lov % 2 ^ tsz) ||| hiv = 2 ^ tsz - 1 := by
    simpa [BitVectorDomain.is_valid, BitVector.bvnot] using hvalid
  have hnat := and_ic_nat tsz lov hiv sv tv hlow hhiw htw hv2
  constructor
  · have hic : and_is_invertible ⟨⟨tsz, lov⟩, ⟨tsz, hiv⟩⟩ ⟨tsz, sv⟩ ⟨tsz, tv⟩ = true ↔
        ((tv &&& sv) % 2 ^ tsz = tv ∧
          ((sv &&& hiv) % 2 ^ tsz &&& (2 ^ tsz - 1 - (lov ^^^ hiv) % 2 ^ tsz % 2 ^ tsz)) % 2 ^ tsz
            = (tv &&& (2 ^ tsz - 1 - (lov ^^^ hiv) % 2 ^ tsz % 2 ^ tsz)) % 2 ^ tsz) := by
      simp only [and_is_invertible, BitVector.bvand, BitVector.bvxor, BitVector.bvnot,
        Bool.and_eq_true, beq_iff_eq, BitVector.mk.injEq, true_and]
    rw [hic, hnat]
    constructor
    · rintro ⟨v, hv, m1, m2, hand⟩
      refine ⟨⟨tsz, v⟩, rfl, hv, ?_, ?_⟩
      · simp only [match_fixed_bits, Bool.and_eq_true, beq_iff_eq]
        exact ⟨m1, m2⟩
      · simp only [BitVector.bvand, BitVector.mk.injEq, true_and]
        exact hand
    · rintro ⟨⟨vsz, vv⟩, hsz, hvw, hm, hand⟩
      simp only at hsz
      subst hsz
      simp only [match_fixed_bits, Bool.and_eq_true, beq_iff_eq] at hm
      simp only [BitVector.bvand, BitVector.mk.injEq, true_and] at hand
      exact ⟨vv, hvw, hm.1, hm.2, hand⟩
  · intro v hv
    simp only [BitVector.bvand, BitVector.mk.injEq]
    exact ⟨hv.symm, by rw [hv, Nat.land_comm]⟩

/-- Witness for C20: width 2, domain `1x`, `s = 11`, `t = 10`: the
condition holds, and `v = 10` is in the domain with `v & s = t`. -/
theorem C20_and_invertibility_witness :
    and_is_invertible ⟨⟨2, 2⟩, ⟨2, 3⟩⟩ ⟨2, 3⟩ ⟨2, 2⟩ = true ∧
    (and_is_invertible ⟨⟨2, 2⟩, ⟨2, 3⟩⟩ ⟨2, 3⟩ ⟨2, 2⟩ = true ↔
      ∃ v : BitVector, v.size = 2 ∧ v.wf ∧
        match_fixed_bits ⟨⟨2, 2⟩, ⟨2, 3⟩⟩ v = true ∧ v.bvand ⟨2, 3⟩ = ⟨2, 2⟩) :=
  ⟨by decide,
   (C20_and_invertibility 2 ⟨⟨2, 2⟩, ⟨2, 3⟩⟩ ⟨2, 3⟩ ⟨2, 2⟩ rfl rfl (by decide) (by decide)
      (by decide) rfl rfl (by decide)).1⟩

end Claims20


section DomainLemmas

/-- A valid domain has `lo | hi = hi`. -/
theorem valid_lo_or_hi {w lo hi : Nat} (hlo : lo < 2 ^ w) (hhi : hi < 2 ^ w)
    (hvalid : (2 ^ w - 1 - lo % 2 ^ w) ||| hi = 2 ^ w - 1) : lo ||| hi = hi := by
  apply Nat.eq_of_testBit_eq
  intro i
  have h := congrArg (fun n => n.testBit i) hvalid
  simp only [Nat.testBit_or, testBit_not_val w lo i hlo, Nat.testBit_two_pow_sub_one] at h
  rw [Nat.testBit_or]
  by_cases hi2 : i < w
  · simp only [hi2, decide_True, Bool.true_and] at h
    revert h
    cases lo.testBit i <;> cases hi.testBit i <;> simp
  · rw [testBit_ge_false hlo hi2, testBit_ge_false hhi hi2]
    rfl

theorem or_eq_right_le {a b : Nat} (h : a ||| b = b) : a ≤ b := by
  have : a &&& b = a := by
    apply Nat.eq_of_testBit_eq
    intro i
    have h1 := congrArg (fun n => n.testBit i) h
    simp only [Nat.testBit_or] at h1
    rw [Nat.testBit_and]
    revert h1
    cases a.testBit i <;> cases b.testBit i <;> simp
  rw [← this]
  exact Nat.and_le_right

/-- The facts on a valid domain of width `w` used below: `lo` and `hi` are
members, and every member lies between them. -/
theorem domain_facts (w : Nat) (x : BitVectorDomain) (hlo : x.lo.size = w) (hhi : x.hi.size = w)
    (hlow : x.lo.wf) (hhiw : x.hi.wf) (hvalid : x.is_valid = true) :
    match_fixed_bits x x.lo = true ∧ match_fixed_bits x x.hi = true ∧ x.lo.val ≤ x.hi.val ∧
    ∀ v : BitVector, match_fixed_bits x v = true → x.lo.val ≤ v.val ∧ v.val ≤ x.hi.val := by
  obtain ⟨⟨losz, lov⟩, ⟨hisz, hiv⟩⟩ := x
  simp only at hlo hhi
  subst hlo; subst hhi
  simp only [BitVector.wf] at hlow hhiw
  have hv2 : (2 ^ hisz - 1 - lov % 2 ^ hisz) ||| hiv = 2 ^ hisz - 1 := by
    simpa [BitVectorDomain.is_valid, BitVector.bvnot] using hvalid
  have hor := valid_lo_or_hi hlow hhiw hv2
  simp only [match_fixed_bits, Bool.and_eq_true, beq_iff_eq, Nat.or_self]
  refine ⟨⟨trivial, hor⟩, ⟨hor, trivial⟩, or_eq_right_le hor, ?_⟩
  intro v hv
  exact ⟨or_eq_right_le hv.1, or_eq_right_le hv.2⟩

end DomainLemmas


section Claims24

/-- A well-formed value of width 1 is true or false. -/
theorem width1_cases (t : BitVector) (ht : t.size = 1) (htw : t.wf) :
    t = BitVector.mk_true ∨ t = BitVector.mk_false := by
  obtain ⟨sz, v⟩ := t
  simp only at ht
  subst ht
  simp only [BitVector.wf] at htw
  have : v = 0 ∨ v = 1 := by omega
  rcases this with h | h
  · right; rw [h]; rfl
  · left; rw [h]; rfl

/-- C24: EQ with `x` at either position.  For every width `w`, every valid
domain `x` of well-formed bounds of width `w`, every value `s` of width `w`
and every well-formed target `t` of width 1, the condition
`(t = 1 => mfb(x, s))` and `(t = 0 => x_hi != x_lo || x_hi != s)` holds if
and only if some well-formed value `v` of width `w` in the domain of `x`
makes `v = s` evaluate to `t`; the operands of the equality can be
swapped. -/
theorem C24_eq_invertibility (w : Nat) (x : BitVectorDomain) (s t : BitVector)
    (hlo : x.lo.size = w) (hhi : x.hi.size = w) (hlow : x.lo.wf) (hhiw : x.hi.wf)
    (hvalid : x.is_valid = true) (hs : s.size = w) (hsw : s.wf)
    (ht : t.size = 1) (htw : t.wf) :
    (eq_is_invertible x s t = true ↔
      ∃ v : BitVector, v.size = w ∧ v.wf ∧ match_fixed_bits x v = true ∧ v.bveq s = t) ∧
    (∀ v : BitVector, s.bveq v = v.bveq s) := by
  obtain ⟨hmlo, hmhi, _, hbetween⟩ := domain_facts w x hlo hhi hlow hhiw hvalid
  have hval : ∀ a b : BitVector, a.size = w → b.size = w → (a = b ↔ a.val = b.val) := by
    intro a b ha hb
    obtain ⟨asz, av⟩ := a
    obtain ⟨bsz, bv⟩ := b
    simp only at ha hb
    subst ha; subst hb
    simp
  have hbeq_true : ∀ v : BitVector, v.bveq s = BitVector.mk_true ↔ v.val = s.val := by
    intro v
    unfold BitVector.bveq BitVector.of_bool
    by_cases h : v.val = s.val
    · simp [h]
    · simp [h, BitVector.mk_true, BitVector.mk_false]
  have hbeq_false : ∀ v : BitVector, v.bveq s = BitVector.mk_false ↔ v.val ≠ s.val := by
    intro v
    unfold BitVector.bveq BitVector.of_bool
    by_cases h : v.val = s.val
    · simp [h, BitVector.mk_true, BitVector.mk_false]
    · simp [h]
  refine ⟨?_, ?_⟩
  · rcases width1_cases t ht htw with rfl | rfl
    · have hic : eq_is_invertible x s BitVector.mk_true = match_fixed_bits x s := by
        simp [eq_is_invertible, BitVector.mk_true, BitVector.is_true, BitVector.is_false]
      rw [hic]
      constructor
      · intro h
        exact ⟨s, hs, hsw, h, (hbeq_true s).mpr rfl⟩
      · rintro ⟨v, hv, _, hm, he⟩
        have := (hval v s hv hs).mpr ((hbeq_true v).mp he)
        rw [← this]; exact hm
    · have hic : eq_is_invertible x s BitVector.mk_false = true ↔
          (x.hi ≠ x.lo ∨ x.hi ≠ s) := by
        simp [eq_is_invertible, BitVector.mk_false, BitVector.is_true, BitVector.is_false]
      rw [hic]
      constructor
      · intro h
        by_cases h1 : x.hi = s
        · have h2 : x.hi ≠ x.lo := by
            rcases h with h | h
            · exact h
            · exact absurd h1 h
          refine ⟨x.lo, hlo, hlow, hmlo, (hbeq_false _).mpr ?_⟩
          intro h3
          apply h2
          rw [h1]
          exact ((hval x.lo s hlo hs).mpr h3).symm
        · refine ⟨x.hi, hhi, hhiw, hmhi, (hbeq_false _).mpr ?_⟩
          intro h3
          exact h1 ((hval x.hi s hhi hs).mpr h3)
      · rintro ⟨v, hv, _, hm, he⟩
        have hne := (hbeq_false v).mp he
        by_contra hcon
        push_neg at hcon
        obtain ⟨c1, c2⟩ := hcon
        have hb := hbetween v hm
        rw [← c1, c2] at hb
        exact hne (by omega)
  · intro v
    unfold BitVector.bveq
    congr 1
    by_cases h : s.val = v.val
    · simp [h]
    · have h2 : ¬ v.val = s.val := fun e => h e.symm
      simp [h, h2]

/-- Witness for C24: width 2, domain `1x`, `s = 10`, `t = 0`: the domain is
not fixed, and `v = 11` is in the domain with `(v = s) = 0`. -/
theorem C24_eq_invertibility_witness :
    eq_is_invertible ⟨⟨2, 2⟩, ⟨2, 3⟩⟩ ⟨2, 2⟩ BitVector.mk_false = true ∧
    (eq_is_invertible ⟨⟨2, 2⟩, ⟨2, 3⟩⟩ ⟨2, 2⟩ BitVector.mk_false = true ↔
      ∃ v : BitVector, v.size = 2 ∧ v.wf ∧
        match_fixed_bits ⟨⟨2, 2⟩, ⟨2, 3⟩⟩ v = true ∧
        v.bveq ⟨2, 2⟩ = BitVector.mk_false) :=
  ⟨by decide,
   (C24_eq_invertibility 2 ⟨⟨2, 2⟩, ⟨2, 3⟩⟩ ⟨2, 2⟩ BitVector.mk_false rfl rfl (by decide)
      (by decide) (by decide) rfl (by decide) rfl (by decide)).1⟩

end Claims24


section Claims25

theorem of_bool_eq_true (c : Bool) : BitVector.of_bool c = BitVector.mk_true ↔ c = true := by
  cases c <;> simp [BitVector.of_bool, BitVector.mk_true, BitVector.mk_false]

theorem of_bool_eq_false (c : Bool) : BitVector.of_bool c = BitVector.mk_false ↔ c = false := by
  cases c <;> simp [BitVector.of_bool, BitVector.mk_true, BitVector.mk_false]

/-- C25: ULT with constant bits.  For every width `w`, every valid domain
`x` of well-formed bounds of width `w`, every value `s` of width `w` and
every well-formed target `t` of width 1: at position 0 the condition
`(t = 1 => s != 0 && x_lo < s)` and `(t = 0 => x_hi >= s)` holds if and only
if some well-formed value `v` of width `w` in the domain of `x` makes
`v < s` evaluate to `t`; at position 1 the condition
`(t = 1 => s != ones && x_hi > s)` and `(t = 0 => x_lo <= s)` holds if and
only if some such `v` makes `s < v` evaluate to `t`. -/
theorem C25_ult_invertibility (w : Nat) (x : BitVectorDomain) (s t : BitVector)
    (hlo : x.lo.size = w) (hhi : x.hi.size = w) (hlow : x.lo.wf) (hhiw : x.hi.wf)
    (hvalid : x.is_valid = true) (hs : s.size = w) (ht : t.size = 1) (htw : t.wf) :
    (ult_is_invertible x s t 0 = true ↔
      ∃ v : BitVector, v.size = w ∧ v.wf ∧ match_fixed_bits x v = true ∧ v.bvult s = t) ∧
    (ult_is_invertible x s t 1 = true ↔
      ∃ v : BitVector, v.size = w ∧ v.wf ∧ match_fixed_bits x v = true ∧ s.bvult v = t) := by
  obtain ⟨hmlo, hmhi, _, hbetween⟩ := domain_facts w x hlo hhi hlow hhiw hvalid
  obtain ⟨ssz, sv⟩ := s
  simp only at hs
  subst hs
  rcases width1_cases t ht htw with rfl | rfl
  · constructor
    · have hic : ult_is_invertible x ⟨ssz, sv⟩ BitVector.mk_true 0 = true ↔
          (sv ≠ 0 ∧ x.lo.val < sv) := by
        simp [ult_is_invertible, BitVector.mk_true, BitVector.is_true, BitVector.is_false,
          BitVector.zero]
      rw [hic]
      constructor
      · rintro ⟨_, h⟩
        exact ⟨x.lo, hlo, hlow, hmlo, by
          simp only [BitVector.bvult, of_bool_eq_true, decide_eq_true_eq]; exact h⟩
      · rintro ⟨v, _, _, hm, he⟩
        simp only [BitVector.bvult, of_bool_eq_true, decide_eq_true_eq] at he
        have := (hbetween v hm).1
        exact ⟨by omega, by omega⟩
    · have hic : ult_is_invertible x ⟨ssz, sv⟩ BitVector.mk_true 1 = true ↔
          (sv ≠ 2 ^ ssz - 1 ∧ sv < x.hi.val) := by
        simp [ult_is_invertible, BitVector.mk_true, BitVector.is_true, BitVector.is_false,
          BitVector.ones]
      rw [hic]
      constructor
      · rintro ⟨_, h⟩
        exact ⟨x.hi, hhi, hhiw, hmhi, by
          simp only [BitVector.bvult, of_bool_eq_true, decide_eq_true_eq]; exact h⟩
      · rintro ⟨v, hv, hvw, hm, he⟩
        simp only [BitVector.bvult, of_bool_eq_true, decide_eq_true_eq] at he
        have := (hbetween v hm).2
        simp only [BitVector.wf] at hvw
        rw [hv] at hvw
        exact ⟨by omega, by omega⟩
  · constructor
    · have hic : ult_is_invertible x ⟨ssz, sv⟩ BitVector.mk_false 0 = true ↔
          sv ≤ x.hi.val := by
        simp [ult_is_invertible, BitVector.mk_false, BitVector.is_true, BitVector.is_false]
      rw [hic]
      constructor
      · intro h
        exact ⟨x.hi, hhi, hhiw, hmhi, by
          simp only [BitVector.bvult, of_bool_eq_false, decide_eq_false_iff_not]; omega⟩
      · rintro ⟨v, _, _, hm, he⟩
        simp only [BitVector.bvult, of_bool_eq_false, decide_eq_false_iff_not] at he
        have := (hbetween v hm).2
        omega
    · have hic : ult_is_invertible x ⟨ssz, sv⟩ BitVector.mk_false 1 = true ↔
          x.lo.val ≤ sv := by
        simp [ult_is_invertible, BitVector.mk_false, BitVector.is_true, BitVector.is_false]
      rw [hic]
      constructor
      · intro h
        exact ⟨x.lo, hlo, hlow, hmlo, by
          simp only [BitVector.bvult, of_bool_eq_false, decide_eq_false_iff_not]; omega⟩
      · rintro ⟨v, _, _, hm, he⟩
        simp only [BitVector.bvult, of_bool_eq_false, decide_eq_false_iff_not] at he
        have := (hbetween v hm).1
        omega

/-- Witness for C25: width 2, domain `1x`, `s = 11`, `t = 1`, position 0:
`x_lo = 10 < 11`, and `v = 10` is in the domain with `v < s`. -/
theorem C25_ult_invertibility_witness :
    ult_is_invertible ⟨⟨2, 2⟩, ⟨2, 3⟩⟩ ⟨2, 3⟩ BitVector.mk_true 0 = true ∧
    ult_is_invertible ⟨⟨2, 2⟩, ⟨2, 3⟩⟩ ⟨2, 3⟩ BitVector.mk_true 1 = false ∧
    (ult_is_invertible ⟨⟨2, 2⟩, ⟨2, 3⟩⟩ ⟨2, 3⟩ BitVector.mk_true 0 = true ↔
      ∃ v : BitVector, v.size = 2 ∧ v.wf ∧
        match_fixed_bits ⟨⟨2, 2⟩, ⟨2, 3⟩⟩ v = true ∧
        v.bvult ⟨2, 3⟩ = BitVector.mk_true) :=
  ⟨by decide, by decide,
   (C25_ult_invertibility 2 ⟨⟨2, 2⟩, ⟨2, 3⟩⟩ ⟨2, 3⟩ BitVector.mk_true rfl rfl (by decide)
      (by decide) (by decide) rfl rfl (by decide)).1⟩

end Claims25


section Claims30

/-- A property of some well-formed width-1 value holds of true or of false. -/
theorem exists_width1 (P : BitVector → Prop) :
    (∃ v : BitVector, v.size = 1 ∧ v.wf ∧ P v) ↔ (P BitVector.mk_true ∨ P BitVector.mk_false) := by
  constructor
  · rintro ⟨v, hv, hvw, hp⟩
    rcases width1_cases v hv hvw with rfl | rfl
    · exact Or.inl hp
    · exact Or.inr hp
  · rintro (h | h)
    · exact ⟨BitVector.mk_true, rfl, by decide, h⟩
    · exact ⟨BitVector.mk_false, rfl, by decide, h⟩

/-- C30 (as amended): ITE.  At position 0, for every valid width-1 domain
`xc` of the condition and all values `s0`, `s1`, `t`, the condition of the
header holds if and only if some value in the domain makes
`ite(v, s0, s1)` evaluate to `t`.  At position 1 (resp. 2), for every
domain `x` and every well-formed target `t` of the same width `w`, the
condition `c = true` (resp. `c = false`) and `mfb(x, t)` holds if and only
if the condition value `c` selects the branch of `x` and some value `v` in
the domain makes the node evaluate to `t`. -/
theorem C30_ite_invertibility (w : Nat) (xc x : BitVectorDomain) (c s0 s1 t : BitVector)
    (hlo : xc.lo.size = 1) (hhi : xc.hi.size = 1) (hlow : xc.lo.wf) (hhiw : xc.hi.wf)
    (hvalid : xc.is_valid = true) (ht : t.size = w) (htw : t.wf) :
    (ite_is_invertible xc s0 s1 t 0 = true ↔
      ∃ v : BitVector, v.size = 1 ∧ v.wf ∧ (match_fixed_bits xc v = true ∧
        BitVector.bvite v s0 s1 = t)) ∧
    (ite_is_invertible x c s1 t 1 = true ↔
      (c.is_true = true ∧ ∃ v : BitVector, v.size = w ∧ v.wf ∧ match_fixed_bits x v = true ∧
        BitVector.bvite c v s1 = t)) ∧
    (ite_is_invertible x c s1 t 2 = true ↔
      (c.is_false = true ∧ ∃ v : BitVector, v.size = w ∧ v.wf ∧ match_fixed_bits x v = true ∧
        BitVector.bvite c s1 v = t)) := by
  refine ⟨?_, ?_, ?_⟩
  · rw [exists_width1]
    obtain ⟨lo, hi⟩ := xc
    simp only at hlo hhi hlow hhiw
    rcases width1_cases lo hlo hlow with rfl | rfl <;>
      rcases width1_cases hi hhi hhiw with rfl | rfl
    · simp [ite_is_invertible, BitVectorDomain.is_fixed, match_fixed_bits, BitVector.bvite,
        BitVector.mk_true, BitVector.mk_false, BitVector.is_true, BitVector.is_false]
    · exact absurd hvalid (by decide)
    · simp [ite_is_invertible, BitVectorDomain.is_fixed, match_fixed_bits, BitVector.bvite,
        BitVector.mk_true, BitVector.mk_false, BitVector.is_true, BitVector.is_false]
    · simp [ite_is_invertible, BitVectorDomain.is_fixed, match_fixed_bits, BitVector.bvite,
        BitVector.mk_true, BitVector.mk_false, BitVector.is_true, BitVector.is_false]
  · simp only [ite_is_invertible, if_neg (by decide : ¬ (1 = 0)), if_true, Bool.and_eq_true]
    constructor
    · rintro ⟨hc, hm⟩
      exact ⟨hc, t, ht, htw, hm, by simp [BitVector.bvite, hc]⟩
    · rintro ⟨hc, v, _, _, hm, he⟩
      simp only [BitVector.bvite, hc, if_true] at he
      rw [← he]
      exact ⟨hc, hm⟩
  · simp only [ite_is_invertible, if_neg (by decide : ¬ (2 = 0)),
      if_neg (by decide : ¬ (2 = 1)), Bool.and_eq_true]
    have hnt : c.is_false = true → c.is_true = false := by
      intro h
      simp only [BitVector.is_false, Bool.and_eq_true, beq_iff_eq] at h
      simp [BitVector.is_true, h.2]
    constructor
    · rintro ⟨hc, hm⟩
      exact ⟨hc, t, ht, htw, hm, by simp [BitVector.bvite, hnt hc]⟩
    · rintro ⟨hc, v, _, _, hm, he⟩
      simp only [BitVector.bvite, hnt hc, Bool.false_eq_true, if_false] at he
      rw [← he]
      exact ⟨hc, hm⟩

/-- Witness for C30: the condition domain `x` (not fixed), branches
`s0 = 01`, `s1 = 10`, target `t = 10`: the condition holds at position 0,
and `v = 0` selects `s1 = t`. -/
theorem C30_ite_invertibility_witness :
    ite_is_invertible ⟨⟨1, 0⟩, ⟨1, 1⟩⟩ ⟨2, 1⟩ ⟨2, 2⟩ ⟨2, 2⟩ 0 = true ∧
    (ite_is_invertible ⟨⟨1, 0⟩, ⟨1, 1⟩⟩ ⟨2, 1⟩ ⟨2, 2⟩ ⟨2, 2⟩ 0 = true ↔
      ∃ v : BitVector, v.size = 1 ∧ v.wf ∧ (match_fixed_bits ⟨⟨1, 0⟩, ⟨1, 1⟩⟩ v = true ∧
        BitVector.bvite v ⟨2, 1⟩ ⟨2, 2⟩ = ⟨2, 2⟩)) :=
  ⟨by decide,
   (C30_ite_invertibility 2 ⟨⟨1, 0⟩, ⟨1, 1⟩⟩ ⟨⟨2, 0⟩, ⟨2, 3⟩⟩ BitVector.mk_true ⟨2, 1⟩ ⟨2, 2⟩
      ⟨2, 2⟩ rfl rfl (by decide) (by decide) (by decide) rfl (by decide)).1⟩

/-- Counterexample to C30 as stated: at position 1 with the condition value
false and the else value `s1 = t`, the condition of the header is false,
yet every value of `x`, here `v = 11` in the domain `xx`, makes
`ite(c, v, s1)` evaluate to `t`.  The same at position 2 with the condition
value true. -/
theorem C30_counterexample :
    ite_is_invertible ⟨⟨2, 0⟩, ⟨2, 3⟩⟩ BitVector.mk_false ⟨2, 1⟩ ⟨2, 1⟩ 1 = false ∧
    match_fixed_bits ⟨⟨2, 0⟩, ⟨2, 3⟩⟩ ⟨2, 3⟩ = true ∧
    BitVector.bvite BitVector.mk_false ⟨2, 3⟩ ⟨2, 1⟩ = ⟨2, 1⟩ ∧
    ite_is_invertible ⟨⟨2, 0⟩, ⟨2, 3⟩⟩ BitVector.mk_true ⟨2, 1⟩ ⟨2, 1⟩ 2 = false ∧
    BitVector.bvite BitVector.mk_true ⟨2, 1⟩ ⟨2, 3⟩ = ⟨2, 1⟩ := by
  decide

end Claims30


section Claims23

/-- Splitting a number below `2^(m+n)` into its high `m` and low `n` bits. -/
theorem concat_split (m n a b t : Nat) (ha : a < 2 ^ m) (hb : b < 2 ^ n)
    (ht : t < 2 ^ (m + n)) :
    a * 2 ^ n + b = t ↔ (b = t % 2 ^ n ∧ a = t / 2 ^ n % 2 ^ m) := by
  have hpos : 0 < 2 ^ n := Nat.two_pow_pos n
  have hdiv : t / 2 ^ n < 2 ^ m := by
    rw [Nat.div_lt_iff_lt_mul hpos, ← Nat.pow_add]
    exact ht
  constructor
  · intro h
    subst h
    constructor
    · rw [Nat.add_comm, Nat.add_mul_mod_self_right, Nat.mod_eq_of_lt hb]
    · rw [Nat.add_comm, Nat.add_mul_div_right _ _ hpos, Nat.div_eq_of_lt hb, Nat.zero_add,
        Nat.mod_eq_of_lt ha]
  · rintro ⟨h1, h2⟩
    rw [Nat.mod_eq_of_lt hdiv] at h2
    rw [h1, h2, Nat.mul_comm]
    exact Nat.div_add_mod t (2 ^ n)

/-- C23: CONCAT.  Let `x` have width `w1 > 0`, `s` be a well-formed value of
width `w2 > 0` and `t` a well-formed value of width `w1 + w2`.  At position
0 (`x o s`) the condition `s = t[|s|-1:0]` and `mfb(x, t[w-1:|s|])` holds if
and only if some well-formed value `v` of width `w1` in the domain of `x`
has `v o s = t`, and such a `v` is the slice `t[w-1:|s|]`.  At position 1
(`s o x`) the condition `s = t[w-1:w-|s|]` and `mfb(x, t[|x|-1:0])` holds if
and only if some such `v` has `s o v = t`, and such a `v` is the slice
`t[|x|-1:0]`. -/
theorem C23_concat_invertibility (w1 w2 : Nat) (x : BitVectorDomain) (s t : BitVector)
    (h1 : 0 < w1) (h2 : 0 < w2) (hlo : x.lo.size = w1)
    (hs : s.size = w2) (hsw : s.wf) (ht : t.size = w1 + w2) (htw : t.wf) :
    (concat_is_invertible x s t 0 = true ↔
      ∃ v : BitVector, v.size = w1 ∧ v.wf ∧ match_fixed_bits x v = true ∧ v.bvconcat s = t) ∧
    (∀ v : BitVector, v.size = w1 → v.wf → v.bvconcat s = t →
      v = t.bvextract (t.size - 1) s.size) ∧
    (concat_is_invertible x s t 1 = true ↔
      ∃ v : BitVector, v.size = w1 ∧ v.wf ∧ match_fixed_bits x v = true ∧ s.bvconcat v = t) ∧
    (∀ v : BitVector, v.size = w1 → v.wf → s.bvconcat v = t →
      v = t.bvextract (x.lo.size - 1) 0) := by
  obtain ⟨ssz, sv⟩ := s
  obtain ⟨tsz, tv⟩ := t
  simp only at hs ht
  subst hs; subst ht
  simp only [BitVector.wf] at hsw htw
  have hsz1 : ssz - 1 - 0 + 1 = ssz := by omega
  have hsz2 : w1 + ssz - 1 - ssz + 1 = w1 := by omega
  have hsz4 : w1 + ssz - ssz = w1 := by omega
  have hsz5 : w1 - 1 - 0 + 1 = w1 := by omega
  have hsz6 : w1 + ssz - 1 - w1 + 1 = ssz := by omega
  have htw2 : tv < 2 ^ (ssz + w1) := by rw [Nat.add_comm]; exact htw
  have hx1 : (BitVector.bvextract ⟨w1 + ssz, tv⟩ (w1 + ssz - 1) ssz)
      = ⟨w1, tv / 2 ^ ssz % 2 ^ w1⟩ := by
    simp only [BitVector.bvextract, hsz2]
  have hx2 : (BitVector.bvextract ⟨w1 + ssz, tv⟩ (w1 - 1) 0) = ⟨w1, tv % 2 ^ w1⟩ := by
    simp only [BitVector.bvextract, hsz5, Nat.pow_zero, Nat.div_one]
  have hs1 : ((⟨ssz, sv⟩ : BitVector) == BitVector.bvextract ⟨w1 + ssz, tv⟩ (ssz - 1) 0) = true ↔
      sv = tv % 2 ^ ssz := by
    simp only [BitVector.bvextract, hsz1, Nat.pow_zero, Nat.div_one, beq_iff_eq,
      BitVector.mk.injEq, true_and]
  have hs2 : ((⟨ssz, sv⟩ : BitVector) ==
      BitVector.bvextract ⟨w1 + ssz, tv⟩ (w1 + ssz - 1) (w1 + ssz - ssz)) = true ↔
      sv = tv / 2 ^ w1 % 2 ^ ssz := by
    simp only [BitVector.bvextract, hsz4, hsz6, beq_iff_eq, BitVector.mk.injEq, true_and]
  have key0 : ∀ v : BitVector, v.size = w1 → v.wf →
      (v.bvconcat ⟨ssz, sv⟩ = ⟨w1 + ssz, tv⟩ ↔
        (sv = tv % 2 ^ ssz ∧ v = ⟨w1, tv / 2 ^ ssz % 2 ^ w1⟩)) := by
    intro v hv hvw
    obtain ⟨vsz, vv⟩ := v
    simp only at hv
    subst hv
    simp only [BitVector.wf] at hvw
    simp only [BitVector.bvconcat, BitVector.mk.injEq, true_and]
    exact concat_split vsz ssz vv sv tv hvw hsw htw
  have key1 : ∀ v : BitVector, v.size = w1 → v.wf →
      (BitVector.bvconcat ⟨ssz, sv⟩ v = ⟨w1 + ssz, tv⟩ ↔
        (v = ⟨w1, tv % 2 ^ w1⟩ ∧ sv = tv / 2 ^ w1 % 2 ^ ssz)) := by
    intro v hv hvw
    obtain ⟨vsz, vv⟩ := v
    simp only at hv
    subst hv
    simp only [BitVector.wf] at hvw
    simp only [BitVector.bvconcat, BitVector.mk.injEq, true_and]
    rw [concat_split ssz vsz sv vv tv hsw hvw htw2]
    constructor
    · rintro ⟨_, a, b⟩; exact ⟨a, b⟩
    · rintro ⟨a, b⟩; exact ⟨Nat.add_comm _ _, a, b⟩
  refine ⟨?_, ?_, ?_, ?_⟩
  · simp only [concat_is_invertible, if_true, Bool.and_eq_true, hs1, hx1]
    constructor
    · rintro ⟨hsv, hm⟩
      refine ⟨⟨w1, tv / 2 ^ ssz % 2 ^ w1⟩, rfl, ?_, hm, ?_⟩
      · exact Nat.mod_lt _ (Nat.two_pow_pos _)
      · exact (key0 _ rfl (Nat.mod_lt _ (Nat.two_pow_pos _))).mpr ⟨hsv, rfl⟩
    · rintro ⟨v, hv, hvw, hm, he⟩
      obtain ⟨a, b⟩ := (key0 v hv hvw).mp he
      rw [← b]
      exact ⟨a, hm⟩
  · intro v hv hvw he
    rw [hx1]
    exact ((key0 v hv hvw).mp he).2
  · simp only [concat_is_invertible, if_neg (by decide : ¬ (1 = 0)), Bool.and_eq_true, hs2,
      hlo, hx2]
    constructor
    · rintro ⟨hsv, hm⟩
      refine ⟨⟨w1, tv % 2 ^ w1⟩, rfl, ?_, hm, ?_⟩
      · exact Nat.mod_lt _ (Nat.two_pow_pos _)
      · exact (key1 _ rfl (Nat.mod_lt _ (Nat.two_pow_pos _))).mpr ⟨rfl, hsv⟩
    · rintro ⟨v, hv, hvw, hm, he⟩
      obtain ⟨a, b⟩ := (key1 v hv hvw).mp he
      rw [← a]
      exact ⟨b, hm⟩
  · intro v hv hvw he
    rw [hlo, hx2]
    exact ((key1 v hv hvw).mp he).1

/-- Witness for C23: `x` of width 2 with domain `1x`, `s = 01`, `t = 1101`,
position 0: the low slice of `t` is `s`, the high slice `11` matches the
fixed bit, and `11 o 01 = 1101`. -/
theorem C23_concat_invertibility_witness :
    concat_is_invertible ⟨⟨2, 2⟩, ⟨2, 3⟩⟩ ⟨2, 1⟩ ⟨4, 13⟩ 0 = true ∧
    (concat_is_invertible ⟨⟨2, 2⟩, ⟨2, 3⟩⟩ ⟨2, 1⟩ ⟨4, 13⟩ 0 = true ↔
      ∃ v : BitVector, v.size = 2 ∧ v.wf ∧
        match_fixed_bits ⟨⟨2, 2⟩, ⟨2, 3⟩⟩ v = true ∧ v.bvconcat ⟨2, 1⟩ = ⟨4, 13⟩) :=
  ⟨by decide,
   (C23_concat_invertibility 2 2 ⟨⟨2, 2⟩, ⟨2, 3⟩⟩ ⟨2, 1⟩ ⟨4, 13⟩ (by decide) (by decide) rfl rfl
      (by decide) rfl (by decide)).1⟩

end Claims23


section Claims28

/-- C28: UDIV without constant bits, division by zero yielding all ones.
For every width `w` and all well-formed values `s`, `t` of width `w`:
`(s * t) / s = t` holds if and only if some well-formed value `v` of width
`w` has `v / s = t`, and `s / (s / t) = t` holds if and only if some such
`v` has `s / v = t`. -/
theorem C28_udiv_invertibility (w : Nat) (s t : BitVector)
    (hs : s.size = w) (ht : t.size = w) (hsw : s.wf) (htw : t.wf) :
    (udiv_is_invertible_wo s t 0 = true ↔
      ∃ v : BitVector, v.size = w ∧ v.wf ∧ v.bvudiv s = t) ∧
    (udiv_is_invertible_wo s t 1 = true ↔
      ∃ v : BitVector, v.size = w ∧ v.wf ∧ s.bvudiv v = t) := by
  obtain ⟨ssz, sv⟩ := s
  obtain ⟨tsz, tv⟩ := t
  simp only at hs ht
  subst hs; subst ht
  simp only [BitVector.wf] at hsw htw
  have hM : 0 < 2 ^ tsz := Nat.two_pow_pos _
  constructor
  · simp only [udiv_is_invertible_wo, if_true, beq_iff_eq]
    constructor
    · intro h
      exact ⟨BitVector.bvmul ⟨tsz, sv⟩ ⟨tsz, tv⟩, rfl, Nat.mod_lt _ hM, h⟩
    · rintro ⟨⟨vsz, vv⟩, hv, hvw, he⟩
      simp only at hv
      subst hv
      simp only [BitVector.wf] at hvw
      simp only [BitVector.bvudiv, BitVector.bvmul] at he ⊢
      by_cases h0 : sv = 0
      · simp only [h0, if_true] at he ⊢
        exact he
      · simp only [h0, if_false, BitVector.mk.injEq, true_and] at he ⊢
        have hspos : 0 < sv := Nat.pos_of_ne_zero h0
        have h1 : sv * tv ≤ vv := by
          rw [← he, Nat.mul_comm]
          exact Nat.div_mul_le_self vv sv
        rw [Nat.mod_eq_of_lt (by omega)]
        exact Nat.mul_div_cancel_left tv hspos
  · simp only [udiv_is_invertible_wo, if_neg (by decide : ¬ (1 = 0)), beq_iff_eq]
    constructor
    · intro h
      refine ⟨BitVector.bvudiv ⟨tsz, sv⟩ ⟨tsz, tv⟩, ?_, ?_, h⟩
      · unfold BitVector.bvudiv; split_ifs <;> rfl
      · unfold BitVector.bvudiv
        split_ifs
        · simp only [BitVector.wf]; omega
        · simp only [BitVector.wf]
          exact lt_of_le_of_lt (Nat.div_le_self _ _) hsw
    · rintro ⟨⟨vsz, vv⟩, hv, hvw, he⟩
      simp only at hv
      subst hv
      simp only [BitVector.wf] at hvw
      simp only [BitVector.bvudiv] at he ⊢
      by_cases hv0 : vv = 0
      · simp only [hv0, if_true, BitVector.mk.injEq, true_and] at he
        subst he
        by_cases hm1 : 2 ^ vsz - 1 = 0
        · simp [hm1]
        · simp only [hm1, if_false]
          by_cases hsm : sv = 2 ^ vsz - 1
          · have hq : sv / (2 ^ vsz - 1) = 1 := by
              rw [hsm]; exact Nat.div_self (by omega)
            subst hsm
            simp [hq]
          · have hq : sv / (2 ^ vsz - 1) = 0 := Nat.div_eq_of_lt (by omega)
            simp [hq]
      · simp only [hv0, if_false, BitVector.mk.injEq, true_and] at he
        have hvpos : 0 < vv := Nat.pos_of_ne_zero hv0
        by_cases ht0 : tv = 0
        · have hsv : sv < vv := by
            by_contra hcon
            have : 1 ≤ sv / vv := (Nat.le_div_iff_mul_le hvpos).mpr (by omega)
            omega
          have hm1 : ¬ (2 ^ vsz - 1 = 0) := by omega
          have hq : sv / (2 ^ vsz - 1) = 0 := Nat.div_eq_of_lt (by omega)
          simp [ht0, hm1, hq]
        · have htpos : 0 < tv := Nat.pos_of_ne_zero ht0
          have h1 : vv * tv ≤ sv := by
            rw [← he]; exact Nat.mul_div_le sv vv
          have hq : vv ≤ sv / tv := (Nat.le_div_iff_mul_le htpos).mpr h1
          have hq0 : ¬ (sv / tv = 0) := by omega
          simp only [ht0, if_false, hq0, BitVector.mk.injEq, true_and]
          apply Nat.le_antisymm
          · exact Nat.le_trans (Nat.div_le_div_left hq hvpos) (Nat.le_of_eq he)
          · rw [Nat.le_div_iff_mul_le (by omega)]
            exact Nat.mul_div_le sv tv

/-- Witness for C28: width 3, `s = 3`, `t = 2`: `(3 * 2) / 3 = 2`, and
`v = 6` has `v / s = t`. -/
theorem C28_udiv_invertibility_witness :
    udiv_is_invertible_wo ⟨3, 3⟩ ⟨3, 2⟩ 0 = true ∧
    udiv_is_invertible_wo ⟨3, 3⟩ ⟨3, 3⟩ 0 = false ∧
    (udiv_is_invertible_wo ⟨3, 3⟩ ⟨3, 2⟩ 0 = true ↔
      ∃ v : BitVector, v.size = 3 ∧ v.wf ∧ v.bvudiv ⟨3, 3⟩ = ⟨3, 2⟩) :=
  ⟨by decide, by decide,
   (C28_udiv_invertibility 3 ⟨3, 3⟩ ⟨3, 2⟩ rfl rfl (by decide) (by decide)).1⟩

end Claims28


section Claims29

theorem and_add_or (a b : Nat) : (a &&& b) + (a ||| b) = a + b := by
  induction a using Nat.binaryRec generalizing b with
  | z => simp
  | f x a ih =>
    induction b using Nat.binaryRec with
    | z => simp
    | f y b _ =>
      rw [Nat.land_bit, Nat.lor_bit]
      have := ih b
      cases x <;> cases y <;> simp [Nat.bit_val] <;> omega

/-- The value of `t + t - s` modulo `M`. -/
theorem twice_sub_mod (M s t : Nat) (hs : s < M) (ht : t < M) :
    (s = t → ((t + t) % M + (M - s % M)) % M = t) ∧
    (2 * t < s → ((t + t) % M + (M - s % M)) % M = M - (s - 2 * t)) ∧
    (t < s → s ≤ 2 * t → ((t + t) % M + (M - s % M)) % M = 2 * t - s) := by
  have hM : 0 < M := by omega
  rw [Nat.mod_eq_of_lt hs,
    add_mod_cases M ((t + t) % M) (M - s) (Nat.mod_lt _ hM) (Nat.sub_le _ _),
    add_mod_cases M t t ht (Nat.le_of_lt ht)]
  refine ⟨?_, ?_, ?_⟩ <;> intros <;> split_ifs <;> omega

/-- The condition of UREM at position 1 on numbers below `2^w`. -/
theorem urem1_nat (w s t : Nat) (hs : s < 2 ^ w) (ht : t < 2 ^ w) :
    t ≤ ((((t + t) % 2 ^ w + (2 ^ w - s % 2 ^ w)) % 2 ^ w) &&& s) % 2 ^ w ↔
      (s = t ∨ 2 * t < s) := by
  obtain ⟨e1, e2, e3⟩ := twice_sub_mod (2 ^ w) s t hs ht
  have hmod : ∀ e : Nat, (e &&& s) % 2 ^ w = e &&& s := fun e =>
    Nat.mod_eq_of_lt (lt_of_le_of_lt Nat.and_le_right hs)
  rw [hmod]
  constructor
  · intro h
    by_contra hcon
    push_neg at hcon
    obtain ⟨c1, c2⟩ := hcon
    by_cases hlt : s < t
    · have := @Nat.and_le_right (((t + t) % 2 ^ w + (2 ^ w - s % 2 ^ w)) % 2 ^ w) s
      omega
    · have hts : t < s := by omega
      rw [e3 hts c2] at h
      have := @Nat.and_le_left (2 * t - s) s
      omega
  · rintro (h | h)
    · rw [e1 h, h, Nat.and_self]
    · rw [e2 h]
      have h1 := and_add_or (2 ^ w - (s - 2 * t)) s
      have h2 : (2 ^ w - (s - 2 * t)) ||| s < 2 ^ w := Nat.or_lt_two_pow (by omega) hs
      omega

/-- C29: UREM without constant bits, remainder by zero yielding the
dividend.  For every width `w` and all well-formed values `s`, `t` of width
`w`: `~(-s) >= t` holds if and only if some well-formed value `v` of width
`w` has `v mod s = t`, and `((t + t - s) & s) >= t` holds if and only if
some such `v` has `s mod v = t`. -/
theorem C29_urem_invertibility (w : Nat) (s t : BitVector)
    (hs : s.size = w) (ht : t.size = w) (hsw : s.wf) (htw : t.wf) :
    (urem_is_invertible_wo s t 0 = true ↔
      ∃ v : BitVector, v.size = w ∧ v.wf ∧ v.bvurem s = t) ∧
    (urem_is_invertible_wo s t 1 = true ↔
      ∃ v : BitVector, v.size = w ∧ v.wf ∧ s.bvurem v = t) := by
  obtain ⟨ssz, sv⟩ := s
  obtain ⟨tsz, tv⟩ := t
  simp only at hs ht
  subst hs; subst ht
  simp only [BitVector.wf] at hsw htw
  have hM : 0 < 2 ^ tsz := Nat.two_pow_pos _
  constructor
  · have hic : urem_is_invertible_wo ⟨tsz, sv⟩ ⟨tsz, tv⟩ 0 = true ↔ (sv = 0 ∨ tv < sv) := by
      simp only [urem_is_invertible_wo, if_true, BitVector.bvneg, BitVector.bvnot,
        decide_eq_true_eq, ge_iff_le]
      rw [Nat.mod_eq_of_lt hsw]
      by_cases h0 : sv = 0
      · subst h0
        simp only [Nat.sub_zero, Nat.mod_self, Nat.zero_mod, true_or, iff_true]
        omega
      · rw [Nat.mod_eq_of_lt (by omega : 2 ^ tsz - sv < 2 ^ tsz),
          Nat.mod_eq_of_lt (by omega : 2 ^ tsz - sv < 2 ^ tsz)]
        omega
    rw [hic]
    constructor
    · intro h
      refine ⟨⟨tsz, tv⟩, rfl, htw, ?_⟩
      unfold BitVector.bvurem
      rcases h with h | h
      · simp [h]
      · have h0 : ¬ sv = 0 := by omega
        simp only [h0, if_false, BitVector.mk.injEq, true_and]
        exact Nat.mod_eq_of_lt h
    · rintro ⟨⟨vsz, vv⟩, hv, _, he⟩
      simp only at hv
      subst hv
      by_cases h0 : sv = 0
      · exact Or.inl h0
      · right
        simp only [BitVector.bvurem, h0, if_false, BitVector.mk.injEq, true_and] at he
        rw [← he]
        exact Nat.mod_lt _ (Nat.pos_of_ne_zero h0)
  · have hic : urem_is_invertible_wo ⟨tsz, sv⟩ ⟨tsz, tv⟩ 1 = true ↔ (sv = tv ∨ 2 * tv < sv) := by
      simp only [urem_is_invertible_wo, if_neg (by decide : ¬ (1 = 0)), BitVector.bvadd,
        BitVector.bvsub, BitVector.bvand, decide_eq_true_eq, ge_iff_le]
      exact urem1_nat tsz sv tv hsw htw
    rw [hic]
    constructor
    · rintro (h | h)
      · exact ⟨⟨tsz, 0⟩, rfl, hM, by simp [BitVector.bvurem, h]⟩
      · refine ⟨⟨tsz, sv - tv⟩, rfl, ?_, ?_⟩
        · simp only [BitVector.wf]; omega
        · have h0 : ¬ (sv - tv = 0) := by omega
          simp only [BitVector.bvurem, h0, if_false, BitVector.mk.injEq, true_and]
          have h1 : sv % (sv - tv) = (tv + (sv - tv)) % (sv - tv) := by
            congr 1; omega
          rw [h1, Nat.add_mod_right]
          exact Nat.mod_eq_of_lt (by omega)
    · rintro ⟨⟨vsz, vv⟩, hv, _, he⟩
      simp only at hv
      subst hv
      by_cases h0 : vv = 0
      · left
        simp only [BitVector.bvurem, h0, if_true, BitVector.mk.injEq, true_and] at he
        exact he
      · simp only [BitVector.bvurem, h0, if_false, BitVector.mk.injEq, true_and] at he
        have hlt : tv < vv := by rw [← he]; exact Nat.mod_lt _ (Nat.pos_of_ne_zero h0)
        have hdm := Nat.div_add_mod sv vv
        rw [he] at hdm
        by_cases hq : sv / vv = 0
        · left
          rw [hq] at hdm
          omega
        · right
          have hq1 : 1 ≤ sv / vv := Nat.one_le_iff_ne_zero.mpr hq
          have : vv * 1 ≤ vv * (sv / vv) := Nat.mul_le_mul_left vv hq1
          omega

/-- Witness for C29: width 3, `s = 7`, `t = 2`, position 1:
`((2 + 2 - 7) & 7) = 5 >= 2`, and `v = 5` has `s mod v = t`. -/
theorem C29_urem_invertibility_witness :
    urem_is_invertible_wo ⟨3, 7⟩ ⟨3, 2⟩ 1 = true ∧
    urem_is_invertible_wo ⟨3, 3⟩ ⟨3, 2⟩ 1 = false ∧
    (urem_is_invertible_wo ⟨3, 7⟩ ⟨3, 2⟩ 1 = true ↔
      ∃ v : BitVector, v.size = 3 ∧ v.wf ∧ BitVector.bvurem ⟨3, 7⟩ v = ⟨3, 2⟩) :=
  ⟨by decide, by decide,
   (C29_urem_invertibility 3 ⟨3, 7⟩ ⟨3, 2⟩ rfl rfl (by decide) (by decide)).2⟩

end Claims29


section Claims22

theorem ctz_aux_spec : ∀ (w v : Nat), ctz_aux w v ≤ w ∧ 2 ^ ctz_aux w v ∣ v ∧
    (ctz_aux w v < w → ¬ 2 ^ (ctz_aux w v + 1) ∣ v) := by
  intro w
  induction w with
  | zero => intro v; simp [ctz_aux]
  | succ n ih =>
    intro v
    rw [ctz_aux]
    split_ifs with h
    · refine ⟨Nat.zero_le _, by simp, fun _ hd => ?_⟩
      have := Nat.mod_eq_zero_of_dvd hd
      simp at this
      omega
    · obtain ⟨h1, h2, h3⟩ := ih (v / 2)
      have hv : v = 2 * (v / 2) := by omega
      refine ⟨by omega, ?_, ?_⟩
      · have h4 : 2 ^ (ctz_aux n (v / 2) + 1) ∣ 2 * (v / 2) := by
          rw [pow_succ, Nat.mul_comm]
          exact Nat.mul_dvd_mul_left 2 h2
        exact Nat.dvd_trans h4 (dvd_of_eq hv.symm)
      · intro hlt hd
        apply h3 (by omega)
        have hd2 : 2 * 2 ^ (ctz_aux n (v / 2) + 1) ∣ 2 * (v / 2) := by
          rw [Nat.mul_comm 2 (2 ^ _), ← pow_succ]
          exact Nat.dvd_trans hd (dvd_of_eq hv)
        exact Nat.dvd_of_mul_dvd_mul_left (by decide : 0 < 2) hd2

/-- Divisibility by powers of two up to the width is decided by `ctz_aux`. -/
theorem pow_dvd_iff_le_ctz (w v k : Nat) (hk : k ≤ w) : 2 ^ k ∣ v ↔ k ≤ ctz_aux w v := by
  obtain ⟨h1, h2, h3⟩ := ctz_aux_spec w v
  constructor
  · intro h
    by_contra hcon
    push_neg at hcon
    exact h3 (by omega) (Nat.dvd_trans (Nat.pow_dvd_pow 2 (by omega)) h)
  · intro h
    exact Nat.dvd_trans (Nat.pow_dvd_pow 2 h) h2

theorem testBit_iff_mod (x i : Nat) : x.testBit i = true ↔ 2 ^ i ≤ x % 2 ^ (i + 1) := by
  rw [Nat.testBit_to_div_mod, decide_eq_true_eq, Nat.mod_pow_succ]
  have hr : x % 2 ^ i < 2 ^ i := Nat.mod_lt _ (Nat.two_pow_pos i)
  rcases Nat.mod_two_eq_zero_or_one (x / 2 ^ i) with h | h
  · rw [h]; simp; omega
  · rw [h]; simp

/-- Bit `i` of `-s | s` is set exactly when `2^(i+1)` does not divide `s`. -/
theorem neg_or_testBit (w s i : Nat) (hs : s < 2 ^ w) (hi : i < w) :
    (((2 ^ w - s % 2 ^ w) % 2 ^ w) ||| s).testBit i = decide (¬ 2 ^ (i + 1) ∣ s) := by
  rw [Nat.mod_eq_of_lt hs, Nat.testBit_or]
  have hpw : 2 ^ (i + 1) ∣ 2 ^ w := Nat.pow_dvd_pow 2 (by omega)
  by_cases hd : 2 ^ (i + 1) ∣ s
  · have hsb : s.testBit i = false := by
      rw [← Bool.not_eq_true, testBit_iff_mod, Nat.mod_eq_zero_of_dvd hd]
      have := Nat.two_pow_pos i
      omega
    have hnb : ((2 ^ w - s) % 2 ^ w).testBit i = false := by
      rw [← Bool.not_eq_true, testBit_iff_mod]
      have hd2 : 2 ^ (i + 1) ∣ (2 ^ w - s) % 2 ^ w :=
        (Nat.dvd_mod_iff hpw).mpr (Nat.dvd_sub' hpw hd)
      rw [Nat.mod_eq_zero_of_dvd hd2]
      have := Nat.two_pow_pos i
      omega
    simp [hsb, hnb, hd]
  · have hs0 : s ≠ 0 := by
      intro h; apply hd; rw [h]; exact Nat.dvd_zero _
    have hn : (2 ^ w - s) % 2 ^ w = 2 ^ w - s := Nat.mod_eq_of_lt (by omega)
    rw [hn]
    simp only [hd, not_false_eq_true, decide_True]
    by_contra hcon
    have hb1 : ¬ ((2 ^ w - s).testBit i = true) := by
      intro h; apply hcon; simp [h]
    have hb2 : ¬ (s.testBit i = true) := by
      intro h; apply hcon; simp [h]
    rw [testBit_iff_mod] at hb1 hb2
    have hsum : (s % 2 ^ (i + 1) + (2 ^ w - s) % 2 ^ (i + 1)) % 2 ^ (i + 1) = 0 := by
      rw [← Nat.add_mod, Nat.add_sub_cancel' (Nat.le_of_lt hs)]
      exact Nat.mod_eq_zero_of_dvd hpw
    have hlt : s % 2 ^ (i + 1) + (2 ^ w - s) % 2 ^ (i + 1) < 2 ^ (i + 1) := by
      have e : 2 ^ (i + 1) = 2 * 2 ^ i := by rw [pow_succ, Nat.mul_comm]
      omega
    rw [Nat.mod_eq_of_lt hlt] at hsum
    apply hd
    exact Nat.dvd_of_mod_eq_zero (by omega)

/-- A number is a multiple of `2^c` when its `c` low bits are clear. -/
theorem mod_two_pow_eq_zero_iff (t c : Nat) : t % 2 ^ c = 0 ↔ ∀ i, i < c → t.testBit i = false := by
  constructor
  · intro h i hi
    have := congrArg (fun n => n.testBit i) h
    simpa [Nat.testBit_mod_two_pow, hi] using this
  · intro h
    apply Nat.eq_of_testBit_eq
    intro i
    rw [Nat.testBit_mod_two_pow, Nat.zero_testBit]
    by_cases hi : i < c
    · simp [h i hi]
    · simp [hi]

/-- The condition of MUL without constant bits on numbers below `2^w`. -/
theorem mul_wo_nat (w s t : Nat) (hs : s < 2 ^ w) (ht : t < 2 ^ w) :
    ((((2 ^ w - s % 2 ^ w) % 2 ^ w ||| s) % 2 ^ w &&& t) % 2 ^ w = t) ↔
      t % 2 ^ ctz_aux w s = 0 := by
  rw [mod_two_pow_eq_zero_iff]
  constructor
  · intro h i hi
    have hcw := (ctz_aux_spec w s).1
    have hiw : i < w := by omega
    have hb := congrArg (fun n => n.testBit i) h
    simp only [Nat.testBit_mod_two_pow, Nat.testBit_and, neg_or_testBit w s i hs hiw, hiw,
      decide_True, Bool.true_and] at hb
    have hd : 2 ^ (i + 1) ∣ s := (pow_dvd_iff_le_ctz w s (i + 1) (by omega)).mpr (by omega)
    simp only [hd, not_true_eq_false, decide_False, Bool.false_and] at hb
    exact hb.symm
  · intro h
    apply Nat.eq_of_testBit_eq
    intro i
    simp only [Nat.testBit_mod_two_pow, Nat.testBit_and]
    by_cases hiw : i < w
    · simp only [neg_or_testBit w s i hs hiw, hiw, decide_True, Bool.true_and]
      by_cases hic : i < ctz_aux w s
      · simp [h i hic]
      · have hd : ¬ 2 ^ (i + 1) ∣ s := by
          rw [pow_dvd_iff_le_ctz w s (i + 1) (by omega)]; omega
        simp [hd]
    · simp [hiw, testBit_ge_false ht hiw]

/-- The power `o^(2^(w-1) - 1)` is an inverse of the odd number `o` modulo
`2^w`. -/
theorem modinv_spec (w o : Nat) (hw : 0 < w) (ho : o % 2 = 1) :
    o * (o ^ (2 ^ (w - 1) - 1) % 2 ^ w) ≡ 1 [MOD 2 ^ w] := by
  have hcop : Nat.Coprime o (2 ^ w) := by
    apply Nat.Coprime.pow_right
    rw [Nat.coprime_comm, Nat.coprime_two_left, Nat.odd_iff]
    exact ho
  have htot : Nat.totient (2 ^ w) = 2 ^ (w - 1) := by
    rw [Nat.totient_prime_pow Nat.prime_two hw]; simp
  have h1 := Nat.ModEq.pow_totient hcop
  rw [htot] at h1
  have hpos : 0 < 2 ^ (w - 1) := Nat.two_pow_pos _
  have h2 : o * o ^ (2 ^ (w - 1) - 1) = o ^ 2 ^ (w - 1) := by
    rw [← pow_succ']
    congr 1
    omega
  have h3 : o * (o ^ (2 ^ (w - 1) - 1) % 2 ^ w) ≡ o * o ^ (2 ^ (w - 1) - 1) [MOD 2 ^ w] :=
    Nat.ModEq.mul_left o (Nat.mod_modEq _ _)
  rw [h2] at h3
  exact h3.trans h1

/-- Solving `v * s = t` modulo `2^w` for `s = 2^c * o` with `o` odd and
`t = 2^c * t1`. -/
theorem mul_solutions (w c o t1 inv v : Nat) (hc : c ≤ w)
    (hinv : o * inv ≡ 1 [MOD 2 ^ w]) :
    v * (2 ^ c * o) ≡ 2 ^ c * t1 [MOD 2 ^ w] ↔ v ≡ t1 * inv [MOD 2 ^ (w - c)] := by
  have hsplit : 2 ^ w = 2 ^ c * 2 ^ (w - c) := by
    rw [← pow_add]; congr 1; omega
  have hinv2 : o * inv ≡ 1 [MOD 2 ^ (w - c)] :=
    Nat.ModEq.of_dvd (Nat.pow_dvd_pow 2 (Nat.sub_le w c)) hinv
  have hre : v * (2 ^ c * o) = 2 ^ c * (v * o) := by ring
  rw [hre, hsplit]
  constructor
  · intro h
    have h1 : v * o ≡ t1 [MOD 2 ^ (w - c)] :=
      Nat.ModEq.mul_left_cancel' (Nat.two_pow_pos c).ne' h
    have h2 : v * o * inv ≡ t1 * inv [MOD 2 ^ (w - c)] := Nat.ModEq.mul_right inv h1
    have h3 : v * (o * inv) ≡ v * 1 [MOD 2 ^ (w - c)] := Nat.ModEq.mul_left v hinv2
    rw [Nat.mul_one, ← Nat.mul_assoc] at h3
    exact h3.symm.trans h2
  · intro h
    apply Nat.ModEq.mul_left'
    have h1 : v * o ≡ t1 * inv * o [MOD 2 ^ (w - c)] := Nat.ModEq.mul_right o h
    have h2 : t1 * (o * inv) ≡ t1 * 1 [MOD 2 ^ (w - c)] := Nat.ModEq.mul_left t1 hinv2
    have h3 : t1 * inv * o = t1 * (o * inv) := by ring
    rw [h3] at h1
    rw [Nat.mul_one] at h2
    exact h1.trans h2

/-- Existence of a solution of `v * s = t` modulo `2^w`. -/
theorem mul_exists_nat (w s t : Nat) (ht : t < 2 ^ w) :
    (∃ v, v < 2 ^ w ∧ (v * s) % 2 ^ w = t) ↔ t % 2 ^ ctz_aux w s = 0 := by
  obtain ⟨hcw, hcs, hodd⟩ := ctz_aux_spec w s
  generalize ctz_aux w s = c at hcw hcs hodd ⊢
  constructor
  · rintro ⟨v, _, he⟩
    apply Nat.mod_eq_zero_of_dvd
    have h1 : 2 ^ c ∣ v * s := Dvd.dvd.mul_left hcs v
    have h2 : 2 ^ c ∣ 2 ^ w := Nat.pow_dvd_pow 2 hcw
    rw [← he]
    exact (Nat.dvd_mod_iff h2).mpr h1
  · intro h
    have hdt := Nat.dvd_of_mod_eq_zero h
    by_cases hcw2 : c = w
    · rw [hcw2] at hdt
      have ht0 : t = 0 := Nat.eq_zero_of_dvd_of_lt hdt ht
      exact ⟨0, Nat.two_pow_pos w, by simp [ht0]⟩
    · have hlt : c < w := by omega
      obtain ⟨o, ho⟩ := hcs
      obtain ⟨t1, ht1⟩ := hdt
      have hoodd : o % 2 = 1 := by
        by_contra hcon
        apply hodd hlt
        have : o = 2 * (o / 2) := by omega
        rw [ho, this, pow_succ]
        exact ⟨o / 2, by ring⟩
      have hinv := modinv_spec w o (by omega) hoodd
      have hsol := (mul_solutions w c o t1 (o ^ (2 ^ (w - 1) - 1) % 2 ^ w)
        ((t1 * (o ^ (2 ^ (w - 1) - 1) % 2 ^ w)) % 2 ^ w) hcw hinv).mpr
        (Nat.ModEq.of_dvd (Nat.pow_dvd_pow 2 (Nat.sub_le w _)) (Nat.mod_modEq _ _))
      refine ⟨(t1 * (o ^ (2 ^ (w - 1) - 1) % 2 ^ w)) % 2 ^ w, Nat.mod_lt _ (Nat.two_pow_pos w), ?_⟩
      rw [← ho, ← ht1] at hsol
      have := hsol
      unfold Nat.ModEq at this
      rw [this]
      exact Nat.mod_eq_of_lt ht

/-- C22: MUL without constant bits.  For every width `w` and all well-formed
values `s`, `t` of width `w`, `((-s | s) & t) = t` holds if and only if some
well-formed value `v` of width `w` has `v * s = t` modulo `2^w`; the
operands of the product can be swapped. -/
theorem C22_mul_invertibility_wo (w : Nat) (s t : BitVector)
    (hs : s.size = w) (ht : t.size = w) (hsw : s.wf) (htw : t.wf) :
    (mul_is_invertible_wo s t = true ↔
      ∃ v : BitVector, v.size = w ∧ v.wf ∧ v.bvmul s = t) ∧
    (∀ v : BitVector, v.size = w → s.bvmul v = v.bvmul s) := by
  obtain ⟨ssz, sv⟩ := s
  obtain ⟨tsz, tv⟩ := t
  simp only at hs ht
  subst hs; subst ht
  simp only [BitVector.wf] at hsw htw
  constructor
  · have hic : mul_is_invertible_wo ⟨tsz, sv⟩ ⟨tsz, tv⟩ = true ↔
        tv % 2 ^ ctz_aux tsz sv = 0 := by
      simp only [mul_is_invertible_wo, BitVector.bvneg, BitVector.bvor, BitVector.bvand,
        beq_iff_eq, BitVector.mk.injEq, true_and]
      exact mul_wo_nat tsz sv tv hsw htw
    rw [hic, ← mul_exists_nat tsz sv tv htw]
    constructor
    · rintro ⟨v, hv, he⟩
      exact ⟨⟨tsz, v⟩, rfl, hv, by simp only [BitVector.bvmul, he]⟩
    · rintro ⟨⟨vsz, vv⟩, hsz, hvw, he⟩
      simp only at hsz
      subst hsz
      simp only [BitVector.bvmul, BitVector.mk.injEq, true_and] at he
      exact ⟨vv, hvw, he⟩
  · intro v hv
    simp only [BitVector.bvmul, BitVector.mk.injEq]
    exact ⟨hv.symm, by rw [hv, Nat.mul_comm]⟩

/-- Witness for C22: width 3, `s = 6`, `t = 4`: `(-6 | 6) & 4 = 4`, and
`v = 2` has `2 * 6 = 12 = 4` modulo 8; for `t = 3` the condition fails. -/
theorem C22_mul_invertibility_wo_witness :
    mul_is_invertible_wo ⟨3, 6⟩ ⟨3, 4⟩ = true ∧
    mul_is_invertible_wo ⟨3, 6⟩ ⟨3, 3⟩ = false ∧
    (mul_is_invertible_wo ⟨3, 6⟩ ⟨3, 4⟩ = true ↔
      ∃ v : BitVector, v.size = 3 ∧ v.wf ∧ v.bvmul ⟨3, 6⟩ = ⟨3, 4⟩) :=
  ⟨by decide, by decide,
   (C22_mul_invertibility_wo 3 ⟨3, 6⟩ ⟨3, 4⟩ rfl rfl (by decide) (by decide)).1⟩

end Claims22


section Claims21

theorem testBit_shl_mod (w c a j : Nat) :
    (a * 2 ^ c % 2 ^ w).testBit j = (decide (j < w) && (decide (c ≤ j) && a.testBit (j - c))) := by
  rw [Nat.testBit_mod_two_pow, ← Nat.shiftLeft_eq, Nat.testBit_shiftLeft]

/-- Membership of the value `y << c` in the domain `x << c` compares the low `w - c`
bits of `y` with those of the bounds. -/
theorem mfb_shl_iff (w c lo hi y : Nat) (hc : c ≤ w) :
    ((lo * 2 ^ c % 2 ^ w) ||| (y * 2 ^ c % 2 ^ w) = y * 2 ^ c % 2 ^ w ∧
      (y * 2 ^ c % 2 ^ w) ||| (hi * 2 ^ c % 2 ^ w) = hi * 2 ^ c % 2 ^ w) ↔
    LowIncl (w - c) lo y hi := by
  constructor
  · rintro ⟨h1, h2⟩ k hk
    have b1 := congrArg (fun n => n.testBit (k + c)) h1
    have b2 := congrArg (fun n => n.testBit (k + c)) h2
    have hj : k + c < w := by omega
    simp only [Nat.testBit_or, testBit_shl_mod, hj, decide_True, Bool.true_and,
      Nat.le_add_left, Nat.add_sub_cancel] at b1 b2
    constructor
    · intro hl; rw [hl] at b1; simpa using b1.symm
    · intro hy; rw [hy] at b2; simpa using b2.symm
  · intro h
    constructor
    · apply Nat.eq_of_testBit_eq
      intro j
      simp only [Nat.testBit_or, testBit_shl_mod]
      by_cases hj : j < w
      · by_cases hcj : c ≤ j
        · have := (h (j - c) (by omega)).1
          simp only [hj, hcj, decide_True, Bool.true_and]
          revert this
          cases lo.testBit (j - c) <;> cases y.testBit (j - c) <;> simp
        · simp [hcj]
      · simp [hj]
    · apply Nat.eq_of_testBit_eq
      intro j
      simp only [Nat.testBit_or, testBit_shl_mod]
      by_cases hj : j < w
      · by_cases hcj : c ≤ j
        · have := (h (j - c) (by omega)).2
          simp only [hj, hcj, decide_True, Bool.true_and]
          revert this
          cases hi.testBit (j - c) <;> cases y.testBit (j - c) <;> simp
        · simp [hcj]
      · simp [hj]

/-- In a valid domain some member agrees with `y` on the low `n` bits
exactly when the low `n` bits of `y` match the fixed bits. -/
theorem lowIncl_iff_exists (w n lo hi y : Nat) (hn : n ≤ w) (hlo : lo < 2 ^ w)
    (hvalid : lo ||| hi = hi) :
    LowIncl n lo y hi ↔
      ∃ v, v < 2 ^ w ∧ (lo ||| v = v ∧ v ||| hi = hi) ∧ v ≡ y [MOD 2 ^ n] := by
  have hval : ∀ k, lo.testBit k = true → hi.testBit k = true := by
    intro k hk
    have := congrArg (fun m => m.testBit k) hvalid
    simp only [Nat.testBit_or, hk, Bool.true_or] at this
    exact this.symm
  constructor
  · intro h
    refine ⟨(y % 2 ^ n) ||| lo, ?_, ⟨?_, ?_⟩, ?_⟩
    · apply Nat.or_lt_two_pow _ hlo
      exact lt_of_lt_of_le (Nat.mod_lt _ (Nat.two_pow_pos n)) (Nat.pow_le_pow_right (by decide) hn)
    · apply Nat.eq_of_testBit_eq
      intro k
      simp only [Nat.testBit_or]
      cases lo.testBit k <;> simp
    · apply Nat.eq_of_testBit_eq
      intro k
      simp only [Nat.testBit_or, Nat.testBit_mod_two_pow]
      have hv := hval k
      by_cases hk : k < n
      · have := (h k hk).2
        simp only [hk, decide_True, Bool.true_and]
        revert this hv
        cases lo.testBit k <;> cases y.testBit k <;> cases hi.testBit k <;> simp
      · simp only [hk, decide_False, Bool.false_and, Bool.false_or]
        revert hv
        cases lo.testBit k <;> cases hi.testBit k <;> simp
    · unfold Nat.ModEq
      apply Nat.eq_of_testBit_eq
      intro k
      simp only [Nat.testBit_or, Nat.testBit_mod_two_pow]
      by_cases hk : k < n
      · have := (h k hk).1
        simp only [hk, decide_True, Bool.true_and]
        revert this
        cases lo.testBit k <;> cases y.testBit k <;> simp
      · simp [hk]
  · rintro ⟨v, _, ⟨m1, m2⟩, hmod⟩ k hk
    have hb : v.testBit k = y.testBit k := by
      have := congrArg (fun m => m.testBit k) hmod
      simpa only [Nat.testBit_mod_two_pow, hk, decide_True, Bool.true_and] using this
    have b1 := congrArg (fun m => m.testBit k) m1
    have b2 := congrArg (fun m => m.testBit k) m2
    simp only [Nat.testBit_or, hb] at b1 b2
    constructor
    · intro hl; rw [hl] at b1; simpa using b1.symm
    · intro hy; rw [hy] at b2; simpa using b2.symm

theorem ctz_aux_eq_zero_iff (w s : Nat) (hw : 0 < w) : ctz_aux w s = 0 ↔ s % 2 = 1 := by
  obtain ⟨n, rfl⟩ : ∃ n, w = n + 1 := ⟨w - 1, by omega⟩
  rw [ctz_aux]
  split_ifs with h
  · simp [h]
  · simp [h]

theorem ctz_aux_lt (w s : Nat) (hs : s < 2 ^ w) (hs0 : s ≠ 0) : ctz_aux w s < w := by
  obtain ⟨h1, h2, _⟩ := ctz_aux_spec w s
  by_contra hcon
  have hc : ctz_aux w s = w := by omega
  rw [hc] at h2
  exact hs0 (Nat.eq_zero_of_dvd_of_lt h2 hs)

/-- The solutions of `v * s = t` modulo `2^w` for `s != 0`: the members of
the residue class of `y` modulo `2^(w - c)`, with `c = ctz(s)` and
`y = (t >> c) * (s >> c)^-1`. -/
theorem mul_solutions_ctz (w s t : Nat) (hs : s < 2 ^ w) (ht : t < 2 ^ w) (hs0 : s ≠ 0)
    (hdiv : t % 2 ^ ctz_aux w s = 0) (v : Nat) :
    v ≡ (t / 2 ^ ctz_aux w s * ((s / 2 ^ ctz_aux w s) ^ (2 ^ (w - 1) - 1) % 2 ^ w)) % 2 ^ w
        [MOD 2 ^ (w - ctz_aux w s)] ↔
      (v * s) % 2 ^ w = t := by
  have hlt := ctz_aux_lt w s hs hs0
  obtain ⟨hcw, hcs, hodd⟩ := ctz_aux_spec w s
  generalize ctz_aux w s = c at hcw hcs hodd hdiv hlt ⊢
  have hso : 2 ^ c * (s / 2 ^ c) = s := Nat.mul_div_cancel' hcs
  have hto : 2 ^ c * (t / 2 ^ c) = t := Nat.mul_div_cancel' (Nat.dvd_of_mod_eq_zero hdiv)
  generalize s / 2 ^ c = o at hso ⊢
  generalize t / 2 ^ c = t1 at hto ⊢
  have hoodd : o % 2 = 1 := by
    by_contra hcon
    apply hodd hlt
    have : o = 2 * (o / 2) := by omega
    rw [← hso, this, pow_succ]
    exact ⟨o / 2, by ring⟩
  have hinv := modinv_spec w o (by omega) hoodd
  have hsol := mul_solutions w c o t1 (o ^ (2 ^ (w - 1) - 1) % 2 ^ w) v hcw hinv
  rw [hso, hto] at hsol
  have hy : (t1 * (o ^ (2 ^ (w - 1) - 1) % 2 ^ w)) % 2 ^ w ≡
      t1 * (o ^ (2 ^ (w - 1) - 1) % 2 ^ w) [MOD 2 ^ (w - c)] :=
    Nat.ModEq.of_dvd (Nat.pow_dvd_pow 2 (Nat.sub_le w c)) (Nat.mod_modEq _ _)
  constructor
  · intro h
    have h2 := hsol.mpr (h.trans hy)
    unfold Nat.ModEq at h2
    rw [h2]
    exact Nat.mod_eq_of_lt ht
  · intro h
    have h2 : v * s ≡ t [MOD 2 ^ w] := by
      unfold Nat.ModEq
      rw [h, Nat.mod_eq_of_lt ht]
    exact (hsol.mp h2).trans hy.symm

/-- The condition of MUL with constant bits on numbers below `2^w`, for
`s != 0`. -/
theorem mul_ic_nat (w lo hi s t : Nat) (hlo : lo < 2 ^ w) (hs : s < 2 ^ w) (ht : t < 2 ^ w)
    (hs0 : s ≠ 0) (hvalid : lo ||| hi = hi) :
    (t % 2 ^ ctz_aux w s = 0 ∧
      LowIncl (w - ctz_aux w s) lo
        ((t / 2 ^ ctz_aux w s * ((s / 2 ^ ctz_aux w s) ^ (2 ^ (w - 1) - 1) % 2 ^ w)) % 2 ^ w)
        hi) ↔
    ∃ v, v < 2 ^ w ∧ (lo ||| v = v ∧ v ||| hi = hi) ∧ (v * s) % 2 ^ w = t := by
  rw [lowIncl_iff_exists w (w - ctz_aux w s) lo hi _ (Nat.sub_le _ _) hlo hvalid]
  constructor
  · rintro ⟨hdiv, v, hv, hm, hmod⟩
    exact ⟨v, hv, hm, (mul_solutions_ctz w s t hs ht hs0 hdiv v).mp hmod⟩
  · rintro ⟨v, hv, hm, he⟩
    have hdiv := (mul_exists_nat w s t ht).mp ⟨v, hv, he⟩
    exact ⟨hdiv, v, hv, hm, (mul_solutions_ctz w s t hs ht hs0 hdiv v).mpr he⟩

theorem mul_wo_iff (w sv tv : Nat) (hsw : sv < 2 ^ w) (htw : tv < 2 ^ w) :
    mul_is_invertible_wo ⟨w, sv⟩ ⟨w, tv⟩ = true ↔ tv % 2 ^ ctz_aux w sv = 0 := by
  simp only [mul_is_invertible_wo, BitVector.bvneg, BitVector.bvor, BitVector.bvand,
    beq_iff_eq, BitVector.mk.injEq, true_and]
  exact mul_wo_nat w sv tv hsw htw

theorem mfb_iff (lo hi v : BitVector) :
    match_fixed_bits ⟨lo, hi⟩ v = true ↔ (lo.val ||| v.val = v.val ∧ v.val ||| hi.val = hi.val) := by
  simp only [match_fixed_bits, Bool.and_eq_true, beq_iff_eq]

end Claims21


section Claims21b

/-- The part of the condition of MUL that looks at the constant bits, for
`s != 0`, compares the low `w - ctz(s)` bits of `y` with the bounds. -/
theorem mul_cond_iff (w lov hiv sv tv : Nat) (hlo : lov < 2 ^ w) (hhi : hiv < 2 ^ w)
    (hsw : sv < 2 ^ w) (hs0 : sv ≠ 0) :
    ((!(BitVector.is_odd ⟨w, sv⟩) ||
        match_fixed_bits ⟨⟨w, lov⟩, ⟨w, hiv⟩⟩
          (BitVector.bvmul ⟨w, tv⟩ (BitVector.bvmodinv ⟨w, sv⟩))) &&
      (BitVector.is_odd ⟨w, sv⟩ ||
        match_fixed_bits (BitVectorDomain.bvshl ⟨⟨w, lov⟩, ⟨w, hiv⟩⟩ ⟨w, ctz_aux w sv⟩)
          (BitVector.bvshl
            (BitVector.bvmul (BitVector.bvshr ⟨w, tv⟩ ⟨w, ctz_aux w sv⟩)
              (BitVector.bvmodinv (BitVector.bvshr ⟨w, sv⟩ ⟨w, ctz_aux w sv⟩)))
            ⟨w, ctz_aux w sv⟩))) = true ↔
    LowIncl (w - ctz_aux w sv) lov
      ((tv / 2 ^ ctz_aux w sv * ((sv / 2 ^ ctz_aux w sv) ^ (2 ^ (w - 1) - 1) % 2 ^ w)) % 2 ^ w)
      hiv := by
  have hw : 0 < w := by
    by_contra hcon
    have : w = 0 := by omega
    subst this
    simp at hsw
    exact hs0 hsw
  have hlt := ctz_aux_lt w sv hsw hs0
  have hM : 0 < 2 ^ w := Nat.two_pow_pos w
  by_cases hodd : sv % 2 = 1
  · have hc0 : ctz_aux w sv = 0 := (ctz_aux_eq_zero_iff w sv hw).mpr hodd
    have hpar : BitVector.is_odd ⟨w, sv⟩ = true := by simp [BitVector.is_odd, hodd]
    rw [hpar, hc0]
    simp only [Bool.not_true, Bool.false_or, Bool.true_or, Bool.and_true, Nat.pow_zero,
      Nat.div_one, Nat.sub_zero, mfb_iff, BitVector.bvmul, BitVector.bvmodinv]
    have h := mfb_shl_iff w 0 lov hiv ((tv * (sv ^ (2 ^ (w - 1) - 1) % 2 ^ w)) % 2 ^ w)
      (Nat.zero_le w)
    simp only [Nat.pow_zero, Nat.mul_one, Nat.mod_eq_of_lt hlo, Nat.mod_eq_of_lt hhi,
      Nat.mod_mod, Nat.sub_zero] at h
    exact h
  · have hpar : BitVector.is_odd ⟨w, sv⟩ = false := by simp [BitVector.is_odd, hodd]
    have hnot : ¬ (w ≤ ctz_aux w sv) := by omega
    rw [hpar]
    simp only [Bool.not_false, Bool.true_or, Bool.false_or, Bool.true_and,
      BitVectorDomain.bvshl, BitVector.bvshl, BitVector.bvshr, BitVector.bvmul,
      BitVector.bvmodinv, ge_iff_le, hnot, if_false, mfb_iff]
    exact mfb_shl_iff w (ctz_aux w sv) lov hiv _ (Nat.le_of_lt hlt)

/-- C21: MUL with constant bits, `x` at either position.  For every width
`w`, every valid domain `x` of well-formed bounds of width `w` and all
well-formed values `s`, `t` of width `w`, the condition `IC_wo` and
(`s = 0` or (`odd(s) => mfb(x, t * s^-1)` and
`!odd(s) => mfb(x << c, y << c)`)), with `c = ctz(s)` and
`y = (t >> c) * (s >> c)^-1`, holds if and only if some well-formed value
`v` of width `w` in the domain of `x` has `v * s = t` modulo `2^w`.  For odd
`s` the value `t * s^-1` is the only well-formed `v` of width `w` with
`v * s = t`; the operands of the product can be swapped. -/
theorem C21_mul_invertibility (w : Nat) (x : BitVectorDomain) (s t : BitVector)
    (hlo : x.lo.size = w) (hhi : x.hi.size = w) (hlow : x.lo.wf) (hhiw : x.hi.wf)
    (hvalid : x.is_valid = true) (hs : s.size = w) (ht : t.size = w)
    (hsw : s.wf) (htw : t.wf) :
    (mul_is_invertible x s t = true ↔
      ∃ v : BitVector, v.size = w ∧ v.wf ∧ match_fixed_bits x v = true ∧ v.bvmul s = t) ∧
    (s.is_odd = true → ∀ v : BitVector, v.size = w → v.wf →
      (v.bvmul s = t ↔ v = t.bvmul s.bvmodinv)) ∧
    (∀ v : BitVector, v.size = w → s.bvmul v = v.bvmul s) := by
  obtain ⟨hmlo, _, _, _⟩ := domain_facts w x hlo hhi hlow hhiw hvalid
  obtain ⟨⟨losz, lov⟩, ⟨hisz, hiv⟩⟩ := x
  obtain ⟨ssz, sv⟩ := s
  obtain ⟨tsz, tv⟩ := t
  simp only at hlo hhi hs ht
  subst hlo; subst hhi; subst hs; subst ht
  simp only [BitVector.wf] at hlow hhiw hsw htw
  have hv2 : (2 ^ tsz - 1 - lov % 2 ^ tsz) ||| hiv = 2 ^ tsz - 1 := by
    simpa [BitVectorDomain.is_valid, BitVector.bvnot] using hvalid
  have hor := valid_lo_or_hi hlow hhiw hv2
  have hM : 0 < 2 ^ tsz := Nat.two_pow_pos tsz
  have hex : (∃ v, v < 2 ^ tsz ∧ (lov ||| v = v ∧ v ||| hiv = hiv) ∧ (v * sv) % 2 ^ tsz = tv) ↔
      ∃ v : BitVector, v.size = tsz ∧ v.wf ∧
        match_fixed_bits ⟨⟨tsz, lov⟩, ⟨tsz, hiv⟩⟩ v = true ∧
        v.bvmul ⟨tsz, sv⟩ = ⟨tsz, tv⟩ := by
    constructor
    · rintro ⟨v, hv, hm, he⟩
      exact ⟨⟨tsz, v⟩, rfl, hv, (mfb_iff _ _ _).mpr hm, by simp only [BitVector.bvmul, he]⟩
    · rintro ⟨⟨vsz, vv⟩, hsz, hvw, hm, he⟩
      simp only at hsz
      subst hsz
      simp only [BitVector.bvmul, BitVector.mk.injEq, true_and] at he
      exact ⟨vv, hvw, (mfb_iff _ _ _).mp hm, he⟩
  refine ⟨?_, ?_, ?_⟩
  · rw [← hex]
    by_cases hs0 : sv = 0
    · subst hs0
      have hic : mul_is_invertible ⟨⟨tsz, lov⟩, ⟨tsz, hiv⟩⟩ ⟨tsz, 0⟩ ⟨tsz, tv⟩
          = mul_is_invertible_wo ⟨tsz, 0⟩ ⟨tsz, tv⟩ := by
        simp [mul_is_invertible, BitVector.zero]
      rw [hic, mul_wo_iff tsz 0 tv hM htw, ← mul_exists_nat tsz 0 tv htw]
      constructor
      · rintro ⟨v, _, he⟩
        refine ⟨lov, hlow, (mfb_iff _ _ _).mp hmlo, ?_⟩
        simpa using he
      · rintro ⟨v, hv, _, he⟩
        exact ⟨v, hv, he⟩
    · have hz : ((⟨tsz, sv⟩ : BitVector) == BitVector.zero tsz) = false := by
        simp [BitVector.zero, hs0]
      have hic : mul_is_invertible ⟨⟨tsz, lov⟩, ⟨tsz, hiv⟩⟩ ⟨tsz, sv⟩ ⟨tsz, tv⟩ = true ↔
          (tv % 2 ^ ctz_aux tsz sv = 0 ∧
            LowIncl (tsz - ctz_aux tsz sv) lov
              ((tv / 2 ^ ctz_aux tsz sv *
                ((sv / 2 ^ ctz_aux tsz sv) ^ (2 ^ (tsz - 1) - 1) % 2 ^ tsz)) % 2 ^ tsz)
              hiv) := by
        rw [← mul_wo_iff tsz sv tv hsw htw, ← mul_cond_iff tsz lov hiv sv tv hlow hhiw hsw hs0]
        simp only [mul_is_invertible, BitVector.ctz, hz, Bool.false_or, Bool.and_eq_true]
      rw [hic]
      exact mul_ic_nat tsz lov hiv sv tv hlow hsw htw hs0 hor
  · intro hodd v hv hvw
    obtain ⟨vsz, vv⟩ := v
    simp only at hv
    subst hv
    simp only [BitVector.wf] at hvw
    have hodd2 : sv % 2 = 1 := by
      simpa [BitVector.is_odd] using hodd
    have hs0 : sv ≠ 0 := by omega
    have hw : 0 < vsz := by
      by_contra hcon
      have : vsz = 0 := by omega
      subst this
      simp at hsw
      exact hs0 hsw
    have hc0 : ctz_aux vsz sv = 0 := (ctz_aux_eq_zero_iff vsz sv hw).mpr hodd2
    have hsol := mul_solutions_ctz vsz sv tv hsw htw hs0 (by rw [hc0]; simp [Nat.mod_one]) vv
    rw [hc0] at hsol
    simp only [Nat.pow_zero, Nat.div_one, Nat.sub_zero] at hsol
    simp only [BitVector.bvmul, BitVector.bvmodinv, BitVector.mk.injEq, true_and]
    rw [← hsol]
    unfold Nat.ModEq
    rw [Nat.mod_mod, Nat.mod_eq_of_lt hvw]
  · intro v hv
    simp only [BitVector.bvmul, BitVector.mk.injEq]
    exact ⟨hv.symm, by rw [hv, Nat.mul_comm]⟩

/-- Witness for C21: width 8, `x` unconstrained, `s = 3`, `t = 9`: the
condition holds, `t * s^-1 = 3`, and `3 * 3 = 9`.  With bit 0 of `x` fixed
to 0 the condition fails. -/
theorem C21_mul_invertibility_witness :
    mul_is_invertible ⟨⟨8, 0⟩, ⟨8, 255⟩⟩ ⟨8, 3⟩ ⟨8, 9⟩ = true ∧
    BitVector.bvmul ⟨8, 9⟩ (BitVector.bvmodinv ⟨8, 3⟩) = ⟨8, 3⟩ ∧
    mul_is_invertible ⟨⟨8, 0⟩, ⟨8, 254⟩⟩ ⟨8, 3⟩ ⟨8, 9⟩ = false ∧
    (mul_is_invertible ⟨⟨8, 0⟩, ⟨8, 255⟩⟩ ⟨8, 3⟩ ⟨8, 9⟩ = true ↔
      ∃ v : BitVector, v.size = 8 ∧ v.wf ∧
        match_fixed_bits ⟨⟨8, 0⟩, ⟨8, 255⟩⟩ v = true ∧ v.bvmul ⟨8, 3⟩ = ⟨8, 9⟩) :=
  ⟨by decide, by decide, by decide,
   (C21_mul_invertibility 8 ⟨⟨8, 0⟩, ⟨8, 255⟩⟩ ⟨8, 3⟩ ⟨8, 9⟩ rfl rfl (by decide) (by decide)
      (by decide) rfl rfl (by decide) (by decide)).1⟩

end Claims21b


section Claims27

/-- The solutions of `v << c = t` modulo `2^w` when `2^c` divides `t`. -/
theorem shl_solutions (w c t v : Nat) (hc : c ≤ w) (ht : t < 2 ^ w) (hdiv : t % 2 ^ c = 0) :
    v ≡ t / 2 ^ c [MOD 2 ^ (w - c)] ↔ (v * 2 ^ c) % 2 ^ w = t := by
  have hto : 2 ^ c * (t / 2 ^ c) = t := Nat.mul_div_cancel' (Nat.dvd_of_mod_eq_zero hdiv)
  have hsol := mul_solutions w c 1 (t / 2 ^ c) 1 v hc (Nat.ModEq.refl _)
  simp only [Nat.mul_one] at hsol
  rw [hto] at hsol
  rw [← hsol]
  unfold Nat.ModEq
  rw [Nat.mod_eq_of_lt ht]

/-- The condition of SHL at position 0 on numbers below `2^w`, for a shift
by `c < w`. -/
theorem shl0_nat (w c lo hi t : Nat) (hc : c < w) (hlo : lo < 2 ^ w) (ht : t < 2 ^ w)
    (hvalid : lo ||| hi = hi) :
    ((t / 2 ^ c * 2 ^ c) % 2 ^ w = t ∧
      ((lo * 2 ^ c % 2 ^ w) ||| t = t ∧ t ||| (hi * 2 ^ c % 2 ^ w) = hi * 2 ^ c % 2 ^ w)) ↔
    ∃ v, v < 2 ^ w ∧ (lo ||| v = v ∧ v ||| hi = hi) ∧ (v * 2 ^ c) % 2 ^ w = t := by
  have hle : t / 2 ^ c * 2 ^ c ≤ t := Nat.div_mul_le_self t (2 ^ c)
  have hdd : (t / 2 ^ c * 2 ^ c) % 2 ^ w = t ↔ t % 2 ^ c = 0 := by
    rw [Nat.mod_eq_of_lt (by omega)]
    constructor
    · intro h
      apply Nat.mod_eq_zero_of_dvd
      exact ⟨t / 2 ^ c, by rw [Nat.mul_comm]; exact h.symm⟩
    · intro h
      exact Nat.div_mul_cancel (Nat.dvd_of_mod_eq_zero h)
  have hkey : t % 2 ^ c = 0 →
      (((lo * 2 ^ c % 2 ^ w) ||| t = t ∧ t ||| (hi * 2 ^ c % 2 ^ w) = hi * 2 ^ c % 2 ^ w) ↔
        ∃ v, v < 2 ^ w ∧ (lo ||| v = v ∧ v ||| hi = hi) ∧ (v * 2 ^ c) % 2 ^ w = t) := by
    intro hdiv
    have hy : (t / 2 ^ c) * 2 ^ c % 2 ^ w = t := hdd.mpr hdiv
    have h1 := mfb_shl_iff w c lo hi (t / 2 ^ c) (Nat.le_of_lt hc)
    rw [hy] at h1
    rw [h1, lowIncl_iff_exists w (w - c) lo hi _ (Nat.sub_le _ _) hlo hvalid]
    constructor
    · rintro ⟨v, hv, hm, hmod⟩
      exact ⟨v, hv, hm, (shl_solutions w c t v (Nat.le_of_lt hc) ht hdiv).mp hmod⟩
    · rintro ⟨v, hv, hm, he⟩
      exact ⟨v, hv, hm, (shl_solutions w c t v (Nat.le_of_lt hc) ht hdiv).mpr he⟩
  constructor
  · rintro ⟨h1, h2⟩
    exact (hkey (hdd.mp h1)).mp h2
  · rintro ⟨v, hv, hm, he⟩
    have hdiv : t % 2 ^ c = 0 := by
      apply Nat.mod_eq_zero_of_dvd
      rw [← he]
      exact (Nat.dvd_mod_iff (Nat.pow_dvd_pow 2 (Nat.le_of_lt hc))).mpr (Dvd.intro_left v rfl)
    exact ⟨hdd.mpr hdiv, (hkey hdiv).mpr ⟨v, hv, hm, he⟩⟩

end Claims27


section Claims27b

theorem ctz_aux_zero (w : Nat) : ctz_aux w 0 = w := by
  induction w with
  | zero => rfl
  | succ n ih => simp [ctz_aux, ih]

/-- A shifted nonzero value is zero modulo `2^w` exactly when the shift
pushes its lowest set bit out. -/
theorem shl_zero_iff (w s v : Nat) (hs : s < 2 ^ w) (hs0 : s ≠ 0) (hv : v < w) :
    (s * 2 ^ v) % 2 ^ w = 0 ↔ w ≤ ctz_aux w s + v := by
  obtain ⟨hcw, hcs, hodd⟩ := ctz_aux_spec w s
  have hlt := ctz_aux_lt w s hs hs0
  constructor
  · intro h
    by_contra hcon
    have hd : 2 ^ w ∣ s * 2 ^ v := Nat.dvd_of_mod_eq_zero h
    have hsplit : 2 ^ w = 2 ^ (w - v) * 2 ^ v := by
      rw [← pow_add]; congr 1; omega
    rw [hsplit] at hd
    have hd2 : 2 ^ (w - v) ∣ s := Nat.dvd_of_mul_dvd_mul_right (Nat.two_pow_pos v) hd
    have := (pow_dvd_iff_le_ctz w s (w - v) (Nat.sub_le _ _)).mp hd2
    omega
  · intro h
    apply Nat.mod_eq_zero_of_dvd
    have h1 : 2 ^ (ctz_aux w s + v) ∣ s * 2 ^ v := by
      rw [pow_add]
      exact Nat.mul_dvd_mul hcs (Nat.dvd_refl _)
    exact Nat.dvd_trans (Nat.pow_dvd_pow 2 h) h1

/-- Shifting a value left adds the shift to its count of trailing zeros,
as long as the result is not zero. -/
theorem ctz_shl (w s v : Nat) (hs : s < 2 ^ w) (hs0 : s ≠ 0) (hv : v < w)
    (ht0 : (s * 2 ^ v) % 2 ^ w ≠ 0) :
    ctz_aux w ((s * 2 ^ v) % 2 ^ w) = ctz_aux w s + v := by
  obtain ⟨hcw, hcs, hodd⟩ := ctz_aux_spec w s
  have hlt := ctz_aux_lt w s hs hs0
  have hM : 0 < 2 ^ w := Nat.two_pow_pos w
  have htlt := ctz_aux_lt w ((s * 2 ^ v) % 2 ^ w) (Nat.mod_lt _ hM) ht0
  have hsum : ctz_aux w s + v < w := by
    by_contra hcon
    exact ht0 ((shl_zero_iff w s v hs hs0 hv).mpr (by omega))
  have hdvd : ∀ k, k ≤ w → (2 ^ k ∣ (s * 2 ^ v) % 2 ^ w ↔ 2 ^ k ∣ s * 2 ^ v) := fun k hk =>
    Nat.dvd_mod_iff (Nat.pow_dvd_pow 2 hk)
  apply Nat.le_antisymm
  · by_contra hcon
    have h1 : 2 ^ (ctz_aux w s + v + 1) ∣ (s * 2 ^ v) % 2 ^ w :=
      (pow_dvd_iff_le_ctz w _ _ (by omega)).mpr (by omega)
    rw [hdvd _ (by omega)] at h1
    have hre : 2 ^ (ctz_aux w s + v + 1) = 2 ^ (ctz_aux w s + 1) * 2 ^ v := by
      rw [← pow_add]; congr 1; omega
    rw [hre] at h1
    exact hodd hlt (Nat.dvd_of_mul_dvd_mul_right (Nat.two_pow_pos v) h1)
  · apply (pow_dvd_iff_le_ctz w _ _ (by omega)).mp
    rw [hdvd _ (by omega), pow_add]
    exact Nat.mul_dvd_mul hcs (Nat.dvd_refl _)

end Claims27b


section Claims27c

/-- C27: SHL with constant bits, a shift by the width or more yielding
zero.  For every width `w`, every valid domain `x` of well-formed bounds of
width `w` and all well-formed values `s`, `t` of width `w`: at position 0
the condition `(t >> s) << s = t` and `mfb(x << s, t)` holds if and only if
some well-formed value `v` of width `w` in the domain of `x` has
`v << s = t`; at position 1 the condition `ctz(s) <= ctz(t)` and
(`t = 0` or `s << (ctz(t) - ctz(s)) = t`) and
(`t = 0 => x_hi >= ctz(t) - ctz(s) || s = 0`) and
(`t != 0 => mfb(x, ctz(t) - ctz(s))`) holds if and only if some such `v`
has `s << v = t`. -/
theorem C27_shl_invertibility (w : Nat) (x : BitVectorDomain) (s t : BitVector)
    (hlo : x.lo.size = w) (hhi : x.hi.size = w) (hlow : x.lo.wf) (hhiw : x.hi.wf)
    (hvalid : x.is_valid = true) (hs : s.size = w) (ht : t.size = w)
    (hsw : s.wf) (htw : t.wf) :
    (shl_is_invertible x s t 0 = true ↔
      ∃ v : BitVector, v.size = w ∧ v.wf ∧ match_fixed_bits x v = true ∧ v.bvshl s = t) ∧
    (shl_is_invertible x s t 1 = true ↔
      ∃ v : BitVector, v.size = w ∧ v.wf ∧ match_fixed_bits x v = true ∧ s.bvshl v = t) := by
  obtain ⟨hmlo, hmhi, _, hbetween⟩ := domain_facts w x hlo hhi hlow hhiw hvalid
  obtain ⟨⟨losz, lov⟩, ⟨hisz, hiv⟩⟩ := x
  obtain ⟨ssz, sv⟩ := s
  obtain ⟨tsz, tv⟩ := t
  simp only at hlo hhi hs ht
  subst hlo; subst hhi; subst hs; subst ht
  simp only [BitVector.wf] at hlow hhiw hsw htw
  have hv2 : (2 ^ tsz - 1 - lov % 2 ^ tsz) ||| hiv = 2 ^ tsz - 1 := by
    simpa [BitVectorDomain.is_valid, BitVector.bvnot] using hvalid
  have hor := valid_lo_or_hi hlow hhiw hv2
  have hM : 0 < 2 ^ tsz := Nat.two_pow_pos tsz
  constructor
  · by_cases hsv : tsz ≤ sv
    · have hic : shl_is_invertible ⟨⟨tsz, lov⟩, ⟨tsz, hiv⟩⟩ ⟨tsz, sv⟩ ⟨tsz, tv⟩ 0 = true ↔
          tv = 0 := by
        simp only [shl_is_invertible, if_true, BitVector.bvshr, BitVector.bvshl,
          BitVectorDomain.bvshl, ge_iff_le, hsv, Bool.and_eq_true, beq_iff_eq,
          BitVector.mk.injEq, true_and, mfb_iff, Nat.zero_or, Nat.or_zero]
        omega
      rw [hic]
      constructor
      · intro h
        refine ⟨⟨tsz, lov⟩, rfl, hlow, hmlo, ?_⟩
        simp only [BitVector.bvshl, ge_iff_le, hsv, if_true, h]
      · rintro ⟨⟨vsz, vv⟩, hsz, _, _, he⟩
        simp only at hsz
        subst hsz
        simp only [BitVector.bvshl, ge_iff_le, hsv, if_true, BitVector.mk.injEq, true_and] at he
        exact he.symm
    · have hc : sv < tsz := by omega
      have hic : shl_is_invertible ⟨⟨tsz, lov⟩, ⟨tsz, hiv⟩⟩ ⟨tsz, sv⟩ ⟨tsz, tv⟩ 0 = true ↔
          ((tv / 2 ^ sv * 2 ^ sv) % 2 ^ tsz = tv ∧
            ((lov * 2 ^ sv % 2 ^ tsz) ||| tv = tv ∧
              tv ||| (hiv * 2 ^ sv % 2 ^ tsz) = hiv * 2 ^ sv % 2 ^ tsz)) := by
        simp only [shl_is_invertible, if_true, BitVector.bvshr, BitVector.bvshl,
          BitVectorDomain.bvshl, ge_iff_le, hsv, if_false, Bool.and_eq_true, beq_iff_eq,
          BitVector.mk.injEq, true_and, mfb_iff]
      rw [hic, shl0_nat tsz sv lov hiv tv hc hlow htw hor]
      constructor
      · rintro ⟨v, hv, hm, he⟩
        refine ⟨⟨tsz, v⟩, rfl, hv, (mfb_iff _ _ _).mpr hm, ?_⟩
        simp only [BitVector.bvshl, ge_iff_le, hsv, if_false, he]
      · rintro ⟨⟨vsz, vv⟩, hsz, hvw, hm, he⟩
        simp only at hsz
        subst hsz
        simp only [BitVector.bvshl, ge_iff_le, hsv, if_false, BitVector.mk.injEq,
          true_and] at he
        exact ⟨vv, hvw, (mfb_iff _ _ _).mp hm, he⟩
  · have hshl : ∀ vv : Nat, BitVector.bvshl ⟨tsz, sv⟩ ⟨tsz, vv⟩ =
        ⟨tsz, if tsz ≤ vv then 0 else (sv * 2 ^ vv) % 2 ^ tsz⟩ := by
      intro vv
      simp only [BitVector.bvshl, ge_iff_le]
      split_ifs <;> rfl
    have hex : (∃ v : BitVector, v.size = tsz ∧ v.wf ∧
        match_fixed_bits ⟨⟨tsz, lov⟩, ⟨tsz, hiv⟩⟩ v = true ∧
        BitVector.bvshl ⟨tsz, sv⟩ v = ⟨tsz, tv⟩) ↔
        ∃ vv : Nat, vv < 2 ^ tsz ∧ match_fixed_bits ⟨⟨tsz, lov⟩, ⟨tsz, hiv⟩⟩ ⟨tsz, vv⟩ = true ∧
          (if tsz ≤ vv then 0 else (sv * 2 ^ vv) % 2 ^ tsz) = tv := by
      constructor
      · rintro ⟨⟨vsz, vv⟩, hsz, hvw, hm, he⟩
        simp only at hsz
        subst hsz
        rw [hshl] at he
        simp only [BitVector.mk.injEq, true_and] at he
        exact ⟨vv, hvw, hm, he⟩
      · rintro ⟨vv, hvw, hm, he⟩
        refine ⟨⟨tsz, vv⟩, rfl, hvw, hm, ?_⟩
        rw [hshl, he]
    rw [hex]
    have hcs := (ctz_aux_spec tsz sv).1
    by_cases ht0 : tv = 0
    · subst ht0
      have hic : shl_is_invertible ⟨⟨tsz, lov⟩, ⟨tsz, hiv⟩⟩ ⟨tsz, sv⟩ ⟨tsz, 0⟩ 1 = true ↔
          (tsz - ctz_aux tsz sv ≤ hiv ∨ sv = 0) := by
        simp [shl_is_invertible, BitVector.ctz, BitVector.zero, ctz_aux_zero, hcs]
      rw [hic]
      constructor
      · rintro (h | h)
        · refine ⟨hiv, hhiw, hmhi, ?_⟩
          split_ifs with hge
          · rfl
          · by_cases hs0 : sv = 0
            · simp [hs0]
            · exact (shl_zero_iff tsz sv hiv hsw hs0 (by omega)).mpr (by omega)
        · refine ⟨lov, hlow, hmlo, ?_⟩
          split_ifs
          · rfl
          · simp [h]
      · rintro ⟨vv, _, hm, he⟩
        by_cases hs0 : sv = 0
        · exact Or.inr hs0
        · left
          have hle := (hbetween ⟨tsz, vv⟩ hm).2
          simp only at hle
          split_ifs at he with hge
          · omega
          · have := (shl_zero_iff tsz sv vv hsw hs0 (by omega)).mp he
            omega
    · have htlt := ctz_aux_lt tsz tv htw ht0
      have hz : ((⟨tsz, tv⟩ : BitVector) == BitVector.zero tsz) = false := by
        simp [BitVector.zero, ht0]
      have hic : shl_is_invertible ⟨⟨tsz, lov⟩, ⟨tsz, hiv⟩⟩ ⟨tsz, sv⟩ ⟨tsz, tv⟩ 1 = true ↔
          (ctz_aux tsz sv ≤ ctz_aux tsz tv ∧
            (if tsz ≤ ctz_aux tsz tv - ctz_aux tsz sv then 0
              else (sv * 2 ^ (ctz_aux tsz tv - ctz_aux tsz sv)) % 2 ^ tsz) = tv ∧
            match_fixed_bits ⟨⟨tsz, lov⟩, ⟨tsz, hiv⟩⟩
              ⟨tsz, ctz_aux tsz tv - ctz_aux tsz sv⟩ = true) := by
        simp only [shl_is_invertible, if_neg (by decide : ¬ (1 = 0)), BitVector.ctz, hz, hshl,
          Bool.false_or, Bool.not_false, Bool.true_or, Bool.and_true, Bool.and_eq_true,
          decide_eq_true_eq, beq_iff_eq, BitVector.mk.injEq, true_and, and_assoc]
      rw [hic]
      constructor
      · rintro ⟨_, h2, h3⟩
        refine ⟨ctz_aux tsz tv - ctz_aux tsz sv, ?_, h3, h2⟩
        exact lt_of_lt_of_le (by omega : ctz_aux tsz tv - ctz_aux tsz sv < tsz)
          (Nat.le_of_lt (Nat.lt_two_pow tsz))
      · rintro ⟨vv, _, hm, he⟩
        have hvlt : vv < tsz := by
          by_contra hcon
          rw [if_pos (by omega)] at he
          exact ht0 he.symm
        rw [if_neg (by omega)] at he
        have hs0 : sv ≠ 0 := by
          intro h
          rw [h] at he
          simp at he
          exact ht0 he.symm
        have hct := ctz_shl tsz sv vv hsw hs0 hvlt (by rw [he]; exact ht0)
        rw [he] at hct
        have hd : ctz_aux tsz tv - ctz_aux tsz sv = vv := by omega
        rw [hd, if_neg (by omega)]
        exact ⟨by omega, he, hm⟩

/-- Witness for C27: width 4, `x` unconstrained, `s = 2`, `t = 1100` at
position 0: the condition holds, and the values `v` with `v << 2 = 1100`
are exactly 0011, 0111, 1011 and 1111. -/
theorem C27_shl_invertibility_witness :
    shl_is_invertible ⟨⟨4, 0⟩, ⟨4, 15⟩⟩ ⟨4, 2⟩ ⟨4, 12⟩ 0 = true ∧
    (∀ vv : Nat, vv < 16 →
      (BitVector.bvshl ⟨4, vv⟩ ⟨4, 2⟩ = ⟨4, 12⟩ ↔ vv ∈ [3, 7, 11, 15])) ∧
    shl_is_invertible ⟨⟨4, 0⟩, ⟨4, 15⟩⟩ ⟨4, 3⟩ ⟨4, 12⟩ 1 = true ∧
    (shl_is_invertible ⟨⟨4, 0⟩, ⟨4, 15⟩⟩ ⟨4, 2⟩ ⟨4, 12⟩ 0 = true ↔
      ∃ v : BitVector, v.size = 4 ∧ v.wf ∧
        match_fixed_bits ⟨⟨4, 0⟩, ⟨4, 15⟩⟩ v = true ∧ v.bvshl ⟨4, 2⟩ = ⟨4, 12⟩) :=
  ⟨by decide, by decide, by decide,
   (C27_shl_invertibility 4 ⟨⟨4, 0⟩, ⟨4, 15⟩⟩ ⟨4, 2⟩ ⟨4, 12⟩ rfl rfl (by decide) (by decide)
      (by decide) rfl rfl (by decide) (by decide)).1⟩

end Claims27c


section Claims26

/-- The most significant bit of a number below `2^(n+1)`. -/
theorem msb_iff (n v : Nat) (hv : v < 2 ^ (n + 1)) : v.testBit n = decide (2 ^ n ≤ v) := by
  have h := testBit_iff_mod v n
  rw [Nat.mod_eq_of_lt hv] at h
  by_cases hc : 2 ^ n ≤ v
  · simp [hc, h.mpr hc]
  · have : ¬ (v.testBit n = true) := fun e => hc (h.mp e)
    simp [hc, this]

theorem or_mod_two_pow {a b : Nat} (n : Nat) (h : a ||| b = b) :
    (a % 2 ^ n) ||| (b % 2 ^ n) = b % 2 ^ n := by
  apply Nat.eq_of_testBit_eq
  intro i
  have h1 := congrArg (fun m => m.testBit i) h
  simp only [Nat.testBit_or] at h1
  simp only [Nat.testBit_or, Nat.testBit_mod_two_pow]
  revert h1
  cases decide (i < n) <;> cases a.testBit i <;> cases b.testBit i <;> simp

theorem testBit_msb_add (n r j : Nat) (hr : r < 2 ^ n) :
    (2 ^ n + r).testBit j = (decide (j = n) || r.testBit j) := by
  rcases Nat.lt_trichotomy j n with h | h | h
  · rw [Nat.testBit_two_pow_add_gt h]
    simp [Nat.ne_of_lt h]
  · subst h
    rw [Nat.testBit_two_pow_add_eq, Nat.testBit_lt_two_pow hr]
    simp
  · have h1 : 2 ^ n + r < 2 ^ (n + 1) := by rw [pow_succ]; omega
    rw [testBit_ge_false h1 (by omega), testBit_ge_false hr (by omega)]
    simp [Nat.ne_of_gt h]

/-- The value `1 o lo[n-1:0]` is a member of a valid domain of width `n + 1`
whose upper bound has the most significant bit set. -/
theorem lo1_mem (n lo hi : Nat) (hlo : lo < 2 ^ (n + 1)) (hhi : hi < 2 ^ (n + 1))
    (hor : lo ||| hi = hi) (hmsb : 2 ^ n ≤ hi) :
    lo ||| (2 ^ n + lo % 2 ^ n) = 2 ^ n + lo % 2 ^ n ∧ (2 ^ n + lo % 2 ^ n) ||| hi = hi := by
  have hr : lo % 2 ^ n < 2 ^ n := Nat.mod_lt _ (Nat.two_pow_pos n)
  have hhb : hi.testBit n = true := by rw [msb_iff n hi hhi]; simp [hmsb]
  constructor
  · apply Nat.eq_of_testBit_eq
    intro j
    simp only [Nat.testBit_or, testBit_msb_add n _ j hr, Nat.testBit_mod_two_pow]
    by_cases hj : j < n
    · simp only [hj, decide_True, Bool.true_and, Nat.ne_of_lt hj, decide_False, Bool.false_or,
        Bool.or_self]
    · by_cases hj2 : j = n
      · simp [hj2]
      · simp [hj, hj2, testBit_ge_false hlo (by omega : ¬ j < n + 1)]
  · apply Nat.eq_of_testBit_eq
    intro j
    have h1 := congrArg (fun m => m.testBit j) hor
    simp only [Nat.testBit_or] at h1
    simp only [Nat.testBit_or, testBit_msb_add n _ j hr, Nat.testBit_mod_two_pow]
    by_cases hj : j < n
    · simp only [hj, decide_True, Bool.true_and, Nat.ne_of_lt hj, decide_False, Bool.false_or]
      exact h1
    · by_cases hj2 : j = n
      · subst hj2; simp [hhb]
      · simp [hj, hj2]

/-- The value `0 o hi[n-1:0]` is a member of a valid domain of width `n + 1`
whose lower bound has the most significant bit clear. -/
theorem hi0_mem (n lo hi : Nat) (hor : lo ||| hi = hi) (hmsb : lo < 2 ^ n) :
    lo ||| (hi % 2 ^ n) = hi % 2 ^ n ∧ (hi % 2 ^ n) ||| hi = hi := by
  constructor
  · have := or_mod_two_pow n hor
    rw [Nat.mod_eq_of_lt hmsb] at this
    exact this
  · apply Nat.eq_of_testBit_eq
    intro j
    simp only [Nat.testBit_or, Nat.testBit_mod_two_pow]
    cases decide (j < n) <;> cases hi.testBit j <;> simp

theorem mod_half (W v : Nat) (hv : v < 2 * W) :
    v % W = if v < W then v else v - W := by
  split_ifs with h
  · exact Nat.mod_eq_of_lt h
  · rw [Nat.mod_eq_sub_mod (by omega)]
    exact Nat.mod_eq_of_lt (by omega)

/-- The signed minimum and maximum of a valid domain of width `n + 1` are
members of the domain. -/
theorem signed_min_max_mem (n lo hi : Nat) (hlo : lo < 2 ^ (n + 1)) (hhi : hi < 2 ^ (n + 1))
    (hor : lo ||| hi = hi) :
    (signed_min_val n lo hi < 2 ^ (n + 1) ∧
      lo ||| signed_min_val n lo hi = signed_min_val n lo hi ∧
      signed_min_val n lo hi ||| hi = hi) ∧
    (signed_max_val n lo hi < 2 ^ (n + 1) ∧
      lo ||| signed_max_val n lo hi = signed_max_val n lo hi ∧
      signed_max_val n lo hi ||| hi = hi) := by
  have hle := or_eq_right_le hor
  have hW : 0 < 2 ^ n := Nat.two_pow_pos n
  have hM : 2 ^ (n + 1) = 2 * 2 ^ n := by rw [pow_succ, Nat.mul_comm]
  have hr1 : lo % 2 ^ n < 2 ^ n := Nat.mod_lt _ hW
  have hr2 : hi % 2 ^ n < 2 ^ n := Nat.mod_lt _ hW
  constructor
  · unfold signed_min_val
    split_ifs with h
    · exact ⟨hlo, Nat.or_self lo, hor⟩
    · have hmsb : 2 ^ n ≤ hi := by omega
      exact ⟨by omega, lo1_mem n lo hi hlo hhi hor hmsb⟩
  · unfold signed_max_val
    split_ifs with h
    · exact ⟨hhi, hor, Nat.or_self hi⟩
    · have hmsb : lo < 2 ^ n := by omega
      exact ⟨by omega, hi0_mem n lo hi hor hmsb⟩

/-- Every member of a valid domain of width `n + 1` lies, as a signed
number, between the signed minimum and the signed maximum. -/
theorem signed_min_max_bounds (n lo hi v : Nat) (hlo : lo < 2 ^ (n + 1))
    (hhi : hi < 2 ^ (n + 1)) (hv : v < 2 ^ (n + 1)) (hm1 : lo ||| v = v) (hm2 : v ||| hi = hi) :
    BitVector.to_int ⟨n + 1, signed_min_val n lo hi⟩ ≤ BitVector.to_int ⟨n + 1, v⟩ ∧
    BitVector.to_int ⟨n + 1, v⟩ ≤ BitVector.to_int ⟨n + 1, signed_max_val n lo hi⟩ := by
  have h1 := or_eq_right_le hm1
  have h2 := or_eq_right_le hm2
  have h3 := or_eq_right_le (or_mod_two_pow n hm1)
  have h4 := or_eq_right_le (or_mod_two_pow n hm2)
  have hM : 2 ^ (n + 1) = 2 * 2 ^ n := by rw [pow_succ, Nat.mul_comm]
  rw [hM] at hlo hhi hv
  rw [mod_half (2 ^ n) lo hlo, mod_half (2 ^ n) v hv] at h3
  rw [mod_half (2 ^ n) v hv, mod_half (2 ^ n) hi hhi] at h4
  simp only [BitVector.to_int, signed_min_val, signed_max_val, Nat.add_sub_cancel, hM,
    mod_half (2 ^ n) lo hlo, mod_half (2 ^ n) hi hhi]
  have hW : 0 < 2 ^ n := Nat.two_pow_pos n
  generalize 2 ^ n = W at *
  push_cast
  constructor <;> split_ifs at h3 h4 ⊢ <;> omega

end Claims26


section Claims26b

theorem msb0_iff (n lo hi : Nat) (hlo : lo < 2 ^ (n + 1)) (hhi : hi < 2 ^ (n + 1)) :
    BitVectorDomain.is_fixed_bit_false ⟨⟨n + 1, lo⟩, ⟨n + 1, hi⟩⟩ n
      = decide (lo < 2 ^ n ∧ hi < 2 ^ n) := by
  simp only [BitVectorDomain.is_fixed_bit_false, BitVector.bit, msb_iff n lo hlo,
    msb_iff n hi hhi]
  rw [Bool.eq_iff_iff]
  simp only [Bool.and_eq_true, Bool.not_eq_true', decide_eq_false_iff_not, decide_eq_true_eq]
  omega

theorem msb1_iff (n lo hi : Nat) (hlo : lo < 2 ^ (n + 1)) (hhi : hi < 2 ^ (n + 1)) :
    BitVectorDomain.is_fixed_bit_true ⟨⟨n + 1, lo⟩, ⟨n + 1, hi⟩⟩ n
      = decide (2 ^ n ≤ lo ∧ 2 ^ n ≤ hi) := by
  simp only [BitVectorDomain.is_fixed_bit_true, BitVector.bit, msb_iff n lo hlo,
    msb_iff n hi hhi]
  by_cases h1 : 2 ^ n ≤ lo <;> by_cases h2 : 2 ^ n ≤ hi <;> simp [h1, h2]

theorem lo1_eq (n lo : Nat) (hn : 1 ≤ n) :
    BitVector.mk_true.bvconcat (BitVector.bvextract ⟨n + 1, lo⟩ (n + 1 - 2) 0)
      = ⟨n + 1, 2 ^ n + lo % 2 ^ n⟩ := by
  have h1 : n + 1 - 2 - 0 + 1 = n := by omega
  simp only [BitVector.bvconcat, BitVector.bvextract, BitVector.mk_true, h1, Nat.pow_zero,
    Nat.div_one, Nat.one_mul, BitVector.mk.injEq, and_true]
  omega

theorem hi0_eq (n hi : Nat) (hn : 1 ≤ n) :
    BitVector.mk_false.bvconcat (BitVector.bvextract ⟨n + 1, hi⟩ (n + 1 - 2) 0)
      = ⟨n + 1, hi % 2 ^ n⟩ := by
  have h1 : n + 1 - 2 - 0 + 1 = n := by omega
  simp only [BitVector.bvconcat, BitVector.bvextract, BitVector.mk_false, h1, Nat.pow_zero,
    Nat.div_one, Nat.zero_mul, Nat.zero_add, BitVector.mk.injEq, and_true]
  omega

/-- The condition of SLT in terms of the signed minimum and maximum of the
domain. -/
theorem slt_ic_unfold (n lo hi : Nat) (s t : BitVector) (pos_x : Nat) (hn : 1 ≤ n)
    (hlo : lo < 2 ^ (n + 1)) (hhi : hi < 2 ^ (n + 1)) :
    slt_is_invertible ⟨⟨n + 1, lo⟩, ⟨n + 1, hi⟩⟩ s t pos_x =
      if pos_x = 0 then
        (!t.is_true || (s != BitVector.min_signed (n + 1) &&
          BitVector.slt ⟨n + 1, signed_min_val n lo hi⟩ s)) &&
        (!t.is_false || BitVector.sge ⟨n + 1, signed_max_val n lo hi⟩ s)
      else
        (!t.is_true || (s != BitVector.max_signed (n + 1) &&
          s.slt ⟨n + 1, signed_max_val n lo hi⟩)) &&
        (!t.is_false || s.sge ⟨n + 1, signed_min_val n lo hi⟩) := by
  simp only [slt_is_invertible, lo1_eq n lo hn, hi0_eq n hi hn, Nat.add_sub_cancel,
    msb0_iff n lo hi hlo hhi, msb1_iff n lo hi hlo hhi, signed_min_val, signed_max_val]
  by_cases h0 : lo < 2 ^ n ∧ hi < 2 ^ n <;> by_cases h1 : 2 ^ n ≤ lo ∧ 2 ^ n ≤ hi <;>
    simp [h0, h1]

end Claims26b


section Claims26c

theorem to_int_range (n a : Nat) (ha : a < 2 ^ (n + 1)) :
    -((2 ^ n : Nat) : Int) ≤ BitVector.to_int ⟨n + 1, a⟩ ∧
    BitVector.to_int ⟨n + 1, a⟩ < ((2 ^ n : Nat) : Int) := by
  have hM : 2 ^ (n + 1) = 2 * 2 ^ n := by rw [pow_succ, Nat.mul_comm]
  rw [hM] at ha
  simp only [BitVector.to_int, Nat.add_sub_cancel, hM]
  generalize 2 ^ n = W at *
  push_cast
  constructor <;> split_ifs <;> omega

theorem to_int_min_signed (n : Nat) :
    BitVector.to_int (BitVector.min_signed (n + 1)) = -((2 ^ n : Nat) : Int) := by
  have hM : 2 ^ (n + 1) = 2 * 2 ^ n := by rw [pow_succ, Nat.mul_comm]
  simp only [BitVector.to_int, BitVector.min_signed, Nat.add_sub_cancel, hM, Nat.lt_irrefl,
    if_false]
  generalize 2 ^ n = W
  push_cast
  omega

theorem to_int_max_signed (n : Nat) :
    BitVector.to_int (BitVector.max_signed (n + 1)) = ((2 ^ n : Nat) : Int) - 1 := by
  have hW : 0 < 2 ^ n := Nat.two_pow_pos n
  have hlt : 2 ^ n - 1 < 2 ^ n := by omega
  simp only [BitVector.to_int, BitVector.max_signed, Nat.add_sub_cancel, hlt, if_true]
  generalize 2 ^ n = W at *
  omega

/-- C26: SLT with constant bits, width at least 2.  For every width
`w >= 2`, every valid domain `x` of well-formed bounds of width `w`, every
value `s` of width `w` and every well-formed target `t` of width 1, the
condition of the header, which takes `x_lo` or `1 o x_lo[w-2:0]` as the
signed minimum of the domain and `x_hi` or `0 o x_hi[w-2:0]` as its signed
maximum according to the most significant bit of `x` being fixed, holds at
position 0 if and only if some well-formed value `v` of width `w` in the
domain of `x` makes `v <s s` evaluate to `t`, and at position 1 if and only
if some such `v` makes `s <s v` evaluate to `t`. -/
theorem C26_slt_invertibility (w : Nat) (x : BitVectorDomain) (s t : BitVector)
    (hw : 2 ≤ w) (hlo : x.lo.size = w) (hhi : x.hi.size = w) (hlow : x.lo.wf) (hhiw : x.hi.wf)
    (hvalid : x.is_valid = true) (hs : s.size = w) (ht : t.size = 1) (htw : t.wf) :
    (slt_is_invertible x s t 0 = true ↔
      ∃ v : BitVector, v.size = w ∧ v.wf ∧ match_fixed_bits x v = true ∧ v.bvslt s = t) ∧
    (slt_is_invertible x s t 1 = true ↔
      ∃ v : BitVector, v.size = w ∧ v.wf ∧ match_fixed_bits x v = true ∧ s.bvslt v = t) := by
  obtain ⟨n, rfl⟩ : ∃ n, w = n + 1 := ⟨w - 1, by omega⟩
  have hn : 1 ≤ n := by omega
  obtain ⟨⟨losz, lov⟩, ⟨hisz, hiv⟩⟩ := x
  obtain ⟨ssz, sv⟩ := s
  simp only at hlo hhi hs
  subst hlo; subst hhi; subst hs
  simp only [BitVector.wf] at hlow hhiw
  have hv2 : (2 ^ (n + 1) - 1 - lov % 2 ^ (n + 1)) ||| hiv = 2 ^ (n + 1) - 1 := by
    simpa [BitVectorDomain.is_valid, BitVector.bvnot] using hvalid
  have hor := valid_lo_or_hi hlow hhiw hv2
  obtain ⟨⟨hmin1, hmin2, hmin3⟩, ⟨hmax1, hmax2, hmax3⟩⟩ :=
    signed_min_max_mem n lov hiv hlow hhiw hor
  have hbd : ∀ v : BitVector, v.size = n + 1 → v.wf →
      match_fixed_bits ⟨⟨n + 1, lov⟩, ⟨n + 1, hiv⟩⟩ v = true →
      BitVector.to_int ⟨n + 1, signed_min_val n lov hiv⟩ ≤ v.to_int ∧
      v.to_int ≤ BitVector.to_int ⟨n + 1, signed_max_val n lov hiv⟩ := by
    rintro ⟨vsz, vv⟩ hsz hvw hm
    simp only at hsz
    subst hsz
    obtain ⟨m1, m2⟩ := (mfb_iff _ _ _).mp hm
    exact signed_min_max_bounds n lov hiv vv hlow hhiw hvw m1 m2
  have hmemmin : match_fixed_bits ⟨⟨n + 1, lov⟩, ⟨n + 1, hiv⟩⟩
      ⟨n + 1, signed_min_val n lov hiv⟩ = true := (mfb_iff _ _ _).mpr ⟨hmin2, hmin3⟩
  have hmemmax : match_fixed_bits ⟨⟨n + 1, lov⟩, ⟨n + 1, hiv⟩⟩
      ⟨n + 1, signed_max_val n lov hiv⟩ = true := (mfb_iff _ _ _).mpr ⟨hmax2, hmax3⟩
  have hrmin := to_int_range n (signed_min_val n lov hiv) hmin1
  have hrmax := to_int_range n (signed_max_val n lov hiv) hmax1
  rw [slt_ic_unfold n lov hiv _ _ 0 hn hlow hhiw, slt_ic_unfold n lov hiv _ _ 1 hn hlow hhiw]
  have htt : BitVector.mk_true.is_true = true := rfl
  have htf : BitVector.mk_true.is_false = false := rfl
  have hft : BitVector.mk_false.is_true = false := rfl
  have hff : BitVector.mk_false.is_false = true := rfl
  rcases width1_cases t ht htw with rfl | rfl
  · constructor
    · simp only [if_true, htt, htf,
        BitVector.slt, BitVector.sge, BitVector.bvslt, of_bool_eq_true]
      simp only [beq_self_eq_true, Bool.and_self, Bool.not_true, Bool.false_or,
        Bool.and_eq_true, bne_iff_ne, ne_eq, decide_eq_true_eq, Bool.and_false, Bool.not_false,
        Bool.true_or, Bool.and_true, Nat.reduceBEq, Nat.one_ne_zero]
      constructor
      · rintro ⟨_, h⟩
        exact ⟨⟨n + 1, signed_min_val n lov hiv⟩, rfl, hmin1, hmemmin, h⟩
      · rintro ⟨v, hv, hvw, hm, he⟩
        have hb := (hbd v hv hvw hm).1
        refine ⟨?_, by omega⟩
        intro hcon
        rw [hcon, to_int_min_signed] at he
        omega
    · simp only [if_neg (by decide : ¬ (1 = 0)), htt, htf, BitVector.slt, BitVector.sge, BitVector.bvslt, of_bool_eq_true]
      simp only [beq_self_eq_true, Bool.and_self, Bool.not_true, Bool.false_or,
        Bool.and_eq_true, bne_iff_ne, ne_eq, decide_eq_true_eq, Bool.and_false, Bool.not_false,
        Bool.true_or, Bool.and_true, Nat.reduceBEq, Nat.one_ne_zero]
      constructor
      · rintro ⟨_, h⟩
        exact ⟨⟨n + 1, signed_max_val n lov hiv⟩, rfl, hmax1, hmemmax, h⟩
      · rintro ⟨v, hv, hvw, hm, he⟩
        have hb := (hbd v hv hvw hm).2
        refine ⟨?_, by omega⟩
        intro hcon
        rw [hcon, to_int_max_signed] at he
        omega
  · constructor
    · simp only [if_true, hft, hff,
        BitVector.slt, BitVector.sge, BitVector.bvslt, of_bool_eq_false]
      simp only [beq_self_eq_true, Bool.and_self, Bool.not_true, Bool.false_or,
        Bool.and_eq_true, decide_eq_true_eq, Bool.and_false, Bool.not_false,
        Bool.true_or, Bool.true_and, Nat.reduceBEq, decide_eq_false_iff_not, not_lt]
      constructor
      · intro h
        exact ⟨⟨n + 1, signed_max_val n lov hiv⟩, rfl, hmax1, hmemmax, h⟩
      · rintro ⟨v, hv, hvw, hm, he⟩
        have hb := (hbd v hv hvw hm).2
        omega
    · simp only [if_neg (by decide : ¬ (1 = 0)), hft, hff, BitVector.slt, BitVector.sge, BitVector.bvslt, of_bool_eq_false]
      simp only [beq_self_eq_true, Bool.and_self, Bool.not_true, Bool.false_or,
        Bool.and_eq_true, decide_eq_true_eq, Bool.and_false, Bool.not_false,
        Bool.true_or, Bool.true_and, Nat.reduceBEq, decide_eq_false_iff_not, not_lt]
      constructor
      · intro h
        exact ⟨⟨n + 1, signed_min_val n lov hiv⟩, rfl, hmin1, hmemmin, h⟩
      · rintro ⟨v, hv, hvw, hm, he⟩
        have hb := (hbd v hv hvw hm).1
        omega

/-- Witness for C26: width 3, domain `x1x`, `s = 000`, `t = 1`, position 0:
the signed minimum of the domain is `110 = -2 <s 0`, and `v = 110` is in the
domain with `v <s s`.  On the domain `01x` with `s = 010` the condition
fails. -/
theorem C26_slt_invertibility_witness :
    slt_is_invertible ⟨⟨3, 2⟩, ⟨3, 7⟩⟩ ⟨3, 0⟩ BitVector.mk_true 0 = true ∧
    slt_is_invertible ⟨⟨3, 2⟩, ⟨3, 3⟩⟩ ⟨3, 2⟩ BitVector.mk_true 0 = false ∧
    (slt_is_invertible ⟨⟨3, 2⟩, ⟨3, 7⟩⟩ ⟨3, 0⟩ BitVector.mk_true 0 = true ↔
      ∃ v : BitVector, v.size = 3 ∧ v.wf ∧
        match_fixed_bits ⟨⟨3, 2⟩, ⟨3, 7⟩⟩ v = true ∧
        v.bvslt ⟨3, 0⟩ = BitVector.mk_true) :=
  ⟨by decide, by decide,
   (C26_slt_invertibility 3 ⟨⟨3, 2⟩, ⟨3, 7⟩⟩ ⟨3, 0⟩ BitVector.mk_true (by decide) rfl rfl
      (by decide) (by decide) (by decide) rfl rfl (by decide)).1⟩

end Claims26c


section Claims31

/-- C31: the consistency condition is weaker than the invertibility
condition.  For a valid domain `x` and well-formed values, for AND, for ULT
at both positions (Boolean target `tb`), for CONCAT at both positions
(target `tc` of width `|x| + |sc|`) and for SHL at position 0, whenever the
documented invertibility condition holds, the documented consistency
condition holds. -/
theorem C31_ic_implies_cc (w w2 : Nat) (x : BitVectorDomain) (s t tb sc tc : BitVector)
    (hlo : x.lo.size = w) (hhi : x.hi.size = w) (hlow : x.lo.wf) (hhiw : x.hi.wf)
    (hvalid : x.is_valid = true) (hs : s.size = w) (hsw : s.wf) (ht : t.size = w)
    (htw : t.wf) (htb : tb.size = 1) (htbw : tb.wf) (hsc : sc.size = w2)
    (htc : tc.size = w + w2) :
    (and_is_invertible x s t = true → and_is_consistent x t = true) ∧
    (∀ pos_x : Nat, ult_is_invertible x s tb pos_x = true →
      ult_is_consistent x tb pos_x = true) ∧
    (∀ pos_x : Nat, concat_is_invertible x sc tc pos_x = true →
      concat_is_consistent x tc pos_x = true) ∧
    (shl_is_invertible x s t 0 = true → shl_is_consistent x t 0 = true) := by
  obtain ⟨⟨losz, lov⟩, ⟨hisz, hiv⟩⟩ := x
  obtain ⟨ssz, sv⟩ := s
  obtain ⟨tsz, tv⟩ := t
  obtain ⟨tbsz, tbv⟩ := tb
  simp only at hlo hhi hs ht htb
  subst hlo; subst hhi; subst hs; subst ht; subst htb
  simp only [BitVector.wf] at hlow hhiw hsw htw htbw
  have hv2 : (2 ^ tsz - 1 - lov % 2 ^ tsz) ||| hiv = 2 ^ tsz - 1 := by
    simpa [BitVectorDomain.is_valid, BitVector.bvnot] using hvalid
  have hor := valid_lo_or_hi hlow hhiw hv2
  have hM : 0 < 2 ^ tsz := Nat.two_pow_pos tsz
  refine ⟨?_, ?_, ?_, ?_⟩
  · intro hic
    have hic2 : ((tv &&& sv) % 2 ^ tsz = tv ∧
        ((sv &&& hiv) % 2 ^ tsz &&& (2 ^ tsz - 1 - (lov ^^^ hiv) % 2 ^ tsz % 2 ^ tsz)) % 2 ^ tsz
          = (tv &&& (2 ^ tsz - 1 - (lov ^^^ hiv) % 2 ^ tsz % 2 ^ tsz)) % 2 ^ tsz) := by
      simpa only [and_is_invertible, BitVector.bvand, BitVector.bvxor, BitVector.bvnot,
        Bool.and_eq_true, beq_iff_eq, BitVector.mk.injEq, true_and] using hic
    obtain ⟨v, _, _, m2, hand⟩ := (and_ic_nat tsz lov hiv sv tv hlow hhiw htw hv2).mp hic2
    simp only [and_is_consistent, BitVector.bvand, beq_iff_eq, BitVector.mk.injEq, true_and]
    apply Nat.eq_of_testBit_eq
    intro i
    have b1 := congrArg (fun n => n.testBit i) hand
    have b2 := congrArg (fun n => n.testBit i) m2
    simp only [Nat.testBit_mod_two_pow, Nat.testBit_and, Nat.testBit_or] at b1 b2
    simp only [Nat.testBit_mod_two_pow, Nat.testBit_and]
    rw [← b1]
    revert b2
    cases decide (i < tsz) <;> cases v.testBit i <;> cases sv.testBit i <;>
      cases hiv.testBit i <;> simp
  · intro pos_x hic
    have htbv : tbv = 0 ∨ tbv = 1 := by omega
    rcases htbv with h0 | h1
    · subst h0
      simp [ult_is_consistent, BitVector.is_false]
    · subst h1
      by_cases hp : pos_x = 0
      · subst hp
        simp only [ult_is_invertible, if_true, BitVector.is_true, BitVector.is_false,
          BitVector.zero, Bool.and_eq_true, Bool.or_eq_true, Bool.not_eq_true', beq_iff_eq,
          bne_iff_ne, ne_eq, decide_eq_true_eq, beq_eq_false_iff_ne] at hic
        simp only [ult_is_consistent, if_true, BitVector.is_false, BitVector.ones,
          Bool.or_eq_true, Bool.and_eq_true, beq_iff_eq, bne_iff_ne, ne_eq,
          BitVector.mk.injEq, true_and]
        right
        have hlt : lov < sv := by
          rcases hic.1 with h | h
          · exact absurd h (by decide)
          · exact h.2
        omega
      · simp only [ult_is_invertible, if_neg hp, BitVector.is_true, BitVector.is_false,
          BitVector.ones, Bool.and_eq_true, Bool.or_eq_true, Bool.not_eq_true', beq_iff_eq,
          bne_iff_ne, ne_eq, decide_eq_true_eq, beq_eq_false_iff_ne] at hic
        simp only [ult_is_consistent, if_neg hp, BitVector.is_false, BitVector.zero,
          Bool.or_eq_true, Bool.and_eq_true, beq_iff_eq, bne_iff_ne, ne_eq,
          BitVector.mk.injEq, true_and]
        right
        have hlt : hiv > sv := by
          rcases hic.1 with h | h
          · exact absurd h (by decide)
          · exact h.2
        omega
  · intro pos_x hic
    by_cases hp : pos_x = 0
    · subst hp
      simp only [concat_is_invertible, if_true, Bool.and_eq_true] at hic
      simp only [concat_is_consistent, if_true]
      have e : tc.size - tsz = sc.size := by omega
      rw [e]
      exact hic.2
    · simp only [concat_is_invertible, if_neg hp, Bool.and_eq_true] at hic
      simp only [concat_is_consistent, if_neg hp]
      exact hic.2
  · intro hic
    simp only [shl_is_consistent, if_true, List.any_eq_true, List.mem_range, BitVector.ctz]
    by_cases hsv : tsz ≤ sv
    · have ht0 : tv = 0 := by
        simp only [shl_is_invertible, if_true, BitVector.bvshr, BitVector.bvshl,
          BitVectorDomain.bvshl, ge_iff_le, hsv, Bool.and_eq_true, beq_iff_eq,
          BitVector.mk.injEq, true_and] at hic
        omega
      subst ht0
      refine ⟨tsz, by rw [ctz_aux_zero]; omega, ?_⟩
      simp [BitVectorDomain.bvshl, BitVector.bvshl, match_fixed_bits]
    · have hc : sv < tsz := by omega
      have hic2 : ((tv / 2 ^ sv * 2 ^ sv) % 2 ^ tsz = tv ∧
            ((lov * 2 ^ sv % 2 ^ tsz) ||| tv = tv ∧
              tv ||| (hiv * 2 ^ sv % 2 ^ tsz) = hiv * 2 ^ sv % 2 ^ tsz)) := by
        simpa only [shl_is_invertible, if_true, BitVector.bvshr, BitVector.bvshl,
          BitVectorDomain.bvshl, ge_iff_le, hsv, if_false, Bool.and_eq_true, beq_iff_eq,
          BitVector.mk.injEq, true_and, mfb_iff] using hic
      have hle : tv / 2 ^ sv * 2 ^ sv ≤ tv := Nat.div_mul_le_self tv (2 ^ sv)
      have hdvd : 2 ^ sv ∣ tv := by
        have h1 := hic2.1
        rw [Nat.mod_eq_of_lt (by omega)] at h1
        exact Dvd.intro_left _ h1
      have hctz := (pow_dvd_iff_le_ctz tsz tv sv (by omega)).mp hdvd
      refine ⟨sv, by omega, ?_⟩
      simp only [BitVectorDomain.bvshl, BitVector.bvshl, ge_iff_le, hsv, if_false, mfb_iff]
      exact hic2.2

/-- Witness for C31: width 4, `x = [0000, 1111]`, `s = 0110`, `t = 0100`
for AND, `s = 2`, `t = 1100` for SHL, Boolean target true for ULT, and
`x o 01 = 110001` for CONCAT. -/
theorem C31_ic_implies_cc_witness :
    and_is_invertible ⟨⟨4, 0⟩, ⟨4, 15⟩⟩ ⟨4, 6⟩ ⟨4, 4⟩ = true ∧
    ((and_is_invertible ⟨⟨4, 0⟩, ⟨4, 15⟩⟩ ⟨4, 6⟩ ⟨4, 4⟩ = true →
      and_is_consistent ⟨⟨4, 0⟩, ⟨4, 15⟩⟩ ⟨4, 4⟩ = true) ∧
    (∀ pos_x : Nat, ult_is_invertible ⟨⟨4, 0⟩, ⟨4, 15⟩⟩ ⟨4, 6⟩ ⟨1, 1⟩ pos_x = true →
      ult_is_consistent ⟨⟨4, 0⟩, ⟨4, 15⟩⟩ ⟨1, 1⟩ pos_x = true) ∧
    (∀ pos_x : Nat, concat_is_invertible ⟨⟨4, 0⟩, ⟨4, 15⟩⟩ ⟨2, 1⟩ ⟨6, 49⟩ pos_x = true →
      concat_is_consistent ⟨⟨4, 0⟩, ⟨4, 15⟩⟩ ⟨6, 49⟩ pos_x = true) ∧
    (shl_is_invertible ⟨⟨4, 0⟩, ⟨4, 15⟩⟩ ⟨4, 6⟩ ⟨4, 4⟩ 0 = true →
      shl_is_consistent ⟨⟨4, 0⟩, ⟨4, 15⟩⟩ ⟨4, 4⟩ 0 = true)) :=
  ⟨by decide,
   C31_ic_implies_cc 4 2 ⟨⟨4, 0⟩, ⟨4, 15⟩⟩ ⟨4, 6⟩ ⟨4, 4⟩ ⟨1, 1⟩ ⟨2, 1⟩ ⟨6, 49⟩ rfl rfl
     (by decide) (by decide) (by decide) rfl (by decide) rfl (by decide) rfl (by decide)
     rfl rfl⟩

end Claims31


section Claims32

/-- Validity of a pair of well-formed bounds, bit by bit. -/
theorem valid_iff_bits (w lo hi : Nat) (hlo : lo < 2 ^ w) :
    ((2 ^ w - 1 - lo % 2 ^ w) ||| hi) % 2 ^ w = 2 ^ w - 1 ↔
      ∀ i, i < w → ¬ (lo.testBit i = true ∧ hi.testBit i = false) := by
  constructor
  · intro h i hi2
    have b := congrArg (fun n => n.testBit i) h
    simp only [Nat.testBit_mod_two_pow, Nat.testBit_or, testBit_not_val w lo i hlo,
      Nat.testBit_two_pow_sub_one, hi2, decide_True, Bool.true_and] at b
    revert b
    cases lo.testBit i <;> cases hi.testBit i <;> simp
  · intro h
    apply Nat.eq_of_testBit_eq
    intro i
    simp only [Nat.testBit_mod_two_pow, Nat.testBit_or, testBit_not_val w lo i hlo,
      Nat.testBit_two_pow_sub_one]
    by_cases hi2 : i < w
    · have := h i hi2
      revert this
      simp only [hi2, decide_True, Bool.true_and]
      cases lo.testBit i <;> cases hi.testBit i <;> simp
    · simp [hi2]

/-- Inclusion of well-formed bounds, bit by bit. -/
theorem or_eq_iff_bits (w lo hi : Nat) (hlo : lo < 2 ^ w) :
    lo ||| hi = hi ↔ ∀ i, i < w → ¬ (lo.testBit i = true ∧ hi.testBit i = false) := by
  constructor
  · intro h i _
    have b := congrArg (fun n => n.testBit i) h
    simp only [Nat.testBit_or] at b
    revert b
    cases lo.testBit i <;> cases hi.testBit i <;> simp
  · intro h
    apply Nat.eq_of_testBit_eq
    intro i
    rw [Nat.testBit_or]
    by_cases hi2 : i < w
    · have := h i hi2
      revert this
      cases lo.testBit i <;> cases hi.testBit i <;> simp
    · simp [testBit_ge_false hlo hi2]

/-- C32: domain validity.  For bounds `lo`, `hi` of width `w`, the check
`~lo | hi = ones` holds exactly when no bit position below `w` has
`lo = 1` and `hi = 0`, which is the case exactly when some well-formed
value of width `w` is a member (`lo | v = v` and `v | hi = hi`); and when
`lo = hi` the domain is valid and a value is a member exactly when it is
`lo`. -/
theorem C32_domain_validity (w : Nat) (d : BzlaBvDomain) (hlo : d.lo.size = w)
    (hhi : d.hi.size = w) (hlow : d.lo.wf) (hhiw : d.hi.wf) :
    (bzla_bvprop_is_valid d = true ↔
      ∀ i, i < w → ¬ (d.lo.bit i = true ∧ d.hi.bit i = false)) ∧
    (bzla_bvprop_is_valid d = true ↔
      ∃ v : BitVector, v.size = w ∧ v.wf ∧ bzla_bvprop_contains d v = true) ∧
    (bzla_bvprop_is_fixed d = true →
      bzla_bvprop_is_valid d = true ∧
      ∀ v : BitVector, v.size = w → v.wf → (bzla_bvprop_contains d v = true ↔ v = d.lo)) := by
  obtain ⟨⟨losz, lov⟩, ⟨hisz, hiv⟩⟩ := d
  simp only at hlo hhi
  subst hlo; subst hhi
  simp only [BitVector.wf] at hlow hhiw
  have hval : bzla_bvprop_is_valid ⟨⟨hisz, lov⟩, ⟨hisz, hiv⟩⟩ = true ↔
      ((2 ^ hisz - 1 - lov % 2 ^ hisz) ||| hiv) % 2 ^ hisz = 2 ^ hisz - 1 := by
    simp only [bzla_bvprop_is_valid, BitVector.bvor, BitVector.bvnot, BitVector.ones,
      beq_iff_eq, BitVector.mk.injEq, true_and]
  have hmem : ∀ vv : Nat, vv < 2 ^ hisz →
      (bzla_bvprop_contains ⟨⟨hisz, lov⟩, ⟨hisz, hiv⟩⟩ ⟨hisz, vv⟩ = true ↔
        (lov ||| vv = vv ∧ vv ||| hiv = hiv)) := by
    intro vv hvv
    simp only [bzla_bvprop_contains, BitVector.bvor, Bool.and_eq_true, beq_iff_eq,
      BitVector.mk.injEq, true_and]
    rw [Nat.mod_eq_of_lt (Nat.or_lt_two_pow hlow hvv),
      Nat.mod_eq_of_lt (Nat.or_lt_two_pow hvv hhiw)]
  have hbits := valid_iff_bits hisz lov hiv hlow
  have hincl := or_eq_iff_bits hisz lov hiv hlow
  refine ⟨?_, ?_, ?_⟩
  · rw [hval, hbits]
    rfl
  · rw [hval, hbits, ← hincl]
    constructor
    · intro h
      exact ⟨⟨hisz, lov⟩, rfl, hlow, (hmem lov hlow).mpr ⟨Nat.or_self lov, h⟩⟩
    · rintro ⟨⟨vsz, vv⟩, hsz, hvw, hm⟩
      simp only at hsz
      subst hsz
      obtain ⟨m1, m2⟩ := (hmem vv hvw).mp hm
      rw [← m2, ← Nat.or_assoc, m1]
  · intro hfix
    have he : lov = hiv := by
      simpa [bzla_bvprop_is_fixed] using hfix
    subst he
    refine ⟨by rw [hval, hbits, ← hincl]; exact Nat.or_self lov, ?_⟩
    rintro ⟨vsz, vv⟩ hsz hvw
    simp only at hsz
    subst hsz
    rw [hmem vv hvw]
    constructor
    · rintro ⟨m1, m2⟩
      have : vv = lov := by rw [← m1, Nat.or_comm, m2]
      rw [this]
    · intro h
      have : vv = lov := by
        simpa using h
      subst this
      exact ⟨Nat.or_self vv, Nat.or_self vv⟩

/-- Witness for C32: the valid domain `lo = 0100`, `hi = 0111` of width 4
has the members 0100, 0101, 0110 and 0111, and the pair `lo = 0100`,
`hi = 0011` is not valid. -/
theorem C32_domain_validity_witness :
    bzla_bvprop_is_valid ⟨⟨4, 4⟩, ⟨4, 7⟩⟩ = true ∧
    bzla_bvprop_is_valid ⟨⟨4, 4⟩, ⟨4, 3⟩⟩ = false ∧
    (∀ vv : Nat, vv < 16 →
      (bzla_bvprop_contains ⟨⟨4, 4⟩, ⟨4, 7⟩⟩ ⟨4, vv⟩ = true ↔ vv ∈ [4, 5, 6, 7])) ∧
    (bzla_bvprop_is_valid ⟨⟨4, 4⟩, ⟨4, 7⟩⟩ = true ↔
      ∃ v : BitVector, v.size = 4 ∧ v.wf ∧
        bzla_bvprop_contains ⟨⟨4, 4⟩, ⟨4, 7⟩⟩ v = true) :=
  ⟨by decide, by decide, by decide,
   (C32_domain_validity 4 ⟨⟨4, 4⟩, ⟨4, 7⟩⟩ rfl rfl (by decide) (by decide)).2.1⟩

end Claims32


section Claims34

variable {σ : Type}

theorem roots_ineq_insert_lookup (m : List (Nat × Bool)) (k : Nat) (b : Bool) (j : Nat) :
    ((roots_ineq_insert m k b).lookup j).isSome = true ↔
      ((m.lookup j).isSome = true ∨ j = k) := by
  unfold roots_ineq_insert
  by_cases h : (m.lookup k).isSome = true
  · rw [if_pos h]
    constructor
    · intro h1; exact Or.inl h1
    · rintro (h1 | h1)
      · exact h1
      · rw [h1]; exact h
  · rw [if_neg h, List.lookup_append]
    by_cases hj : j = k
    · subst hj
      simp [List.lookup]
    · have : (j == k) = false := by simpa using hj
      simp [List.lookup, this, hj]

/-- The keys `register_ineq` leaves in the map. -/
theorem register_ineq_keys {s s3 : LocalSearch σ} {id : Nat} {root : BitVectorNode}
    (h : register_ineq s id root = .ok s3) (j : Nat) :
    (s3.d_roots_ineq.lookup j).isSome = true ↔
      ((s.d_roots_ineq.lookup j).isSome = true ∨ (j = id ∧ root.is_inequality = true) ∨
        (root.is_not = true ∧ root.d_children.head? = some j ∧
          ∃ child, get_node_of s.d_nodes j = .ok child ∧ child.is_inequality = true)) := by
  unfold register_ineq at h
  simp only at h
  by_cases h2 : root.is_not = true
  · simp only [h2, Bool.not_true, Bool.false_eq_true, if_false] at h
    cases hc : root.d_children with
    | nil => rw [hc] at h; simp at h
    | cons c rest =>
      rw [hc] at h
      simp only at h
      by_cases h1 : root.is_inequality = true
      · simp only [h1, if_true, get_node] at h
        cases hg : get_node_of s.d_nodes c with
        | error e => rw [hg] at h; simp at h
        | ok child =>
          rw [hg] at h
          simp only [Except.ok.injEq] at h
          by_cases h3 : child.is_inequality = true
          · simp only [h3, if_true] at h
            subst h
            simp only [roots_ineq_insert_lookup, List.head?_cons, Option.some.injEq, h1, h2,
              true_and, and_true]
            constructor
            · rintro ((a | a) | a)
              · exact Or.inl a
              · exact Or.inr (Or.inl a)
              · subst a; exact Or.inr (Or.inr ⟨rfl, child, hg, h3⟩)
            · rintro (a | a | ⟨a, _⟩)
              · exact Or.inl (Or.inl a)
              · exact Or.inl (Or.inr a)
              · exact Or.inr a.symm
          · simp only [h3, if_false, Bool.false_eq_true] at h
            subst h
            simp only [roots_ineq_insert_lookup, List.head?_cons, Option.some.injEq, h1, h2,
              true_and, and_true]
            constructor
            · rintro (a | a)
              · exact Or.inl a
              · exact Or.inr (Or.inl a)
            · rintro (a | a | ⟨a, child2, hg2, h4⟩)
              · exact Or.inl a
              · exact Or.inr a
              · subst a
                rw [hg] at hg2
                simp only [Except.ok.injEq] at hg2
                subst hg2
                exact absurd h4 h3
      · simp only [h1, if_false, Bool.false_eq_true, get_node] at h
        cases hg : get_node_of s.d_nodes c with
        | error e => rw [hg] at h; simp at h
        | ok child =>
          rw [hg] at h
          simp only [Except.ok.injEq] at h
          by_cases h3 : child.is_inequality = true
          · simp only [h3, if_true] at h
            subst h
            simp only [roots_ineq_insert_lookup, List.head?_cons, Option.some.injEq, h1, h2,
              true_and, and_false, false_or, Bool.false_eq_true]
            constructor
            · rintro (a | a)
              · exact Or.inl a
              · subst a; exact Or.inr ⟨rfl, child, hg, h3⟩
            · rintro (a | ⟨a, _⟩)
              · exact Or.inl a
              · exact Or.inr a.symm
          · simp only [h3, if_false, Bool.false_eq_true] at h
            subst h
            simp only [List.head?_cons, Option.some.injEq, h1, h2,
              true_and, and_false, false_or, Bool.false_eq_true]
            constructor
            · intro a; exact Or.inl a
            · rintro (a | ⟨a, child2, hg2, h4⟩)
              · exact a
              · subst a
                rw [hg] at hg2
                simp only [Except.ok.injEq] at hg2
                subst hg2
                exact absurd h4 h3
  · simp only [h2, Bool.not_false, if_true, Except.ok.injEq, Bool.false_eq_true] at h
    by_cases h1 : root.is_inequality = true
    · simp only [h1, if_true] at h
      subst h
      simp only [roots_ineq_insert_lookup, h1, h2, and_true, false_and, or_false,
        Bool.false_eq_true]
    · simp only [h1, if_false, Bool.false_eq_true] at h
      subst h
      simp only [h1, h2, and_false, false_and, or_false, Bool.false_eq_true]

/-- A successful `register_root`, step by step. -/
theorem register_root_steps {s s' : LocalSearch σ} {id : Nat}
    (h : register_root s id = .ok s') :
    ∃ root s3, get_node s id = .ok root ∧
      register_ineq { s with d_roots := s.d_roots ++ [id] } id root = .ok s3 ∧
      update_unsat_roots s3 root = .ok s' := by
  unfold register_root at h
  split_ifs at h with hlen
  cases hg : get_node s id with
  | error e => simp [hg] at h
  | ok root =>
    simp only [hg] at h
    cases hr : register_ineq { s with d_roots := s.d_roots ++ [id] } id root with
    | error e => simp [hr] at h
    | ok s3 =>
      simp only [hr] at h
      exact ⟨root, s3, rfl, hr, h⟩

theorem get_node_of_shape {nodes nodes2 : List BitVectorNode} (h : SameShape nodes nodes2)
    {k : Nat} {nd : BitVectorNode} (hg : get_node_of nodes k = .ok nd) :
    ∃ nd2, get_node_of nodes2 k = .ok nd2 ∧ nd2.d_kind = nd.d_kind ∧
      nd2.d_children = nd.d_children := by
  obtain ⟨hget, hid⟩ := get_node_of_ok.mp hg
  obtain ⟨m2, h2, e1, e2, e3, _⟩ := h.back hget
  exact ⟨m2, get_node_of_ok.mpr ⟨h2, e1.trans hid⟩, e3, e2⟩

theorem get_node_of_shape_back {nodes nodes2 : List BitVectorNode} (h : SameShape nodes nodes2)
    {k : Nat} {nd2 : BitVectorNode} (hg : get_node_of nodes2 k = .ok nd2) :
    ∃ nd, get_node_of nodes k = .ok nd ∧ nd2.d_kind = nd.d_kind ∧
      nd2.d_children = nd.d_children := by
  obtain ⟨hget, hid⟩ := get_node_of_ok.mp hg
  obtain ⟨m, h1, e1, e2, e3, _⟩ := h.2 k nd2 hget
  exact ⟨m, get_node_of_ok.mpr ⟨h1, e1.symm.trans hid⟩, e3, e2⟩

theorem ineqKey_shape {nodes nodes2 : List BitVectorNode} (h : SameShape nodes nodes2)
    (roots : List Nat) (k : Nat) : IneqKey nodes roots k ↔ IneqKey nodes2 roots k := by
  unfold IneqKey BitVectorNode.is_inequality BitVectorNode.is_not
  constructor
  · rintro ⟨nd, hg, hq, hcase⟩
    obtain ⟨nd2, hg2, ek, _⟩ := get_node_of_shape h hg
    refine ⟨nd2, hg2, by rw [ek]; exact hq, ?_⟩
    rcases hcase with a | ⟨r, hr, root, hgr, hn, hc⟩
    · exact Or.inl a
    · obtain ⟨root2, hgr2, ek2, ec2⟩ := get_node_of_shape h hgr
      exact Or.inr ⟨r, hr, root2, hgr2, by rw [ek2]; exact hn, by rw [ec2]; exact hc⟩
  · rintro ⟨nd2, hg2, hq, hcase⟩
    obtain ⟨nd, hg, ek, _⟩ := get_node_of_shape_back h hg2
    refine ⟨nd, hg, by rw [← ek]; exact hq, ?_⟩
    rcases hcase with a | ⟨r, hr, root2, hgr2, hn, hc⟩
    · exact Or.inl a
    · obtain ⟨root, hgr, ek2, ec2⟩ := get_node_of_shape_back h hgr2
      exact Or.inr ⟨r, hr, root, hgr, by rw [← ek2]; exact hn, by rw [← ec2]; exact hc⟩

/-- `register_root` keeps the keys of `d_roots_ineq` exact. -/
theorem register_root_ineqExact {s s' : LocalSearch σ} {id : Nat}
    (h : register_root s id = .ok s') (hinv : IneqExact s) : IneqExact s' := by
  obtain ⟨root, s3, hg, hr, hu⟩ := register_root_steps h
  have e3 := register_ineq_ok hr
  have eu := (update_unsat_roots_ok hu).1
  have hn : s'.d_nodes = s.d_nodes := by rw [eu, e3]
  have hro : s'.d_roots = s.d_roots ++ [id] := by rw [eu, e3]
  have hri : s'.d_roots_ineq = s3.d_roots_ineq := by rw [eu]
  intro k
  rw [hn, hro, hri, register_ineq_keys hr k, hinv k]
  simp only
  unfold get_node at hg
  unfold IneqKey
  constructor
  · rintro (⟨nd, hgk, hq, hcase⟩ | ⟨e, hq⟩ | ⟨hnot, hc, child, hgc, hq⟩)
    · refine ⟨nd, hgk, hq, ?_⟩
      rcases hcase with a | ⟨r, hr2, b⟩
      · exact Or.inl (List.mem_append_left _ a)
      · exact Or.inr ⟨r, List.mem_append_left _ hr2, b⟩
    · subst e
      exact ⟨root, hg, hq, Or.inl (by simp)⟩
    · exact ⟨child, hgc, hq, Or.inr ⟨id, by simp, root, hg, hnot, hc⟩⟩
  · rintro ⟨nd, hgk, hq, hcase⟩
    rcases hcase with a | ⟨r, hr2, root2, hgr, hnot, hc⟩
    · rcases List.mem_append.mp a with a1 | a1
      · exact Or.inl ⟨nd, hgk, hq, Or.inl a1⟩
      · have e : k = id := by simpa using a1
        subst e
        rw [hg] at hgk
        simp only [Except.ok.injEq] at hgk
        subst hgk
        exact Or.inr (Or.inl ⟨rfl, hq⟩)
    · rcases List.mem_append.mp hr2 with a1 | a1
      · exact Or.inl ⟨nd, hgk, hq, Or.inr ⟨r, a1, root2, hgr, hnot, hc⟩⟩
      · have e : r = id := by simpa using a1
        subst e
        rw [hg] at hgr
        simp only [Except.ok.injEq] at hgr
        subst hgr
        exact Or.inr (Or.inr ⟨hnot, hc, nd, hgk, hq⟩)

/-- A cone update keeps the shape of the node table. -/
theorem update_cone_shape {ops : NodeOps σ} {s : LocalSearch σ} {id : Nat} {v : BitVector}
    {k : Nat} {s' : LocalSearch σ} (h : update_cone ops s id v = .ok (k, s')) :
    SameShape s.d_nodes s'.d_nodes := by
  obtain ⟨node, hg, _, _, hcase⟩ := update_cone_ok h
  rcases hcase with ⟨_, _, e⟩ | ⟨_, ps, cone, s2, _, _, hrr, he, _⟩
  · subst e; exact sameShape_refl _
  · have h2 : SameShape s.d_nodes s2.d_nodes := by
      rw [(refresh_root_ok hrr).1.nodes]
      exact SameShape.set (get_node_of_ok.mp hg).1 v
    refine update_cone_eval_induct ops (fun st => SameShape s.d_nodes st.d_nodes) ?_ _ s2 1
      (k, s') he h2
    intro st i cur st2 hq hgc hr
    rw [(refresh_root_ok hr).1.nodes]
    refine sameShape_trans hq ?_
    simp only
    unfold evaluate
    split_ifs
    · exact sameShape_refl _
    · obtain ⟨hget, hid⟩ := get_node_of_ok.mp hgc
      rw [hid]
      exact SameShape.set hget _

/-- What `move()` leaves alone in the root bookkeeping: the shape of the
node table, the registered roots and the map `d_roots_ineq`. -/
theorem move_ineq_frame {ops : NodeOps σ} {fuel : Nat} {s : LocalSearch σ} {r : Result}
    {s' : LocalSearch σ} (h : move ops fuel s = .ok (r, s')) :
    SameShape s.d_nodes s'.d_nodes ∧ s'.d_roots = s.d_roots ∧
      s'.d_roots_ineq = s.d_roots_ineq := by
  unfold move at h
  split_ifs at h with hemp
  · simp only [Except.ok.injEq, Prod.mk.injEq] at h
    rw [← h.2]; exact ⟨sameShape_refl _, rfl, rfl⟩
  · rcases move_loop_cases ops fuel s r s' h with
      ⟨_, e2, _⟩ | ⟨_, e2, _⟩ | ⟨sm, inp, a, e1, _, e3⟩
    · exact ⟨by rw [e2.1]; exact sameShape_refl _, e2.2.1, e2.2.2.1⟩
    · exact ⟨by rw [e2.1]; exact sameShape_refl _, e2.2.1, e2.2.2.1⟩
    · unfold move_finish at e3
      split_ifs at e3 with hnull
      simp only at e3
      cases hu : update_cone ops { sm with d_statistics := { sm.d_statistics with
          d_nmoves := u64 (sm.d_statistics.d_nmoves + 1) } } inp a with
      | error e => simp [hu] at e3
      | ok res =>
        obtain ⟨n, s2⟩ := res
        simp only [hu] at e3
        have hsh := update_cone_shape hu
        have hfr := update_cone_frame hu
        simp only at hsh
        have hs' : s'.d_nodes = s2.d_nodes ∧ s'.d_roots = s2.d_roots ∧
            s'.d_roots_ineq = s2.d_roots_ineq := by
          split_ifs at e3 <;>
            (simp only [Except.ok.injEq, Prod.mk.injEq] at e3
             rw [← e3.2]
             exact ⟨rfl, rfl, rfl⟩)
        refine ⟨?_, ?_, ?_⟩
        · rw [hs'.1, ← e1.1]; exact hsh
        · rw [hs'.2.1, hfr.2.1]; exact e1.2.1
        · rw [hs'.2.2, hfr.2.2.1]; exact e1.2.2.1

/-- Every public call keeps the keys of `d_roots_ineq` exact. -/
theorem run_calls_ineqExact (ops : NodeOps σ) (fuel : Nat) :
    ∀ (calls : List ApiCall) (s s' : LocalSearch σ) (rs : List Result),
      run_calls ops fuel calls s = .ok (rs, s') → IneqExact s → IneqExact s' := by
  intro calls
  induction calls with
  | nil =>
    intro s s' rs h hinv
    simp only [run_calls, Except.ok.injEq, Prod.mk.injEq] at h
    rw [← h.2]; exact hinv
  | cons c rest ih =>
    intro s s' rs h hinv
    cases c with
    | set_assignment id v =>
      simp only [run_calls] at h
      cases hs : set_assignment s id v with
      | error e => simp [hs] at h
      | ok s1 =>
        simp only [hs] at h
        refine ih s1 s' rs h ?_
        obtain ⟨nd, hg, e⟩ := set_assignment_ok hs
        intro k
        rw [e]
        simp only
        rw [← ineqKey_shape (SameShape.set (get_node_of_ok.mp hg).1 v)]
        exact hinv k
    | register_root id =>
      simp only [run_calls] at h
      cases hs : register_root s id with
      | error e => simp [hs] at h
      | ok s1 =>
        simp only [hs] at h
        exact ih s1 s' rs h (register_root_ineqExact hs hinv)
    | move =>
      simp only [run_calls] at h
      cases hs : move ops fuel s with
      | error e => simp [hs] at h
      | ok res =>
        obtain ⟨r, s1⟩ := res
        simp only [hs] at h
        cases hrest : run_calls ops fuel rest s1 with
        | error e => simp [hrest] at h
        | ok res2 =>
          obtain ⟨rs2, s2⟩ := res2
          simp only [hrest, Except.ok.injEq, Prod.mk.injEq] at h
          rw [← h.2]
          refine ih s1 s2 rs2 hrest ?_
          obtain ⟨hsh, hro, hri⟩ := move_ineq_frame hs
          intro k
          rw [hri, hro, ← ineqKey_shape hsh]
          exact hinv k

/-- C34 (as amended): in an engine reached by public calls from one with no
registered root and an empty map `d_roots_ineq`, `is_ineq_root(node)` is
true exactly when `node` is an inequality node that is a registered root
or the first child of a registered root that is a NOT node.  The key of a
negated inequality root is the inequality below it, not the root. -/
theorem C34_is_ineq_root (ops : NodeOps σ) (fuel : Nat) (calls : List ApiCall)
    (s0 s : LocalSearch σ) (rs : List Result) (nd : BitVectorNode)
    (hroots : s0.d_roots = []) (hineq : s0.d_roots_ineq = [])
    (hrun : run_calls ops fuel calls s0 = .ok (rs, s))
    (hnd : get_node s nd.d_id = .ok nd) :
    is_ineq_root s nd = true ↔
      (nd.is_inequality = true ∧
        (nd.d_id ∈ s.d_roots ∨ ∃ r ∈ s.d_roots, ∃ root, get_node s r = .ok root ∧
          root.is_not = true ∧ root.d_children.head? = some nd.d_id)) := by
  have h0 : IneqExact s0 := by
    intro k
    rw [hineq, hroots]
    unfold IneqKey
    simp
  have hinv := run_calls_ineqExact ops fuel calls s0 s rs hrun h0
  unfold is_ineq_root
  rw [hinv nd.d_id]
  unfold IneqKey
  unfold get_node at hnd
  constructor
  · rintro ⟨nd2, hg, hq, hcase⟩
    rw [hnd] at hg
    simp only [Except.ok.injEq] at hg
    subst hg
    exact ⟨hq, hcase⟩
  · rintro ⟨hq, hcase⟩
    exact ⟨nd, hnd, hq, hcase⟩

/-- Witness for C34: after `register_root` of the NOT node 3 of the graph
`x`, `y`, `c = x < y`, `r = NOT c`, the inequality `c` is an inequality
root. -/
theorem C34_is_ineq_root_witness :
    is_ineq_root ({ engine ineq_nodes ineq_parents 0 [3] [3] with
        d_roots_ineq := [(2, false)] }) (op1 2 Kind.ULT [0, 1] 1) = true ↔
      ((op1 2 Kind.ULT [0, 1] 1).is_inequality = true ∧
        ((op1 2 Kind.ULT [0, 1] 1).d_id ∈ ({ engine ineq_nodes ineq_parents 0 [3] [3] with
            d_roots_ineq := [(2, false)] }).d_roots ∨
          ∃ r ∈ ({ engine ineq_nodes ineq_parents 0 [3] [3] with
              d_roots_ineq := [(2, false)] }).d_roots, ∃ root,
            get_node ({ engine ineq_nodes ineq_parents 0 [3] [3] with
              d_roots_ineq := [(2, false)] }) r = .ok root ∧
            root.is_not = true ∧
            root.d_children.head? = some (op1 2 Kind.ULT [0, 1] 1).d_id)) :=
  C34_is_ineq_root sample_ops 1 [ApiCall.register_root 3]
    (engine ineq_nodes ineq_parents 0 [] [])
    ({ engine ineq_nodes ineq_parents 0 [3] [3] with d_roots_ineq := [(2, false)] }) []
    (op1 2 Kind.ULT [0, 1] 1) rfl rfl (by decide) (by decide)

/-- Counterexample to C34 as stated: after `register_root` of the NOT node
3 over the inequality 2, the registered root 3, a negated inequality, is
not an inequality root, and node 2, which is not a registered root, is
one. -/
theorem C34_counterexample :
    register_root (engine ineq_nodes ineq_parents 0 [] []) 3
      = .ok ({ engine ineq_nodes ineq_parents 0 [3] [3] with d_roots_ineq := [(2, false)] }) ∧
    get_node (engine ineq_nodes ineq_parents 0 [] []) 3 = .ok (op1 3 Kind.NOT [2] 0) ∧
    get_node (engine ineq_nodes ineq_parents 0 [] []) 2 = .ok (op1 2 Kind.ULT [0, 1] 1) ∧
    (op1 3 Kind.NOT [2] 0).is_not = true ∧
    (op1 2 Kind.ULT [0, 1] 1).is_inequality = true ∧
    is_ineq_root ({ engine ineq_nodes ineq_parents 0 [3] [3] with
      d_roots_ineq := [(2, false)] }) (op1 3 Kind.NOT [2] 0) = false ∧
    is_ineq_root ({ engine ineq_nodes ineq_parents 0 [3] [3] with
      d_roots_ineq := [(2, false)] }) (op1 2 Kind.ULT [0, 1] 1) = true ∧
    2 ∉ ({ engine ineq_nodes ineq_parents 0 [3] [3] with
      d_roots_ineq := [(2, false)] }).d_roots := by
  decide

end Claims34


section Claims38

variable {σ : Type}

/-- What one pass of value selection does to the counters. -/
theorem select_value_stats (ops : NodeOps σ) (s : LocalSearch σ) (cur : BitVectorNode)
    (t : BitVector) (o : Option (Nat × BitVector)) (s1 : LocalSearch σ)
    (h : select_value ops s cur t = .ok (o, s1)) :
    (o = none ↔ no_value ops s cur t = true) ∧
    (o = none → s1.d_statistics.d_nconf = u64 (s.d_statistics.d_nconf + 1) ∧
      s1.d_statistics.d_nprops_inv = s.d_statistics.d_nprops_inv ∧
      s1.d_statistics.d_nprops_cons = s.d_statistics.d_nprops_cons) ∧
    (o ≠ none → s1.d_statistics.d_nconf = s.d_statistics.d_nconf ∧
      u64 (s1.d_statistics.d_nprops_inv + s1.d_statistics.d_nprops_cons) =
        u64 (s.d_statistics.d_nprops_inv + s.d_statistics.d_nprops_cons + 1)) := by
  unfold select_value at h
  unfold no_value
  simp only at h ⊢
  split_ifs at h with h1 h2 h3 h4
  all_goals (
    simp only [Except.ok.injEq, Prod.mk.injEq] at h
    obtain ⟨ho, hs⟩ := h
    subst ho; subst hs
    simp only [h3, ne_eq, not_true_eq_false, not_false_eq_true, true_and, false_and,
      Bool.not_true, Bool.not_false, Bool.and_true, Bool.false_and, Bool.true_and,
      Bool.false_eq_true, false_iff, true_iff, forall_const, and_true, and_self,
      reduceCtorEq, IsEmpty.forall_iff, false_implies, implies_true])
  · unfold u64; omega
  · simp only [h4, Bool.not_true, Bool.false_eq_true, not_false_eq_true, true_and]
    unfold u64; omega
  · simp only [h4, Bool.not_false]

/-- What a propagation path does to the counters. -/
theorem select_move_loop_stats (ops : NodeOps σ) :
    ∀ (fuel : Nat) (s : LocalSearch σ) (cur : BitVectorNode) (t : BitVector) (n : Nat)
      (m : LocalSearchMove) (s1 : LocalSearch σ),
      select_move_loop ops fuel s cur t n = .ok (m, s1) →
      u64 (m.d_nprops + s.d_statistics.d_nprops_inv + s.d_statistics.d_nprops_cons) =
        u64 (n + s1.d_statistics.d_nprops_inv + s1.d_statistics.d_nprops_cons) ∧
      (s.d_statistics.d_nconf < 2 ^ 64 →
        s1.d_statistics.d_nconf =
          u64 (s.d_statistics.d_nconf + conflict_steps ops fuel s cur t)) := by
  intro fuel
  induction fuel with
  | zero => intro s cur t n m s1 h; simp [select_move_loop] at h
  | succ f ih =>
    intro s cur t n m s1 h
    rw [select_move_loop] at h
    rw [conflict_steps]
    by_cases h0 : cur.arity = 0
    · simp only [h0, if_true, Except.ok.injEq, Prod.mk.injEq] at h
      obtain ⟨hm, hs⟩ := h
      subst hm; subst hs
      simp only [h0, if_true]
      exact ⟨trivial, fun hb => by unfold u64; omega⟩
    · rw [if_neg h0] at h
      rw [if_neg h0]
      by_cases h1 : (cur.d_is_const || cur.d_all_const) = true
      · rw [if_pos h1] at h
        rw [if_pos h1]
        simp only [Except.ok.injEq, Prod.mk.injEq] at h
        obtain ⟨hm, hs⟩ := h
        subst hm; subst hs
        exact ⟨rfl, fun hb => by unfold u64; omega⟩
      · rw [if_neg h1] at h
        rw [if_neg h1]
        cases hv : select_value ops s cur t with
        | error e => simp [hv] at h
        | ok res =>
          obtain ⟨o, sv⟩ := res
          obtain ⟨_, hnone, hsome⟩ := select_value_stats ops s cur t o sv hv
          cases o with
          | none =>
            simp only [hv, Except.ok.injEq, Prod.mk.injEq] at h
            obtain ⟨hm, hs⟩ := h
            subst hm; subst hs
            obtain ⟨a1, a2, a3⟩ := hnone rfl
            simp only [conflict_move]
            rw [a2, a3]
            exact ⟨rfl, fun _ => a1⟩
          | some pt =>
            obtain ⟨pos_x, t1⟩ := pt
            simp only [hv] at h
            obtain ⟨b1, b2⟩ := hsome (by simp)
            cases hchild : get_node_of s.d_nodes (cur.d_children.getD pos_x 0) with
            | error e => rw [hchild] at h; simp at h
            | ok child =>
              rw [hchild] at h
              simp only at h
              simp only [hchild]
              obtain ⟨c1, c2⟩ := ih sv child t1 _ m s1 h
              constructor
              · unfold u64 at b2 c1 ⊢
                omega
              · intro hb
                rw [c2 (by rw [b1]; exact hb), b1]

/-- What `move_finish` does to the counters of propagations and
conflicts: nothing. -/
theorem move_finish_stats {ops : NodeOps σ} {s : LocalSearch σ} {input : Nat} {a : BitVector}
    {r : Result} {s' : LocalSearch σ} (h : move_finish ops s input a = .ok (r, s')) :
    s'.d_statistics.d_nprops = s.d_statistics.d_nprops ∧
    s'.d_statistics.d_nprops_inv = s.d_statistics.d_nprops_inv ∧
    s'.d_statistics.d_nprops_cons = s.d_statistics.d_nprops_cons ∧
    s'.d_statistics.d_nconf = s.d_statistics.d_nconf := by
  unfold move_finish at h
  split_ifs at h with hnull
  simp only at h
  cases hu : update_cone ops { s with d_statistics := { s.d_statistics with
      d_nmoves := u64 (s.d_statistics.d_nmoves + 1) } } input a with
  | error e => simp [hu] at h
  | ok res =>
    obtain ⟨n, s2⟩ := res
    simp only [hu] at h
    have hfr := (update_cone_frame hu).2.2.2.2.2.2.2
    split_ifs at h <;>
      (simp only [Except.ok.injEq, Prod.mk.injEq] at h
       rw [← h.2]
       refine ⟨?_, ?_, ?_, ?_⟩ <;> simp only [hfr])

/-- What the loop of `move` does to the counters. -/
theorem move_loop_stats (ops : NodeOps σ) :
    ∀ (fuel : Nat) (s : LocalSearch σ) (r : Result) (s' : LocalSearch σ),
      move_loop ops fuel s = .ok (r, s') → StatInv s →
      StatInv s' ∧
      (s.d_statistics.d_nconf < 2 ^ 64 →
        s'.d_statistics.d_nconf =
          u64 (s.d_statistics.d_nconf + move_loop_conflicts ops fuel s)) := by
  intro fuel
  induction fuel with
  | zero => intro s r s' h; simp [move_loop] at h
  | succ f ih =>
    intro s r s' h hinv
    rw [move_loop] at h
    rw [move_loop_conflicts]
    split_ifs at h with hb1 hb2
    · simp only [Except.ok.injEq, Prod.mk.injEq] at h
      rw [← h.2, if_pos hb1]
      exact ⟨hinv, fun hb => by unfold u64; omega⟩
    · simp only [Except.ok.injEq, Prod.mk.injEq] at h
      rw [← h.2, if_neg hb1, if_pos hb2]
      exact ⟨hinv, fun hb => by unfold u64; omega⟩
    · rw [if_neg hb1, if_neg hb2]
      unfold move_pick at h
      simp only at h ⊢
      cases hg : get_node { s with d_rng := (ops.pick_from_set s.d_rng s.d_roots_unsat).2 }
          (ops.pick_from_set s.d_rng s.d_roots_unsat).1 with
      | error e => simp [hg] at h
      | ok root =>
        simp only [hg] at h
        simp only
        split_ifs at h with hc
        · simp only [Except.ok.injEq, Prod.mk.injEq] at h
          rw [← h.2, if_pos hc]
          exact ⟨hinv, fun hb => by simp only; unfold u64; omega⟩
        · rw [if_neg hc]
          cases hsel : select_move ops (f + 1)
              { s with d_rng := (ops.pick_from_set s.d_rng s.d_roots_unsat).2 }
              root BitVector.mk_true with
          | error e => simp [hsel] at h
          | ok res =>
            obtain ⟨m, s1⟩ := res
            simp only [hsel] at h
            simp only
            have hroot : get_node
                { s with d_rng := (ops.pick_from_set s.d_rng s.d_roots_unsat).2 } root.d_id
                = .ok root := by
              rw [(get_node_of_ok.mp hg).2]; exact hg
            obtain ⟨⟨_, g2, _⟩, _, _⟩ := select_move_loop_frame ops _ _ _ _ _ _ _ hsel hroot
            obtain ⟨c1, c2⟩ := select_move_loop_stats ops _ _ _ _ _ _ _ hsel
            simp only at g2 c1 c2
            have hinv2 : StatInv { s1 with d_statistics := { s1.d_statistics with
                d_nprops := u64 (s1.d_statistics.d_nprops + m.d_nprops)
                d_nupdates := u64 (s1.d_statistics.d_nupdates + m.d_nupdates) } } := by
              unfold StatInv at hinv ⊢
              simp only
              rw [g2, hinv]
              unfold u64 at c1 ⊢
              omega
            cases hin : m.d_input with
            | none =>
              simp only [hin] at h
              obtain ⟨d1, d2⟩ := ih _ r s' h hinv2
              refine ⟨d1, ?_⟩
              intro hb
              have e1 := c2 hb
              have e2 := d2 (by simp only; rw [e1]; unfold u64; omega)
              simp only at e2 ⊢
              rw [e2]
              generalize move_loop_conflicts ops f _ = B
              rw [e1]
              unfold u64; omega
            | some input =>
              simp only [hin] at h
              obtain ⟨e1, e2, e3, e4⟩ := move_finish_stats h
              simp only at e1 e2 e3 e4
              refine ⟨?_, ?_⟩
              · unfold StatInv at hinv2 ⊢
                simp only at hinv2
                rw [e1, e2, e3]; exact hinv2
              · intro hb
                simp only
                rw [e4, c2 hb]
                unfold u64; omega

/-- What `move()` does to the counters. -/
theorem move_stats {ops : NodeOps σ} {fuel : Nat} {s : LocalSearch σ} {r : Result}
    {s' : LocalSearch σ} (h : move ops fuel s = .ok (r, s')) (hinv : StatInv s)
    (hb : s.d_statistics.d_nconf < 2 ^ 64) :
    StatInv s' ∧
      s'.d_statistics.d_nconf = u64 (s.d_statistics.d_nconf + move_conflicts ops fuel s) := by
  unfold move at h
  unfold move_conflicts
  split_ifs at h with hemp
  · simp only [Except.ok.injEq, Prod.mk.injEq] at h
    rw [← h.2, if_pos hemp]
    exact ⟨hinv, by unfold u64; omega⟩
  · rw [if_neg hemp]
    obtain ⟨a, b⟩ := move_loop_stats ops fuel s r s' h hinv
    exact ⟨a, b hb⟩

/-- What a transcript of public calls does to the counters. -/
theorem run_calls_stats (ops : NodeOps σ) (fuel : Nat) :
    ∀ (calls : List ApiCall) (s s' : LocalSearch σ) (rs : List Result),
      run_calls ops fuel calls s = .ok (rs, s') → StatInv s →
      s.d_statistics.d_nconf < 2 ^ 64 →
      StatInv s' ∧
        s'.d_statistics.d_nconf =
          u64 (s.d_statistics.d_nconf + run_conflicts ops fuel calls s) := by
  intro calls
  induction calls with
  | nil =>
    intro s s' rs h hinv hb
    simp only [run_calls, Except.ok.injEq, Prod.mk.injEq] at h
    rw [← h.2, run_conflicts]
    exact ⟨hinv, by unfold u64; omega⟩
  | cons c rest ih =>
    intro s s' rs h hinv hb
    cases c with
    | set_assignment id v =>
      simp only [run_calls] at h
      simp only [run_conflicts]
      cases hs : set_assignment s id v with
      | error e => simp [hs] at h
      | ok s1 =>
        simp only [hs] at h
        simp only
        obtain ⟨nd, hg, e⟩ := set_assignment_ok hs
        have est : s1.d_statistics = s.d_statistics := by rw [e]
        obtain ⟨a, b⟩ := ih s1 s' rs h (by unfold StatInv at hinv ⊢; rw [est]; exact hinv)
          (by rw [est]; exact hb)
        exact ⟨a, by rw [b, est]⟩
    | register_root id =>
      simp only [run_calls] at h
      simp only [run_conflicts]
      cases hs : register_root s id with
      | error e => simp [hs] at h
      | ok s1 =>
        simp only [hs] at h
        simp only
        obtain ⟨root, s3, _, hr, hu⟩ := register_root_steps hs
        have est : s1.d_statistics = s.d_statistics := by
          rw [(update_unsat_roots_ok hu).1, register_ineq_ok hr]
        obtain ⟨a, b⟩ := ih s1 s' rs h (by unfold StatInv at hinv ⊢; rw [est]; exact hinv)
          (by rw [est]; exact hb)
        exact ⟨a, by rw [b, est]⟩
    | move =>
      simp only [run_calls] at h
      simp only [run_conflicts]
      cases hs : move ops fuel s with
      | error e => simp [hs] at h
      | ok res =>
        obtain ⟨r, s1⟩ := res
        simp only [hs] at h
        simp only
        cases hrest : run_calls ops fuel rest s1 with
        | error e => simp [hrest] at h
        | ok res2 =>
          obtain ⟨rs2, s2⟩ := res2
          simp only [hrest, Except.ok.injEq, Prod.mk.injEq] at h
          rw [← h.2]
          obtain ⟨m1, m2⟩ := move_stats hs hinv hb
          obtain ⟨a, b⟩ := ih s1 s2 rs2 hrest m1 (by rw [m2]; unfold u64; omega)
          refine ⟨a, ?_⟩
          rw [b, m2]
          unfold u64; omega

/-- C38: the statistics invariant.  In an engine reached by public calls
from one with zeroed statistics, `d_nprops` is the sum of `d_nprops_inv`
and `d_nprops_cons` in 64-bit arithmetic (the plain sum when that is below
2^64), whether the propagation paths ended in an input or in a conflict,
and `d_nconf` is the number, in 64-bit arithmetic, of the iterations of
the loop of `select_move` in which no value was selected; those are
exactly the iterations in which the inverse-value test and the
consistency test both failed. -/
theorem C38_statistics_balance (ops : NodeOps σ) (fuel : Nat) (calls : List ApiCall)
    (s0 s : LocalSearch σ) (rs : List Result)
    (hzero : s0.d_statistics = ⟨0, 0, 0, 0, 0, 0⟩)
    (hrun : run_calls ops fuel calls s0 = .ok (rs, s)) :
    s.d_statistics.d_nprops =
      u64 (s.d_statistics.d_nprops_inv + s.d_statistics.d_nprops_cons) ∧
    (s.d_statistics.d_nprops_inv + s.d_statistics.d_nprops_cons < 2 ^ 64 →
      s.d_statistics.d_nprops = s.d_statistics.d_nprops_inv + s.d_statistics.d_nprops_cons) ∧
    s.d_statistics.d_nconf = u64 (run_conflicts ops fuel calls s0) ∧
    (∀ (st : LocalSearch σ) (cur : BitVectorNode) (t : BitVector)
      (o : Option (Nat × BitVector)) (st1 : LocalSearch σ),
      select_value ops st cur t = .ok (o, st1) →
        (o = none ↔ no_value ops st cur t = true) ∧
        st1.d_statistics.d_nconf =
          if o = none then u64 (st.d_statistics.d_nconf + 1) else st.d_statistics.d_nconf) := by
  have h0 : StatInv s0 := by
    unfold StatInv
    rw [hzero]
    rfl
  have hb0 : s0.d_statistics.d_nconf < 2 ^ 64 := by
    rw [hzero]
    exact Nat.two_pow_pos 64
  obtain ⟨a, b⟩ := run_calls_stats ops fuel calls s0 s rs hrun h0 hb0
  refine ⟨a, ?_, ?_, ?_⟩
  · intro hlt
    rw [a]
    exact Nat.mod_eq_of_lt hlt
  · rw [b, hzero]
    simp only [Nat.zero_add]
  · intro st cur t o st1 hv
    obtain ⟨c1, c2, c3⟩ := select_value_stats ops st cur t o st1 hv
    refine ⟨c1, ?_⟩
    by_cases ho : o = none
    · rw [if_pos ho]; exact (c2 ho).1
    · rw [if_neg ho]; exact (c3 ho).1

/-- Witness for C38: on the chain graph one call of `move()` runs a path
that ends in a conflict after one inverse value, then a path that lands on
an input; afterwards `d_nprops = 1`, `d_nprops_inv = 1`,
`d_nprops_cons = 0` and `d_nconf = 1`. -/
theorem C38_statistics_balance_witness :
    run_calls eq_not_ops 3 [ApiCall.move] (engine (chain_nodes 0) chain_parents 0 [3, 4] [3, 4])
      = .ok ([Result.UNKNOWN],
          engine_stats (chain_nodes 1) chain_parents 4 [3, 4] [3] ⟨1, 1, 1, 1, 0, 1⟩) ∧
    run_conflicts eq_not_ops 3 [ApiCall.move]
      (engine (chain_nodes 0) chain_parents 0 [3, 4] [3, 4]) = 1 ∧
    (engine_stats (chain_nodes 1) chain_parents 4 [3, 4] [3]
        ⟨1, 1, 1, 1, 0, 1⟩).d_statistics.d_nprops =
      u64 ((engine_stats (chain_nodes 1) chain_parents 4 [3, 4] [3]
          ⟨1, 1, 1, 1, 0, 1⟩).d_statistics.d_nprops_inv +
        (engine_stats (chain_nodes 1) chain_parents 4 [3, 4] [3]
          ⟨1, 1, 1, 1, 0, 1⟩).d_statistics.d_nprops_cons) :=
  ⟨by decide, by decide,
   (C38_statistics_balance eq_not_ops 3 [ApiCall.move]
      (engine (chain_nodes 0) chain_parents 0 [3, 4] [3, 4])
      (engine_stats (chain_nodes 1) chain_parents 4 [3, 4] [3] ⟨1, 1, 1, 1, 0, 1⟩)
      [Result.UNKNOWN] rfl (by decide)).1⟩

end Claims38


section Claims36

variable {σ : Type}

/-- The root bookkeeping for one node changes the unsat-root set only when
the node has no parents. -/
theorem refresh_root_unsat {s s2 : LocalSearch σ} {id : Nat} (h : refresh_root s id = .ok s2) :
    s2.d_roots_unsat = s.d_roots_unsat ∨ s.d_parents.lookup id = some [] := by
  unfold refresh_root at h
  cases hg : get_node s id with
  | error e => simp [hg] at h
  | ok cur =>
    simp only [hg] at h
    have hid : cur.d_id = id := (get_node_of_ok.mp hg).2
    unfold is_root_node at h
    rw [hid] at h
    cases hl : s.d_parents.lookup id with
    | none => simp [hl] at h
    | some ps =>
      simp only [hl] at h
      cases ps with
      | nil => exact Or.inr rfl
      | cons p ps =>
        simp only [List.isEmpty_cons, Except.ok.injEq] at h
        rw [← h]
        exact Or.inl rfl

/-- The loop over the cone touches the assignments of the listed nodes
only, and the unsat-root membership of the listed nodes without parents
only. -/
theorem update_cone_eval_frame (ops : NodeOps σ) :
    ∀ (l : List Nat) (s : LocalSearch σ) (k : Nat) (res : Nat × LocalSearch σ),
      update_cone_eval ops l s k = .ok res →
      res.2.d_parents = s.d_parents ∧
      (∀ x, x ∉ l → res.2.d_nodes[x]? = s.d_nodes[x]?) ∧
      (∀ x, (x ∈ res.2.d_roots_unsat ↔ x ∈ s.d_roots_unsat) ∨
        (x ∈ l ∧ s.d_parents.lookup x = some [])) := by
  intro l
  induction l with
  | nil =>
    intro s k res h
    simp only [update_cone_eval, Except.ok.injEq] at h
    subst h
    exact ⟨rfl, fun _ _ => rfl, fun _ => Or.inl Iff.rfl⟩
  | cons id rest ih =>
    intro s k res h
    rw [update_cone_eval_cons] at h
    cases hg : get_node s id with
    | error e => simp [hg] at h
    | ok cur =>
      simp only [hg] at h
      cases hr : refresh_root { s with d_nodes := evaluate ops s.d_nodes cur } id with
      | error e => simp [hr] at h
      | ok s2 =>
        simp only [hr] at h
        obtain ⟨i1, i2, i3⟩ := ih s2 _ res h
        obtain ⟨hsame, _, _, hmem, _, _⟩ := refresh_root_ok hr
        have hid : cur.d_id = id := (get_node_of_ok.mp hg).2
        have hp2 : s2.d_parents = s.d_parents := hsame.parents
        have hn2 : s2.d_nodes = evaluate ops s.d_nodes cur := hsame.nodes
        refine ⟨i1.trans hp2, ?_, ?_⟩
        · intro x hx
          have hx1 : x ≠ id := fun e => hx (by rw [e]; exact List.mem_cons_self _ _)
          have hx2 : x ∉ rest := fun e => hx (List.mem_cons_of_mem _ e)
          rw [i2 x hx2, hn2]
          exact evaluate_getElem?_ne ops s.d_nodes cur x (by rw [hid]; exact hx1)
        · intro x
          by_cases hx : x = id
          · subst hx
            rcases refresh_root_unsat hr with e | e
            · rcases i3 x with a | ⟨a, b⟩
              · left
                rw [a, e]
              · right
                exact ⟨List.mem_cons_of_mem _ a, by rw [← hp2]; exact b⟩
            · right
              exact ⟨List.mem_cons_self _ _, e⟩
          · rcases i3 x with a | ⟨a, b⟩
            · left
              rw [a]
              exact hmem x hx
            · right
              exact ⟨List.mem_cons_of_mem _ a, by rw [← hp2]; exact b⟩

/-- A cone update that changes the value of its node: the collected cone
holds each strict ancestor once, and the loop over the sorted cone gives the
result. -/
theorem update_cone_changed {ops : NodeOps σ} {s : LocalSearch σ} {n : Nat} {v : BitVector}
    {k : Nat} {s' : LocalSearch σ} (h : update_cone ops s n v = .ok (k, s'))
    {nd : BitVectorNode} (hg : get_node s n = .ok nd) (hne : nd.d_assignment ≠ v) :
    ∃ (cone : List Nat) (s2 : LocalSearch σ), cone.Nodup ∧ (∀ x, x ∈ cone ↔ Ancestor s.d_parents n x) ∧
      (∀ x ∈ cone, x < s.d_nodes.length) ∧
      refresh_root { s with d_nodes := s.d_nodes.set n (nd.set_assignment v) } n = .ok s2 ∧
      update_cone_eval ops (cone.insertionSort (fun a b => a ≤ b)) s2 1 = .ok (k, s') := by
  obtain ⟨node, hg2, _, _, hcase⟩ := update_cone_ok h
  rw [hg] at hg2
  have hnode : nd = node := by simpa using hg2
  subst hnode
  rcases hcase with ⟨heq, _⟩ | ⟨_, ps, cone, s2, hl, hc, hrr, he, _⟩
  · exact absurd heq hne
  · have hps : ∀ p ∈ ps, p < (s.d_nodes.set n (nd.set_assignment v)).length := by
      unfold update_cone at h
      simp only [hg] at h
      split_ifs at h
      simp only [hl] at h
      cases hp : push_parents (s.d_nodes.set n (nd.set_assignment v)) ps [] with
      | error e => simp [hp] at h
      | ok st => exact push_parents_lt hp
    have hsound := cone_loop_sound s.d_parents (s.d_nodes.set n (nd.set_assignment v))
      (Ancestor s.d_parents n) (fun x qs p hx hq hp => Ancestor.step x qs p hx hq hp)
      (cone_fuel s.d_parents ps) ps.reverse [] [] cone hc
      (fun x hx => ⟨Ancestor.parent ps x hl (List.mem_reverse.mp hx),
        hps x (List.mem_reverse.mp hx)⟩)
      (fun x hx => by simp at hx) (fun x hx => by simp at hx) List.nodup_nil
    have hclosed := cone_loop_closed s.d_parents (s.d_nodes.set n (nd.set_assignment v))
      (cone_fuel s.d_parents ps) ps.reverse [] [] cone hc (fun x hx => by simp at hx)
    refine ⟨cone, s2, hsound.1, ?_, ?_, hrr, he⟩
    · intro x
      constructor
      · intro hx; exact (hsound.2 x hx).1
      · intro hx
        induction hx with
        | parent qs p hq hp =>
          rw [hl] at hq
          have : ps = qs := by simpa using hq
          subst this
          exact hclosed.2.1 p (List.mem_reverse.mpr hp)
        | step y qs p _ hq hp ih =>
          obtain ⟨rs, hr, hall⟩ := hclosed.2.2 y ih (by simp)
          rw [hq] at hr
          have : qs = rs := by simpa using hr
          subst this
          exact hall p hp
    · intro x hx
      have := (hsound.2 x hx).2
      simpa using this

/-- C36 (as amended): a returning `update_cone(n, v)` that changes the
value of `n` calls `evaluate()` on exactly the strict ancestors of `n`,
each once and in ascending id order: its result is that of the loop over a
strictly ascending list whose members are the strict ancestors.  A call
with the current value of `n` evaluates no node and leaves the state as it
is.  In both cases the entry of every node that is neither `n` nor an
ancestor of `n` is unchanged, and unsat-root membership changes only for
nodes without parents among `n` and its ancestors. -/
theorem C36_update_cone_effect (ops : NodeOps σ) (s : LocalSearch σ) (n : Nat) (v : BitVector)
    (k : Nat) (s' : LocalSearch σ) (h : update_cone ops s n v = .ok (k, s')) :
    ∃ nd, get_node s n = .ok nd ∧
      (nd.d_assignment = v → k = 0 ∧ s' = s) ∧
      (nd.d_assignment ≠ v → ∃ (order : List Nat) (s2 : LocalSearch σ),
        order.Sorted (fun a b => a < b) ∧ (∀ x, x ∈ order ↔ Ancestor s.d_parents n x) ∧
        refresh_root { s with d_nodes := s.d_nodes.set n (nd.set_assignment v) } n = .ok s2 ∧
        update_cone_eval ops order s2 1 = .ok (k, s')) ∧
      (∀ x, x ≠ n → ¬ Ancestor s.d_parents n x → s'.d_nodes[x]? = s.d_nodes[x]?) ∧
      (∀ x, (x ∈ s'.d_roots_unsat ↔ x ∈ s.d_roots_unsat) ∨
        ((x = n ∨ Ancestor s.d_parents n x) ∧ s.d_parents.lookup x = some [])) := by
  obtain ⟨nd, hg, _, _, hcase⟩ := update_cone_ok h
  refine ⟨nd, hg, ?_, ?_, ?_⟩
  · intro heq
    rcases hcase with ⟨_, e1, e2⟩ | ⟨hne, _⟩
    · exact ⟨e1, e2⟩
    · exact absurd heq hne
  · intro hne
    obtain ⟨cone, s2, hnd, hmem, _, hrr, he⟩ := update_cone_changed h hg hne
    refine ⟨cone.insertionSort (fun a b => a ≤ b), s2, ?_, ?_, hrr, he⟩
    · exact (List.sorted_insertionSort (fun a b => a ≤ b) cone).lt_of_le
        ((List.perm_insertionSort (fun a b => a ≤ b) cone).nodup_iff.mpr hnd)
    · intro x
      rw [List.mem_insertionSort]
      exact hmem x
  · by_cases heq : nd.d_assignment = v
    · rcases hcase with ⟨_, _, e2⟩ | ⟨hne, _⟩
      · subst e2
        exact ⟨fun _ _ _ => rfl, fun _ => Or.inl Iff.rfl⟩
      · exact absurd heq hne
    · obtain ⟨cone, s2, hnd, hmem, _, hrr, he⟩ := update_cone_changed h hg heq
      obtain ⟨f1, f2, f3⟩ := update_cone_eval_frame ops _ s2 1 (k, s') he
      obtain ⟨hsame, _, _, hmem2, _, _⟩ := refresh_root_ok hrr
      have hn2 : s2.d_nodes = s.d_nodes.set n (nd.set_assignment v) := hsame.nodes
      have hp2 : s2.d_parents = s.d_parents := hsame.parents
      constructor
      · intro x hx hanc
        have hx2 : x ∉ cone.insertionSort (fun a b => a ≤ b) := by
          rw [List.mem_insertionSort]
          exact fun e => hanc ((hmem x).mp e)
        rw [f2 x hx2, hn2]
        exact List.getElem?_set_ne (Ne.symm hx)
      · intro x
        rcases f3 x with a | ⟨a, b⟩
        · by_cases hx : x = n
          · subst hx
            rcases refresh_root_unsat hrr with e | e
            · left
              rw [a, e]
            · right
              exact ⟨Or.inl rfl, e⟩
          · left
            rw [a]
            exact hmem2 x hx
        · right
          rw [List.mem_insertionSort] at a
          exact ⟨Or.inr ((hmem x).mp a), by rw [← hp2]; exact b⟩

/-- Witness for C36: on the diamond `x`, `a = NOT x`, `b = NOT x`,
`r = a AND b` the call `update_cone(x, 0)` changes `x` and evaluates the
ancestors 1, 2, 3 in that order. -/
theorem C36_update_cone_effect_witness :
    ∃ nd, get_node (engine (diamond_nodes 1 0 0 0) diamond_parents 0 [3] [3]) 0 = .ok nd ∧
      (nd.d_assignment = ⟨1, 0⟩ → 4 = 0 ∧
        engine_stats (diamond_nodes 0 1 1 1) diamond_parents 0 [3] [] ⟨0, 0, 0, 0, 0, 0⟩ =
          engine (diamond_nodes 1 0 0 0) diamond_parents 0 [3] [3]) ∧
      (nd.d_assignment ≠ ⟨1, 0⟩ → ∃ (order : List Nat) (s2 : LocalSearch Nat),
        order.Sorted (fun a b => a < b) ∧
        (∀ x, x ∈ order ↔
          Ancestor (engine (diamond_nodes 1 0 0 0) diamond_parents 0 [3] [3]).d_parents 0 x) ∧
        refresh_root { engine (diamond_nodes 1 0 0 0) diamond_parents 0 [3] [3] with
          d_nodes := (engine (diamond_nodes 1 0 0 0) diamond_parents 0 [3] [3]).d_nodes.set 0
            (nd.set_assignment ⟨1, 0⟩) } 0 = .ok s2 ∧
        update_cone_eval sample_ops order s2 1 = .ok (4,
          engine_stats (diamond_nodes 0 1 1 1) diamond_parents 0 [3] [] ⟨0, 0, 0, 0, 0, 0⟩)) ∧
      (∀ x, x ≠ 0 →
        ¬ Ancestor (engine (diamond_nodes 1 0 0 0) diamond_parents 0 [3] [3]).d_parents 0 x →
        (engine_stats (diamond_nodes 0 1 1 1) diamond_parents 0 [3] []
          ⟨0, 0, 0, 0, 0, 0⟩).d_nodes[x]? =
          (engine (diamond_nodes 1 0 0 0) diamond_parents 0 [3] [3]).d_nodes[x]?) ∧
      (∀ x, (x ∈ (engine_stats (diamond_nodes 0 1 1 1) diamond_parents 0 [3] []
            ⟨0, 0, 0, 0, 0, 0⟩).d_roots_unsat ↔
          x ∈ (engine (diamond_nodes 1 0 0 0) diamond_parents 0 [3] [3]).d_roots_unsat) ∨
        ((x = 0 ∨
          Ancestor (engine (diamond_nodes 1 0 0 0) diamond_parents 0 [3] [3]).d_parents 0 x) ∧
          (engine (diamond_nodes 1 0 0 0) diamond_parents 0 [3] [3]).d_parents.lookup x
            = some [])) :=
  C36_update_cone_effect sample_ops (engine (diamond_nodes 1 0 0 0) diamond_parents 0 [3] [3])
    0 ⟨1, 0⟩ 4 (engine_stats (diamond_nodes 0 1 1 1) diamond_parents 0 [3] [] ⟨0, 0, 0, 0, 0, 0⟩)
    (by decide)

/-- Counterexample to C36 as stated: on `x = 1`, `r = NOT x`, `y = x AND x`
with the stored value of `r` set to 1 through `set_assignment`, the call
`update_cone(x, 1)` with the current value of `x` returns 0 and leaves the
state as it is, although `r` is a strict ancestor of `x` and `evaluate()`
on `r` would change the table: no ancestor is evaluated. -/
theorem C36_counterexample :
    set_assignment (engine (fork_nodes 1 0 1) fork_parents 0 [] []) 1 ⟨1, 1⟩
      = .ok (engine (fork_nodes 1 1 1) fork_parents 0 [] []) ∧
    update_cone sample_ops (engine (fork_nodes 1 1 1) fork_parents 0 [] []) 0 ⟨1, 1⟩
      = .ok (0, engine (fork_nodes 1 1 1) fork_parents 0 [] []) ∧
    Ancestor (engine (fork_nodes 1 1 1) fork_parents 0 [] []).d_parents 0 1 ∧
    get_node (engine (fork_nodes 1 1 1) fork_parents 0 [] []) 1 = .ok (op1 1 Kind.NOT [0] 1) ∧
    evaluate sample_ops (fork_nodes 1 1 1) (op1 1 Kind.NOT [0] 1) = fork_nodes 1 0 1 ∧
    fork_nodes 1 0 1 ≠ fork_nodes 1 1 1 :=
  ⟨by decide, by decide, Ancestor.parent [1, 2] 1 (by decide) (by decide), by decide,
   by decide, by decide⟩

end Claims36


section Claims37

variable {σ : Type}

theorem permParents_symm {p q : List (Nat × List Nat)} (h : PermParents p q) :
    PermParents q p := by
  intro x
  obtain ⟨h1, h2⟩ := h x
  constructor
  · intro qs hq
    obtain ⟨ps, hp, hpq⟩ := h2 qs hq
    exact ⟨ps, hp, hpq.symm⟩
  · intro ps hp
    obtain ⟨qs, hq, hpq⟩ := h1 ps hp
    exact ⟨qs, hq, hpq.symm⟩

theorem ancestor_perm {p q : List (Nat × List Nat)} (h : PermParents p q) {n x : Nat}
    (ha : Ancestor p n x) : Ancestor q n x := by
  induction ha with
  | parent ps y hl hy =>
    obtain ⟨qs, hq, hpq⟩ := (h n).1 ps hl
    exact Ancestor.parent qs y hq (hpq.mem_iff.mp hy)
  | step z ps y _ hl hy ih =>
    obtain ⟨qs, hq, hpq⟩ := (h z).1 ps hl
    exact Ancestor.step z qs y ih hq (hpq.mem_iff.mp hy)

theorem is_root_node_perm {s : LocalSearch σ} {q : List (Nat × List Nat)}
    (h : PermParents s.d_parents q) (nd : BitVectorNode) :
    is_root_node { s with d_parents := q } nd = is_root_node s nd := by
  unfold is_root_node
  simp only
  cases hp : s.d_parents.lookup nd.d_id with
  | none =>
    cases hq : q.lookup nd.d_id with
    | none => rfl
    | some qs =>
      obtain ⟨ps, hp2, _⟩ := (h nd.d_id).2 qs hq
      rw [hp] at hp2
      cases hp2
  | some ps =>
    obtain ⟨qs, hq, hpq⟩ := (h nd.d_id).1 ps hp
    rw [hq]
    simp only [Except.ok.injEq]
    cases ps with
    | nil =>
      have : qs = [] := List.Perm.eq_nil hpq.symm
      rw [this]
    | cons a l =>
      cases qs with
      | nil => exact absurd (List.Perm.eq_nil hpq) (by simp)
      | cons b m => rfl

theorem update_unsat_roots_perm {s s2 : LocalSearch σ} {q : List (Nat × List Nat)}
    (h : PermParents s.d_parents q) {root : BitVectorNode}
    (hu : update_unsat_roots s root = .ok s2) :
    update_unsat_roots { s with d_parents := q } root = .ok { s2 with d_parents := q } := by
  unfold update_unsat_roots at hu ⊢
  rw [is_root_node_perm h]
  cases hr : is_root_node s root with
  | error e => simp [hr] at hu
  | ok r =>
    simp only [hr] at hu ⊢
    cases r with
    | false => simp at hu
    | true =>
      simp only at hu ⊢
      split_ifs at hu ⊢ <;>
        (simp only [Except.ok.injEq] at hu ⊢
         rw [← hu])

theorem refresh_root_perm {s s2 : LocalSearch σ} {q : List (Nat × List Nat)}
    (h : PermParents s.d_parents q) {id : Nat} (hr : refresh_root s id = .ok s2) :
    refresh_root { s with d_parents := q } id = .ok { s2 with d_parents := q } := by
  unfold refresh_root at hr ⊢
  have hgq : get_node { s with d_parents := q } id = get_node s id := rfl
  rw [hgq]
  cases hg : get_node s id with
  | error e => simp [hg] at hr
  | ok cur =>
    simp only [hg] at hr ⊢
    rw [is_root_node_perm h]
    cases hrn : is_root_node s cur with
    | error e => simp [hrn] at hr
    | ok r =>
      simp only [hrn] at hr ⊢
      cases r with
      | false =>
        simp only [Except.ok.injEq] at hr ⊢
        rw [← hr]
      | true =>
        simp only at hr ⊢
        exact update_unsat_roots_perm h hr

theorem update_cone_eval_perm (ops : NodeOps σ) (q : List (Nat × List Nat)) :
    ∀ (l : List Nat) (s : LocalSearch σ) (k : Nat) (res : Nat × LocalSearch σ),
      PermParents s.d_parents q →
      update_cone_eval ops l s k = .ok res →
      update_cone_eval ops l { s with d_parents := q } k
        = .ok (res.1, { res.2 with d_parents := q }) := by
  intro l
  induction l with
  | nil =>
    intro s k res _ h
    simp only [update_cone_eval, Except.ok.injEq] at h ⊢
    rw [← h]
  | cons id rest ih =>
    intro s k res hperm h
    rw [update_cone_eval_cons] at h ⊢
    have hgq : get_node { s with d_parents := q } id = get_node s id := rfl
    rw [hgq]
    cases hg : get_node s id with
    | error e => simp [hg] at h
    | ok cur =>
      simp only [hg] at h ⊢
      cases hr : refresh_root { s with d_nodes := evaluate ops s.d_nodes cur } id with
      | error e => simp [hr] at h
      | ok s2 =>
        simp only [hr] at h
        have hr2 := refresh_root_perm
          (s := { s with d_nodes := evaluate ops s.d_nodes cur }) hperm hr
        simp only at hr2 ⊢
        rw [hr2]
        simp only
        have hp2 : s2.d_parents = s.d_parents := (refresh_root_ok hr).1.parents
        exact ih s2 _ res (by rw [hp2]; exact hperm) h

theorem push_parents_valid {nodes : List BitVectorNode} {ps stack res : List Nat}
    (h : push_parents nodes ps stack = .ok res) :
    ∀ p ∈ ps, ∃ nd, get_node_of nodes p = .ok nd := by
  unfold push_parents at h
  split_ifs at h with hall
  intro p hp
  rw [List.all_eq_true] at hall
  have h1 := hall p hp
  cases hg : get_node_of nodes p with
  | error e => simp [hg] at h1
  | ok nd => exact ⟨nd, rfl⟩

theorem push_parents_total {nodes : List BitVectorNode} {ps : List Nat} (stack : List Nat)
    (h : ∀ p ∈ ps, ∃ nd, get_node_of nodes p = .ok nd) :
    push_parents nodes ps stack = .ok (ps.reverse ++ stack) := by
  unfold push_parents
  rw [if_pos]
  rw [List.all_eq_true]
  intro p hp
  obtain ⟨nd, hnd⟩ := h p hp
  rw [hnd]

/-- Every node the loop of `update_cone` collects was fetched from the
table. -/
theorem cone_loop_valid (parents : List (Nat × List Nat)) (nodes : List BitVectorNode) :
    ∀ (fuel : Nat) (stack visited cone res : List Nat),
      cone_loop parents nodes fuel stack visited cone = .ok res →
      (∀ x ∈ stack, ∃ nd, get_node_of nodes x = .ok nd) →
      (∀ x ∈ cone, ∃ nd, get_node_of nodes x = .ok nd) →
      ∀ x ∈ res, ∃ nd, get_node_of nodes x = .ok nd := by
  intro fuel
  induction fuel with
  | zero =>
    intro stack visited cone res h hs hc
    cases stack with
    | nil =>
      simp only [cone_loop, Except.ok.injEq] at h
      subst h
      exact hc
    | cons c r => simp [cone_loop] at h
  | succ n ih =>
    intro stack visited cone res h hs hc
    cases stack with
    | nil =>
      simp only [cone_loop, Except.ok.injEq] at h
      subst h
      exact hc
    | cons cur rest =>
      rw [cone_loop] at h
      have hrest : ∀ x ∈ rest, ∃ nd, get_node_of nodes x = .ok nd :=
        fun x hx => hs x (List.mem_cons_of_mem _ hx)
      by_cases hvis : cur ∈ visited
      · simp only [hvis, if_true] at h
        exact ih rest visited cone res h hrest hc
      · simp only [hvis, if_false] at h
        cases hl : parents.lookup cur with
        | none => simp [hl] at h
        | some ps =>
          simp only [hl] at h
          cases hp : push_parents nodes ps rest with
          | error e => simp [hp] at h
          | ok st =>
            simp only [hp] at h
            have hst := push_parents_ok hp
            have hval := push_parents_valid hp
            apply ih st (cur :: visited) (cone ++ [cur]) res h
            · intro x hx
              rw [hst, List.mem_append, List.mem_reverse] at hx
              rcases hx with hx | hx
              · exact hval x hx
              · exact hrest x hx
            · intro x hx
              rw [List.mem_append, List.mem_singleton] at hx
              rcases hx with hx | hx
              · exact hc x hx
              · rw [hx]; exact hs cur (List.mem_cons_self _ _)

/-- The loop of `update_cone` returns when every node it can reach has an
entry in the parents map whose members are nodes of the table. -/
theorem cone_loop_total (parents : List (Nat × List Nat)) (nodes : List BitVectorNode)
    (R : Nat → Prop)
    (hR : ∀ x, R x → ∃ ps, parents.lookup x = some ps ∧
      ∀ p ∈ ps, (∃ nd, get_node_of nodes p = .ok nd) ∧ R p) :
    ∀ (fuel : Nat) (stack visited cone : List Nat),
      (∀ x ∈ stack, R x) →
      stack.length + unvisited_weight parents visited ≤ fuel →
      ∃ res, cone_loop parents nodes fuel stack visited cone = .ok res := by
  intro fuel
  induction fuel with
  | zero =>
    intro stack visited cone _ h
    cases stack with
    | nil => exact ⟨cone, by simp [cone_loop]⟩
    | cons c r => simp at h
  | succ n ih =>
    intro stack visited cone hs h
    cases stack with
    | nil => exact ⟨cone, by simp [cone_loop]⟩
    | cons cur rest =>
      rw [cone_loop]
      have hrest : ∀ x ∈ rest, R x := fun x hx => hs x (List.mem_cons_of_mem _ hx)
      simp only [List.length_cons] at h
      by_cases hv : cur ∈ visited
      · simp only [hv, if_true]
        exact ih rest visited cone hrest (by omega)
      · simp only [hv, if_false]
        obtain ⟨ps, hl, hps⟩ := hR cur (hs cur (List.mem_cons_self _ _))
        rw [hl]
        simp only
        rw [push_parents_total rest (fun p hp => (hps p hp).1)]
        simp only
        apply ih
        · intro x hx
          rw [List.mem_append, List.mem_reverse] at hx
          rcases hx with hx | hx
          · exact (hps x hx).2
          · exact hrest x hx
        · have hw := unvisited_weight_visit parents visited cur ps hl hv
          simp only [List.length_append, List.length_reverse]
          omega

/-- The cone collected from the parents of `n`: each strict ancestor once,
every member a node of the table whose parents are in the cone. -/
theorem cone_loop_spec (parents : List (Nat × List Nat)) (nodes : List BitVectorNode)
    (n fuel : Nat) (ps cone : List Nat) (hl : parents.lookup n = some ps)
    (hval : ∀ p ∈ ps, ∃ nd, get_node_of nodes p = .ok nd)
    (hc : cone_loop parents nodes fuel ps.reverse [] [] = .ok cone) :
    cone.Nodup ∧ (∀ x, x ∈ cone ↔ Ancestor parents n x) ∧
    (∀ x ∈ cone, ∃ nd, get_node_of nodes x = .ok nd) ∧
    (∀ x ∈ cone, ∃ qs, parents.lookup x = some qs ∧ ∀ p ∈ qs, p ∈ cone) := by
  have hlt : ∀ p ∈ ps, p < nodes.length := by
    intro p hp
    obtain ⟨nd, hnd⟩ := hval p hp
    exact (List.getElem?_eq_some.mp (get_node_of_ok.mp hnd).1).1
  have hsound := cone_loop_sound parents nodes (Ancestor parents n)
    (fun x qs p hx hq hp => Ancestor.step x qs p hx hq hp) fuel ps.reverse [] [] cone hc
    (fun x hx => ⟨Ancestor.parent ps x hl (List.mem_reverse.mp hx),
      hlt x (List.mem_reverse.mp hx)⟩)
    (fun x hx => by simp at hx) (fun x hx => by simp at hx) List.nodup_nil
  have hclosed := cone_loop_closed parents nodes fuel ps.reverse [] [] cone hc
    (fun x hx => by simp at hx)
  have hvalid := cone_loop_valid parents nodes fuel ps.reverse [] [] cone hc
    (fun x hx => hval x (List.mem_reverse.mp hx)) (fun x hx => by simp at hx)
  refine ⟨hsound.1, ?_, hvalid, ?_⟩
  · intro x
    constructor
    · intro hx; exact (hsound.2 x hx).1
    · intro hx
      induction hx with
      | parent qs p hq hp =>
        rw [hl] at hq
        have : ps = qs := by simpa using hq
        subst this
        exact hclosed.2.1 p (List.mem_reverse.mpr hp)
      | step y qs p _ hq hp ih =>
        obtain ⟨rs, hr, hall⟩ := hclosed.2.2 y ih (by simp)
        rw [hq] at hr
        have : qs = rs := by simpa using hr
        subst this
        exact hall p hp
  · intro x hx
    exact hclosed.2.2 x hx (by simp)

/-- The parts of a returning cone update that changes a value, put
together. -/
theorem update_cone_intro {ops : NodeOps σ} {s : LocalSearch σ} {id : Nat} {v : BitVector}
    {node : BitVectorNode} {ps cone : List Nat} {s2 : LocalSearch σ} {k : Nat}
    {s' : LocalSearch σ}
    (hg : get_node s id = .ok node) (hleaf : node.d_children = [])
    (hchk : check_unsat_false s = true) (hne : node.d_assignment ≠ v)
    (hl : s.d_parents.lookup id = some ps)
    (hval : ∀ p ∈ ps, ∃ nd,
      get_node_of (s.d_nodes.set id (node.set_assignment v)) p = .ok nd)
    (hc : cone_loop s.d_parents (s.d_nodes.set id (node.set_assignment v))
      (cone_fuel s.d_parents ps) ps.reverse [] [] = .ok cone)
    (hrr : refresh_root { s with d_nodes := s.d_nodes.set id (node.set_assignment v) } id
      = .ok s2)
    (he : update_cone_eval ops (cone.insertionSort (fun a b => a ≤ b)) s2 1 = .ok (k, s'))
    (hc2 : check_unsat_false s' = true) :
    update_cone ops s id v = .ok (k, s') := by
  unfold update_cone
  rw [hg]
  have h1 : is_leaf_node node = true := by
    unfold is_leaf_node BitVectorNode.arity
    simp [hleaf]
  simp only [h1, hchk, Bool.not_true, Bool.false_eq_true, if_false, hne, hl]
  rw [push_parents_total [] hval]
  simp only [List.append_nil, hc]
  unfold refresh_root at hrr
  cases hg1 : get_node { s with d_nodes := s.d_nodes.set id (node.set_assignment v) } id with
  | error e => simp [hg1] at hrr
  | ok node1 =>
    simp only [hg1] at hrr ⊢
    cases hr : is_root_node
        { s with d_nodes := s.d_nodes.set id (node.set_assignment v) } node1 with
    | error e => simp [hr] at hrr
    | ok r =>
      simp only [hr] at hrr ⊢
      cases r with
      | false =>
        simp only [Except.ok.injEq] at hrr
        simp only [Bool.false_eq_true, if_false]
        rw [hrr, he]
        simp only [hc2, if_true]
      | true =>
        simp only at hrr
        simp only [if_true, hrr, he, hc2]

/-- The parents of the node of a returning cone update that changes a
value are nodes of the table. -/
theorem update_cone_parents_valid {ops : NodeOps σ} {s : LocalSearch σ} {n : Nat}
    {v : BitVector} {k : Nat} {s' : LocalSearch σ} (h : update_cone ops s n v = .ok (k, s'))
    {nd : BitVectorNode} (hg : get_node s n = .ok nd) (hne : nd.d_assignment ≠ v)
    {ps : List Nat} (hl : s.d_parents.lookup n = some ps) :
    ∀ p ∈ ps, ∃ m, get_node_of (s.d_nodes.set n (nd.set_assignment v)) p = .ok m := by
  unfold update_cone at h
  simp only [hg] at h
  split_ifs at h
  simp only [hl] at h
  cases hp : push_parents (s.d_nodes.set n (nd.set_assignment v)) ps [] with
  | error e => simp [hp] at h
  | ok st => exact push_parents_valid hp

/-- A returning `update_cone(n, v)` also returns on the engine whose parents
map enumerates every parents set in another order, with the same count and
the same final state up to the map. -/
theorem update_cone_perm (ops : NodeOps σ) (s : LocalSearch σ)
    (q : List (Nat × List Nat)) (n : Nat) (v : BitVector) (k : Nat) (s' : LocalSearch σ)
    (hperm : PermParents s.d_parents q) (h : update_cone ops s n v = .ok (k, s')) :
    update_cone ops { s with d_parents := q } n v = .ok (k, { s' with d_parents := q }) := by
  obtain ⟨node, hg, hleaf, hchk, hcase⟩ := update_cone_ok h
  have hgq : get_node { s with d_parents := q } n = .ok node := hg
  have hchkq : check_unsat_false { s with d_parents := q } = true := hchk
  rcases hcase with ⟨heq, e1, e2⟩ | ⟨hne, ps, cone, s2, hl, hc, hrr, he, hc2⟩
  · subst e1; subst e2
    unfold update_cone
    rw [hgq]
    have h1 : is_leaf_node node = true := by
      unfold is_leaf_node BitVectorNode.arity
      simp [hleaf]
    simp only [h1, hchkq, Bool.not_true, Bool.false_eq_true, if_false, heq, if_true]
  · have hval1 := update_cone_parents_valid h hg hne hl
    obtain ⟨hnd1, hmem1, hv1, hcl1⟩ := cone_loop_spec s.d_parents
      (s.d_nodes.set n (node.set_assignment v)) n _ ps cone hl hval1 hc
    obtain ⟨qs, hq, hpq⟩ := (hperm n).1 ps hl
    have hvalq : ∀ p ∈ qs, ∃ m,
        get_node_of (s.d_nodes.set n (node.set_assignment v)) p = .ok m :=
      fun p hp => hval1 p (hpq.mem_iff.mpr hp)
    have hR : ∀ x, Ancestor q n x → ∃ rs, q.lookup x = some rs ∧
        ∀ p ∈ rs, (∃ m, get_node_of (s.d_nodes.set n (node.set_assignment v)) p = .ok m) ∧
          Ancestor q n p := by
      intro x hx
      have hx1 : x ∈ cone := (hmem1 x).mpr (ancestor_perm (permParents_symm hperm) hx)
      obtain ⟨ps2, hl2, hall⟩ := hcl1 x hx1
      obtain ⟨rs, hr, hprs⟩ := (hperm x).1 ps2 hl2
      refine ⟨rs, hr, ?_⟩
      intro p hp
      exact ⟨hv1 p (hall p (hprs.mem_iff.mpr hp)), Ancestor.step x rs p hx hr hp⟩
    obtain ⟨cone2, hcq⟩ := cone_loop_total q (s.d_nodes.set n (node.set_assignment v))
      (Ancestor q n) hR (cone_fuel q qs) qs.reverse [] []
      (fun x hx => Ancestor.parent qs x hq (List.mem_reverse.mp hx))
      (by rw [unvisited_weight_nil]; simp [cone_fuel])
    obtain ⟨hnd2, hmem2, _, _⟩ := cone_loop_spec q
      (s.d_nodes.set n (node.set_assignment v)) n _ qs cone2 hq hvalq hcq
    have hperm12 : cone.Perm cone2 := by
      rw [List.perm_ext_iff_of_nodup hnd1 hnd2]
      intro x
      rw [hmem1, hmem2]
      exact ⟨ancestor_perm hperm, ancestor_perm (permParents_symm hperm)⟩
    have hsort : cone.insertionSort (fun a b => a ≤ b) =
        cone2.insertionSort (fun a b => a ≤ b) :=
      List.eq_of_perm_of_sorted
        (((List.perm_insertionSort (fun a b => a ≤ b) cone).trans hperm12).trans
          (List.perm_insertionSort (fun a b => a ≤ b) cone2).symm)
        (List.sorted_insertionSort (fun a b => a ≤ b) cone)
        (List.sorted_insertionSort (fun a b => a ≤ b) cone2)
    have hp2 : s2.d_parents = s.d_parents := (refresh_root_ok hrr).1.parents
    have he2 := update_cone_eval_perm ops q _ s2 1 (k, s') (by rw [hp2]; exact hperm) he
    rw [hsort] at he2
    have hrr2 := @refresh_root_perm σ
      { s with d_nodes := s.d_nodes.set n (node.set_assignment v) } s2 q hperm n hrr
    exact @update_cone_intro σ ops { s with d_parents := q } n v node qs cone2
      { s2 with d_parents := q } k { s' with d_parents := q } hgq hleaf hchkq hne hq hvalq hcq
      hrr2 he2 hc2

/-- C37: the result of `update_cone` does not depend on the order in which
the parents sets are enumerated.  If the parents map `q` holds for every
node a permutation of the parents the engine's map holds, then a returning
`update_cone(n, v)` returns, on the engine with the map `q`, the same
count, and ends with the same node table and the same unsat-root set. -/
theorem C37_update_cone_order_independent (ops : NodeOps σ) (s : LocalSearch σ)
    (q : List (Nat × List Nat)) (n : Nat) (v : BitVector) (k : Nat) (s' : LocalSearch σ)
    (hperm : PermParents s.d_parents q) (h : update_cone ops s n v = .ok (k, s')) :
    update_cone ops { s with d_parents := q } n v = .ok (k, { s' with d_parents := q }) :=
  update_cone_perm ops s q n v k s' hperm h

/-- Witness for C37: on the diamond, with the parents of `x` enumerated
as 2, 1 instead of 1, 2 and the entries of the map in another order,
`update_cone(x, 0)` returns the same count 4, the same node table and the
same unsat-root set. -/
theorem C37_update_cone_order_independent_witness :
    update_cone sample_ops
      { engine (diamond_nodes 1 0 0 0) diamond_parents 0 [3] [3] with
        d_parents := diamond_parents_alt } 0 ⟨1, 0⟩
      = .ok (4, { engine_stats (diamond_nodes 0 1 1 1) diamond_parents 0 [3] []
          ⟨0, 0, 0, 0, 0, 0⟩ with d_parents := diamond_parents_alt }) :=
  C37_update_cone_order_independent sample_ops
    (engine (diamond_nodes 1 0 0 0) diamond_parents 0 [3] [3]) diamond_parents_alt 0 ⟨1, 0⟩ 4
    (engine_stats (diamond_nodes 0 1 1 1) diamond_parents 0 [3] [] ⟨0, 0, 0, 0, 0, 0⟩)
    (by
      intro x
      rcases x with _ | _ | _ | _ | x
      all_goals simp [engine, diamond_parents, diamond_parents_alt, List.lookup]
      all_goals decide)
    (by decide)

end Claims37


section Claims35

variable {σ : Type}

theorem le_foldr_max {l : List Nat} {a : Nat} (h : a ∈ l) : a ≤ l.foldr max 0 := by
  induction l with
  | nil => simp at h
  | cons b rest ih =>
    simp only [List.foldr_cons]
    rcases List.mem_cons.mp h with e | e
    · rw [e]; exact Nat.le_max_left _ _
    · exact Nat.le_trans (ih e) (Nat.le_max_right _ _)

/-- A node is one level deeper than each of its children. -/
theorem depth_aux_child {nodes : List BitVectorNode} {id : Nat} {nd : BitVectorNode}
    (h : nodes[id]? = some nd) {c : Nat} (hc : c ∈ nd.d_children) (f : Nat) :
    depth_aux nodes f c + 1 ≤ depth_aux nodes (f + 1) id := by
  rw [depth_aux.eq_2, h]
  simp only
  have hne : nd.d_children ≠ [] := List.ne_nil_of_mem hc
  rw [if_neg hne]
  have := le_foldr_max (List.mem_map_of_mem (depth_aux nodes f) hc)
  omega

theorem select_value_ne_fuel (ops : NodeOps σ) (s : LocalSearch σ) (cur : BitVectorNode)
    (t : BitVector) : select_value ops s cur t ≠ .error .fuel := by
  unfold select_value
  simp only
  split_ifs <;> simp

theorem select_value_some {ops : NodeOps σ} {s : LocalSearch σ} {cur : BitVectorNode}
    {t : BitVector} {pos_x : Nat} {t1 : BitVector} {s1 : LocalSearch σ}
    (h : select_value ops s cur t = .ok (some (pos_x, t1), s1)) :
    pos_x < cur.arity ∧
      pos_x = (ops.select_path (bounds_step ops s cur) s.d_nodes cur t).1 := by
  unfold select_value at h
  simp only at h
  split_ifs at h with h1 h2 h3 h4
  all_goals (
    simp only [Except.ok.injEq, Prod.mk.injEq, Option.some.injEq, reduceCtorEq,
      false_and] at h)
  · exact ⟨by rw [← h.1.1]; omega, h.1.1.symm⟩
  · exact ⟨by rw [← h.1.1]; omega, h.1.1.symm⟩

theorem select_value_returns (ops : NodeOps σ) (s : LocalSearch σ) (cur : BitVectorNode)
    (t : BitVector) (hfix : cur.d_domain.is_fixed = false)
    (hpos : (ops.select_path (bounds_step ops s cur) s.d_nodes cur t).1 < cur.arity) :
    ∃ r, select_value ops s cur t = .ok r := by
  unfold select_value
  simp only [hfix, Bool.false_eq_true, if_false]
  rw [if_neg (by omega)]
  split_ifs <;> exact ⟨_, rfl⟩

theorem getD_mem_children {l : List Nat} {i : Nat} (h : i < l.length) : l.getD i 0 ∈ l := by
  rw [List.getD_eq_getElem _ _ h]
  exact List.getElem_mem h

/-- The loop of `select_move` at a node of depth `d`: `d + 1` passes are
enough, it returns when `select_path` stays below the arity and no node
that is not constant has a fixed domain, and a returned input is the end of
a path of selected children whose length is the returned count. -/
theorem select_move_loop_depth (ops : NodeOps σ) :
    ∀ (f : Nat) (s : LocalSearch σ) (cur : BitVectorNode) (t : BitVector) (n L : Nat),
      cur.d_id < f → get_node s cur.d_id = .ok cur → IdsOK s.d_nodes →
      ChildrenBelow s.d_nodes → n < 2 ^ 64 →
      (depth_aux s.d_nodes f cur.d_id + 1 ≤ L →
        select_move_loop ops L s cur t n ≠ .error .fuel) ∧
      (depth_aux s.d_nodes f cur.d_id + 1 ≤ L →
        (∀ (g : σ) (nodes : List BitVectorNode) (c : BitVectorNode) (tt : BitVector),
          c.arity ≠ 0 → (ops.select_path g nodes c tt).1 < c.arity) →
        (∀ nd ∈ s.d_nodes, nd.d_is_const = false → nd.d_domain.is_fixed = false) →
        ∃ r, select_move_loop ops L s cur t n = .ok r) ∧
      (∀ m s1, select_move_loop ops L s cur t n = .ok (m, s1) →
        ∀ i, m.d_input = some i →
          ∃ len leaf, SelPath ops s cur t len s1 leaf m.d_assignment ∧ leaf.arity = 0 ∧
            leaf.d_id = i ∧ len ≤ depth_aux s.d_nodes f cur.d_id ∧
            m.d_nprops = u64 (n + len)) ∧
      (∀ m s1, select_move_loop ops L s cur t n = .ok (m, s1) →
        ∃ len, len ≤ depth_aux s.d_nodes f cur.d_id ∧ m.d_nprops = u64 (n + len)) := by
  intro f
  induction f with
  | zero => intro s cur t n L h; omega
  | succ f ih =>
    intro s cur t n L hlt hcur hids hbelow hn
    obtain ⟨hget, _⟩ := get_node_of_ok.mp hcur
    have hmem : cur ∈ s.d_nodes := mem_of_getElem? hget
    cases L with
    | zero =>
      refine ⟨fun h => by omega, fun h => by omega, ?_, ?_⟩
      · intro m s1 h
        simp [select_move_loop] at h
      · intro m s1 h
        simp [select_move_loop] at h
    | succ L =>
      rw [select_move_loop]
      by_cases h0 : cur.arity = 0
      · simp only [h0, if_true]
        have hu : n = u64 (n + 0) := by
          simp only [Nat.add_zero]
          unfold u64
          omega
        refine ⟨fun _ => by simp, fun _ _ _ => ⟨_, rfl⟩, ?_, ?_⟩
        · intro m s1 h i hi
          simp only [Except.ok.injEq, Prod.mk.injEq] at h
          obtain ⟨hm, hs⟩ := h
          subst hm; subst hs
          simp only [Option.some.injEq] at hi
          exact ⟨0, cur, SelPath.refl _ _ _, h0, hi, Nat.zero_le _, hu⟩
        · intro m s1 h
          simp only [Except.ok.injEq, Prod.mk.injEq] at h
          rw [← h.1]
          exact ⟨0, Nat.zero_le _, hu⟩
      · rw [if_neg h0]
        by_cases h1 : (cur.d_is_const || cur.d_all_const) = true
        · rw [if_pos h1]
          have hu : n = u64 (n + 0) := by
            simp only [Nat.add_zero]
            unfold u64
            omega
          refine ⟨fun _ => by simp, fun _ _ _ => ⟨_, rfl⟩, ?_, ?_⟩
          · intro m s1 h i hi
            simp only [Except.ok.injEq, Prod.mk.injEq] at h
            rw [← h.1] at hi
            simp [conflict_move] at hi
          · intro m s1 h
            simp only [Except.ok.injEq, Prod.mk.injEq] at h
            rw [← h.1]
            exact ⟨0, Nat.zero_le _, hu⟩
        · rw [if_neg h1]
          have hnc : cur.d_is_const = false := by
            cases hc : cur.d_is_const with
            | false => rfl
            | true => rw [hc] at h1; simp at h1
          cases hv : select_value ops s cur t with
          | error e =>
            simp only
            refine ⟨fun _ h => ?_, fun _ hsel hflag => ?_, ?_, ?_⟩
            · have : e = Err.fuel := by simpa using h
              subst this
              exact select_value_ne_fuel ops s cur t hv
            · obtain ⟨r, hr⟩ := select_value_returns ops s cur t (hflag cur hmem hnc)
                (hsel _ _ _ _ h0)
              rw [hr] at hv
              cases hv
            · intro m s1 h
              cases h
            · intro m s1 h
              cases h
          | ok res =>
            obtain ⟨o, sv⟩ := res
            have hf := select_value_frame ops s cur t o sv hv
            cases o with
            | none =>
              simp only
              have hu : n = u64 (n + 0) := by
                simp only [Nat.add_zero]
                unfold u64
                omega
              refine ⟨fun _ => by simp, fun _ _ _ => ⟨_, rfl⟩, ?_, ?_⟩
              · intro m s1 h i hi
                simp only [Except.ok.injEq, Prod.mk.injEq] at h
                rw [← h.1] at hi
                simp [conflict_move] at hi
              · intro m s1 h
                simp only [Except.ok.injEq, Prod.mk.injEq] at h
                rw [← h.1]
                exact ⟨0, Nat.zero_le _, hu⟩
            | some pt =>
              obtain ⟨pos_x, t1⟩ := pt
              simp only
              obtain ⟨hpos, _⟩ := select_value_some hv
              have hcm : cur.d_children.getD pos_x 0 ∈ cur.d_children :=
                getD_mem_children hpos
              have hclt : cur.d_children.getD pos_x 0 < cur.d_id := hbelow cur hmem _ hcm
              have hd := depth_aux_child hget hcm f
              cases hchild : get_node_of s.d_nodes (cur.d_children.getD pos_x 0) with
              | error e =>
                simp only
                refine ⟨fun _ h => ?_, fun _ _ _ => ?_, ?_, fun m s1 h => by cases h⟩
                · have : e = Err.fuel := by simpa using h
                  subst this
                  exact get_node_of_ne_fuel _ _ hchild
                · have hlen : cur.d_id < s.d_nodes.length :=
                    (List.getElem?_eq_some.mp hget).1
                  obtain ⟨c2, hc2⟩ := get_node_of_lt hids
                    (Nat.lt_trans hclt hlen)
                  unfold get_node at hc2
                  rw [hc2] at hchild
                  cases hchild
                · intro m s1 h
                  cases h
              | ok child =>
                simp only
                obtain ⟨hcget, hcid⟩ := get_node_of_ok.mp hchild
                have hc : get_node sv child.d_id = .ok child := by
                  unfold get_node
                  rw [hf.1.1, hcid]
                  exact hchild
                have hnv : sv.d_nodes = s.d_nodes := hf.1.1
                have hn1 : u64 (n + 1) < 2 ^ 64 := by unfold u64; omega
                obtain ⟨i1, i2, i3, i4⟩ := ih sv child t1 (u64 (n + 1)) L
                  (by rw [hcid]; omega) hc (by rw [hnv]; exact hids)
                  (by rw [hnv]; exact hbelow) hn1
                rw [hnv, hcid] at i1 i2 i3 i4
                refine ⟨fun h => i1 (by omega), fun h hsel hflag => i2 (by omega) hsel hflag,
                  ?_, ?_⟩
                · intro m s1 h i hi
                  obtain ⟨len, leaf, p1, p2, p3, p4, p5⟩ := i3 m s1 h i hi
                  refine ⟨len + 1, leaf, SelPath.step s sv s1 cur child leaf t t1 _ pos_x len
                    h0 hpos hv hchild p1, p2, p3, by omega, ?_⟩
                  rw [p5]
                  unfold u64
                  omega
                · intro m s1 h
                  obtain ⟨len, p4, p5⟩ := i4 m s1 h
                  refine ⟨len + 1, by omega, ?_⟩
                  rw [p5]
                  unfold u64
                  omega

/-- C35: in a node table with dense ids whose children have smaller ids
than their parents, `select_move(root, t)` needs at most `depth(root) + 1`
passes through its loop, the last of which returns: it never runs out of
them, and it returns whenever `select_path` stays below the arity and no
node that is not constant has a fixed domain.  A returned input has arity
0 and is the end of a path from `root` that follows the selected child at
every step; the path has at most `depth(root)` steps and the returned
`d_nprops` is its length (in 64-bit arithmetic).  Every returned move,
conflicts included, counts at most `depth(root)` passes that went on to a
child.  A root of arity 0 is returned at once with `d_nprops = 0` and the
target `t`. -/
theorem C35_select_move_depth (ops : NodeOps σ) (s : LocalSearch σ) (root : BitVectorNode)
    (t : BitVector) (hids : IdsOK s.d_nodes) (hbelow : ChildrenBelow s.d_nodes)
    (hroot : get_node s root.d_id = .ok root) :
    select_move ops (depth s.d_nodes root.d_id + 1) s root t ≠ .error .fuel ∧
    ((∀ (g : σ) (nodes : List BitVectorNode) (c : BitVectorNode) (tt : BitVector),
        c.arity ≠ 0 → (ops.select_path g nodes c tt).1 < c.arity) →
      (∀ nd ∈ s.d_nodes, nd.d_is_const = false → nd.d_domain.is_fixed = false) →
      ∃ r, select_move ops (depth s.d_nodes root.d_id + 1) s root t = .ok r) ∧
    (∀ fuel m s1, select_move ops fuel s root t = .ok (m, s1) →
      ∀ i, m.d_input = some i →
        ∃ len leaf, SelPath ops s root t len s1 leaf m.d_assignment ∧ leaf.arity = 0 ∧
          leaf.d_id = i ∧ len ≤ depth s.d_nodes root.d_id ∧ m.d_nprops = u64 len ∧
          (len < 2 ^ 64 → m.d_nprops = len)) ∧
    (∀ fuel m s1, select_move ops fuel s root t = .ok (m, s1) →
      ∃ len, len ≤ depth s.d_nodes root.d_id ∧ m.d_nprops = u64 len) ∧
    (root.arity = 0 → ∀ fuel, 0 < fuel →
      select_move ops fuel s root t = .ok (⟨0, 0, some root.d_id, t⟩, s)) := by
  unfold select_move depth
  obtain ⟨a1, a2, _, _⟩ := select_move_loop_depth ops (root.d_id + 1) s root t 0
    (depth_aux s.d_nodes (root.d_id + 1) root.d_id + 1) (Nat.lt_succ_self _) hroot hids hbelow
    (Nat.two_pow_pos 64)
  refine ⟨a1 (Nat.le_refl _), fun hsel hflag => a2 (Nat.le_refl _) hsel hflag, ?_, ?_, ?_⟩
  · intro fuel m s1 h i hi
    obtain ⟨_, _, a3, _⟩ := select_move_loop_depth ops (root.d_id + 1) s root t 0 fuel
      (Nat.lt_succ_self _) hroot hids hbelow (Nat.two_pow_pos 64)
    obtain ⟨len, leaf, p1, p2, p3, p4, p5⟩ := a3 m s1 h i hi
    rw [Nat.zero_add] at p5
    refine ⟨len, leaf, p1, p2, p3, p4, p5, ?_⟩
    intro hlen
    rw [p5]
    exact Nat.mod_eq_of_lt hlen
  · intro fuel m s1 h
    obtain ⟨_, _, _, a4⟩ := select_move_loop_depth ops (root.d_id + 1) s root t 0 fuel
      (Nat.lt_succ_self _) hroot hids hbelow (Nat.two_pow_pos 64)
    obtain ⟨len, p4, p5⟩ := a4 m s1 h
    rw [Nat.zero_add] at p5
    exact ⟨len, p4, p5⟩
  · intro h0 fuel hfuel
    obtain ⟨f, rfl⟩ : ∃ f, fuel = f + 1 := ⟨fuel - 1, by omega⟩
    rw [select_move_loop, if_pos h0]

/-- Witness for C35: on `x = 1`, `r = NOT x` the root `r` has depth 1;
`select_move(r, true)` returns within two passes, with the input `x`, the
target 0 for it and `d_nprops = 1`. -/
theorem C35_select_move_depth_witness :
    depth (engine (not_nodes 1 0) not_parents 0 [1] [1]).d_nodes 1 = 1 ∧
    select_move sample_ops 2 (engine (not_nodes 1 0) not_parents 0 [1] [1])
        (op1 1 Kind.NOT [0] 0) BitVector.mk_true
      = .ok (⟨1, 0, some 0, ⟨1, 0⟩⟩,
          engine_stats (not_nodes 1 0) not_parents 1 [1] [1] ⟨0, 0, 0, 1, 0, 0⟩) ∧
    select_move sample_ops
        (depth (engine (not_nodes 1 0) not_parents 0 [1] [1]).d_nodes
          (op1 1 Kind.NOT [0] 0).d_id + 1)
        (engine (not_nodes 1 0) not_parents 0 [1] [1])
        (op1 1 Kind.NOT [0] 0) BitVector.mk_true ≠ .error .fuel :=
  ⟨by decide, by decide,
   (C35_select_move_depth sample_ops (engine (not_nodes 1 0) not_parents 0 [1] [1])
      (op1 1 Kind.NOT [0] 0) BitVector.mk_true (idsOK_of_range rfl)
      (by unfold ChildrenBelow; simp [engine, not_nodes, input1, op1]) (by decide)).1⟩

end Claims35

end ls
end bzla

namespace bzla
namespace type

section Claims39

theorem live_slot {w : TypeStore} {h : Nat} (hl : is_live w h = true) :
    ∃ hlt : h < w.handles.length, w.handles[h] = some (d_data w h) := by
  unfold is_live at hl
  unfold d_data
  rw [List.getD_eq_getElem?_getD] at hl ⊢
  cases hg : w.handles[h]? with
  | none => rw [hg] at hl; simp at hl
  | some slot =>
    rw [hg] at hl
    obtain ⟨hlt, e⟩ := List.getElem?_eq_some.mp hg
    refine ⟨hlt, ?_⟩
    rw [e]
    cases slot with
    | none => simp at hl
    | some p => simp

theorem count_pos_of_data {w : TypeStore} {h d : Nat} (hl : is_live w h = true)
    (hd : d_data w h = some d) : 1 ≤ w.handles.count (some (some d)) := by
  obtain ⟨hlt, e⟩ := live_slot hl
  rw [hd] at e
  have : some (some d) ∈ w.handles := by rw [← e]; exact List.getElem_mem hlt
  exact List.count_pos_iff.mpr this

/-- The count of handles pointing to `d` after the slot `h` is
overwritten. -/
theorem count_set_slot (l : List (Option (Option Nat))) (h : Nat) (hlt : h < l.length)
    (old new : Option (Option Nat)) (e : l[h] = old) (d : Nat) :
    (l.set h new).count (some (some d)) =
      l.count (some (some d)) - (if old = some (some d) then 1 else 0) +
        (if new = some (some d) then 1 else 0) := by
  rw [List.count_set _ _ _ _ hlt, e]
  simp only [beq_iff_eq]

theorem d_data_inc_if (w : TypeStore) (p : Option Nat) (h : Nat) :
    d_data (inc_if w p) h = d_data w h := by
  cases p <;> rfl

theorem d_data_dec_if (w : TypeStore) (p : Option Nat) (h : Nat) :
    d_data (dec_if w p) h = d_data w h := by
  cases p <;> rfl

theorem handles_inc_if (w : TypeStore) (p : Option Nat) : (inc_if w p).handles = w.handles := by
  cases p <;> rfl

theorem handles_dec_if (w : TypeStore) (p : Option Nat) : (dec_if w p).handles = w.handles := by
  cases p <;> rfl

theorem refs_inc_if (w : TypeStore) (p : Option Nat) (d : Nat) :
    (inc_if w p).refs d = w.refs d + (if p = some d then 1 else 0) := by
  cases p with
  | none => simp [inc_if]
  | some x =>
    simp only [inc_if, inc_ref, Option.some.injEq]
    by_cases hx : d = x
    · simp [hx]
    · have : ¬ x = d := fun e => hx e.symm
      simp [hx, this]

theorem refs_dec_if (w : TypeStore) (p : Option Nat) (d : Nat) :
    (dec_if w p).refs d = w.refs d - (if p = some d then 1 else 0) := by
  cases p with
  | none => simp [dec_if]
  | some x =>
    simp only [dec_if, dec_ref, Option.some.injEq]
    by_cases hx : d = x
    · simp [hx]
    · have : ¬ x = d := fun e => hx e.symm
      simp [hx, this]

theorem d_data_set_data (w : TypeStore) (h : Nat) (p : Option Nat) (x : Nat)
    (hlt : h < w.handles.length) :
    d_data (set_data w h p) x = if x = h then p else d_data w x := by
  unfold d_data set_data
  simp only [List.getD_eq_getElem?_getD, List.getElem?_set]
  by_cases hx : h = x
  · subst hx
    simp [hlt]
  · have : ¬ x = h := fun e => hx e.symm
    simp [hx, this]

theorem is_live_set_data (w : TypeStore) (h : Nat) (p : Option Nat) (x : Nat)
    (hx : is_live w x = true) : is_live (set_data w h p) x = true := by
  obtain ⟨hlt, _⟩ := live_slot hx
  unfold is_live set_data at *
  simp only [List.getD_eq_getElem?_getD, List.getElem?_set] at *
  by_cases he : h = x
  · subst he
    simp [hlt]
  · simp only [he, if_false]
    exact hx

/-- Overwriting `d_data` of a live handle moves one unit of the handle
count from the old object to the new one. -/
theorem count_set_data (w : TypeStore) (h : Nat) (p : Option Nat) (hl : is_live w h = true)
    (d : Nat) :
    (set_data w h p).handles.count (some (some d)) =
      w.handles.count (some (some d)) - (if d_data w h = some d then 1 else 0) +
        (if p = some d then 1 else 0) := by
  obtain ⟨hlt, e⟩ := live_slot hl
  unfold set_data
  simp only
  rw [count_set_slot w.handles h hlt _ _ e d]
  simp only [Option.some.injEq]

theorem balanced_copy_assign {w : TypeStore} (hb : Balanced w) {h other : Nat}
    (hl : is_live w h = true) : Balanced (copy_assign w h other) := by
  intro d
  unfold copy_assign copy_assign_inc
  simp only [d_data_inc_if, d_data_dec_if]
  have hl2 : is_live (dec_if (inc_if w (d_data w other)) (d_data w h)) h = true := by
    unfold is_live
    rw [handles_dec_if, handles_inc_if]
    exact hl
  rw [count_set_data _ h _ hl2 d]
  simp only [d_data_inc_if, d_data_dec_if, handles_dec_if, handles_inc_if]
  have hr : (set_data (dec_if (inc_if w (d_data w other)) (d_data w h)) h
      (d_data w other)).refs d = w.refs d + (if d_data w other = some d then 1 else 0) -
        (if d_data w h = some d then 1 else 0) := by
    unfold set_data
    simp only
    rw [refs_dec_if, refs_inc_if]
  rw [hr, hb d]
  by_cases h1 : d_data w h = some d
  · have := count_pos_of_data hl h1
    simp only [h1, if_true]
    omega
  · simp only [h1, if_false]
    omega

theorem balanced_move_assign {w : TypeStore} (hb : Balanced w) {h other : Nat}
    (hl : is_live w h = true) (hlo : is_live w other = true) :
    Balanced (move_assign w h other) := by
  intro d
  unfold move_assign
  simp only [d_data_dec_if]
  have hl1 : is_live (dec_if w (d_data w h)) h = true := by
    unfold is_live
    rw [handles_dec_if]
    exact hl
  have hlo1 : is_live (dec_if w (d_data w h)) other = true := by
    unfold is_live
    rw [handles_dec_if]
    exact hlo
  have hlt : h < (dec_if w (d_data w h)).handles.length := by
    rw [handles_dec_if]
    exact (live_slot hl).1
  rw [count_set_data _ other _ (is_live_set_data _ h _ other hlo1) d,
    count_set_data _ h _ hl1 d, d_data_set_data _ h _ other hlt]
  simp only [d_data_dec_if, handles_dec_if]
  have hr : (set_data (set_data (dec_if w (d_data w h)) h (d_data w other)) other none).refs d
      = w.refs d - (if d_data w h = some d then 1 else 0) := by
    unfold set_data
    simp only
    rw [refs_dec_if]
  rw [hr, hb d]
  simp only [reduceCtorEq, if_false, Nat.add_zero]
  by_cases h1 : d_data w h = some d
  · have := count_pos_of_data hl h1
    by_cases h2 : other = h
    · subst h2
      simp only [h1, if_true]
      omega
    · simp only [h1, h2, if_true, if_false]
      omega
  · by_cases h2 : other = h
    · subst h2
      simp only [h1, if_false, if_true]
      omega
    · simp only [h1, h2, if_false]
      omega

theorem balanced_destroy {w : TypeStore} (hb : Balanced w) {h : Nat}
    (hl : is_live w h = true) : Balanced (destroy w h) := by
  intro d
  obtain ⟨hlt, e⟩ := live_slot hl
  unfold destroy
  simp only [handles_dec_if]
  rw [count_set_slot w.handles h hlt _ _ e d, refs_dec_if, hb d]
  simp only [Option.some.injEq, reduceCtorEq, if_false, Nat.add_zero]

theorem balanced_default_construct {w : TypeStore} (hb : Balanced w) :
    Balanced (default_construct w) := by
  intro d
  unfold default_construct
  simp only [List.count_append, List.count_singleton, beq_iff_eq, reduceCtorEq, if_false,
    Nat.add_zero]
  exact hb d

theorem balanced_construct {w : TypeStore} (hb : Balanced w) (x : Nat) :
    Balanced (construct w x) := by
  intro d
  unfold construct
  rw [refs_inc_if, handles_inc_if]
  simp only [List.count_append, List.count_singleton, beq_iff_eq, Option.some.injEq]
  rw [hb d]

theorem d_data_append_new (w : TypeStore) (slot : Option (Option Nat)) (r : Nat → Nat) :
    d_data { refs := r, handles := w.handles ++ [slot] } w.handles.length = slot.getD none := by
  unfold d_data
  simp [List.getD_eq_getElem?_getD]

theorem d_data_append_old (w : TypeStore) (slot : Option (Option Nat)) (r : Nat → Nat)
    {h : Nat} (hlt : h < w.handles.length) :
    d_data { refs := r, handles := w.handles ++ [slot] } h = d_data w h := by
  unfold d_data
  simp [List.getD_eq_getElem?_getD, List.getElem?_append_left hlt]

theorem is_live_append_old (w : TypeStore) (slot : Option (Option Nat)) (r : Nat → Nat)
    {h : Nat} (hl : is_live w h = true) :
    is_live { refs := r, handles := w.handles ++ [slot] } h = true := by
  obtain ⟨hlt, _⟩ := live_slot hl
  unfold is_live at *
  simp only [List.getD_eq_getElem?_getD, List.getElem?_append_left hlt] at *
  exact hl

theorem is_live_append_new (w : TypeStore) (p : Option Nat) (r : Nat → Nat) :
    is_live { refs := r, handles := w.handles ++ [some p] } w.handles.length = true := by
  unfold is_live
  simp [List.getD_eq_getElem?_getD]

theorem balanced_copy_construct {w : TypeStore} (hb : Balanced w) (other : Nat) :
    Balanced (copy_construct w other) := by
  intro d
  unfold copy_construct
  simp only
  rw [d_data_append_new, refs_inc_if, handles_inc_if]
  simp only [Option.getD_some, List.count_append, List.count_singleton, beq_iff_eq,
    Option.some.injEq]
  rw [hb d]

/-- C39: reference counting of `Type` handles is balanced.  If the count of
every `TypeData` is the number of live handles pointing to it, the same
holds after the default and the private constructor, the copy constructor,
the copy assignment, the move constructor, the move assignment and the
destructor, applied to live handles.  The new handle of a copy has the
`d_data` of the source; after a move the target has the `d_data` the source
had and the source, when it is another handle, is null (a handle moved
onto itself is null).  In a copy assignment between handles of the same
object, self-assignment included, the count is one higher after the first
statement and back at its value at the end: it never drops in between. -/
theorem C39_type_refcount_balanced (w : TypeStore) (hb : Balanced w) :
    Balanced (default_construct w) ∧
    (∀ x, Balanced (construct w x)) ∧
    (∀ other, is_live w other = true →
      Balanced (copy_construct w other) ∧
      d_data (copy_construct w other) w.handles.length = d_data w other) ∧
    (∀ h other, is_live w h = true → is_live w other = true →
      Balanced (copy_assign w h other) ∧
      d_data (copy_assign w h other) h = d_data w other ∧
      (∀ d, d_data w h = some d → d_data w other = some d →
        (copy_assign_inc w other).refs d = w.refs d + 1 ∧
        (copy_assign w h other).refs d = w.refs d)) ∧
    (∀ other, is_live w other = true →
      Balanced (move_construct w other) ∧
      d_data (move_construct w other) w.handles.length = d_data w other ∧
      is_null (move_construct w other) other = true) ∧
    (∀ h other, is_live w h = true → is_live w other = true →
      Balanced (move_assign w h other) ∧
      is_null (move_assign w h other) other = true ∧
      (h ≠ other → d_data (move_assign w h other) h = d_data w other)) ∧
    (∀ h, is_live w h = true → Balanced (destroy w h)) := by
  refine ⟨balanced_default_construct hb, fun x => balanced_construct hb x, ?_, ?_, ?_, ?_,
    fun h hl => balanced_destroy hb hl⟩
  · intro other _
    refine ⟨balanced_copy_construct hb other, ?_⟩
    unfold copy_construct
    simp only
    rw [d_data_inc_if, d_data_append_new]
    rfl
  · intro h other hl hlo
    obtain ⟨hlt, _⟩ := live_slot hl
    refine ⟨balanced_copy_assign hb hl, ?_, ?_⟩
    · unfold copy_assign copy_assign_inc
      simp only [d_data_inc_if, d_data_dec_if]
      rw [d_data_set_data _ h _ h (by rw [handles_dec_if, handles_inc_if]; exact hlt)]
      simp
    · intro d h1 h2
      constructor
      · unfold copy_assign_inc
        rw [refs_inc_if, h2]
        simp
      · unfold copy_assign copy_assign_inc set_data
        simp only [d_data_inc_if]
        rw [refs_dec_if, refs_inc_if, h1, h2]
        simp
  · intro other hlo
    obtain ⟨hlto, _⟩ := live_slot hlo
    have hlnew : is_live (default_construct w) w.handles.length = true :=
      is_live_append_new w none w.refs
    have hlo2 : is_live (default_construct w) other = true :=
      is_live_append_old w (some none) w.refs hlo
    have hne : other ≠ w.handles.length := by omega
    have hdo : d_data (default_construct w) other = d_data w other :=
      d_data_append_old w (some none) w.refs hlto
    have hlt1 : w.handles.length < (dec_if (default_construct w)
        (d_data (default_construct w) w.handles.length)).handles.length := by
      rw [handles_dec_if]
      simp [default_construct]
    refine ⟨balanced_move_assign (balanced_default_construct hb) hlnew hlo2, ?_, ?_⟩
    · unfold move_construct move_assign
      simp only [d_data_dec_if]
      rw [d_data_set_data _ other _ _ (by
        unfold set_data
        simp only [List.length_set]
        exact Nat.lt_trans hlto (by rw [handles_dec_if]; simp [default_construct])),
        d_data_set_data _ _ _ _ hlt1]
      simp only [if_true, hdo]
      rw [if_neg (fun e => hne e.symm)]
    · unfold is_null move_construct move_assign
      simp only [d_data_dec_if]
      rw [d_data_set_data _ other _ _ (by
        unfold set_data
        simp only [List.length_set]
        exact Nat.lt_trans hlto (by rw [handles_dec_if]; simp [default_construct]))]
      simp
  · intro h other hl hlo
    obtain ⟨hlt, _⟩ := live_slot hl
    obtain ⟨hlto, _⟩ := live_slot hlo
    refine ⟨balanced_move_assign hb hl hlo, ?_, ?_⟩
    · unfold is_null move_assign
      simp only [d_data_dec_if]
      rw [d_data_set_data _ other _ _ (by
        unfold set_data
        simp only [List.length_set]
        rw [handles_dec_if]; exact hlto)]
      simp
    · intro hne
      unfold move_assign
      simp only [d_data_dec_if]
      rw [d_data_set_data _ other _ _ (by
        unfold set_data
        simp only [List.length_set]
        rw [handles_dec_if]; exact hlto),
        d_data_set_data _ h _ _ (by rw [handles_dec_if]; exact hlt)]
      simp [hne]

/-- Witness for C39: one object with two handles, in slots 0 and 1.
Self-assignment of handle 0 takes the count from 2 to 3 and back to 2;
moving handle 1 onto handle 0 leaves the count at 1 and handle 1 null;
destroying handle 0 leaves the count at 1. -/
theorem C39_type_refcount_balanced_witness :
    (copy_assign_inc (store1 2 [some (some 0), some (some 0)]) 0).refs 0 = 3 ∧
    (copy_assign (store1 2 [some (some 0), some (some 0)]) 0 0).refs 0 = 2 ∧
    (move_assign (store1 2 [some (some 0), some (some 0)]) 0 1).refs 0 = 1 ∧
    (move_assign (store1 2 [some (some 0), some (some 0)]) 0 1).handles
      = [some (some 0), some none] ∧
    (destroy (store1 2 [some (some 0), some (some 0)]) 0).refs 0 = 1 ∧
    Balanced (copy_assign (store1 2 [some (some 0), some (some 0)]) 0 0) ∧
    Balanced (move_assign (store1 2 [some (some 0), some (some 0)]) 0 1) ∧
    Balanced (destroy (store1 2 [some (some 0), some (some 0)]) 0) :=
  ⟨by decide, by decide, by decide, by decide, by decide,
   ((C39_type_refcount_balanced (store1 2 [some (some 0), some (some 0)]) (by
      intro d
      rcases d with _ | d
      · decide
      · simp [store1, List.count_cons])).2.2.2.1 0 0 (by decide) (by decide)).1,
   ((C39_type_refcount_balanced (store1 2 [some (some 0), some (some 0)]) (by
      intro d
      rcases d with _ | d
      · decide
      · simp [store1, List.count_cons])).2.2.2.2.2.1 0 1 (by decide) (by decide)).1,
   (C39_type_refcount_balanced (store1 2 [some (some 0), some (some 0)]) (by
      intro d
      rcases d with _ | d
      · decide
      · simp [store1, List.count_cons])).2.2.2.2.2.2 0 (by decide)⟩

end Claims39

end type
end bzla

namespace bzla
namespace ls

section Claims33

theorem to_int_cases (w v : Nat) (hw : 0 < w) (hv : v < 2 ^ w) :
    (v < 2 ^ (w - 1) ∧ (⟨w, v⟩ : BitVector).to_int = (v : Int)) ∨
    (2 ^ (w - 1) ≤ v ∧
      (⟨w, v⟩ : BitVector).to_int = (v : Int) - ((2 * 2 ^ (w - 1) : Nat) : Int)) := by
  have e : 2 ^ w = 2 * 2 ^ (w - 1) := by
    obtain ⟨k, rfl⟩ : ∃ k, w = k + 1 := ⟨w - 1, by omega⟩
    simp [pow_succ, Nat.mul_comm]
  unfold BitVector.to_int
  simp only
  by_cases h : v < 2 ^ (w - 1)
  · left
    simp [h]
  · right
    refine ⟨by omega, ?_⟩
    simp only [h, if_false]
    rw [e]

theorem in_range_mk_range (w lo hi v : Nat) (hw : 0 < w) :
    in_range (mk_range w lo hi).1 (mk_range w lo hi).2 ⟨w, v⟩ = true ↔ (lo ≤ v ∧ v ≤ hi) := by
  unfold mk_range in_range BitVector.is_null BitVector.null
  have hw0 : ¬ w = 0 := by omega
  by_cases h : lo ≤ hi
  · simp [h, hw0]
  · simp only [h, if_false]
    simp
    omega

theorem in_range_null (v : BitVector) : in_range BitVector.null BitVector.null v = false := by
  simp [in_range, BitVector.is_null, BitVector.null]

theorem is_null_mk_range (w lo hi : Nat) (hw : 0 < w) :
    ((mk_range w lo hi).1.is_null = true ↔ ¬ lo ≤ hi) ∧
    ((mk_range w lo hi).2.is_null = true ↔ ¬ lo ≤ hi) := by
  unfold mk_range BitVector.is_null BitVector.null
  have hw0 : ¬ w = 0 := by omega
  by_cases h : lo ≤ hi <;> simp [h, hw0]

/-- The lower range of `normalize_bounds`, spelled out. -/
theorem normalize_lo (w : Nat) (b : Bounds) (hw : 0 < w) (v : Nat) :
    (in_range (normalize_bounds w b).min_lo (normalize_bounds w b).max_lo ⟨w, v⟩ = true ↔
      (2 ^ (w - 1) ≤ b.smin w ∧ max b.umin (b.smin w) ≤ v ∧
        v ≤ min (b.umax w) (if b.smax w < 2 ^ (w - 1) then 2 ^ w - 1 else b.smax w))) ∧
    ((normalize_bounds w b).min_lo.is_null = true ↔
      ¬ (2 ^ (w - 1) ≤ b.smin w ∧ max b.umin (b.smin w) ≤
        min (b.umax w) (if b.smax w < 2 ^ (w - 1) then 2 ^ w - 1 else b.smax w))) ∧
    ((normalize_bounds w b).max_lo.is_null = true ↔
      ¬ (2 ^ (w - 1) ≤ b.smin w ∧ max b.umin (b.smin w) ≤
        min (b.umax w) (if b.smax w < 2 ^ (w - 1) then 2 ^ w - 1 else b.smax w))) := by
  unfold normalize_bounds
  simp only
  by_cases h : b.smin w < 2 ^ (w - 1)
  · rw [if_pos h]
    simp only [in_range_null]
    have hn : ¬ 2 ^ (w - 1) ≤ b.smin w := by omega
    simp [hn, BitVector.is_null, BitVector.null]
  · rw [if_neg h]
    have hn : 2 ^ (w - 1) ≤ b.smin w := by omega
    obtain ⟨n1, n2⟩ := is_null_mk_range w (max b.umin (b.smin w))
      (min (b.umax w) (if b.smax w < 2 ^ (w - 1) then 2 ^ w - 1 else b.smax w)) hw
    rw [in_range_mk_range _ _ _ _ hw, n1, n2]
    simp [hn]

/-- The upper range of `normalize_bounds`, spelled out. -/
theorem normalize_hi (w : Nat) (b : Bounds) (hw : 0 < w) (v : Nat) :
    (in_range (normalize_bounds w b).min_hi (normalize_bounds w b).max_hi ⟨w, v⟩ = true ↔
      (b.smax w < 2 ^ (w - 1) ∧
        max b.umin (if b.smin w < 2 ^ (w - 1) then b.smin w else 0) ≤ v ∧
        v ≤ min (b.umax w) (b.smax w))) ∧
    ((normalize_bounds w b).min_hi.is_null = true ↔
      ¬ (b.smax w < 2 ^ (w - 1) ∧
        max b.umin (if b.smin w < 2 ^ (w - 1) then b.smin w else 0) ≤
          min (b.umax w) (b.smax w))) ∧
    ((normalize_bounds w b).max_hi.is_null = true ↔
      ¬ (b.smax w < 2 ^ (w - 1) ∧
        max b.umin (if b.smin w < 2 ^ (w - 1) then b.smin w else 0) ≤
          min (b.umax w) (b.smax w))) := by
  unfold normalize_bounds
  simp only
  by_cases h : 2 ^ (w - 1) ≤ b.smax w
  · rw [if_pos h]
    simp only [in_range_null]
    have hn : ¬ b.smax w < 2 ^ (w - 1) := by omega
    simp [hn, BitVector.is_null, BitVector.null]
  · rw [if_neg h]
    have hn : b.smax w < 2 ^ (w - 1) := by omega
    obtain ⟨n1, n2⟩ := is_null_mk_range w
      (max b.umin (if b.smin w < 2 ^ (w - 1) then b.smin w else 0))
      (min (b.umax w) (b.smax w)) hw
    rw [in_range_mk_range _ _ _ _ hw, n1, n2]
    simp [hn]

theorem bounds_lt (w : Nat) (b : Bounds) (hw : 0 < w)
    (hmaxu : ∀ m, b.max_u = some m → m.size = w ∧ m.wf)
    (hmins : ∀ m, b.min_s = some m → m.size = w ∧ m.wf)
    (hmaxs : ∀ m, b.max_s = some m → m.size = w ∧ m.wf) :
    b.umax w < 2 ^ w ∧ b.smin w < 2 ^ w ∧ b.smax w < 2 ^ w := by
  have e : 2 ^ w = 2 * 2 ^ (w - 1) := by
    obtain ⟨k, rfl⟩ : ∃ k, w = k + 1 := ⟨w - 1, by omega⟩
    simp [pow_succ, Nat.mul_comm]
  have hH : 0 < 2 ^ (w - 1) := Nat.two_pow_pos _
  refine ⟨?_, ?_, ?_⟩
  · unfold Bounds.umax
    cases h : b.max_u with
    | none => simp only; omega
    | some m =>
      obtain ⟨h1, h2⟩ := hmaxu m h
      unfold BitVector.wf at h2
      rw [h1] at h2
      exact h2
  · unfold Bounds.smin
    cases h : b.min_s with
    | none => simp only; omega
    | some m =>
      obtain ⟨h1, h2⟩ := hmins m h
      unfold BitVector.wf at h2
      rw [h1] at h2
      exact h2
  · unfold Bounds.smax
    cases h : b.max_s with
    | none => simp only; omega
    | some m =>
      obtain ⟨h1, h2⟩ := hmaxs m h
      unfold BitVector.wf at h2
      rw [h1] at h2
      exact h2

theorem in_unsigned_iff (w : Nat) (b : Bounds) (v : Nat) (hv : v < 2 ^ w) :
    b.in_unsigned ⟨w, v⟩ = true ↔ (b.umin ≤ v ∧ v ≤ b.umax w) := by
  unfold Bounds.in_unsigned Bounds.umin Bounds.umax
  cases b.min_u <;> cases b.max_u <;> simp <;> omega

theorem in_signed_iff (w : Nat) (b : Bounds) (hw : 0 < w)
    (hmins : ∀ m, b.min_s = some m → m.size = w ∧ m.wf)
    (hmaxs : ∀ m, b.max_s = some m → m.size = w ∧ m.wf) (v : Nat) (hv : v < 2 ^ w) :
    b.in_signed ⟨w, v⟩ = true ↔
      ((⟨w, b.smin w⟩ : BitVector).to_int ≤ (⟨w, v⟩ : BitVector).to_int ∧
        (⟨w, v⟩ : BitVector).to_int ≤ (⟨w, b.smax w⟩ : BitVector).to_int) := by
  have e : 2 ^ w = 2 * 2 ^ (w - 1) := by
    obtain ⟨k, rfl⟩ : ∃ k, w = k + 1 := ⟨w - 1, by omega⟩
    simp [pow_succ, Nat.mul_comm]
  have hH : 0 < 2 ^ (w - 1) := Nat.two_pow_pos _
  have hmin : (match b.min_s with
      | some m => decide (m.to_int ≤ (⟨w, v⟩ : BitVector).to_int)
      | none => true) = true ↔
      (⟨w, b.smin w⟩ : BitVector).to_int ≤ (⟨w, v⟩ : BitVector).to_int := by
    unfold Bounds.smin
    cases h : b.min_s with
    | none =>
      simp only [true_iff]
      rcases to_int_cases w v hw hv with ⟨_, c⟩ | ⟨_, c⟩ <;>
        rcases to_int_cases w (2 ^ (w - 1)) hw (by omega) with ⟨_, d⟩ | ⟨_, d⟩ <;>
        rw [c, d] <;> omega
    | some m =>
      obtain ⟨h1, _⟩ := hmins m h
      obtain ⟨msz, mv⟩ := m
      simp only at h1
      subst h1
      simp only [decide_eq_true_eq]
  have hmax : (match b.max_s with
      | some m => decide ((⟨w, v⟩ : BitVector).to_int ≤ m.to_int)
      | none => true) = true ↔
      (⟨w, v⟩ : BitVector).to_int ≤ (⟨w, b.smax w⟩ : BitVector).to_int := by
    unfold Bounds.smax
    cases h : b.max_s with
    | none =>
      simp only [true_iff]
      rcases to_int_cases w v hw hv with ⟨_, c⟩ | ⟨_, c⟩ <;>
        rcases to_int_cases w (2 ^ (w - 1) - 1) hw (by omega) with ⟨_, d⟩ | ⟨_, d⟩ <;>
        rw [c, d] <;> omega
    | some m =>
      obtain ⟨h1, _⟩ := hmaxs m h
      obtain ⟨msz, mv⟩ := m
      simp only at h1
      subst h1
      simp only [decide_eq_true_eq]
  unfold Bounds.in_signed
  rw [Bool.and_eq_true, hmin, hmax]

/-- A value lies in both ranges of the node exactly when it lies in one of
the two ranges of `normalize_bounds`, spelled out. -/
theorem normalize_core (w : Nat) (b : Bounds) (hw : 0 < w)
    (hmaxu : ∀ m, b.max_u = some m → m.size = w ∧ m.wf)
    (hmins : ∀ m, b.min_s = some m → m.size = w ∧ m.wf)
    (hmaxs : ∀ m, b.max_s = some m → m.size = w ∧ m.wf) (v : Nat) (hv : v < 2 ^ w) :
    (b.in_unsigned ⟨w, v⟩ = true ∧ b.in_signed ⟨w, v⟩ = true) ↔
      ((2 ^ (w - 1) ≤ b.smin w ∧ max b.umin (b.smin w) ≤ v ∧
          v ≤ min (b.umax w) (if b.smax w < 2 ^ (w - 1) then 2 ^ w - 1 else b.smax w)) ∨
        (b.smax w < 2 ^ (w - 1) ∧
          max b.umin (if b.smin w < 2 ^ (w - 1) then b.smin w else 0) ≤ v ∧
          v ≤ min (b.umax w) (b.smax w))) := by
  have e : 2 ^ w = 2 * 2 ^ (w - 1) := by
    obtain ⟨k, rfl⟩ : ∃ k, w = k + 1 := ⟨w - 1, by omega⟩
    simp [pow_succ, Nat.mul_comm]
  have hH : 0 < 2 ^ (w - 1) := Nat.two_pow_pos _
  obtain ⟨b1, b2, b3⟩ := bounds_lt w b hw hmaxu hmins hmaxs
  rw [in_unsigned_iff w b v hv, in_signed_iff w b hw hmins hmaxs v hv]
  simp only [Nat.max_def, Nat.min_def]
  rcases to_int_cases w v hw hv with ⟨c0, c⟩ | ⟨c0, c⟩ <;>
    rcases to_int_cases w (b.smin w) hw b2 with ⟨d0, d⟩ | ⟨d0, d⟩ <;>
    rcases to_int_cases w (b.smax w) hw b3 with ⟨f0, f⟩ | ⟨f0, f⟩ <;>
    rw [c, d, f] <;> rw [e] at * <;>
    generalize 2 ^ (w - 1) = H at * <;>
    generalize b.smin w = smin at * <;>
    generalize b.smax w = smax at * <;>
    generalize b.umax w = umax at * <;>
    generalize b.umin = umin at * <;>
    split_ifs <;> omega

/-- C33: `normalize_bounds` on a node of width `w ≥ 1` whose upper unsigned
bound and signed bounds, where set, are well-formed values of width `w`
yields at most two inclusive ranges, the lower one inside
`[min_signed, ones]` and the upper one inside `[0, max_signed]`, hence
disjoint; a value of width `w` lies in one of them exactly when it lies
both in the unsigned and in the signed range of the node; and all four
results are null exactly when no value lies in both. -/
theorem C33_normalize_bounds (w : Nat) (b : Bounds) (hw : 0 < w)
    (hmaxu : ∀ m, b.max_u = some m → m.size = w ∧ m.wf)
    (hmins : ∀ m, b.min_s = some m → m.size = w ∧ m.wf)
    (hmaxs : ∀ m, b.max_s = some m → m.size = w ∧ m.wf) :
    (∀ v : Nat, in_range (normalize_bounds w b).min_lo (normalize_bounds w b).max_lo ⟨w, v⟩
        = true → (BitVector.min_signed w).val ≤ v ∧ v ≤ (BitVector.ones w).val) ∧
    (∀ v : Nat, in_range (normalize_bounds w b).min_hi (normalize_bounds w b).max_hi ⟨w, v⟩
        = true → v ≤ (BitVector.max_signed w).val) ∧
    (∀ v : Nat,
      ¬ (in_range (normalize_bounds w b).min_lo (normalize_bounds w b).max_lo ⟨w, v⟩ = true ∧
        in_range (normalize_bounds w b).min_hi (normalize_bounds w b).max_hi ⟨w, v⟩ = true)) ∧
    (∀ v : Nat, v < 2 ^ w →
      ((b.in_unsigned ⟨w, v⟩ = true ∧ b.in_signed ⟨w, v⟩ = true) ↔
        (in_range (normalize_bounds w b).min_lo (normalize_bounds w b).max_lo ⟨w, v⟩ = true ∨
          in_range (normalize_bounds w b).min_hi (normalize_bounds w b).max_hi ⟨w, v⟩
            = true))) ∧
    (((normalize_bounds w b).min_lo.is_null = true ∧
        (normalize_bounds w b).max_lo.is_null = true ∧
        (normalize_bounds w b).min_hi.is_null = true ∧
        (normalize_bounds w b).max_hi.is_null = true) ↔
      ¬ ∃ v : Nat, v < 2 ^ w ∧ b.in_unsigned ⟨w, v⟩ = true ∧ b.in_signed ⟨w, v⟩ = true) := by
  have e : 2 ^ w = 2 * 2 ^ (w - 1) := by
    obtain ⟨k, rfl⟩ : ∃ k, w = k + 1 := ⟨w - 1, by omega⟩
    simp [pow_succ, Nat.mul_comm]
  have hH : 0 < 2 ^ (w - 1) := Nat.two_pow_pos _
  obtain ⟨b1, b2, b3⟩ := bounds_lt w b hw hmaxu hmins hmaxs
  have hcore := normalize_core w b hw hmaxu hmins hmaxs
  refine ⟨?_, ?_, ?_, ?_, ?_⟩
  · intro v hv
    rw [(normalize_lo w b hw v).1] at hv
    obtain ⟨h1, h2, h3⟩ := hv
    simp only [BitVector.min_signed, BitVector.ones]
    have := Nat.le_trans (Nat.le_max_right b.umin (b.smin w)) h2
    have := Nat.le_trans h3 (Nat.min_le_left _ _)
    omega
  · intro v hv
    rw [(normalize_hi w b hw v).1] at hv
    obtain ⟨h1, h2, h3⟩ := hv
    simp only [BitVector.max_signed]
    have := Nat.le_trans h3 (Nat.min_le_right _ _)
    omega
  · intro v hv
    obtain ⟨hlo, hhi⟩ := hv
    rw [(normalize_lo w b hw v).1] at hlo
    rw [(normalize_hi w b hw v).1] at hhi
    have := Nat.le_trans (Nat.le_max_right b.umin (b.smin w)) hlo.2.1
    have := Nat.le_trans hhi.2.2 (Nat.min_le_right _ _)
    omega
  · intro v hv
    rw [(normalize_lo w b hw v).1, (normalize_hi w b hw v).1]
    exact hcore v hv
  · rw [(normalize_lo w b hw 0).2.1, (normalize_lo w b hw 0).2.2, (normalize_hi w b hw 0).2.1,
      (normalize_hi w b hw 0).2.2]
    constructor
    · rintro ⟨n1, _, n2, _⟩ ⟨v, hv, hu, hs⟩
      rcases (hcore v hv).mp ⟨hu, hs⟩ with ⟨a1, a2, a3⟩ | ⟨a1, a2, a3⟩
      · exact n1 ⟨a1, Nat.le_trans a2 a3⟩
      · exact n2 ⟨a1, Nat.le_trans a2 a3⟩
    · intro hno
      have hlo : ¬ (2 ^ (w - 1) ≤ b.smin w ∧ max b.umin (b.smin w) ≤
          min (b.umax w) (if b.smax w < 2 ^ (w - 1) then 2 ^ w - 1 else b.smax w)) := by
        rintro ⟨a1, a2⟩
        have hlt : max b.umin (b.smin w) < 2 ^ w := by
          have := Nat.le_trans a2 (Nat.min_le_left _ _)
          omega
        exact hno ⟨_, hlt, (hcore _ hlt).mpr (Or.inl ⟨a1, Nat.le_refl _, a2⟩)⟩
      have hhi : ¬ (b.smax w < 2 ^ (w - 1) ∧
          max b.umin (if b.smin w < 2 ^ (w - 1) then b.smin w else 0) ≤
            min (b.umax w) (b.smax w)) := by
        rintro ⟨a1, a2⟩
        have hlt : max b.umin (if b.smin w < 2 ^ (w - 1) then b.smin w else 0) < 2 ^ w := by
          have := Nat.le_trans a2 (Nat.min_le_left _ _)
          omega
        exact hno ⟨_, hlt, (hcore _ hlt).mpr (Or.inr ⟨a1, Nat.le_refl _, a2⟩)⟩
      exact ⟨hlo, hlo, hhi, hhi⟩

/-- Witness for C33: width 4, unsigned range `[3, 12]`, signed range
`[-6, 5]` (`1010` to `0101`): the lower range is `[10, 12]`, the upper
range is `[3, 5]`. -/
theorem C33_normalize_bounds_witness :
    normalize_bounds 4 ⟨some ⟨4, 3⟩, some ⟨4, 12⟩, some ⟨4, 10⟩, some ⟨4, 5⟩⟩
      = ⟨⟨4, 10⟩, ⟨4, 12⟩, ⟨4, 3⟩, ⟨4, 5⟩⟩ ∧
    normalize_bounds 4 ⟨some ⟨4, 6⟩, some ⟨4, 7⟩, some ⟨4, 10⟩, some ⟨4, 5⟩⟩
      = ⟨BitVector.null, BitVector.null, BitVector.null, BitVector.null⟩ ∧
    (∀ v : Nat, v < 2 ^ 4 →
      (((⟨some ⟨4, 3⟩, some ⟨4, 12⟩, some ⟨4, 10⟩, some ⟨4, 5⟩⟩ : Bounds).in_unsigned ⟨4, v⟩
          = true ∧
        (⟨some ⟨4, 3⟩, some ⟨4, 12⟩, some ⟨4, 10⟩, some ⟨4, 5⟩⟩ : Bounds).in_signed ⟨4, v⟩
          = true) ↔
        (in_range
            (normalize_bounds 4
              ⟨some ⟨4, 3⟩, some ⟨4, 12⟩, some ⟨4, 10⟩, some ⟨4, 5⟩⟩).min_lo
            (normalize_bounds 4
              ⟨some ⟨4, 3⟩, some ⟨4, 12⟩, some ⟨4, 10⟩, some ⟨4, 5⟩⟩).max_lo ⟨4, v⟩ = true ∨
          in_range
            (normalize_bounds 4
              ⟨some ⟨4, 3⟩, some ⟨4, 12⟩, some ⟨4, 10⟩, some ⟨4, 5⟩⟩).min_hi
            (normalize_bounds 4
              ⟨some ⟨4, 3⟩, some ⟨4, 12⟩, some ⟨4, 10⟩, some ⟨4, 5⟩⟩).max_hi ⟨4, v⟩
            = true))) :=
  ⟨by decide, by decide,
   (C33_normalize_bounds 4 ⟨some ⟨4, 3⟩, some ⟨4, 12⟩, some ⟨4, 10⟩, some ⟨4, 5⟩⟩ (by decide)
      (by intro m h; cases h; exact ⟨rfl, by decide⟩)
      (by intro m h; cases h; exact ⟨rfl, by decide⟩)
      (by intro m h; cases h; exact ⟨rfl, by decide⟩)).2.2.2.1⟩

end Claims33

end ls
end bzla

namespace bzla
namespace fp

section Claims40

/-- C40 at a failing input: on the floating-point term `ite(c, a, b)` with
a Boolean condition `c` and nothing cached, `FpSolver::value` pushes all
three children, computes the values of `b` and `a`, and then takes `c`
from the visit stack: the assertion on the type of the current node
fails.  On `add(m, a, b)` with a rounding mode `m` the same traversal
returns with all four terms cached. -/
theorem C40_value_assertion_fails :
    (ite_terms[3]?.map (fun nd => is_fp_or_rm nd.type)) = some true ∧
    (ite_terms[0]?.map (fun nd => is_fp_or_rm nd.type)) = some false ∧
    (∀ fuel : Nat, 6 ≤ fuel →
      value ite_terms (fun _ => some 0) fuel 3 [] = .error .assertion) ∧
    value add_terms (fun _ => some 0) 8 3 []
      = .ok (some 0, [(3, 0), (0, 0), (1, 0), (2, 0)]) := by
  refine ⟨by decide, by decide, ?_, by decide⟩
  intro fuel hf
  obtain ⟨k, rfl⟩ : ∃ k, fuel = k + 6 := ⟨fuel - 6, by omega⟩
  rfl

end Claims40

end fp
end bzla

namespace bzla
namespace fp

section ValueLemmas

theorem sum_filter_remove (f : Nat → Nat) (P : Nat → Bool) (cur : Nat) :
    ∀ (l : List Nat), l.Nodup → cur ∈ l → P cur = true →
      ((l.filter (fun x => P x && x != cur)).map f).sum + f cur = ((l.filter P).map f).sum := by
  intro l
  induction l with
  | nil => intro _ h; simp at h
  | cons a l ih =>
    intro hnd hmem hP
    obtain ⟨ha, hl⟩ := List.nodup_cons.mp hnd
    by_cases hac : a = cur
    · subst hac
      have hfilter : l.filter (fun x => P x && x != a) = l.filter P := by
        apply List.filter_congr
        intro x hx
        have : x ≠ a := fun e => ha (e ▸ hx)
        simp [this]
      simp only [List.filter_cons, hP, bne_self_eq_false, Bool.and_false, Bool.false_eq_true,
        if_false, if_true, List.map_cons, List.sum_cons, hfilter]
      omega
    · have hmem2 : cur ∈ l := by
        rcases List.mem_cons.mp hmem with e | e
        · exact absurd e.symm hac
        · exact e
      have ih2 := ih hl hmem2 hP
      have hne : (a != cur) = true := by simpa using hac
      by_cases hPa : P a = true
      · simp only [List.filter_cons, hPa, hne, Bool.and_self, if_true, List.map_cons,
          List.sum_cons]
        omega
      · have hPa2 : P a = false := by simpa using hPa
        simp only [List.filter_cons, hPa2, Bool.false_and, Bool.false_eq_true, if_false]
        exact ih2

theorem lookup_cons_key {β : Type} (visited : List (Nat × β)) (cur : Nat) (b : β) (x : Nat) :
    ((cur, b) :: visited).lookup x = if x = cur then some b else visited.lookup x := by
  by_cases h : x = cur
  · subst h
    simp [List.lookup]
  · have : (x == cur) = false := by simpa using h
    simp [List.lookup, this, h]

/-- Expanding a term that was not visited pays for itself and for the
iterations its children need. -/
theorem value_weight_expand (tbl : List Node) (visited : List (Nat × Bool)) (cur : Nat)
    (nd : Node) (h : tbl[cur]? = some nd) (hv : visited.lookup cur = none) :
    value_weight tbl ((cur, false) :: visited) + (2 * nd.children.length + 1) ≤
      value_weight tbl visited := by
  unfold value_weight
  have hlt : cur < tbl.length := (List.getElem?_eq_some.mp h).1
  have hfun : (fun x => (((cur, false) :: visited).lookup x).isNone) =
      (fun x => (visited.lookup x).isNone && x != cur) := by
    funext x
    rw [lookup_cons_key]
    by_cases hx : x = cur
    · simp [hx]
    · simp [hx]
  rw [hfun]
  have := sum_filter_remove (fun x => 2 * arity_of tbl x + 1)
    (fun x => (visited.lookup x).isNone) cur (List.range tbl.length) (List.nodup_range _)
    (List.mem_range.mpr hlt) (by simp [hv])
  have ha : arity_of tbl cur = nd.children.length := by
    unfold arity_of
    rw [h]
  simp only [ha] at this
  omega

/-- Marking a visited term as done does not change the bound. -/
theorem value_weight_mark (tbl : List Node) (visited : List (Nat × Bool)) (cur : Nat)
    (b : Bool) (hv : visited.lookup cur = some b) (b2 : Bool) :
    value_weight tbl ((cur, b2) :: visited) = value_weight tbl visited := by
  unfold value_weight
  have hfun : (fun x => (((cur, b2) :: visited).lookup x).isNone) =
      (fun x => (visited.lookup x).isNone) := by
    funext x
    rw [lookup_cons_key]
    by_cases hx : x = cur
    · simp [hx, hv]
    · simp [hx]
  rw [hfun]

/-- On a set `G` of terms of floating-point or rounding-mode type that is
closed under children and on which the solver engine returns bit-vector
values, the loop of `FpSolver::value` returns within the bound; the terms
on the stack and the visited terms are cached afterwards, and cached
values are kept. -/
theorem value_loop_returns (tbl : List Node) (sv : Nat → Option Nat) (G : Nat → Prop)
    (hG : ∀ x, G x → ∃ nd, tbl[x]? = some nd ∧ is_fp_or_rm nd.type = true ∧
      ∀ c ∈ nd.children, G c)
    (hsv : ∀ x, G x → ∃ v, sv x = some v) :
    ∀ (fuel : Nat) (stack : List Nat) (visited : List (Nat × Bool)) (cache : List (Nat × Nat)),
      (∀ x ∈ stack, G x) →
      2 * stack.length + value_weight tbl visited ≤ fuel →
      (∀ x, visited.lookup x = some true → (cache.lookup x).isSome = true) →
      (∀ x, (visited.lookup x).isSome = true → (cache.lookup x).isSome = true ∨ x ∈ stack) →
      ∃ vis c, value_loop tbl sv fuel stack visited cache = .ok (vis, c) ∧
        (∀ x ∈ stack, (c.lookup x).isSome = true) ∧
        (∀ x, (vis.lookup x).isSome = true → (c.lookup x).isSome = true) ∧
        (∀ x v, cache.lookup x = some v → c.lookup x = some v) ∧
        (∀ x, (visited.lookup x).isSome = true → (vis.lookup x).isSome = true) := by
  intro fuel
  induction fuel with
  | zero =>
    intro stack visited cache _ hf _ h3
    cases stack with
    | nil =>
      refine ⟨visited, cache, by simp [value_loop], fun x hx => by simp at hx, ?_,
        fun _ _ h => h, fun _ h => h⟩
      intro x hx
      rcases h3 x hx with a | a
      · exact a
      · simp at a
    | cons c r => simp at hf
  | succ n ih =>
    intro stack visited cache hs hf h4 h3
    cases stack with
    | nil =>
      refine ⟨visited, cache, by simp [value_loop], fun x hx => by simp at hx, ?_,
        fun _ _ h => h, fun _ h => h⟩
      intro x hx
      rcases h3 x hx with a | a
      · exact a
      · simp at a
    | cons cur rest =>
      obtain ⟨nd, hnd, hty, hch⟩ := hG cur (hs cur (List.mem_cons_self _ _))
      have hrest : ∀ x ∈ rest, G x := fun x hx => hs x (List.mem_cons_of_mem _ hx)
      simp only [List.length_cons] at hf
      rw [value_loop, hnd]
      simp only [hty, Bool.not_true, Bool.false_eq_true, if_false]
      by_cases hc : (cache.lookup cur).isSome = true
      · rw [if_pos hc]
        obtain ⟨vis, c, e, c1, c2, c3, c4⟩ := ih rest visited cache hrest (by omega) h4
          (by
            intro x hx
            rcases h3 x hx with a | a
            · exact Or.inl a
            · rcases List.mem_cons.mp a with b | b
              · left; rw [b]; exact hc
              · exact Or.inr b)
        refine ⟨vis, c, e, ?_, c2, c3, c4⟩
        intro x hx
        rcases List.mem_cons.mp hx with b | b
        · obtain ⟨v, hv⟩ := Option.isSome_iff_exists.mp hc
          rw [b, c3 cur v hv]
          rfl
        · exact c1 x b
      · rw [if_neg hc]
        have hcn : cache.lookup cur = none := by
          cases h : cache.lookup cur with
          | none => rfl
          | some v => rw [h] at hc; simp at hc
        cases hv : visited.lookup cur with
        | none =>
          simp only
          have hw := value_weight_expand tbl visited cur nd hnd hv
          have hlen : ((if is_leaf tbl nd = true then [] else nd.children.reverse) ++
              cur :: rest).length ≤ nd.children.length + 1 + rest.length := by
            split_ifs <;> simp <;> omega
          obtain ⟨vis, c, e, c1, c2, c3, c4⟩ := ih
            ((if is_leaf tbl nd = true then [] else nd.children.reverse) ++ cur :: rest)
            ((cur, false) :: visited) cache
            (by
              intro x hx
              rcases List.mem_append.mp hx with a | a
              · split_ifs at a
                · simp at a
                · exact hch x (List.mem_reverse.mp a)
              · exact hs x a)
            (by omega)
            (by
              intro x hx
              rw [lookup_cons_key] at hx
              by_cases hxc : x = cur
              · rw [if_pos hxc] at hx
                cases hx
              · rw [if_neg hxc] at hx
                exact h4 x hx)
            (by
              intro x hx
              rw [lookup_cons_key] at hx
              by_cases hxc : x = cur
              · right
                rw [hxc]
                exact List.mem_append_right _ (List.mem_cons_self _ _)
              · rw [if_neg hxc] at hx
                rcases h3 x hx with a | a
                · exact Or.inl a
                · exact Or.inr (List.mem_append_right _ a))
          refine ⟨vis, c, e, fun x hx => c1 x (List.mem_append_right _ hx), c2, c3, ?_⟩
          intro x hx
          apply c4
          rw [lookup_cons_key]
          by_cases hxc : x = cur
          · rw [if_pos hxc]; rfl
          · rw [if_neg hxc]; exact hx
        | some b =>
          cases b with
          | true =>
            have := h4 cur hv
            rw [hcn] at this
            simp at this
          | false =>
            simp only
            obtain ⟨v, hsome⟩ := hsv cur (hs cur (List.mem_cons_self _ _))
            rw [hsome]
            simp only
            have hw := value_weight_mark tbl visited cur false hv true
            have hkeep : ∀ x, (cache.lookup x).isSome = true →
                (((cur, v) :: cache).lookup x).isSome = true := by
              intro x hx
              rw [lookup_cons_key]
              by_cases hxc : x = cur
              · rw [if_pos hxc]; rfl
              · rw [if_neg hxc]; exact hx
            obtain ⟨vis, c, e, c1, c2, c3, c4⟩ := ih rest ((cur, true) :: visited)
              ((cur, v) :: cache) hrest (by omega)
              (by
                intro x hx
                rw [lookup_cons_key] at hx
                by_cases hxc : x = cur
                · rw [lookup_cons_key, if_pos hxc]; rfl
                · rw [if_neg hxc] at hx
                  exact hkeep x (h4 x hx))
              (by
                intro x hx
                rw [lookup_cons_key] at hx
                by_cases hxc : x = cur
                · left
                  rw [lookup_cons_key, if_pos hxc]; rfl
                · rw [if_neg hxc] at hx
                  rcases h3 x hx with a | a
                  · exact Or.inl (hkeep x a)
                  · rcases List.mem_cons.mp a with d | d
                    · exact absurd d hxc
                    · exact Or.inr d)
            refine ⟨vis, c, e, ?_, c2, ?_, ?_⟩
            · intro x hx
              rcases List.mem_cons.mp hx with d | d
              · rw [d, c3 cur v (by rw [lookup_cons_key, if_pos rfl])]
                rfl
              · exact c1 x d
            · intro x w hx
              apply c3
              rw [lookup_cons_key]
              by_cases hxc : x = cur
              · rw [hxc, hcn] at hx
                cases hx
              · rw [if_neg hxc]; exact hx
            · intro x hx
              apply c4
              rw [lookup_cons_key]
              by_cases hxc : x = cur
              · rw [if_pos hxc]; rfl
              · rw [if_neg hxc]; exact hx

/-- Assertion failures of `FpSolver::value` come from children of other
types only: for a term whose descendants are all of floating-point or rounding-mode type (and
with bit-vector values from the solver engine) `FpSolver::value` fails no
assertion, returns within `2 + value_weight` iterations, and on return the
term and every visited term have a cached value, earlier entries of the
cache being kept. -/
theorem value_returns (tbl : List Node) (sv : Nat → Option Nat) (G : Nat → Prop)
    (hG : ∀ x, G x → ∃ nd, tbl[x]? = some nd ∧ is_fp_or_rm nd.type = true ∧
      ∀ c ∈ nd.children, G c)
    (hsv : ∀ x, G x → ∃ v, sv x = some v) (term : Nat) (hterm : G term)
    (cache : List (Nat × Nat)) (fuel : Nat) (hfuel : 2 + value_weight tbl [] ≤ fuel) :
    ∃ vis c v, value_loop tbl sv fuel [term] [] cache = .ok (vis, c) ∧
      value tbl sv fuel term cache = .ok (some v, c) ∧
      (∀ x, (vis.lookup x).isSome = true → (c.lookup x).isSome = true) ∧
      (∀ x w, cache.lookup x = some w → c.lookup x = some w) := by
  obtain ⟨vis, c, e, c1, c2, c3, _⟩ := value_loop_returns tbl sv G hG hsv fuel [term] [] cache
    (fun x hx => by
      have : x = term := by simpa using hx
      rw [this]; exact hterm)
    (by simp only [List.length_singleton]; omega)
    (fun x hx => by simp at hx) (fun x hx => by simp at hx)
  obtain ⟨v, hv⟩ := Option.isSome_iff_exists.mp (c1 term (List.mem_singleton.mpr rfl))
  obtain ⟨nd, hnd, hty, _⟩ := hG term hterm
  refine ⟨vis, c, v, e, ?_, c2, c3⟩
  unfold value
  rw [hnd]
  simp only [hty, Bool.not_true, Bool.false_eq_true, if_false, e, hv]

end ValueLemmas

end fp
end bzla

namespace bzla
namespace ls

section Determinism

variable {σ : Type}

end Determinism


section Claims16

variable {σ : Type}

/-- The seed reaches the runs: on the twin graph the transcript
`register_root(c); register_root(d); move()` ends with other counters of
inverse and consistent values for the seed 995 than for the seed 7. -/
theorem construct_seed_observable :
    (run_calls sample_ops 3 [ApiCall.register_root 3, ApiCall.register_root 4, ApiCall.move]
      (with_graph (LocalSearch.construct (fun seed => seed) ⟨false, 990⟩ 0 0 7)
        (twin_nodes 0 1 1 0 0) twin_parents)).toOption.map
        (fun out => (out.2.d_statistics.d_nprops_inv, out.2.d_statistics.d_nprops_cons))
      = some (2, 0) ∧
    (run_calls sample_ops 3 [ApiCall.register_root 3, ApiCall.register_root 4, ApiCall.move]
      (with_graph (LocalSearch.construct (fun seed => seed) ⟨false, 990⟩ 0 0 995)
        (twin_nodes 0 1 1 0 0) twin_parents)).toOption.map
        (fun out => (out.2.d_statistics.d_nprops_inv, out.2.d_statistics.d_nprops_cons))
      = some (0, 2) := by
  decide

end Claims16

end ls
end bzla
